import Mathlib

/-! # A shallow embedding of the expression evaluator `eval.c`

The C functions of `src/eval.c` are translated one by one, under their own
names, into pure Lean functions over an explicit context.

* A `double` is a value of an arbitrary type `α` equipped with the operations
  the evaluator performs on doubles (`Arith α`).  Every theorem that does not
  mention a particular arithmetic therefore holds for each one; `Arith.rat`
  is exact arithmetic over the rationals.
* The cursor `const char* input` is the pair `input`/`pos`: the characters of
  the text before its terminating NUL, and an index into them.  Reading at or
  past the end of the list reads the terminator.
* A `for (;;)`/`do .. while` loop is a function recursing on a loop budget
  (`fuel`); the C function that owns the loop supplies a budget no run can
  use up (one more than the length of the text, every turn of a loop
  consuming a character of its own), and `none` is the outcome "budget used
  up".
* Where the behaviour of the C code is undefined (the signed overflow of the
  `int` accumulator of the exponent digits in `get_number`), the function
  gives no result either: `none`.
* `eval.h` is not part of the sources: its two size constants are the fields
  of `Config`, its result codes are `EvalResult`.
-/

namespace Eval

/-! ## Data model -/

/-- Modelled from the spec: the result codes of the missing header `eval.h`,
in the order of the table `STRS` of `eval_result_to_string` and of section 7
of the specification. -/
inductive EvalResult
  | OK
  | ILLEGAL_CHARACTER
  | INVALID_LITERAL
  | LITERAL_OUT_OF_RANGE
  | NAME_TOO_LONG
  | UNEXPECTED_CHAR
  | EXPECTED_TERM
  | STACK_OVERFLOW
  | UNDEFINED_FUNCTION
  | UNDEFINED_VARIABLE
  | EXPECTED_OPEN_BRACKET
  | EXPECTED_CLOSE_BRACKET
  deriving DecidableEq, Repr

/-- Modelled from the spec: the two build-time constants of the missing
header `eval.h` ("name length bound and recursion-depth bound are
configuration constants"), taken as parameters. -/
structure Config where
  EVAL_MAX_NAME_LENGTH : Nat
  EVAL_MAX_STACK_DEPTH : Nat
  deriving DecidableEq, Repr

/-- The operations on `double` that `eval.c` uses: conversion of a small
non-negative `int` (a digit, `0.0f`, `10.0f`, the `0`/`1` of a comparison),
the four arithmetic operators, unary minus and the five comparisons. -/
structure Arith (α : Type) where
  ofNat : Nat → α
  add : α → α → α
  sub : α → α → α
  mul : α → α → α
  div : α → α → α
  neg : α → α
  eq : α → α → Bool
  le : α → α → Bool
  lt : α → α → Bool
  ge : α → α → Bool
  gt : α → α → Bool

/-- The value a C comparison stores into a `double`: `1` or `0`. -/
def Arith.ofBool {α : Type} (A : Arith α) (b : Bool) : α :=
  if b then A.ofNat 1 else A.ofNat 0

/-- Exact arithmetic over the rationals. -/
def Arith.rat : Arith ℚ where
  ofNat n := (n : ℚ)
  add a b := a + b
  sub a b := a - b
  mul a b := a * b
  div a b := a / b
  neg a := -a
  eq a b := decide (a = b)
  le a b := decide (a ≤ b)
  lt a b := decide (a < b)
  ge a b := decide (a ≥ b)
  gt a b := decide (a > b)

/-- The values of an arithmetic with the special values of IEEE 754: the
rationals (no rounding and no overflow; the two zeros are not told apart, a
zero divisor counting as `+0`), the two infinities and NaN. -/
inductive Ext
  | fin (q : ℚ)
  | pinf
  | ninf
  | nan
  deriving DecidableEq

/-- An infinity, of either sign. -/
def Ext.is_inf : Ext → Bool
  | .pinf => true
  | .ninf => true
  | _ => false

/-- Not a number. -/
def Ext.is_nan : Ext → Bool
  | .nan => true
  | _ => false

/-- Unary minus of IEEE 754. -/
def Ext.neg : Ext → Ext
  | .fin a => .fin (-a)
  | .pinf => .ninf
  | .ninf => .pinf
  | .nan => .nan

/-- Addition of IEEE 754: the sum of opposite infinities is NaN. -/
def Ext.add : Ext → Ext → Ext
  | .nan, _ => .nan
  | _, .nan => .nan
  | .fin a, .fin b => .fin (a + b)
  | .fin _, .pinf => .pinf
  | .fin _, .ninf => .ninf
  | .pinf, .ninf => .nan
  | .pinf, _ => .pinf
  | .ninf, .pinf => .nan
  | .ninf, _ => .ninf

/-- The infinity of the sign of the rational `a`, NaN when `a` is zero. -/
def Ext.inf_of (a : ℚ) : Ext :=
  if a = 0 then .nan else if 0 < a then .pinf else .ninf

/-- Multiplication of IEEE 754: zero times an infinity is NaN. -/
def Ext.mul : Ext → Ext → Ext
  | .nan, _ => .nan
  | _, .nan => .nan
  | .fin a, .fin b => .fin (a * b)
  | .fin a, .pinf => Ext.inf_of a
  | .fin a, .ninf => Ext.inf_of (-a)
  | .pinf, .fin b => Ext.inf_of b
  | .ninf, .fin b => Ext.inf_of (-b)
  | .pinf, .pinf => .pinf
  | .pinf, .ninf => .ninf
  | .ninf, .pinf => .ninf
  | .ninf, .ninf => .pinf

/-- Division of IEEE 754: a non-zero number divided by zero is an infinity,
zero divided by zero and an infinity divided by an infinity are NaN, a number
divided by an infinity is zero. -/
def Ext.div : Ext → Ext → Ext
  | .nan, _ => .nan
  | _, .nan => .nan
  | .fin a, .fin b => if b = 0 then Ext.inf_of a else .fin (a / b)
  | .fin _, .pinf => .fin 0
  | .fin _, .ninf => .fin 0
  | .pinf, .fin b => if b < 0 then .ninf else .pinf
  | .ninf, .fin b => if b < 0 then .pinf else .ninf
  | .pinf, .pinf => .nan
  | .pinf, .ninf => .nan
  | .ninf, .pinf => .nan
  | .ninf, .ninf => .nan

/-- The comparison `<` of IEEE 754: false when an operand is NaN. -/
def Ext.lt : Ext → Ext → Bool
  | .nan, _ => false
  | _, .nan => false
  | .fin a, .fin b => decide (a < b)
  | .fin _, .pinf => true
  | .fin _, .ninf => false
  | .pinf, _ => false
  | .ninf, .ninf => false
  | .ninf, _ => true

/-- The comparison `==` of IEEE 754: false when an operand is NaN. -/
def Ext.eq : Ext → Ext → Bool
  | .nan, _ => false
  | _, .nan => false
  | a, b => decide (a = b)

/-- Arithmetic over the rationals extended by the infinities and NaN, with
the rules of IEEE 754 for them. -/
def Arith.ext : Arith Ext where
  ofNat n := .fin (n : ℚ)
  add := Ext.add
  sub a b := Ext.add a (Ext.neg b)
  mul := Ext.mul
  div := Ext.div
  neg := Ext.neg
  eq := Ext.eq
  le a b := Ext.lt a b || Ext.eq a b
  lt := Ext.lt
  ge a b := Ext.lt b a || Ext.eq a b
  gt a b := Ext.lt b a

/-- The enumeration `EvalTokenType`. -/
inductive EvalTokenType
  | END
  | ADD
  | G
  | GE
  | L
  | LE
  | E
  | SUBTRACT
  | MULTIPLY
  | DIVIDE
  | OPEN_BRACKET
  | CLOSE_BRACKET
  | NUMBER
  | FUNC
  | VARIABLE
  deriving DecidableEq, Repr

/-- The struct `EvalToken`, a type tag and a union of a number and a name, as
a tagged union: a `NUMBER` carries the number, a `FUNC` or `VARIABLE` the
name, and the other tokens nothing (the code never reads their union). -/
inductive EvalToken (α : Type)
  | END
  | ADD
  | G
  | GE
  | L
  | LE
  | E
  | SUBTRACT
  | MULTIPLY
  | DIVIDE
  | OPEN_BRACKET
  | CLOSE_BRACKET
  | NUMBER (number : α)
  | FUNC (name : List Char)
  | VARIABLE (name : List Char)

/-- The field `type` of a token. -/
def EvalToken.type {α : Type} : EvalToken α → EvalTokenType
  | .END => .END
  | .ADD => .ADD
  | .G => .G
  | .GE => .GE
  | .L => .L
  | .LE => .LE
  | .E => .E
  | .SUBTRACT => .SUBTRACT
  | .MULTIPLY => .MULTIPLY
  | .DIVIDE => .DIVIDE
  | .OPEN_BRACKET => .OPEN_BRACKET
  | .CLOSE_BRACKET => .CLOSE_BRACKET
  | .NUMBER _ => .NUMBER
  | .FUNC _ => .FUNC
  | .VARIABLE _ => .VARIABLE

/-- The callable `EvalFunc`: from the argument, the user data and the current
content of `*output` to the result code and the new content of `*output`. -/
abbrev EvalFunc (α U : Type) := α → U → α → EvalResult × α

/-- The struct `EvalHooks`: two function pointers, each of which may be null.
`get_func` returns a callable or null; `get_variable` returns a result code
and writes `*output`. -/
structure EvalHooks (α U : Type) where
  get_func : Option (List Char → U → Option (EvalFunc α U))
  get_variable : Option (List Char → U → α → EvalResult × α)

/-- The struct `EvalContext`. -/
structure EvalContext (α U : Type) where
  hooks : Option (EvalHooks α U)
  user_data : U
  input : List Char
  pos : Nat
  stack_level : Nat
  token : EvalToken α

/-- The terminating character of a C string. -/
def NUL : Char := Char.ofNat 0

/-! ## Lexer -/

def is_digit (c : Char) : Bool :=
  decide ('0' ≤ c) && decide (c ≤ '9')

def is_name_start (c : Char) : Bool :=
  (decide ('A' ≤ c) && decide (c ≤ 'Z')) ||
  (decide ('a' ≤ c) && decide (c ≤ 'z')) ||
  decide (c = '_')

def is_name (c : Char) : Bool :=
  is_name_start c || is_digit c

def is_exp (c : Char) : Bool :=
  decide (c = 'e') || decide (c = 'E')

def is_dp (c : Char) : Bool :=
  decide (c = '.')

/-- The function `get_char`: `*(ctx->input++)`. -/
def get_char {α U : Type} (ctx : EvalContext α U) : Char × EvalContext α U :=
  (ctx.input.getD ctx.pos NUL, { ctx with pos := ctx.pos + 1 })

/-- The function `put_char`: `ctx->input--`. -/
def put_char {α U : Type} (ctx : EvalContext α U) : EvalContext α U :=
  { ctx with pos := ctx.pos - 1 }

/-- The value of the digit character `c`: `c - '0'`. -/
def digit_value (c : Char) : Nat :=
  c.toNat - '0'.toNat

/-- The largest value of the C type `int` (32 bits). -/
def INT_MAX : Int :=
  2 ^ 31 - 1

/-- The first loop of `get_number` (integer digits):
`do { value = value * 10.0f + (c - '0'); c = get_char(ctx); } while (is_digit(c))`. -/
def get_number_int_loop {α U : Type} (A : Arith α) :
    Nat → α → Char → EvalContext α U → Option (α × Char × EvalContext α U)
  | 0, _, _, _ => none
  | fuel + 1, value, c, ctx =>
    let value := A.add (A.mul value (A.ofNat 10)) (A.ofNat (digit_value c))
    let (c, ctx) := get_char ctx
    if is_digit c then get_number_int_loop A fuel value c ctx
    else some (value, c, ctx)

/-- The second loop of `get_number` (fractional digits), which also counts
the digits down in `exp`. -/
def get_number_frac_loop {α U : Type} (A : Arith α) :
    Nat → α → Int → Char → EvalContext α U → Option (α × Int × Char × EvalContext α U)
  | 0, _, _, _, _ => none
  | fuel + 1, value, exp, c, ctx =>
    let value := A.add (A.mul value (A.ofNat 10)) (A.ofNat (digit_value c))
    let exp := exp - 1
    let (c, ctx) := get_char ctx
    if is_digit c then get_number_frac_loop A fuel value exp c ctx
    else some (value, exp, c, ctx)

/-- The third loop of `get_number` (exponent digits), on the `int`
accumulator `int_val`:
`do { int_val = (int_val * 10) + (c - '0'); c = get_char(ctx); } while (is_digit(c))`.
Where the new `int_val` would exceed `INT_MAX` the signed arithmetic of C
overflows and the behaviour is undefined: the loop gives no result. -/
def get_number_exp_loop {α U : Type} :
    Nat → Int → Char → EvalContext α U → Option (Int × Char × EvalContext α U)
  | 0, _, _, _ => none
  | fuel + 1, int_val, c, ctx =>
    let int_val := int_val * 10 + (digit_value c : Int)
    if int_val > INT_MAX then none
    else
      let (c, ctx) := get_char ctx
      if is_digit c then get_number_exp_loop fuel int_val c ctx
      else some (int_val, c, ctx)

/-- The squaring loop for a negative exponent, on its magnitude `exp`:
`while (exp) { if (exp & 1) value /= power; exp >>= 1; power *= power; }`. -/
def scale_div_loop {α : Type} (A : Arith α) : Nat → Nat → α → α → Option α
  | 0, exp, value, _ => if exp = 0 then some value else none
  | fuel + 1, exp, value, power =>
    if exp = 0 then some value
    else
      let value := if exp % 2 = 1 then A.div value power else value
      scale_div_loop A fuel (exp / 2) value (A.mul power power)

/-- The squaring loop for a non-negative exponent `exp`:
`while (exp) { if (exp & 1) value *= power; exp >>= 1; power *= power; }`. -/
def scale_mul_loop {α : Type} (A : Arith α) : Nat → Nat → α → α → Option α
  | 0, exp, value, _ => if exp = 0 then some value else none
  | fuel + 1, exp, value, power =>
    if exp = 0 then some value
    else
      let value := if exp % 2 = 1 then A.mul value power else value
      scale_mul_loop A fuel (exp / 2) value (A.mul power power)

/-- Lines 220-241 of `get_number`: the value scaled by ten to the power
`exp`, by the squaring loop for the sign of `exp`. -/
def scale {α : Type} (A : Arith α) (value : α) (exp : Int) : Option α :=
  let power := A.ofNat 10
  if exp < 0 then scale_div_loop A (-exp).toNat (-exp).toNat value power
  else scale_mul_loop A exp.toNat exp.toNat value power

/-- Lines 220-248 of `get_number`: scaling by the power of ten, stepping the
cursor back and storing the token. -/
def get_number_scale {α U : Type} (A : Arith α) (value : α) (exp : Int)
    (ctx : EvalContext α U) : Option (EvalResult × EvalContext α U) :=
  match scale A value exp with
  | none => none
  | some value =>
    let ctx := put_char ctx
    some (EvalResult.OK, { ctx with token := EvalToken.NUMBER value })

/-- Lines 182-218 of `get_number`: the optional exponent. -/
def get_number_exp {α U : Type} (A : Arith α) (fuel : Nat) (value : α) (exp : Int)
    (c : Char) (ctx : EvalContext α U) : Option (EvalResult × EvalContext α U) :=
  if is_exp c then
    let exp_neg := false
    let (c, ctx) := get_char ctx
    let (exp_neg, c, ctx) :=
      if c = '-' then
        let (c, ctx) := get_char ctx
        (true, c, ctx)
      else if c = '+' then
        let (c, ctx) := get_char ctx
        (exp_neg, c, ctx)
      else (exp_neg, c, ctx)
    let int_val : Int := 0
    if !is_digit c then some (EvalResult.INVALID_LITERAL, ctx)
    else
      match get_number_exp_loop fuel int_val c ctx with
      | none => none
      | some (int_val, _, ctx) =>
        let exp := if exp_neg then exp - int_val else exp + int_val
        get_number_scale A value exp ctx
  else get_number_scale A value exp ctx

/-- Lines 167-180 of `get_number`: the optional fraction. -/
def get_number_frac {α U : Type} (A : Arith α) (fuel : Nat) (value : α) (exp : Int)
    (c : Char) (ctx : EvalContext α U) : Option (EvalResult × EvalContext α U) :=
  if is_dp c then
    let (c, ctx) := get_char ctx
    if !is_digit c then some (EvalResult.INVALID_LITERAL, ctx)
    else
      match get_number_frac_loop A fuel value exp c ctx with
      | none => none
      | some (value, exp, c, ctx) => get_number_exp A fuel value exp c ctx
  else get_number_exp A fuel value exp c ctx

/-- The function `get_number`. -/
def get_number {α U : Type} (A : Arith α) (ctx : EvalContext α U) :
    Option (EvalResult × EvalContext α U) :=
  let fuel := ctx.input.length + 1
  let value := A.ofNat 0
  let exp : Int := 0
  let (c, ctx) := get_char ctx
  if !is_dp c then
    if !is_digit c then some (EvalResult.INVALID_LITERAL, ctx)
    else
      match get_number_int_loop A fuel value c ctx with
      | none => none
      | some (value, c, ctx) => get_number_frac A fuel value exp c ctx
  else get_number_frac A fuel value exp c ctx

/-- The loop of `get_name`; `name` is the content of the buffer
`ctx->token.value.name` so far and its length is the counter `length`. -/
def get_name_loop {α U : Type} (cfg : Config) :
    Nat → List Char → EvalContext α U → Option (EvalResult × List Char × EvalContext α U)
  | 0, _, _ => none
  | fuel + 1, name, ctx =>
    let (c, ctx) := get_char ctx
    if !is_name c then some (EvalResult.OK, name, ctx)
    else if name.length ≥ cfg.EVAL_MAX_NAME_LENGTH - 1 then
      some (EvalResult.NAME_TOO_LONG, name, ctx)
    else get_name_loop cfg fuel (name ++ [c]) ctx

/-- The function `get_name`; `type` is `EvalToken.FUNC` or
`EvalToken.VARIABLE`. -/
def get_name {α U : Type} (cfg : Config) (ctx : EvalContext α U)
    (type : List Char → EvalToken α) : Option (EvalResult × EvalContext α U) :=
  match get_name_loop cfg (ctx.input.length + 1) [] ctx with
  | none => none
  | some (result, name, ctx) =>
    if result ≠ EvalResult.OK then some (result, ctx)
    else
      let ctx := put_char ctx
      some (EvalResult.OK, { ctx with token := type name })

/-- The loop of `get_token`. -/
def get_token_loop {α U : Type} (A : Arith α) (cfg : Config) :
    Nat → EvalContext α U → Option (EvalResult × EvalContext α U)
  | 0, _ => none
  | fuel + 1, ctx =>
    let (c, ctx) := get_char ctx
    if c = NUL then
      let ctx := put_char ctx
      some (EvalResult.OK, { ctx with token := EvalToken.END })
    else if c ≤ ' ' then get_token_loop A cfg fuel ctx
    else if is_digit c || is_dp c then
      let ctx := put_char ctx
      get_number A ctx
    else if is_name_start c then
      let ctx := put_char ctx
      get_name cfg ctx EvalToken.FUNC
    else if c = '$' then get_name cfg ctx EvalToken.VARIABLE
    else if c = '>' then
      let (next_c, ctx) := get_char ctx
      if next_c = '=' then some (EvalResult.OK, { ctx with token := EvalToken.GE })
      else
        let ctx := put_char ctx
        some (EvalResult.OK, { ctx with token := EvalToken.G })
    else if c = '<' then
      let (next_c, ctx) := get_char ctx
      if next_c = '=' then some (EvalResult.OK, { ctx with token := EvalToken.LE })
      else
        let ctx := put_char ctx
        some (EvalResult.OK, { ctx with token := EvalToken.L })
    else if c = '=' then
      let (next_c, ctx) := get_char ctx
      let ctx := { ctx with token := EvalToken.E }
      if next_c ≠ '=' then some (EvalResult.OK, put_char ctx)
      else some (EvalResult.OK, ctx)
    else if c = '+' then some (EvalResult.OK, { ctx with token := EvalToken.ADD })
    else if c = '-' then some (EvalResult.OK, { ctx with token := EvalToken.SUBTRACT })
    else if c = '*' then some (EvalResult.OK, { ctx with token := EvalToken.MULTIPLY })
    else if c = '/' then some (EvalResult.OK, { ctx with token := EvalToken.DIVIDE })
    else if c = '(' then some (EvalResult.OK, { ctx with token := EvalToken.OPEN_BRACKET })
    else if c = ')' then some (EvalResult.OK, { ctx with token := EvalToken.CLOSE_BRACKET })
    else some (EvalResult.ILLEGAL_CHARACTER, ctx)

/-- The function `get_token`. -/
def get_token {α U : Type} (A : Arith α) (cfg : Config) (ctx : EvalContext α U) :
    Option (EvalResult × EvalContext α U) :=
  get_token_loop A cfg (ctx.input.length + 1) ctx

/-! ## Parser and evaluator

Every `parse_` function takes the context and the current content of
`*output` and returns the result code, the context and the new content of
`*output`.  The recursive call of `parse_expr` from `parse_term` is the
parameter `parse_expr` of the functions below it. -/

/-- The function `parse_term`. -/
def parse_term {α U : Type} (A : Arith α) (cfg : Config)
    (parse_expr : EvalContext α U → α → Option (EvalResult × EvalContext α U × α))
    (ctx : EvalContext α U) (output : α) : Option (EvalResult × EvalContext α U × α) :=
  match ctx.token with
  | .NUMBER number =>
    let output := number
    match get_token A cfg ctx with
    | none => none
    | some (result, ctx) => some (result, ctx, output)
  | .OPEN_BRACKET =>
    match get_token A cfg ctx with
    | none => none
    | some (result, ctx) =>
      if result ≠ EvalResult.OK then some (result, ctx, output)
      else
        match parse_expr ctx output with
        | none => none
        | some (result, ctx, output) =>
          if result ≠ EvalResult.OK then some (result, ctx, output)
          else if ctx.token.type ≠ EvalTokenType.CLOSE_BRACKET then
            some (EvalResult.EXPECTED_CLOSE_BRACKET, ctx, output)
          else
            match get_token A cfg ctx with
            | none => none
            | some (result, ctx) => some (result, ctx, output)
  | .FUNC name =>
    match ctx.hooks.bind (fun hooks => hooks.get_func) with
    | none => some (EvalResult.UNDEFINED_FUNCTION, ctx, output)
    | some get_func =>
      match get_func name ctx.user_data with
      | none => some (EvalResult.UNDEFINED_FUNCTION, ctx, output)
      | some func =>
        match get_token A cfg ctx with
        | none => none
        | some (result, ctx) =>
          if result ≠ EvalResult.OK then some (result, ctx, output)
          else if ctx.token.type ≠ EvalTokenType.OPEN_BRACKET then
            some (EvalResult.EXPECTED_OPEN_BRACKET, ctx, output)
          else
            match get_token A cfg ctx with
            | none => none
            | some (result, ctx) =>
              if result ≠ EvalResult.OK then some (result, ctx, output)
              else
                let arg := A.ofNat 0
                match parse_expr ctx arg with
                | none => none
                | some (result, ctx, arg) =>
                  if result ≠ EvalResult.OK then some (result, ctx, output)
                  else if ctx.token.type ≠ EvalTokenType.CLOSE_BRACKET then
                    some (EvalResult.EXPECTED_CLOSE_BRACKET, ctx, output)
                  else
                    let (result, output) := func arg ctx.user_data output
                    if result ≠ EvalResult.OK then some (result, ctx, output)
                    else
                      match get_token A cfg ctx with
                      | none => none
                      | some (result, ctx) => some (result, ctx, output)
  | .VARIABLE name =>
    match ctx.hooks.bind (fun hooks => hooks.get_variable) with
    | none => some (EvalResult.UNDEFINED_VARIABLE, ctx, output)
    | some get_variable =>
      let (result, output) := get_variable name ctx.user_data output
      if result ≠ EvalResult.OK then some (result, ctx, output)
      else
        match get_token A cfg ctx with
        | none => none
        | some (result, ctx) => some (result, ctx, output)
  | _ => some (EvalResult.EXPECTED_TERM, ctx, output)

/-- The loop of `parse_unary` over the leading `-` tokens. -/
def parse_unary_loop {α U : Type} (A : Arith α) (cfg : Config) :
    Nat → Bool → EvalContext α U → Option (EvalResult × Bool × EvalContext α U)
  | 0, _, _ => none
  | fuel + 1, neg, ctx =>
    if ctx.token.type = EvalTokenType.SUBTRACT then
      let neg := !neg
      match get_token A cfg ctx with
      | none => none
      | some (result, ctx) =>
        if result ≠ EvalResult.OK then some (result, neg, ctx)
        else parse_unary_loop A cfg fuel neg ctx
    else some (EvalResult.OK, neg, ctx)

/-- The function `parse_unary`. -/
def parse_unary {α U : Type} (A : Arith α) (cfg : Config)
    (parse_expr : EvalContext α U → α → Option (EvalResult × EvalContext α U × α))
    (ctx : EvalContext α U) (output : α) : Option (EvalResult × EvalContext α U × α) :=
  let neg := false
  let value := A.ofNat 0
  match parse_unary_loop A cfg (ctx.input.length + 1) neg ctx with
  | none => none
  | some (result, neg, ctx) =>
    if result ≠ EvalResult.OK then some (result, ctx, output)
    else
      match parse_term A cfg parse_expr ctx value with
      | none => none
      | some (result, ctx, value) =>
        if result ≠ EvalResult.OK then some (result, ctx, output)
        else
          let value := if neg then A.neg value else value
          some (EvalResult.OK, ctx, value)

/-- The comparison of `parse_product` selected by the token type `type`,
stored as a number (lines 510-520). -/
def relational {α : Type} (A : Arith α) (type : EvalTokenType) (lhs rhs : α) : α :=
  if type = EvalTokenType.E then A.ofBool (A.eq lhs rhs)
  else if type = EvalTokenType.LE then A.ofBool (A.le lhs rhs)
  else if type = EvalTokenType.L then A.ofBool (A.lt lhs rhs)
  else if type = EvalTokenType.GE then A.ofBool (A.ge lhs rhs)
  else if type = EvalTokenType.G then A.ofBool (A.gt lhs rhs)
  else lhs

/-- The loop of `parse_product`. -/
def parse_product_loop {α U : Type} (A : Arith α) (cfg : Config)
    (parse_expr : EvalContext α U → α → Option (EvalResult × EvalContext α U × α)) :
    Nat → EvalContext α U → α → α → Option (EvalResult × EvalContext α U × α)
  | 0, _, _, _ => none
  | fuel + 1, ctx, lhs, rhs =>
    let type := ctx.token.type
    if ctx.token.type = EvalTokenType.MULTIPLY then
      match get_token A cfg ctx with
      | none => none
      | some (result, ctx) =>
        if result ≠ EvalResult.OK then some (result, ctx, lhs)
        else
          match parse_unary A cfg parse_expr ctx rhs with
          | none => none
          | some (result, ctx, rhs) =>
            if result ≠ EvalResult.OK then some (result, ctx, lhs)
            else parse_product_loop A cfg parse_expr fuel ctx (A.mul lhs rhs) rhs
    else if ctx.token.type = EvalTokenType.DIVIDE then
      match get_token A cfg ctx with
      | none => none
      | some (result, ctx) =>
        if result ≠ EvalResult.OK then some (result, ctx, lhs)
        else
          match parse_unary A cfg parse_expr ctx rhs with
          | none => none
          | some (result, ctx, rhs) =>
            if result ≠ EvalResult.OK then some (result, ctx, lhs)
            else parse_product_loop A cfg parse_expr fuel ctx (A.div lhs rhs) rhs
    else if type = EvalTokenType.E ∨ type = EvalTokenType.LE ∨ type = EvalTokenType.L
        ∨ type = EvalTokenType.GE ∨ type = EvalTokenType.G then
      match get_token A cfg ctx with
      | none => none
      | some (result, ctx) =>
        if result ≠ EvalResult.OK then some (result, ctx, lhs)
        else
          match parse_unary A cfg parse_expr ctx rhs with
          | none => none
          | some (result, ctx, rhs) =>
            if result ≠ EvalResult.OK then some (result, ctx, lhs)
            else parse_product_loop A cfg parse_expr fuel ctx (relational A type lhs rhs) rhs
    else some (EvalResult.OK, ctx, lhs)

/-- The function `parse_product`. -/
def parse_product {α U : Type} (A : Arith α) (cfg : Config)
    (parse_expr : EvalContext α U → α → Option (EvalResult × EvalContext α U × α))
    (ctx : EvalContext α U) (output : α) : Option (EvalResult × EvalContext α U × α) :=
  let fuel := ctx.input.length + 1
  let lhs := A.ofNat 0
  let rhs := A.ofNat 0
  match parse_unary A cfg parse_expr ctx lhs with
  | none => none
  | some (result, ctx, lhs) =>
    if result ≠ EvalResult.OK then some (result, ctx, output)
    else
      match parse_product_loop A cfg parse_expr fuel ctx lhs rhs with
      | none => none
      | some (result, ctx, lhs) =>
        if result ≠ EvalResult.OK then some (result, ctx, output)
        else some (EvalResult.OK, ctx, lhs)

/-- The loop of `parse_sum`. -/
def parse_sum_loop {α U : Type} (A : Arith α) (cfg : Config)
    (parse_expr : EvalContext α U → α → Option (EvalResult × EvalContext α U × α)) :
    Nat → EvalContext α U → α → α → Option (EvalResult × EvalContext α U × α)
  | 0, _, _, _ => none
  | fuel + 1, ctx, lhs, rhs =>
    let type := ctx.token.type
    if type = EvalTokenType.ADD then
      match get_token A cfg ctx with
      | none => none
      | some (result, ctx) =>
        if result ≠ EvalResult.OK then some (result, ctx, lhs)
        else
          match parse_product A cfg parse_expr ctx rhs with
          | none => none
          | some (result, ctx, rhs) =>
            if result ≠ EvalResult.OK then some (result, ctx, lhs)
            else parse_sum_loop A cfg parse_expr fuel ctx (A.add lhs rhs) rhs
    else if type = EvalTokenType.SUBTRACT then
      match get_token A cfg ctx with
      | none => none
      | some (result, ctx) =>
        if result ≠ EvalResult.OK then some (result, ctx, lhs)
        else
          match parse_product A cfg parse_expr ctx rhs with
          | none => none
          | some (result, ctx, rhs) =>
            if result ≠ EvalResult.OK then some (result, ctx, lhs)
            else parse_sum_loop A cfg parse_expr fuel ctx (A.sub lhs rhs) rhs
    else some (EvalResult.OK, ctx, lhs)

/-- The function `parse_sum`. -/
def parse_sum {α U : Type} (A : Arith α) (cfg : Config)
    (parse_expr : EvalContext α U → α → Option (EvalResult × EvalContext α U × α))
    (ctx : EvalContext α U) (output : α) : Option (EvalResult × EvalContext α U × α) :=
  let fuel := ctx.input.length + 1
  let lhs := A.ofNat 0
  let rhs := A.ofNat 0
  match parse_product A cfg parse_expr ctx lhs with
  | none => none
  | some (result, ctx, lhs) =>
    if result ≠ EvalResult.OK then some (result, ctx, output)
    else
      match parse_sum_loop A cfg parse_expr fuel ctx lhs rhs with
      | none => none
      | some (result, ctx, lhs) =>
        if result ≠ EvalResult.OK then some (result, ctx, output)
        else some (EvalResult.OK, ctx, lhs)

/-- The function `parse_expr`.  Its first argument bounds the depth of the
recursion through `parse_term`; `eval_execute` passes
`EVAL_MAX_STACK_DEPTH + 1`, which the guard on `stack_level` never lets run
out. -/
def parse_expr {α U : Type} (A : Arith α) (cfg : Config) :
    Nat → EvalContext α U → α → Option (EvalResult × EvalContext α U × α)
  | 0, _, _ => none
  | fuel + 1, ctx, output =>
    if ctx.stack_level ≥ cfg.EVAL_MAX_STACK_DEPTH then
      some (EvalResult.STACK_OVERFLOW, ctx, output)
    else
      let ctx := { ctx with stack_level := ctx.stack_level + 1 }
      match parse_sum A cfg (parse_expr A cfg fuel) ctx output with
      | none => none
      | some (result, ctx, output) =>
        let ctx := { ctx with stack_level := ctx.stack_level - 1 }
        some (result, ctx, output)

/-- The function `eval_execute`; `output` is the content of `*output` before
the call, and the second component of the result its content after it.  The
token of the fresh context is not initialised in C; it is never read before
`get_token` stores one. -/
def eval_execute {α U : Type} (A : Arith α) (cfg : Config) (expression : List Char)
    (hooks : Option (EvalHooks α U)) (user_data : U) (output : α) :
    Option (EvalResult × α) :=
  let ctx : EvalContext α U :=
    { hooks := hooks, user_data := user_data, input := expression, pos := 0,
      stack_level := 0, token := EvalToken.END }
  match get_token A cfg ctx with
  | none => none
  | some (result, ctx) =>
    if result ≠ EvalResult.OK then some (result, output)
    else
      match parse_expr A cfg (cfg.EVAL_MAX_STACK_DEPTH + 1) ctx output with
      | none => none
      | some (result, ctx, output) =>
        if result ≠ EvalResult.OK then some (result, output)
        else if ctx.token.type = EvalTokenType.END then some (EvalResult.OK, output)
        else some (EvalResult.UNEXPECTED_CHAR, output)

/-! ## Default hooks and result strings -/

/-- The functions of `<math.h>` that the default functions call, and the
floating constants the default hooks use (`0.5` in `func_round`; `INFINITY`,
`NAN` and `3.14159265358979f` in the table of `default_get_variable`), as
parameters. -/
structure LibM (α : Type) where
  cos : α → α
  sin : α → α
  tan : α → α
  acos : α → α
  asin : α → α
  atan : α → α
  exp : α → α
  log : α → α
  log10 : α → α
  sqrt : α → α
  ceil : α → α
  floor : α → α
  half : α
  INFINITY : α
  NAN : α
  PI : α

def func_cos {α U : Type} (M : LibM α) : EvalFunc α U :=
  fun input _ _ => (EvalResult.OK, M.cos input)

def func_sin {α U : Type} (M : LibM α) : EvalFunc α U :=
  fun input _ _ => (EvalResult.OK, M.sin input)

def func_tan {α U : Type} (M : LibM α) : EvalFunc α U :=
  fun input _ _ => (EvalResult.OK, M.tan input)

def func_acos {α U : Type} (M : LibM α) : EvalFunc α U :=
  fun input _ _ => (EvalResult.OK, M.acos input)

def func_asin {α U : Type} (M : LibM α) : EvalFunc α U :=
  fun input _ _ => (EvalResult.OK, M.asin input)

def func_atan {α U : Type} (M : LibM α) : EvalFunc α U :=
  fun input _ _ => (EvalResult.OK, M.atan input)

def func_exp {α U : Type} (M : LibM α) : EvalFunc α U :=
  fun input _ _ => (EvalResult.OK, M.exp input)

def func_log {α U : Type} (M : LibM α) : EvalFunc α U :=
  fun input _ _ => (EvalResult.OK, M.log input)

def func_log10 {α U : Type} (M : LibM α) : EvalFunc α U :=
  fun input _ _ => (EvalResult.OK, M.log10 input)

def func_sqrt {α U : Type} (M : LibM α) : EvalFunc α U :=
  fun input _ _ => (EvalResult.OK, M.sqrt input)

def func_ceil {α U : Type} (M : LibM α) : EvalFunc α U :=
  fun input _ _ => (EvalResult.OK, M.ceil input)

def func_floor {α U : Type} (M : LibM α) : EvalFunc α U :=
  fun input _ _ => (EvalResult.OK, M.floor input)

def func_round {α U : Type} (A : Arith α) (M : LibM α) : EvalFunc α U :=
  fun input _ _ => (EvalResult.OK, M.floor (A.add input M.half))

/-- The scan `while (i != e)` of a table of named entries: the value of the
first entry whose name compares equal to `name` under `strcmp`, if any. -/
def table_find {β : Type} : List (List Char × β) → List Char → Option β
  | [], _ => none
  | (n, v) :: rest, name => if n = name then some v else table_find rest name

/-- The table `FUNCTIONS` of `default_get_func`. -/
def FUNCTIONS {α U : Type} (A : Arith α) (M : LibM α) : List (List Char × EvalFunc α U) :=
  [("cos".toList, func_cos M), ("sin".toList, func_sin M), ("tan".toList, func_tan M),
   ("acos".toList, func_acos M), ("asin".toList, func_asin M), ("atan".toList, func_atan M),
   ("exp".toList, func_exp M), ("log".toList, func_log M), ("log10".toList, func_log10 M),
   ("sqrt".toList, func_sqrt M), ("ceil".toList, func_ceil M), ("floor".toList, func_floor M),
   ("round".toList, func_round A M)]

def default_get_func {α U : Type} (A : Arith α) (M : LibM α) (name : List Char) (_ : U) :
    Option (EvalFunc α U) :=
  table_find (FUNCTIONS A M) name

/-- The table `VARIABLES` of `default_get_variable`. -/
def VARIABLES {α : Type} (M : LibM α) : List (List Char × α) :=
  [("INFINITY".toList, M.INFINITY), ("NAN".toList, M.NAN), ("PI".toList, M.PI)]

def default_get_variable {α U : Type} (M : LibM α) (name : List Char) (_ : U) (output : α) :
    EvalResult × α :=
  match table_find (VARIABLES M) name with
  | some value => (EvalResult.OK, value)
  | none => (EvalResult.UNDEFINED_VARIABLE, output)

/-- The function `eval_default_hooks`: the hooks made of `default_get_func`
and `default_get_variable`. -/
def eval_default_hooks {α U : Type} (A : Arith α) (M : LibM α) : EvalHooks α U :=
  { get_func := some (default_get_func A M), get_variable := some (default_get_variable M) }

/-- Modelled from the spec: the numeric value of a result code in the
enumeration of the missing header `eval.h`, the codes being numbered from 0 in
the order of section 7 of the specification (`Ok` first). -/
def EvalResult.code : EvalResult → Nat
  | .OK => 0
  | .ILLEGAL_CHARACTER => 1
  | .INVALID_LITERAL => 2
  | .LITERAL_OUT_OF_RANGE => 3
  | .NAME_TOO_LONG => 4
  | .UNEXPECTED_CHAR => 5
  | .EXPECTED_TERM => 6
  | .STACK_OVERFLOW => 7
  | .UNDEFINED_FUNCTION => 8
  | .UNDEFINED_VARIABLE => 9
  | .EXPECTED_OPEN_BRACKET => 10
  | .EXPECTED_CLOSE_BRACKET => 11

/-- The initialisers of the array `STRS` of `eval_result_to_string`. -/
def STRS : List String :=
  ["ok", "illegal character", "invalid literal", "literal out-of-range", "name too long",
   "unexpected character", "expected term", "stack overflow", "undefined function",
   "undefined variable", "expected open bracket", "expected close bracket"]

/-- The function `eval_result_to_string`, on the numeric value `result` of its
argument; `N_EVAL_RESULT_CODES`, a constant of the missing header, is a
parameter.  `none` is the null pointer, which the array holds past its
initialisers. -/
def eval_result_to_string (N_EVAL_RESULT_CODES : Nat) (result : Nat) : Option String :=
  if result < N_EVAL_RESULT_CODES then STRS.get? result else some "undefined error"

/-! ## Texts of the grammar

The numeric literals and the expressions the claims quantify over, each with
its text and with the value the claims give it. -/

/-- The character read when `R` is what is left of the text: its first
character, or the terminator when nothing is left. -/
def peek (R : List Char) : Char :=
  R.headD NUL

/-- A character the lexer skips: not the terminator and `<= ' '`. -/
def is_blank (c : Char) : Bool :=
  decide (c ≠ NUL) && decide (c ≤ ' ')

/-- The character of the decimal digit `d`. -/
def digit_char (d : Fin 10) : Char :=
  Char.ofNat ('0'.toNat + d.val)

/-- The exponent part of a literal: the marker `e` or `E`, an optional sign
(`some true` is `-`, `some false` is `+`) and the digits. -/
structure Exponent where
  upper : Bool
  sign : Option Bool
  digits : List (Fin 10)

/-- A numeric literal: the integer digits, the fractional digits when there is
a decimal point, and the exponent part when there is one. -/
structure Literal where
  int : List (Fin 10)
  frac : Option (List (Fin 10))
  exp : Option Exponent

/-- A literal is well formed when a decimal point is followed by a digit, an
exponent marker (and sign) is followed by a digit, and it has integer digits
or a decimal point. -/
def Literal.wf (l : Literal) : Bool :=
  (!l.int.isEmpty || l.frac.isSome) &&
  (match l.frac with
   | none => true
   | some f => !f.isEmpty) &&
  (match l.exp with
   | none => true
   | some x => !x.digits.isEmpty)

/-- The text of the optional sign of an exponent. -/
def sign_text : Option Bool → List Char
  | none => []
  | some true => ['-']
  | some false => ['+']

def Exponent.text (x : Exponent) : List Char :=
  (if x.upper then 'E' else 'e') :: (sign_text x.sign ++ x.digits.map digit_char)

/-- The text of the optional fraction: the decimal point and the digits. -/
def frac_text : Option (List (Fin 10)) → List Char
  | none => []
  | some f => '.' :: f.map digit_char

/-- The text of the optional exponent part. -/
def exp_text : Option Exponent → List Char
  | none => []
  | some x => x.text

def Literal.text (l : Literal) : List Char :=
  l.int.map digit_char ++ (frac_text l.frac ++ exp_text l.exp)

/-- The accumulation `value = value * 10 + digit` over the digits `ds`. -/
def digits_value {α : Type} (A : Arith α) (value : α) (ds : List (Fin 10)) : α :=
  ds.foldl (fun v d => A.add (A.mul v (A.ofNat 10)) (A.ofNat d.val)) value

/-- The accumulation `int_val = int_val * 10 + digit` over the exponent
digits `ds`. -/
def digits_int (ds : List (Fin 10)) : Int :=
  ds.foldl (fun v d => v * 10 + (d.val : Int)) 0

/-- The digits of the literal accumulated into one number (the digits of the
integer part followed by those of the fraction). -/
def Literal.mantissa {α : Type} (A : Arith α) (l : Literal) : α :=
  digits_value A (digits_value A (A.ofNat 0) l.int) (l.frac.getD [])

/-- The exponent after the optional exponent part `x`, from the exponent
`exp` before it: the written number is added, or subtracted after a `-`. -/
def exp_after (exp : Int) : Option Exponent → Int
  | none => exp
  | some x => if x.sign = some true then exp - digits_int x.digits else exp + digits_int x.digits

/-- The power of ten the mantissa is scaled by: minus the number of
fractional digits, plus or minus the written exponent. -/
def Literal.exponent (l : Literal) : Int :=
  exp_after (-((l.frac.getD []).length : Int)) l.exp

/-- The number `get_number` computes for the literal: the mantissa scaled by
the squaring loop. -/
def Literal.value {α : Type} (A : Arith α) (l : Literal) : α :=
  (scale A (l.mantissa A) l.exponent).getD (l.mantissa A)

/-- The character after a literal does not continue it: it is no digit, no
decimal point unless the literal already has a fraction or an exponent, and
no exponent marker unless the literal already has an exponent. -/
def Literal.stops (l : Literal) (c : Char) : Bool :=
  !is_digit c && (!is_dp c || l.frac.isSome || l.exp.isSome) && (!is_exp c || l.exp.isSome)

/-- The natural number written by the digits `ds`. -/
def digits_nat (ds : List (Fin 10)) : Nat :=
  ds.foldl (fun n d => n * 10 + d.val) 0

/-- The number written by the exponent digits does not overflow the `int`
accumulator of `get_number`: it is at most `INT_MAX`. -/
def Literal.exp_fits (l : Literal) : Bool :=
  match l.exp with
  | none => true
  | some x => decide (digits_nat x.digits < 2 ^ 31)

/-- The binary operators of the grammar. -/
inductive BinOp
  | add
  | sub
  | mul
  | div
  | eq
  | le
  | lt
  | ge
  | gt
  deriving DecidableEq, Repr

/-- The operators of the rule `sum`; the others are those of `product`. -/
def BinOp.isSum : BinOp → Bool
  | .add => true
  | .sub => true
  | _ => false

def BinOp.text : BinOp → List Char
  | .add => ['+']
  | .sub => ['-']
  | .mul => ['*']
  | .div => ['/']
  | .eq => ['=', '=']
  | .le => ['<', '=']
  | .lt => ['<']
  | .ge => ['>', '=']
  | .gt => ['>']

def BinOp.token {α : Type} : BinOp → EvalToken α
  | .add => .ADD
  | .sub => .SUBTRACT
  | .mul => .MULTIPLY
  | .div => .DIVIDE
  | .eq => .E
  | .le => .LE
  | .lt => .L
  | .ge => .GE
  | .gt => .G

/-- The value of `lhs op rhs`: an arithmetic operator, or a relational one
giving `1` or `0`. -/
def BinOp.apply {α : Type} (A : Arith α) : BinOp → α → α → α
  | .add, lhs, rhs => A.add lhs rhs
  | .sub, lhs, rhs => A.sub lhs rhs
  | .mul, lhs, rhs => A.mul lhs rhs
  | .div, lhs, rhs => A.div lhs rhs
  | .eq, lhs, rhs => A.ofBool (A.eq lhs rhs)
  | .le, lhs, rhs => A.ofBool (A.le lhs rhs)
  | .lt, lhs, rhs => A.ofBool (A.lt lhs rhs)
  | .ge, lhs, rhs => A.ofBool (A.ge lhs rhs)
  | .gt, lhs, rhs => A.ofBool (A.gt lhs rhs)

/-- Expression trees over numeric literals.  Every token carries the blanks
written before it; `paren ws e ws'` has `ws` before `(` and `ws'` before
`)`.  `bin l ws op r` is `l op r` with `l` the operands to the left. -/
inductive Expr
  | num (ws : List Char) (lit : Literal)
  | paren (ws : List Char) (e : Expr) (ws' : List Char)
  | neg (ws : List Char) (e : Expr)
  | bin (l : Expr) (ws : List Char) (op : BinOp) (r : Expr)

def Expr.text : Expr → List Char
  | .num ws lit => ws ++ lit.text
  | .paren ws e ws' => ws ++ '(' :: (e.text ++ (ws' ++ [')']))
  | .neg ws e => ws ++ '-' :: e.text
  | .bin l ws op r => l.text ++ (ws ++ (op.text ++ r.text))

/-- The tree is generated by the rule of level `k` of the grammar
(`0` is `term`, `1` is `unary`, `2` is `product`, `3` is `sum`):
`term := number | '(' sum ')'`, `unary := '-' unary | term`,
`product := product ('*'|'/'|relop) unary | unary`,
`sum := sum ('+'|'-') product | product`;
its blanks are blanks, and its literals are well formed and have exponent
digits that do not overflow the `int` accumulator of `get_number`. -/
def Expr.gen : Nat → Expr → Bool
  | _, .num ws lit => ws.all is_blank && lit.wf && lit.exp_fits
  | _, .paren ws e ws' => ws.all is_blank && ws'.all is_blank && e.gen 3
  | k, .neg ws e => decide (1 ≤ k) && ws.all is_blank && e.gen 1
  | k, .bin l ws op r =>
    if op.isSum then decide (3 ≤ k) && l.gen 3 && ws.all is_blank && r.gen 2
    else decide (2 ≤ k) && l.gen 2 && ws.all is_blank && r.gen 1

/-- The depth of bracket nesting. -/
def Expr.depth : Expr → Nat
  | .num _ _ => 0
  | .paren _ e _ => e.depth + 1
  | .neg _ e => e.depth
  | .bin l _ _ r => max l.depth r.depth

/-- The value of the tree when an odd (`odd = true`) or even number of unary
minus signs is pending in front of it: a term is negated when that number is
odd, and a sum or product is folded left to right. -/
def Expr.valueAux {α : Type} (A : Arith α) : Expr → Bool → α
  | .num _ lit, odd => if odd then A.neg (lit.value A) else lit.value A
  | .paren _ e _, odd => if odd then A.neg (e.valueAux A false) else e.valueAux A false
  | .neg _ e, odd => e.valueAux A (!odd)
  | .bin l _ op r, odd =>
    if odd then A.neg (op.apply A (l.valueAux A false) (r.valueAux A false))
    else op.apply A (l.valueAux A false) (r.valueAux A false)

/-- The value of the tree. -/
def Expr.value {α : Type} (A : Arith α) (e : Expr) : α :=
  e.valueAux A false

/-- The tree of `e` with `n` minus signs written directly before it. -/
def Expr.negs : Nat → Expr → Expr
  | 0, e => e
  | n + 1, e => .neg [] (Expr.negs n e)

/-- The literal written with the integer digits `ds` alone. -/
def Literal.ofDigits (ds : List (Fin 10)) : Literal :=
  { int := ds, frac := none, exp := none }

/-- The integer written by the integer digits followed by the fractional
digits of the literal. -/
def Literal.digits_number (l : Literal) : Nat :=
  digits_nat (l.int ++ l.frac.getD [])

/-- The number of fractional digits of the literal. -/
def Literal.frac_count (l : Literal) : Nat :=
  (l.frac.getD []).length

/-- The exponent written in the literal, with its sign; `0` when there is
none. -/
def Literal.written_exponent (l : Literal) : Int :=
  match l.exp with
  | none => 0
  | some x => if x.sign = some true then -(digits_nat x.digits : Int) else digits_nat x.digits

/-- The literal `1.5e2`. -/
def literal_1_5e2 : Literal :=
  { int := [1], frac := some [5], exp := some { upper := false, sign := none, digits := [2] } }

/-- The literal `.5`. -/
def literal_point_5 : Literal :=
  { int := [], frac := some [5], exp := none }

/-- The tree of the literal written with the digits `ds` alone, no blank
before it. -/
def Expr.lit (ds : List (Fin 10)) : Expr :=
  .num [] (Literal.ofDigits ds)

/-- The tree of `l op r`, without blanks. -/
def Expr.op (l : Expr) (o : BinOp) (r : Expr) : Expr :=
  .bin l [] o r

/-- The tree of `e` inside `n` pairs of brackets, without blanks. -/
def Expr.pars : Nat → Expr → Expr
  | 0, e => e
  | n + 1, e => .paren [] (Expr.pars n e) []

/-- The five relational operators. -/
inductive RelOp
  | lt
  | le
  | eq
  | ge
  | gt
  deriving DecidableEq, Repr

def RelOp.toBinOp : RelOp → BinOp
  | .lt => .lt
  | .le => .le
  | .eq => .eq
  | .ge => .ge
  | .gt => .gt

/-- The text of a relational operator: `<`, `<=`, `==`, `>=`, `>`. -/
def RelOp.text (o : RelOp) : List Char :=
  o.toBinOp.text

/-- Whether the relation holds between `a` and `b`, in the arithmetic `A`. -/
def RelOp.holds {α : Type} (A : Arith α) : RelOp → α → α → Bool
  | .lt, a, b => A.lt a b
  | .le, a, b => A.le a b
  | .eq, a, b => A.eq a b
  | .ge, a, b => A.ge a b
  | .gt, a, b => A.gt a b

/-- A sample configuration, used where a concrete one is needed. -/
def sample_config : Config :=
  { EVAL_MAX_NAME_LENGTH := 32, EVAL_MAX_STACK_DEPTH := 16 }

/-- The context `eval_execute` starts from on the text `input`, without
hooks. -/
def start_context (input : List Char) : EvalContext ℚ Unit :=
  { hooks := none, user_data := (), input := input, pos := 0, stack_level := 0,
    token := EvalToken.END }

/-- The hooks pointer of a caller that passes none. -/
def no_hooks : Option (EvalHooks ℚ Unit) := none

/-- Hooks of a caller, used in examples: `get_func` resolves `twice` to the
function that doubles its argument and `nonzero` to the function that returns
its argument, or `LITERAL_OUT_OF_RANGE` when the argument is zero;
`get_variable` resolves `x` to 5. -/
def sample_hooks : EvalHooks ℚ Unit :=
  { get_func := some (fun name _ =>
      if name = "twice".toList then some (fun x _ _ => (EvalResult.OK, 2 * x))
      else if name = "nonzero".toList then
        some (fun x _ out =>
          if x = 0 then (EvalResult.LITERAL_OUT_OF_RANGE, out) else (EvalResult.OK, x))
      else none)
    get_variable := some (fun name _ out =>
      if name = "x".toList then (EvalResult.OK, 5) else (EvalResult.UNDEFINED_VARIABLE, out)) }

/-- At the cursor position `p` of the text `input`, in every context,
`get_token` succeeds, stores the token `tok` and leaves the cursor at `q`. -/
def Lexes {α : Type} (A : Arith α) (cfg : Config) (U : Type) (input : List Char) (p : Nat)
    (tok : EvalToken α) (q : Nat) : Prop :=
  ∀ ctx : EvalContext α U, ctx.input = input → ctx.pos = p →
    get_token A cfg ctx = some (EvalResult.OK, { ctx with pos := q, token := tok })

/-! ## Statements about the parser

The body of `parse_unary`, `parse_product` and `parse_sum` with the loop
budget (and the sign flag) as parameters, and what it means for each parsing
function to evaluate a tree of the grammar found at a position of the text. -/

/-- The body of `parse_unary` from its loop on, with the budget `fuel` and the
flag `neg` so far. -/
def unary_from {α U : Type} (A : Arith α) (cfg : Config)
    (parse_expr : EvalContext α U → α → Option (EvalResult × EvalContext α U × α))
    (fuel : Nat) (neg : Bool) (ctx : EvalContext α U) (output : α) :
    Option (EvalResult × EvalContext α U × α) :=
  match parse_unary_loop A cfg fuel neg ctx with
  | none => none
  | some (result, neg, ctx) =>
    if result ≠ EvalResult.OK then some (result, ctx, output)
    else
      match parse_term A cfg parse_expr ctx (A.ofNat 0) with
      | none => none
      | some (result, ctx, value) =>
        if result ≠ EvalResult.OK then some (result, ctx, output)
        else
          let value := if neg then A.neg value else value
          some (EvalResult.OK, ctx, value)

/-- The first operand of `parse_product` followed by its loop with the budget
`fuel`. -/
def product_from {α U : Type} (A : Arith α) (cfg : Config)
    (parse_expr : EvalContext α U → α → Option (EvalResult × EvalContext α U × α))
    (fuel : Nat) (ctx : EvalContext α U) : Option (EvalResult × EvalContext α U × α) :=
  match parse_unary A cfg parse_expr ctx (A.ofNat 0) with
  | none => none
  | some (result, ctx, lhs) =>
    if result ≠ EvalResult.OK then some (result, ctx, lhs)
    else parse_product_loop A cfg parse_expr fuel ctx lhs (A.ofNat 0)

/-- The first operand of `parse_sum` followed by its loop with the budget
`fuel`. -/
def sum_from {α U : Type} (A : Arith α) (cfg : Config)
    (parse_expr : EvalContext α U → α → Option (EvalResult × EvalContext α U × α))
    (fuel : Nat) (ctx : EvalContext α U) : Option (EvalResult × EvalContext α U × α) :=
  match parse_product A cfg parse_expr ctx (A.ofNat 0) with
  | none => none
  | some (result, ctx, lhs) =>
    if result ≠ EvalResult.OK then some (result, ctx, lhs)
    else parse_sum_loop A cfg parse_expr fuel ctx lhs (A.ofNat 0)

/-- The token types on which the loop of `parse_product` goes on. -/
def is_product_op (t : EvalTokenType) : Bool :=
  decide (t = .MULTIPLY) || decide (t = .DIVIDE) || decide (t = .E) || decide (t = .LE) ||
    decide (t = .L) || decide (t = .GE) || decide (t = .G)

/-- The token types on which the loop of `parse_sum` goes on. -/
def is_sum_op (t : EvalTokenType) : Bool :=
  decide (t = .ADD) || decide (t = .SUBTRACT)

/-- The text `R` does not start with a character that could continue a
numeric literal. -/
def follows (R : List Char) : Bool :=
  !is_digit (peek R) && !is_dp (peek R) && !is_exp (peek R)

/-- The tree `e` stands at position `p` of `input`, followed by `R`, and the
token after it is `tokR`, which leaves the cursor at `pR`. -/
def Stands {α : Type} (A : Arith α) (cfg : Config) (U : Type) (e : Expr) (input : List Char)
    (p : Nat) (R : List Char) (tokR : EvalToken α) (pR : Nat) : Prop :=
  input.drop p = e.text ++ R ∧ follows R = true ∧
    Lexes A cfg U input (p + e.text.length) tokR pR

/-- `parse_term` evaluates `e`: the first token of `e` is lexed at `p`, and
`parse_term`, entered on that token, returns `OK` with the value of `e`, the
token after `e` being current. -/
def TermOk {α : Type} (A : Arith α) (cfg : Config) (U : Type) (f : Nat) (e : Expr)
    (input : List Char) (p : Nat) (tokR : EvalToken α) (pR : Nat) : Prop :=
  ∃ (tok1 : EvalToken α) (p1 : Nat), Lexes A cfg U input p tok1 p1 ∧
    tok1.type ≠ EvalTokenType.SUBTRACT ∧
    ∀ (c : EvalContext α U) (out : α), c.input = input →
      c.stack_level + e.depth ≤ cfg.EVAL_MAX_STACK_DEPTH →
      parse_term A cfg (parse_expr A cfg f) { c with pos := p1, token := tok1 } out =
        some (EvalResult.OK, { c with pos := pR, token := tokR }, e.value A)

/-- `parse_unary` evaluates `e`, for every sufficient loop budget and every
state of the sign flag. -/
def UnaryOk {α : Type} (A : Arith α) (cfg : Config) (U : Type) (f : Nat) (e : Expr)
    (input : List Char) (p : Nat) (tokR : EvalToken α) (pR : Nat) : Prop :=
  ∃ (tok1 : EvalToken α) (p1 : Nat), Lexes A cfg U input p tok1 p1 ∧
    ∀ (c : EvalContext α U) (n : Nat) (b : Bool) (out : α), c.input = input →
      c.stack_level + e.depth ≤ cfg.EVAL_MAX_STACK_DEPTH → e.text.length ≤ n →
      unary_from A cfg (parse_expr A cfg f) (n + 1) b { c with pos := p1, token := tok1 } out =
        some (EvalResult.OK, { c with pos := pR, token := tokR }, e.valueAux A b)

/-- `parse_product` reaches the token after `e` with the value of `e` as its
left operand, having used `k` turns of its loop. -/
def ProductOk {α : Type} (A : Arith α) (cfg : Config) (U : Type) (f : Nat) (e : Expr)
    (input : List Char) (p : Nat) (tokR : EvalToken α) (pR : Nat) : Prop :=
  ∃ (tok1 : EvalToken α) (p1 k : Nat), Lexes A cfg U input p tok1 p1 ∧ k ≤ e.text.length ∧
    ∀ (c : EvalContext α U) (n : Nat), c.input = input →
      c.stack_level + e.depth ≤ cfg.EVAL_MAX_STACK_DEPTH →
      ∃ rhs, product_from A cfg (parse_expr A cfg f) (n + k) { c with pos := p1, token := tok1 } =
        parse_product_loop A cfg (parse_expr A cfg f) n { c with pos := pR, token := tokR }
          (e.value A) rhs

/-- `parse_sum` reaches the token after `e` with the value of `e` as its left
operand, having used `k` turns of its loop. -/
def SumOk {α : Type} (A : Arith α) (cfg : Config) (U : Type) (f : Nat) (e : Expr)
    (input : List Char) (p : Nat) (tokR : EvalToken α) (pR : Nat) : Prop :=
  ∃ (tok1 : EvalToken α) (p1 k : Nat), Lexes A cfg U input p tok1 p1 ∧ k ≤ e.text.length ∧
    ∀ (c : EvalContext α U) (n : Nat), c.input = input →
      c.stack_level + e.depth ≤ cfg.EVAL_MAX_STACK_DEPTH →
      ∃ rhs, sum_from A cfg (parse_expr A cfg f) (n + k) { c with pos := p1, token := tok1 } =
        parse_sum_loop A cfg (parse_expr A cfg f) n { c with pos := pR, token := tokR }
          (e.value A) rhs

/-! ## Statements about a text and the same text followed by `)` -/

/-- The characters `a` and `b` are equal, or `a` is the terminator and `b` a
closing bracket. -/
def csim (a b : Char) : Prop :=
  a = b ∨ (a = NUL ∧ b = ')')

/-- Read at the same index, the texts `i1` and `i2` give characters related by
`csim`. -/
def CSim (i1 i2 : List Char) : Prop :=
  ∀ p : Nat, csim (i1.getD p NUL) (i2.getD p NUL)

/-- The character `c` is the one last read in the context `ctx`, and it was
read at an index no greater than the length of the text. -/
def Last {α U : Type} (c : Char) (ctx : EvalContext α U) : Prop :=
  1 ≤ ctx.pos ∧ ctx.pos ≤ ctx.input.length + 1 ∧ c = ctx.input.getD (ctx.pos - 1) NUL

/-- Two contexts of two runs, `c1` over the text `e` and `c2` over `e`
followed by `)`, that have read the same tokens: either the current token is
not `END`, the cursor of `c1` is inside `e` and the contexts differ by the
text only, or `c1` has reached `END` at the end of `e` where `c2` has read the
added `)`. -/
def Simulates {α U : Type} (e : List Char) (c1 c2 : EvalContext α U) : Prop :=
  c1.input = e ∧
    ((c1.token.type ≠ EvalTokenType.END ∧ c1.pos ≤ e.length ∧
        c2 = { c1 with input := e ++ [')'] }) ∨
      (c1.token.type = EvalTokenType.END ∧ c1.pos = e.length ∧
        c2 = { c1 with input := e ++ [')'], pos := e.length + 1, token := EvalToken.CLOSE_BRACKET }))

/-- Whenever `pe1` accepts an expression from `c1`, `pe2` accepts it from the
simulating context with the same value, and the contexts they leave simulate
each other. -/
def SimPE {α U : Type} (e : List Char)
    (pe1 pe2 : EvalContext α U → α → Option (EvalResult × EvalContext α U × α)) : Prop :=
  ∀ (c1 c2 cx : EvalContext α U) (out v : α), Simulates e c1 c2 →
    pe1 c1 out = some (EvalResult.OK, cx, v) →
    ∃ cx2, pe2 c2 out = some (EvalResult.OK, cx2, v) ∧ Simulates e cx cx2

/-! ## Statements about what a call leaves untouched -/

/-- The context `x` has the hooks, the user data, the text and the recursion
depth of the context `c`: only the cursor and the token may differ. -/
def Frame {α U : Type} (c x : EvalContext α U) : Prop :=
  x.hooks = c.hooks ∧ x.user_data = c.user_data ∧ x.input = c.input ∧
    x.stack_level = c.stack_level

/-- Every context that `pe` returns is in the frame of the one it was given. -/
def PEFrame {α U : Type}
    (pe : EvalContext α U → α → Option (EvalResult × EvalContext α U × α)) : Prop :=
  ∀ (c x : EvalContext α U) (out v : α) (r : EvalResult), pe c out = some (r, x, v) → Frame c x

/-- The function `pe` restricted to the contexts whose recursion depth is `l`:
on any other context the call is refused (`none`). -/
def at_level {α U : Type} (l : Nat)
    (pe : EvalContext α U → α → Option (EvalResult × EvalContext α U × α)) :
    EvalContext α U → α → Option (EvalResult × EvalContext α U × α) :=
  fun c out => if c.stack_level = l then pe c out else none

/-! ## Statements about two runs that read the same tokens

A first run reads a text; a second run reads the same text after the prefix
`pre`, with `k` more levels of recursion around it, and possibly with another
arithmetic.  `same` says that the two runs use the same arithmetic, so that
their numbers are equal. -/

/-- The context of the second run that corresponds to the context `c` of the
first: the text is preceded by `pre`, the cursor and the recursion depth are
moved accordingly, and the token is `t`. -/
def shifted {α U : Type} (pre : List Char) (k : Nat) (t : EvalToken α)
    (c : EvalContext α U) : EvalContext α U :=
  { hooks := c.hooks, user_data := c.user_data, input := pre ++ c.input,
    pos := pre.length + c.pos, stack_level := k + c.stack_level, token := t }

/-- The token `t'` of the second run corresponds to the token `t` of the
first: it is the same token, or, when the arithmetics differ, both are numbers. -/
def tok_sim {α : Type} (same : Prop) (t t' : EvalToken α) : Prop :=
  t' = t ∨ (¬ same ∧ ∃ v v', t = EvalToken.NUMBER v ∧ t' = EvalToken.NUMBER v')

/-- The context `c'` of the second run corresponds to the context `c` of the
first. -/
def Rel {α U : Type} (same : Prop) (pre : List Char) (k : Nat) (c c' : EvalContext α U) : Prop :=
  ∃ t', c' = shifted pre k t' c ∧ tok_sim same c.token t'

/-- The result `rb` of a lexer call of the second run corresponds to the
result `ra` of the first: the same result code and, on `OK`, corresponding
contexts. -/
def FollowsTok {α U : Type} (same : Prop) (pre : List Char) (k : Nat)
    (ra : EvalResult × EvalContext α U) (rb : Option (EvalResult × EvalContext α U)) : Prop :=
  ∃ x', rb = some (ra.1, x') ∧ (ra.1 = EvalResult.OK → Rel same pre k ra.2 x')

/-- The result `rb` of a parser call of the second run corresponds to the
result `ra` of the first: the same result code and, on `OK`, corresponding
contexts and values; or, when `over` allows it, the second run has hit its
depth limit. -/
def Follows {α U : Type} (same : Prop) (pre : List Char) (k : Nat) (over : Prop)
    (ra : EvalResult × EvalContext α U × α) (rb : Option (EvalResult × EvalContext α U × α)) :
    Prop :=
  (∃ x' v', rb = some (ra.1, x', v') ∧
      (ra.1 = EvalResult.OK → Rel same pre k ra.2.1 x' ∧ (same → v' = ra.2.2))) ∨
    (over ∧ ∃ x' v', rb = some (EvalResult.STACK_OVERFLOW, x', v'))

/-- The function `pe'` of the second run follows the function `pe` of the
first on the contexts of recursion depth `l` and hooks `hooks`. -/
def GenPE {α U : Type} (same : Prop) (pre : List Char) (k : Nat) (over : Prop) (l : Nat)
    (hooks : Option (EvalHooks α U))
    (pe pe' : EvalContext α U → α → Option (EvalResult × EvalContext α U × α)) : Prop :=
  ∀ (c c' : EvalContext α U) (out out' : α) (ra : EvalResult × EvalContext α U × α),
    c.stack_level = l → c.hooks = hooks → Rel same pre k c c' → pe c out = some ra →
    Follows same pre k over ra (pe' c' out')

/-- The result codes of the callbacks of `hooks` do not depend on the numbers
they are given: not on the argument of a function, and not on the content of
the output slot. -/
def BlindHooks {α U : Type} (hooks : Option (EvalHooks α U)) : Prop :=
  ∀ hk, hooks = some hk →
    (∀ gf, hk.get_func = some gf → ∀ (n : List Char) (ud : U) (f : EvalFunc α U),
      gf n ud = some f → ∀ (x x' : α) (ud' : U) (o o' : α), (f x' ud' o').1 = (f x ud' o).1) ∧
    (∀ gv, hk.get_variable = some gv → ∀ (n : List Char) (ud : U) (o o' : α),
      (gv n ud o').1 = (gv n ud o).1)

end Eval

namespace Eval

/-! ## Statements about the result codes -/

/-- The result codes that the lexer produces. -/
def EvalResult.lexical : EvalResult → Bool
  | .OK => true
  | .ILLEGAL_CHARACTER => true
  | .INVALID_LITERAL => true
  | .NAME_TOO_LONG => true
  | _ => false

/-- No callback of the hooks returns the result code `r`: neither a function
that `get_func` resolves, nor `get_variable`. -/
def HooksNever {α U : Type} (r : EvalResult) (hooks : Option (EvalHooks α U)) : Prop :=
  ∀ hk, hooks = some hk →
    (∀ gf, hk.get_func = some gf → ∀ n ud f, gf n ud = some f →
      ∀ (x : α) (ud' : U) (o : α), (f x ud' o).1 ≠ r) ∧
    (∀ gv, hk.get_variable = some gv → ∀ n ud (o : α), (gv n ud o).1 ≠ r)

/-- On contexts with the hooks `hooks`, `pe` never returns the code `r`. -/
def PENever {α U : Type} (r : EvalResult) (hooks : Option (EvalHooks α U))
    (pe : EvalContext α U → α → Option (EvalResult × EvalContext α U × α)) : Prop :=
  ∀ (c x : EvalContext α U) (out v : α) (res : EvalResult),
    c.hooks = hooks → pe c out = some (res, x, v) → res ≠ r

end Eval

namespace Eval

/-! ## The lexer with a watched cursor

`get_char` and `put_char` once more, refusing the moves of the cursor that
the C code must not make, and the functions of the lexer once more on top of
them, line by line as above. -/

/-- The index of the first terminator of the text; a text that holds none is
terminated behind its last character. -/
def nul_index : List Char → Nat
  | [] => 0
  | c :: cs => if c = NUL then 0 else nul_index cs + 1

/-- The outcome of a run whose cursor is watched: a result; no result (a loop
budget ran out, or the run reached a step whose behaviour is undefined in C,
as the unwatched run does); or a fault: a character read behind the first
terminator, or the cursor stepped back from the start of the text. -/
inductive Watched (β : Type) where
  | done (b : β)
  | stuck
  | fault

def Watched.bind {β γ : Type} : Watched β → (β → Watched γ) → Watched γ
  | .done b, f => f b
  | .stuck, _ => .stuck
  | .fault, _ => .fault

/-- The function `get_char`, a fault when the character read lies behind the
first terminator. -/
def get_char_checked {α U : Type} (ctx : EvalContext α U) : Watched (Char × EvalContext α U) :=
  if ctx.pos ≤ nul_index ctx.input then .done (get_char ctx) else .fault

/-- The function `put_char`, a fault when the cursor is at the start of the
text. -/
def put_char_checked {α U : Type} (ctx : EvalContext α U) : Watched (EvalContext α U) :=
  if 1 ≤ ctx.pos then .done (put_char ctx) else .fault

def get_number_int_loop_checked {α U : Type} (A : Arith α) :
    Nat → α → Char → EvalContext α U → Watched (α × Char × EvalContext α U)
  | 0, _, _, _ => .stuck
  | fuel + 1, value, c, ctx =>
    let value := A.add (A.mul value (A.ofNat 10)) (A.ofNat (digit_value c))
    (get_char_checked ctx).bind fun (c, ctx) =>
    if is_digit c then get_number_int_loop_checked A fuel value c ctx
    else .done (value, c, ctx)

def get_number_frac_loop_checked {α U : Type} (A : Arith α) :
    Nat → α → Int → Char → EvalContext α U → Watched (α × Int × Char × EvalContext α U)
  | 0, _, _, _, _ => .stuck
  | fuel + 1, value, exp, c, ctx =>
    let value := A.add (A.mul value (A.ofNat 10)) (A.ofNat (digit_value c))
    let exp := exp - 1
    (get_char_checked ctx).bind fun (c, ctx) =>
    if is_digit c then get_number_frac_loop_checked A fuel value exp c ctx
    else .done (value, exp, c, ctx)

def get_number_exp_loop_checked {α U : Type} :
    Nat → Int → Char → EvalContext α U → Watched (Int × Char × EvalContext α U)
  | 0, _, _, _ => .stuck
  | fuel + 1, int_val, c, ctx =>
    let int_val := int_val * 10 + (digit_value c : Int)
    if int_val > INT_MAX then .stuck
    else
      (get_char_checked ctx).bind fun (c, ctx) =>
      if is_digit c then get_number_exp_loop_checked fuel int_val c ctx
      else .done (int_val, c, ctx)

def get_number_scale_checked {α U : Type} (A : Arith α) (value : α) (exp : Int)
    (ctx : EvalContext α U) : Watched (EvalResult × EvalContext α U) :=
  match scale A value exp with
  | none => .stuck
  | some value =>
    (put_char_checked ctx).bind fun ctx =>
    .done (EvalResult.OK, { ctx with token := EvalToken.NUMBER value })

def get_number_exp_checked {α U : Type} (A : Arith α) (fuel : Nat) (value : α) (exp : Int)
    (c : Char) (ctx : EvalContext α U) : Watched (EvalResult × EvalContext α U) :=
  if is_exp c then
    let exp_neg := false
    (get_char_checked ctx).bind fun (c, ctx) =>
    (if c = '-' then
        (get_char_checked ctx).bind fun (c, ctx) => .done (true, c, ctx)
      else if c = '+' then
        (get_char_checked ctx).bind fun (c, ctx) => .done (exp_neg, c, ctx)
      else .done (exp_neg, c, ctx)).bind fun (exp_neg, c, ctx) =>
    let int_val : Int := 0
    if !is_digit c then .done (EvalResult.INVALID_LITERAL, ctx)
    else
      (get_number_exp_loop_checked fuel int_val c ctx).bind fun (int_val, _, ctx) =>
      let exp := if exp_neg then exp - int_val else exp + int_val
      get_number_scale_checked A value exp ctx
  else get_number_scale_checked A value exp ctx

def get_number_frac_checked {α U : Type} (A : Arith α) (fuel : Nat) (value : α) (exp : Int)
    (c : Char) (ctx : EvalContext α U) : Watched (EvalResult × EvalContext α U) :=
  if is_dp c then
    (get_char_checked ctx).bind fun (c, ctx) =>
    if !is_digit c then .done (EvalResult.INVALID_LITERAL, ctx)
    else
      (get_number_frac_loop_checked A fuel value exp c ctx).bind fun (value, exp, c, ctx) =>
      get_number_exp_checked A fuel value exp c ctx
  else get_number_exp_checked A fuel value exp c ctx

def get_number_checked {α U : Type} (A : Arith α) (ctx : EvalContext α U) :
    Watched (EvalResult × EvalContext α U) :=
  let fuel := ctx.input.length + 1
  let value := A.ofNat 0
  let exp : Int := 0
  (get_char_checked ctx).bind fun (c, ctx) =>
  if !is_dp c then
    if !is_digit c then .done (EvalResult.INVALID_LITERAL, ctx)
    else
      (get_number_int_loop_checked A fuel value c ctx).bind fun (value, c, ctx) =>
      get_number_frac_checked A fuel value exp c ctx
  else get_number_frac_checked A fuel value exp c ctx

def get_name_loop_checked {α U : Type} (cfg : Config) :
    Nat → List Char → EvalContext α U → Watched (EvalResult × List Char × EvalContext α U)
  | 0, _, _ => .stuck
  | fuel + 1, name, ctx =>
    (get_char_checked ctx).bind fun (c, ctx) =>
    if !is_name c then .done (EvalResult.OK, name, ctx)
    else if name.length ≥ cfg.EVAL_MAX_NAME_LENGTH - 1 then
      .done (EvalResult.NAME_TOO_LONG, name, ctx)
    else get_name_loop_checked cfg fuel (name ++ [c]) ctx

def get_name_checked {α U : Type} (cfg : Config) (ctx : EvalContext α U)
    (type : List Char → EvalToken α) : Watched (EvalResult × EvalContext α U) :=
  (get_name_loop_checked cfg (ctx.input.length + 1) [] ctx).bind fun (result, name, ctx) =>
  if result ≠ EvalResult.OK then .done (result, ctx)
  else
    (put_char_checked ctx).bind fun ctx =>
    .done (EvalResult.OK, { ctx with token := type name })

def get_token_loop_checked {α U : Type} (A : Arith α) (cfg : Config) :
    Nat → EvalContext α U → Watched (EvalResult × EvalContext α U)
  | 0, _ => .stuck
  | fuel + 1, ctx =>
    (get_char_checked ctx).bind fun (c, ctx) =>
    if c = NUL then
      (put_char_checked ctx).bind fun ctx =>
      .done (EvalResult.OK, { ctx with token := EvalToken.END })
    else if c ≤ ' ' then get_token_loop_checked A cfg fuel ctx
    else if is_digit c || is_dp c then
      (put_char_checked ctx).bind fun ctx =>
      get_number_checked A ctx
    else if is_name_start c then
      (put_char_checked ctx).bind fun ctx =>
      get_name_checked cfg ctx EvalToken.FUNC
    else if c = '$' then get_name_checked cfg ctx EvalToken.VARIABLE
    else if c = '>' then
      (get_char_checked ctx).bind fun (next_c, ctx) =>
      if next_c = '=' then .done (EvalResult.OK, { ctx with token := EvalToken.GE })
      else
        (put_char_checked ctx).bind fun ctx =>
        .done (EvalResult.OK, { ctx with token := EvalToken.G })
    else if c = '<' then
      (get_char_checked ctx).bind fun (next_c, ctx) =>
      if next_c = '=' then .done (EvalResult.OK, { ctx with token := EvalToken.LE })
      else
        (put_char_checked ctx).bind fun ctx =>
        .done (EvalResult.OK, { ctx with token := EvalToken.L })
    else if c = '=' then
      (get_char_checked ctx).bind fun (next_c, ctx) =>
      let ctx := { ctx with token := EvalToken.E }
      if next_c ≠ '=' then (put_char_checked ctx).bind fun ctx => .done (EvalResult.OK, ctx)
      else .done (EvalResult.OK, ctx)
    else if c = '+' then .done (EvalResult.OK, { ctx with token := EvalToken.ADD })
    else if c = '-' then .done (EvalResult.OK, { ctx with token := EvalToken.SUBTRACT })
    else if c = '*' then .done (EvalResult.OK, { ctx with token := EvalToken.MULTIPLY })
    else if c = '/' then .done (EvalResult.OK, { ctx with token := EvalToken.DIVIDE })
    else if c = '(' then .done (EvalResult.OK, { ctx with token := EvalToken.OPEN_BRACKET })
    else if c = ')' then .done (EvalResult.OK, { ctx with token := EvalToken.CLOSE_BRACKET })
    else .done (EvalResult.ILLEGAL_CHARACTER, ctx)

def get_token_checked {α U : Type} (A : Arith α) (cfg : Config) (ctx : EvalContext α U) :
    Watched (EvalResult × EvalContext α U) :=
  get_token_loop_checked A cfg (ctx.input.length + 1) ctx

/-- The text holds ten digits in a row: from the index `s` on. -/
def LongRun (e : List Char) : Prop :=
  ∃ s, ∀ j, j < 10 → is_digit (e.getD (s + j) NUL) = true

/-- No ten digits in a row in the text: from every index, one of the next ten
characters is not a digit.  An exponent written in such a text has at most
nine digits, and is below `2^31`. -/
def short_runs (e : List Char) : Bool :=
  (List.range e.length).all fun s =>
    (List.range 10).any fun j => !is_digit (e.getD (s + j) NUL)

/-- The cursor is on the first terminator or before it. -/
def Inside {α U : Type} (ctx : EvalContext α U) : Prop :=
  ctx.pos ≤ nul_index ctx.input

/-- The character `c` is the one last read in the context `ctx`, and it was
read at an index no greater than that of the first terminator. -/
def After {α U : Type} (c : Char) (ctx : EvalContext α U) : Prop :=
  1 ≤ ctx.pos ∧ ctx.pos ≤ nul_index ctx.input + 1 ∧ c = ctx.input.getD (ctx.pos - 1) NUL

end Eval

namespace Eval

/-! ## The parser with a watched cursor

The functions of the parser once more, line by line as above, on top of
`get_token_checked`. -/

def parse_term_checked {α U : Type} (A : Arith α) (cfg : Config)
    (parse_expr : EvalContext α U → α → Watched (EvalResult × EvalContext α U × α))
    (ctx : EvalContext α U) (output : α) : Watched (EvalResult × EvalContext α U × α) :=
  match ctx.token with
  | .NUMBER number =>
    let output := number
    (get_token_checked A cfg ctx).bind fun (result, ctx) => .done (result, ctx, output)
  | .OPEN_BRACKET =>
    (get_token_checked A cfg ctx).bind fun (result, ctx) =>
    if result ≠ EvalResult.OK then .done (result, ctx, output)
    else
      (parse_expr ctx output).bind fun (result, ctx, output) =>
      if result ≠ EvalResult.OK then .done (result, ctx, output)
      else if ctx.token.type ≠ EvalTokenType.CLOSE_BRACKET then
        .done (EvalResult.EXPECTED_CLOSE_BRACKET, ctx, output)
      else
        (get_token_checked A cfg ctx).bind fun (result, ctx) => .done (result, ctx, output)
  | .FUNC name =>
    match ctx.hooks.bind (fun hooks => hooks.get_func) with
    | none => .done (EvalResult.UNDEFINED_FUNCTION, ctx, output)
    | some get_func =>
      match get_func name ctx.user_data with
      | none => .done (EvalResult.UNDEFINED_FUNCTION, ctx, output)
      | some func =>
        (get_token_checked A cfg ctx).bind fun (result, ctx) =>
        if result ≠ EvalResult.OK then .done (result, ctx, output)
        else if ctx.token.type ≠ EvalTokenType.OPEN_BRACKET then
          .done (EvalResult.EXPECTED_OPEN_BRACKET, ctx, output)
        else
          (get_token_checked A cfg ctx).bind fun (result, ctx) =>
          if result ≠ EvalResult.OK then .done (result, ctx, output)
          else
            let arg := A.ofNat 0
            (parse_expr ctx arg).bind fun (result, ctx, arg) =>
            if result ≠ EvalResult.OK then .done (result, ctx, output)
            else if ctx.token.type ≠ EvalTokenType.CLOSE_BRACKET then
              .done (EvalResult.EXPECTED_CLOSE_BRACKET, ctx, output)
            else
              let (result, output) := func arg ctx.user_data output
              if result ≠ EvalResult.OK then .done (result, ctx, output)
              else
                (get_token_checked A cfg ctx).bind fun (result, ctx) =>
                .done (result, ctx, output)
  | .VARIABLE name =>
    match ctx.hooks.bind (fun hooks => hooks.get_variable) with
    | none => .done (EvalResult.UNDEFINED_VARIABLE, ctx, output)
    | some get_variable =>
      let (result, output) := get_variable name ctx.user_data output
      if result ≠ EvalResult.OK then .done (result, ctx, output)
      else
        (get_token_checked A cfg ctx).bind fun (result, ctx) => .done (result, ctx, output)
  | _ => .done (EvalResult.EXPECTED_TERM, ctx, output)

def parse_unary_loop_checked {α U : Type} (A : Arith α) (cfg : Config) :
    Nat → Bool → EvalContext α U → Watched (EvalResult × Bool × EvalContext α U)
  | 0, _, _ => .stuck
  | fuel + 1, neg, ctx =>
    if ctx.token.type = EvalTokenType.SUBTRACT then
      let neg := !neg
      (get_token_checked A cfg ctx).bind fun (result, ctx) =>
      if result ≠ EvalResult.OK then .done (result, neg, ctx)
      else parse_unary_loop_checked A cfg fuel neg ctx
    else .done (EvalResult.OK, neg, ctx)

def parse_unary_checked {α U : Type} (A : Arith α) (cfg : Config)
    (parse_expr : EvalContext α U → α → Watched (EvalResult × EvalContext α U × α))
    (ctx : EvalContext α U) (output : α) : Watched (EvalResult × EvalContext α U × α) :=
  let neg := false
  let value := A.ofNat 0
  (parse_unary_loop_checked A cfg (ctx.input.length + 1) neg ctx).bind fun (result, neg, ctx) =>
  if result ≠ EvalResult.OK then .done (result, ctx, output)
  else
    (parse_term_checked A cfg parse_expr ctx value).bind fun (result, ctx, value) =>
    if result ≠ EvalResult.OK then .done (result, ctx, output)
    else
      let value := if neg then A.neg value else value
      .done (EvalResult.OK, ctx, value)

def parse_product_loop_checked {α U : Type} (A : Arith α) (cfg : Config)
    (parse_expr : EvalContext α U → α → Watched (EvalResult × EvalContext α U × α)) :
    Nat → EvalContext α U → α → α → Watched (EvalResult × EvalContext α U × α)
  | 0, _, _, _ => .stuck
  | fuel + 1, ctx, lhs, rhs =>
    let type := ctx.token.type
    if ctx.token.type = EvalTokenType.MULTIPLY then
      (get_token_checked A cfg ctx).bind fun (result, ctx) =>
      if result ≠ EvalResult.OK then .done (result, ctx, lhs)
      else
        (parse_unary_checked A cfg parse_expr ctx rhs).bind fun (result, ctx, rhs) =>
        if result ≠ EvalResult.OK then .done (result, ctx, lhs)
        else parse_product_loop_checked A cfg parse_expr fuel ctx (A.mul lhs rhs) rhs
    else if ctx.token.type = EvalTokenType.DIVIDE then
      (get_token_checked A cfg ctx).bind fun (result, ctx) =>
      if result ≠ EvalResult.OK then .done (result, ctx, lhs)
      else
        (parse_unary_checked A cfg parse_expr ctx rhs).bind fun (result, ctx, rhs) =>
        if result ≠ EvalResult.OK then .done (result, ctx, lhs)
        else parse_product_loop_checked A cfg parse_expr fuel ctx (A.div lhs rhs) rhs
    else if type = EvalTokenType.E ∨ type = EvalTokenType.LE ∨ type = EvalTokenType.L
        ∨ type = EvalTokenType.GE ∨ type = EvalTokenType.G then
      (get_token_checked A cfg ctx).bind fun (result, ctx) =>
      if result ≠ EvalResult.OK then .done (result, ctx, lhs)
      else
        (parse_unary_checked A cfg parse_expr ctx rhs).bind fun (result, ctx, rhs) =>
        if result ≠ EvalResult.OK then .done (result, ctx, lhs)
        else
          parse_product_loop_checked A cfg parse_expr fuel ctx (relational A type lhs rhs) rhs
    else .done (EvalResult.OK, ctx, lhs)

def parse_product_checked {α U : Type} (A : Arith α) (cfg : Config)
    (parse_expr : EvalContext α U → α → Watched (EvalResult × EvalContext α U × α))
    (ctx : EvalContext α U) (output : α) : Watched (EvalResult × EvalContext α U × α) :=
  let fuel := ctx.input.length + 1
  let lhs := A.ofNat 0
  let rhs := A.ofNat 0
  (parse_unary_checked A cfg parse_expr ctx lhs).bind fun (result, ctx, lhs) =>
  if result ≠ EvalResult.OK then .done (result, ctx, output)
  else
    (parse_product_loop_checked A cfg parse_expr fuel ctx lhs rhs).bind fun (result, ctx, lhs) =>
    if result ≠ EvalResult.OK then .done (result, ctx, output)
    else .done (EvalResult.OK, ctx, lhs)

def parse_sum_loop_checked {α U : Type} (A : Arith α) (cfg : Config)
    (parse_expr : EvalContext α U → α → Watched (EvalResult × EvalContext α U × α)) :
    Nat → EvalContext α U → α → α → Watched (EvalResult × EvalContext α U × α)
  | 0, _, _, _ => .stuck
  | fuel + 1, ctx, lhs, rhs =>
    let type := ctx.token.type
    if type = EvalTokenType.ADD then
      (get_token_checked A cfg ctx).bind fun (result, ctx) =>
      if result ≠ EvalResult.OK then .done (result, ctx, lhs)
      else
        (parse_product_checked A cfg parse_expr ctx rhs).bind fun (result, ctx, rhs) =>
        if result ≠ EvalResult.OK then .done (result, ctx, lhs)
        else parse_sum_loop_checked A cfg parse_expr fuel ctx (A.add lhs rhs) rhs
    else if type = EvalTokenType.SUBTRACT then
      (get_token_checked A cfg ctx).bind fun (result, ctx) =>
      if result ≠ EvalResult.OK then .done (result, ctx, lhs)
      else
        (parse_product_checked A cfg parse_expr ctx rhs).bind fun (result, ctx, rhs) =>
        if result ≠ EvalResult.OK then .done (result, ctx, lhs)
        else parse_sum_loop_checked A cfg parse_expr fuel ctx (A.sub lhs rhs) rhs
    else .done (EvalResult.OK, ctx, lhs)

def parse_sum_checked {α U : Type} (A : Arith α) (cfg : Config)
    (parse_expr : EvalContext α U → α → Watched (EvalResult × EvalContext α U × α))
    (ctx : EvalContext α U) (output : α) : Watched (EvalResult × EvalContext α U × α) :=
  let fuel := ctx.input.length + 1
  let lhs := A.ofNat 0
  let rhs := A.ofNat 0
  (parse_product_checked A cfg parse_expr ctx lhs).bind fun (result, ctx, lhs) =>
  if result ≠ EvalResult.OK then .done (result, ctx, output)
  else
    (parse_sum_loop_checked A cfg parse_expr fuel ctx lhs rhs).bind fun (result, ctx, lhs) =>
    if result ≠ EvalResult.OK then .done (result, ctx, output)
    else .done (EvalResult.OK, ctx, lhs)

def parse_expr_checked {α U : Type} (A : Arith α) (cfg : Config) :
    Nat → EvalContext α U → α → Watched (EvalResult × EvalContext α U × α)
  | 0, _, _ => .stuck
  | fuel + 1, ctx, output =>
    if ctx.stack_level ≥ cfg.EVAL_MAX_STACK_DEPTH then
      .done (EvalResult.STACK_OVERFLOW, ctx, output)
    else
      let ctx := { ctx with stack_level := ctx.stack_level + 1 }
      (parse_sum_checked A cfg (parse_expr_checked A cfg fuel) ctx output).bind
        fun (result, ctx, output) =>
      let ctx := { ctx with stack_level := ctx.stack_level - 1 }
      .done (result, ctx, output)

def eval_execute_checked {α U : Type} (A : Arith α) (cfg : Config) (expression : List Char)
    (hooks : Option (EvalHooks α U)) (user_data : U) (output : α) :
    Watched (EvalResult × α) :=
  let ctx : EvalContext α U :=
    { hooks := hooks, user_data := user_data, input := expression, pos := 0,
      stack_level := 0, token := EvalToken.END }
  (get_token_checked A cfg ctx).bind fun (result, ctx) =>
  if result ≠ EvalResult.OK then .done (result, output)
  else
    (parse_expr_checked A cfg (cfg.EVAL_MAX_STACK_DEPTH + 1) ctx output).bind
      fun (result, ctx, output) =>
    if result ≠ EvalResult.OK then .done (result, output)
    else if ctx.token.type = EvalTokenType.END then .done (EvalResult.OK, output)
    else .done (EvalResult.UNEXPECTED_CHAR, output)

/-- The cursor is inside the text, and behind its start when a token has been
read that is not `END`. -/
def Lexed {α U : Type} (ctx : EvalContext α U) : Prop :=
  Inside ctx ∧ (ctx.token.type ≠ EvalTokenType.END → 1 ≤ ctx.pos)

/-- A bound on the number of tokens still to be read: none after `END`, and
otherwise at most one for each character from the cursor up to the first
terminator, and one for `END`. -/
def room {α U : Type} (ctx : EvalContext α U) : Nat :=
  if ctx.token.type = EvalTokenType.END then 0 else nul_index ctx.input + 1 - ctx.pos

/-- What a run of the parser from the context `ctx` guarantees about its
result `r`: the hooks, the user data, the text and the recursion depth are
those of `ctx`, the cursor is at most one behind the first terminator, and on
`OK` it is inside the text and no more tokens are left to read than before. -/
def ParsePost {α U : Type} (ctx : EvalContext α U) (r : EvalResult × EvalContext α U × α) :
    Prop :=
  Frame ctx r.2.1 ∧ r.2.1.pos ≤ nul_index ctx.input + 1 ∧
    (r.1 = EvalResult.OK → Lexed r.2.1 ∧ room r.2.1 ≤ room ctx)

/-- On the contexts of recursion depth `l` that the lexer has left, either
`pe` and its twin `pe_checked` with the watched cursor both give no result,
the text holding ten digits in a row, or `pe` returns, `pe_checked` returns
the same, and the result is as `ParsePost` says. -/
def SafePE {α U : Type} (l : Nat)
    (pe : EvalContext α U → α → Option (EvalResult × EvalContext α U × α))
    (pe_checked : EvalContext α U → α → Watched (EvalResult × EvalContext α U × α)) : Prop :=
  ∀ (ctx : EvalContext α U) (out : α), Lexed ctx → ctx.stack_level = l →
    (pe ctx out = none ∧ pe_checked ctx out = Watched.stuck ∧ LongRun ctx.input) ∨
    ∃ r, pe ctx out = some r ∧ pe_checked ctx out = Watched.done r ∧ ParsePost ctx r

end Eval

namespace Eval

variable {α U : Type}

/-! ## Reading characters -/

@[simp] theorem peek_cons (c : Char) (R : List Char) : peek (c :: R) = c := rfl

@[simp] theorem peek_nil : peek [] = NUL := rfl

theorem getD_eq_peek_drop (l : List Char) (p : Nat) :
    l.getD p NUL = peek (l.drop p) := by
  induction l generalizing p with
  | nil => simp [peek]
  | cons a l ih =>
    cases p with
    | zero => simp [peek]
    | succ p =>
      have := ih p
      simp only [List.getD_eq_getElem?_getD] at this
      simp [this]

theorem get_char_eq (ctx : EvalContext α U) :
    get_char ctx = (peek (ctx.input.drop ctx.pos), { ctx with pos := ctx.pos + 1 }) := by
  simp only [get_char, getD_eq_peek_drop]

theorem drop_succ_of_drop {l : List Char} {p : Nat} {S : List Char} (h : l.drop p = S) :
    l.drop (p + 1) = S.tail := by
  rw [← h]; simp [List.tail_drop]

/-! ## Character classes -/

theorem digit_char_facts : ∀ d : Fin 10,
    is_digit (digit_char d) = true ∧ digit_value (digit_char d) = d.val ∧
    is_dp (digit_char d) = false ∧ digit_char d ≠ NUL ∧ ¬ (digit_char d ≤ ' ') ∧
    is_exp (digit_char d) = false ∧ digit_char d ≠ '-' ∧ digit_char d ≠ '+' := by
  decide

theorem is_blank_facts {c : Char} (h : is_blank c = true) :
    c ≠ NUL ∧ c ≤ ' ' ∧ is_digit c = false ∧ is_dp c = false ∧ is_exp c = false := by
  simp only [is_blank, Bool.and_eq_true, decide_eq_true_eq] at h
  obtain ⟨h0, h1⟩ := h
  refine ⟨h0, h1, ?_, ?_, ?_⟩
  · simp only [is_digit, Bool.and_eq_false_iff, decide_eq_false_iff_not]
    left
    intro h2
    have := le_trans h2 h1
    revert this; decide
  · simp only [is_dp, decide_eq_false_iff_not]
    rintro rfl
    revert h1; decide
  · simp only [is_exp, Bool.or_eq_false_iff, decide_eq_false_iff_not]
    constructor <;> (rintro rfl; revert h1; decide)

/-! ## The digit loops of `get_number` -/

theorem get_number_int_loop_digits (A : Arith α) (R : List Char)
    (hR : is_digit (peek R) = false) :
    ∀ (ds : List (Fin 10)) (d : Fin 10) (value : α) (ctx : EvalContext α U) (fuel : Nat),
      ctx.input.drop ctx.pos = ds.map digit_char ++ R → ds.length < fuel →
      get_number_int_loop A fuel value (digit_char d) ctx =
        some (digits_value A value (d :: ds), peek R,
          { ctx with pos := ctx.pos + (ds.length + 1) }) := by
  intro ds
  induction ds with
  | nil =>
    intro d value ctx fuel h hf
    obtain ⟨fuel, rfl⟩ : ∃ f, fuel = f + 1 := ⟨fuel - 1, by simp at hf; omega⟩
    simp only [List.map_nil, List.nil_append] at h
    simp [get_number_int_loop, get_char_eq, h, hR, digits_value, (digit_char_facts d).2.1]
  | cons d' ds ih =>
    intro d value ctx fuel h hf
    obtain ⟨fuel, rfl⟩ : ∃ f, fuel = f + 1 := ⟨fuel - 1, by simp at hf; omega⟩
    simp only [List.map_cons, List.cons_append] at h
    have h' := drop_succ_of_drop h
    simp only [List.tail_cons] at h'
    have := ih d' (A.add (A.mul value (A.ofNat 10)) (A.ofNat d.val))
      { ctx with pos := ctx.pos + 1 } fuel h' (by simpa using hf)
    simp only [get_number_int_loop, get_char_eq, h, peek_cons, (digit_char_facts d').1,
      if_true, (digit_char_facts d).2.1, this]
    simp [digits_value, Nat.add_assoc, Nat.add_comm]

theorem get_number_frac_loop_digits (A : Arith α) (R : List Char)
    (hR : is_digit (peek R) = false) :
    ∀ (ds : List (Fin 10)) (d : Fin 10) (value : α) (exp : Int) (ctx : EvalContext α U)
      (fuel : Nat),
      ctx.input.drop ctx.pos = ds.map digit_char ++ R → ds.length < fuel →
      get_number_frac_loop A fuel value exp (digit_char d) ctx =
        some (digits_value A value (d :: ds), exp - ((ds.length + 1 : Nat) : Int), peek R,
          { ctx with pos := ctx.pos + (ds.length + 1) }) := by
  intro ds
  induction ds with
  | nil =>
    intro d value exp ctx fuel h hf
    obtain ⟨fuel, rfl⟩ : ∃ f, fuel = f + 1 := ⟨fuel - 1, by simp at hf; omega⟩
    simp only [List.map_nil, List.nil_append] at h
    simp [get_number_frac_loop, get_char_eq, h, hR, digits_value, (digit_char_facts d).2.1]
  | cons d' ds ih =>
    intro d value exp ctx fuel h hf
    obtain ⟨fuel, rfl⟩ : ∃ f, fuel = f + 1 := ⟨fuel - 1, by simp at hf; omega⟩
    simp only [List.map_cons, List.cons_append] at h
    have h' := drop_succ_of_drop h
    simp only [List.tail_cons] at h'
    have := ih d' (A.add (A.mul value (A.ofNat 10)) (A.ofNat d.val)) (exp - 1)
      { ctx with pos := ctx.pos + 1 } fuel h' (by simpa using hf)
    simp only [get_number_frac_loop, get_char_eq, h, peek_cons, (digit_char_facts d').1,
      if_true, (digit_char_facts d).2.1, this]
    simp only [digits_value, List.foldl_cons, List.length_cons, Option.some.injEq, Prod.mk.injEq,
      true_and, Nat.cast_add, Nat.cast_one]
    refine ⟨by ring, ?_⟩
    simp [Nat.add_assoc, Nat.add_comm]

theorem foldl_int_ge (ds : List (Fin 10)) :
    ∀ v : Int, 0 ≤ v → v ≤ ds.foldl (fun v d => v * 10 + (d.val : Int)) v := by
  induction ds with
  | nil => intro v _; exact le_refl _
  | cons d ds ih =>
    intro v hv
    simp only [List.foldl_cons]
    have h1 : 0 ≤ v * 10 + (d.val : Int) := by positivity
    have h2 := ih _ h1
    have h3 : (0 : Int) ≤ (d.val : Int) := by positivity
    omega

theorem digits_int_nat (ds : List (Fin 10)) : digits_int ds = (digits_nat ds : Int) := by
  have : ∀ (ds : List (Fin 10)) (n : Nat),
      ds.foldl (fun v d => v * 10 + (d.val : Int)) (n : Int) =
        ((ds.foldl (fun n d => n * 10 + d.val) n : Nat) : Int) := by
    intro ds
    induction ds with
    | nil => intro n; rfl
    | cons d ds ih =>
      intro n
      simp only [List.foldl_cons]
      rw [← ih]
      congr 1
  simpa [digits_int, digits_nat] using this ds 0

/-- The exponent loop on a run of digits that does not overflow the
accumulator. -/
theorem get_number_exp_loop_digits (R : List Char)
    (hR : is_digit (peek R) = false) :
    ∀ (ds : List (Fin 10)) (d : Fin 10) (int_val : Int) (ctx : EvalContext α U) (fuel : Nat),
      ctx.input.drop ctx.pos = ds.map digit_char ++ R → ds.length < fuel → 0 ≤ int_val →
      (d :: ds).foldl (fun v d => v * 10 + (d.val : Int)) int_val ≤ INT_MAX →
      get_number_exp_loop fuel int_val (digit_char d) ctx =
        some ((d :: ds).foldl (fun v d => v * 10 + (d.val : Int)) int_val,
          peek R, { ctx with pos := ctx.pos + (ds.length + 1) }) := by
  intro ds
  induction ds with
  | nil =>
    intro d int_val ctx fuel h hf h0 hfit
    obtain ⟨fuel, rfl⟩ : ∃ f, fuel = f + 1 := ⟨fuel - 1, by simp at hf; omega⟩
    simp only [List.map_nil, List.nil_append] at h
    simp only [List.foldl_cons, List.foldl_nil] at hfit
    have hno : ¬ (int_val * 10 + ((d.val : Nat) : Int) > INT_MAX) := not_lt.mpr hfit
    simp [get_number_exp_loop, get_char_eq, h, hR, (digit_char_facts d).2.1, hno]
  | cons d' ds ih =>
    intro d int_val ctx fuel h hf h0 hfit
    obtain ⟨fuel, rfl⟩ : ∃ f, fuel = f + 1 := ⟨fuel - 1, by simp at hf; omega⟩
    simp only [List.map_cons, List.cons_append] at h
    have h' := drop_succ_of_drop h
    simp only [List.tail_cons] at h'
    have h1 : 0 ≤ int_val * 10 + ((d.val : Nat) : Int) := by positivity
    have hfit' : (d' :: ds).foldl (fun v d => v * 10 + (d.val : Int))
        (int_val * 10 + ((d.val : Nat) : Int)) ≤ INT_MAX := by
      simpa only [List.foldl_cons] using hfit
    have hno : ¬ (int_val * 10 + ((d.val : Nat) : Int) > INT_MAX) := by
      have := foldl_int_ge (d' :: ds) _ h1
      exact not_lt.mpr (le_trans this hfit')
    have := ih d' (int_val * 10 + (d.val : Int))
      { ctx with pos := ctx.pos + 1 } fuel h' (by simpa using hf) h1 hfit'
    simp only [get_number_exp_loop, get_char_eq, h, peek_cons, (digit_char_facts d').1,
      if_true, (digit_char_facts d).2.1, hno, if_false, this]
    simp [Nat.add_assoc, Nat.add_comm]

/-! ## The squaring loops never use up their budget -/

theorem scale_mul_loop_isSome (A : Arith α) :
    ∀ (fuel exp : Nat) (value power : α), exp ≤ fuel →
      ∃ v, scale_mul_loop A fuel exp value power = some v := by
  intro fuel
  induction fuel with
  | zero =>
    intro exp value power h
    have : exp = 0 := by omega
    subst this
    exact ⟨value, by simp [scale_mul_loop]⟩
  | succ fuel ih =>
    intro exp value power h
    by_cases h0 : exp = 0
    · exact ⟨value, by simp [scale_mul_loop, h0]⟩
    · simp only [scale_mul_loop, h0, if_false]
      exact ih _ _ _ (by omega)

theorem scale_div_loop_isSome (A : Arith α) :
    ∀ (fuel exp : Nat) (value power : α), exp ≤ fuel →
      ∃ v, scale_div_loop A fuel exp value power = some v := by
  intro fuel
  induction fuel with
  | zero =>
    intro exp value power h
    have : exp = 0 := by omega
    subst this
    exact ⟨value, by simp [scale_div_loop]⟩
  | succ fuel ih =>
    intro exp value power h
    by_cases h0 : exp = 0
    · exact ⟨value, by simp [scale_div_loop, h0]⟩
    · simp only [scale_div_loop, h0, if_false]
      exact ih _ _ _ (by omega)

theorem scale_isSome (A : Arith α) (value : α) (exp : Int) :
    ∃ v, scale A value exp = some v := by
  unfold scale
  by_cases h : exp < 0
  · simp only [h, if_true]
    exact scale_div_loop_isSome A _ _ _ _ (le_refl _)
  · simp only [h, if_false]
    exact scale_mul_loop_isSome A _ _ _ _ (le_refl _)

theorem scale_eq_value (A : Arith α) (l : Literal) :
    scale A (l.mantissa A) l.exponent = some (l.value A) := by
  obtain ⟨v, hv⟩ := scale_isSome A (l.mantissa A) l.exponent
  simp [Literal.value, hv]

/-! ## `get_number` on a literal -/

theorem get_number_scale_eq (A : Arith α) (l : Literal) (ctx : EvalContext α U) :
    get_number_scale A (l.mantissa A) l.exponent ctx =
      some (EvalResult.OK, { ctx with pos := ctx.pos - 1, token := EvalToken.NUMBER (l.value A) }) := by
  simp [get_number_scale, scale_eq_value, put_char]

theorem length_le_of_drop_eq {l : List Char} {p : Nat} {T R : List Char}
    (h : l.drop p = T ++ R) : T.length ≤ l.length := by
  have := congrArg List.length h
  simp only [List.length_drop, List.length_append] at this
  omega

theorem ctx_pos_congr (ctx : EvalContext α U) {p q : Nat} (h : p = q) :
    ({ ctx with pos := p } : EvalContext α U) = { ctx with pos := q } := by
  rw [h]

theorem get_number_exp_spec (A : Arith α) (ox : Option Exponent)
    (hwf : ∀ x, ox = some x → x.digits ≠ [])
    (hfit : ∀ x, ox = some x → digits_nat x.digits < 2 ^ 31) (value : α) (exp : Int)
    (ctx : EvalContext α U) (R : List Char) (fuel : Nat)
    (h : ctx.input.drop ctx.pos = exp_text ox ++ R)
    (hd : is_digit (peek R) = false) (he : ox = none → is_exp (peek R) = false)
    (hf : ctx.input.length < fuel) :
    get_number_exp A fuel value exp (peek (ctx.input.drop ctx.pos))
        { ctx with pos := ctx.pos + 1 } =
      get_number_scale A value (exp_after exp ox)
        { ctx with pos := ctx.pos + (exp_text ox).length + 1 } := by
  cases ox with
  | none =>
    simp only [exp_text, List.nil_append] at h
    simp [get_number_exp, h, he rfl, exp_after, exp_text]
  | some x =>
    obtain ⟨upper, sign, digits⟩ := x
    have hne := hwf _ rfl
    have hft := hfit _ rfl
    simp only at hne hft
    obtain ⟨d, ds, rfl⟩ : ∃ d ds, digits = d :: ds := by
      cases digits with
      | nil => exact absurd rfl hne
      | cons d ds => exact ⟨d, ds, rfl⟩
    have hft' : (d :: ds).foldl (fun v d => v * 10 + (d.val : Int)) 0 ≤ INT_MAX := by
      have := digits_int_nat (d :: ds)
      simp only [digits_int] at this
      rw [this]
      simp only [INT_MAX]
      omega
    have hlen := length_le_of_drop_eq h
    simp only [exp_text, Exponent.text, List.cons_append, List.length_cons, List.length_append,
      List.length_map] at h hlen
    have hm : is_exp (if upper = true then 'E' else 'e') = true := by
      cases upper <;> decide
    have h1 := drop_succ_of_drop h
    simp only [List.tail_cons] at h1
    rw [h, peek_cons]
    simp only [get_number_exp, hm, if_true, get_char_eq]
    cases sign with
    | none =>
      simp only [sign_text, List.nil_append, List.map_cons, List.cons_append] at h1 hlen
      have h2 := drop_succ_of_drop h1
      simp only [List.tail_cons] at h2
      have hl := get_number_exp_loop_digits (α := α) (U := U) R hd ds d 0
        { ctx with pos := ctx.pos + 1 + 1 } fuel h2 (by simp at hlen; omega) (le_refl _) hft'
      simp only [h1, peek_cons, (digit_char_facts d).2.2.2.2.2.2.1,
        (digit_char_facts d).2.2.2.2.2.2.2, if_false, (digit_char_facts d).1, Bool.not_true,
        hl]
      simp [exp_after, digits_int, exp_text, Exponent.text, sign_text]
      congr 1
      exact ctx_pos_congr ctx (by omega)
    | some sg =>
      have h1' : List.drop (ctx.pos + 1) ctx.input =
          (if sg = true then '-' else '+') :: digit_char d :: (ds.map digit_char ++ R) := by
        rw [h1]; cases sg <;> simp [sign_text]
      have h2 := drop_succ_of_drop h1'
      simp only [List.tail_cons] at h2
      have h3 := drop_succ_of_drop h2
      simp only [List.tail_cons] at h3
      have hlen' : ds.length < fuel := by
        cases sg <;> simp [sign_text] at hlen <;> omega
      have hl := get_number_exp_loop_digits (α := α) (U := U) R hd ds d 0
        { ctx with pos := ctx.pos + 1 + 1 + 1 } fuel h3 hlen' (le_refl _) hft'
      cases sg with
      | true =>
        simp only [h1', peek_cons, if_true, h2, (digit_char_facts d).1, Bool.not_true, hl]
        simp [exp_after, digits_int, exp_text, Exponent.text, sign_text]
        congr 1
        exact ctx_pos_congr ctx (by omega)
      | false =>
        have : ¬ ('+' = '-') := by decide
        simp only [h1', peek_cons, if_false, this, if_true, h2, (digit_char_facts d).1,
          Bool.not_true, hl, Bool.false_eq_true]
        simp [exp_after, digits_int, exp_text, Exponent.text, sign_text]
        congr 1
        exact ctx_pos_congr ctx (by omega)

theorem drop_add_of_drop {l : List Char} {p : Nat} {T S : List Char}
    (h : l.drop p = T ++ S) : l.drop (p + T.length) = S := by
  rw [← List.drop_drop, h, List.drop_left]

theorem marker_facts (upper : Bool) :
    is_digit (if upper = true then 'E' else 'e') = false ∧
    is_dp (if upper = true then 'E' else 'e') = false := by
  cases upper <;> decide

theorem peek_exp_text_not_digit (ox : Option Exponent) (R : List Char)
    (hd : is_digit (peek R) = false) : is_digit (peek (exp_text ox ++ R)) = false := by
  cases ox with
  | none => simpa [exp_text] using hd
  | some x => simp [exp_text, Exponent.text, (marker_facts x.upper).1]

theorem get_number_frac_reach (A : Arith α) (fr : Option (List (Fin 10)))
    (hwf : ∀ f, fr = some f → f ≠ [])
    (value : α) (exp : Int) (ctx : EvalContext α U) (R : List Char) (fuel : Nat)
    (h : ctx.input.drop ctx.pos = frac_text fr ++ R)
    (hd : is_digit (peek R) = false) (hp : fr = none → is_dp (peek R) = false)
    (hf : ctx.input.length < fuel) :
    get_number_frac A fuel value exp (peek (ctx.input.drop ctx.pos))
        { ctx with pos := ctx.pos + 1 } =
      get_number_exp A fuel (digits_value A value (fr.getD []))
        (exp - ((fr.getD []).length : Int)) (peek R)
        { ctx with pos := ctx.pos + (frac_text fr).length + 1 } := by
  cases fr with
  | none =>
    simp only [frac_text, List.nil_append] at h
    have hdp : is_dp (peek (List.drop ctx.pos ctx.input)) = false := by
      rw [h]; exact hp rfl
    simp only [get_number_frac, hdp, Bool.false_eq_true, if_false]
    simp [digits_value, frac_text, h]
  | some f =>
    have hne := hwf _ rfl
    obtain ⟨d, ds, rfl⟩ : ∃ d ds, f = d :: ds := by
      cases f with
      | nil => exact absurd rfl hne
      | cons d ds => exact ⟨d, ds, rfl⟩
    simp only [frac_text, List.map_cons, List.cons_append] at h
    have hlen := length_le_of_drop_eq (T := '.' :: digit_char d :: List.map digit_char ds)
      (R := R) (by simpa using h)
    simp only [List.length_cons, List.length_map] at hlen
    have h1 := drop_succ_of_drop h
    simp only [List.tail_cons] at h1
    have h2 := drop_succ_of_drop h1
    simp only [List.tail_cons] at h2
    have hl := get_number_frac_loop_digits A R hd ds d value exp
      ({ ctx with pos := ctx.pos + 1 + 1 } : EvalContext α U) fuel h2 (by omega)
    have hdp : is_dp '.' = true := by decide
    rw [h, peek_cons]
    simp only [get_number_frac, hdp, if_true, get_char_eq, h1, peek_cons, (digit_char_facts d).1,
      Bool.not_true, Bool.false_eq_true, if_false, hl]
    simp only [Option.getD_some, List.length_cons, frac_text, List.length_map]
    congr 1
    exact ctx_pos_congr ctx (by omega)

theorem peek_frac_text_not_digit (fr : Option (List (Fin 10))) (R : List Char)
    (hd : is_digit (peek R) = false) : is_digit (peek (frac_text fr ++ R)) = false := by
  cases fr with
  | none => simpa [frac_text] using hd
  | some f => simp [frac_text]; decide

theorem get_number_reach (A : Arith α) (int : List (Fin 10)) (fr : Option (List (Fin 10)))
    (hw : int ≠ [] ∨ fr.isSome = true) (hwf : ∀ f, fr = some f → f ≠ [])
    (ctx : EvalContext α U) (R : List Char)
    (h : ctx.input.drop ctx.pos = int.map digit_char ++ (frac_text fr ++ R))
    (hd : is_digit (peek R) = false) (hp : fr = none → is_dp (peek R) = false) :
    get_number A ctx =
      get_number_exp A (ctx.input.length + 1)
        (digits_value A (digits_value A (A.ofNat 0) int) (fr.getD []))
        (-((fr.getD []).length : Int)) (peek R)
        { ctx with pos := ctx.pos + (int.length + (frac_text fr).length) + 1 } := by
  have hfuel : ctx.input.length < ctx.input.length + 1 := Nat.lt_succ_self _
  cases int with
  | nil =>
    obtain ⟨f, rfl⟩ : ∃ f, fr = some f := by
      cases fr with
      | none => simp at hw
      | some f => exact ⟨f, rfl⟩
    simp only [List.map_nil, List.nil_append] at h
    have hs := get_number_frac_reach A (some f) hwf (A.ofNat 0) 0 ctx R
      (ctx.input.length + 1) h hd hp hfuel
    have hdp : is_dp (peek (List.drop ctx.pos ctx.input)) = true := by
      rw [h]; simp [frac_text]; decide
    simp only [get_number, get_char_eq, hdp, Bool.not_true, Bool.false_eq_true, if_false, hs]
    simp [digits_value]
  | cons d ds =>
    simp only [List.map_cons, List.cons_append] at h
    have hlen := length_le_of_drop_eq (T := digit_char d :: List.map digit_char ds)
      (R := frac_text fr ++ R) (by simpa using h)
    simp only [List.length_cons, List.length_map] at hlen
    have h1 := drop_succ_of_drop h
    simp only [List.tail_cons] at h1
    have hl := get_number_int_loop_digits A (frac_text fr ++ R)
      (peek_frac_text_not_digit fr R hd) ds d
      (A.ofNat 0) ({ ctx with pos := ctx.pos + 1 } : EvalContext α U)
      (ctx.input.length + 1) h1 (by omega)
    have h2 := drop_add_of_drop h1
    simp only [List.length_map] at h2
    have hs := get_number_frac_reach A fr hwf (digits_value A (A.ofNat 0) (d :: ds)) 0
      ({ ctx with pos := ctx.pos + 1 + ds.length } : EvalContext α U) R
      (ctx.input.length + 1) h2 hd hp hfuel
    simp only [h2] at hs
    rw [get_number]
    simp only [get_char_eq, h, peek_cons, (digit_char_facts d).2.2.1, (digit_char_facts d).1,
      Bool.not_false, Bool.not_true, Bool.false_eq_true, if_true, if_false, hl]
    have e1 : ctx.pos + 1 + (ds.length + 1) = ctx.pos + 1 + ds.length + 1 := by omega
    rw [ctx_pos_congr ctx e1, hs]
    simp only [zero_sub, List.length_cons]
    congr 1
    exact ctx_pos_congr ctx (by omega)

theorem get_number_literal (A : Arith α) (l : Literal) (hwf : l.wf = true)
    (hfit : l.exp_fits = true) (ctx : EvalContext α U) (R : List Char)
    (h : ctx.input.drop ctx.pos = l.text ++ R) (hstop : l.stops (peek R) = true) :
    get_number A ctx =
      some (EvalResult.OK,
        { ctx with pos := ctx.pos + l.text.length, token := EvalToken.NUMBER (l.value A) }) := by
  obtain ⟨int, fr, ox⟩ := l
  simp only [Literal.wf, Bool.and_eq_true, Bool.or_eq_true, Bool.not_eq_true',
    List.isEmpty_eq_false] at hwf
  obtain ⟨⟨hw1, hw2⟩, hw3⟩ := hwf
  simp only [Literal.stops, Bool.and_eq_true, Bool.or_eq_true, Bool.not_eq_true'] at hstop
  obtain ⟨⟨hd, hp⟩, he⟩ := hstop
  have hwf' : ∀ f, fr = some f → f ≠ [] := by
    intro f hf; subst hf; simpa using hw2
  have hwx : ∀ x, ox = some x → x.digits ≠ [] := by
    intro x hx; subst hx; simpa using hw3
  have hfx : ∀ x, ox = some x → digits_nat x.digits < 2 ^ 31 := by
    intro x hx; subst hx; simpa [Literal.exp_fits] using hfit
  have he' : ox = none → is_exp (peek R) = false := by
    intro hx; subst hx; simpa using he
  have hp' : fr = none → is_dp (peek (exp_text ox ++ R)) = false := by
    intro h1
    subst h1
    cases ox with
    | none => simpa [exp_text] using hp
    | some x => simp [exp_text, Exponent.text, (marker_facts x.upper).2]
  simp only [Literal.text, List.append_assoc] at h
  have hw1' : int ≠ [] ∨ fr.isSome = true := by
    cases hw1 with
    | inl h => exact Or.inl (by simpa using h)
    | inr h => exact Or.inr h
  have hr := get_number_reach A int fr hw1' hwf' ctx (exp_text ox ++ R) h
    (peek_exp_text_not_digit ox R hd) hp'
  have h3 : List.drop (ctx.pos + (int.length + (frac_text fr).length)) ctx.input =
      exp_text ox ++ R := by
    have := drop_add_of_drop (T := List.map digit_char int ++ frac_text fr)
      (S := exp_text ox ++ R) (by simpa using h)
    simpa using this
  have hx := get_number_exp_spec A ox hwx hfx
    (digits_value A (digits_value A (A.ofNat 0) int) (fr.getD []))
    (-((fr.getD []).length : Int))
    ({ ctx with pos := ctx.pos + (int.length + (frac_text fr).length) } : EvalContext α U)
    R (ctx.input.length + 1) h3 hd he' (Nat.lt_succ_self _)
  simp only [h3] at hx
  rw [hr, hx]
  have := get_number_scale_eq A { int := int, frac := fr, exp := ox }
    ({ ctx with pos := ctx.pos + (int.length + (frac_text fr).length) + (exp_text ox).length + 1 } : EvalContext α U)
  simp only [Literal.mantissa, Literal.exponent] at this
  rw [this]
  simp only [Literal.text, List.length_append, List.length_map]
  congr 2
  simp only [EvalContext.mk.injEq, true_and, and_true]
  omega

end Eval

namespace Eval

variable {α U : Type}

/-! ## `get_token` on the tokens of the grammar -/

theorem get_token_loop_skip (A : Arith α) (cfg : Config) :
    ∀ (ws : List Char) (ctx : EvalContext α U) (R : List Char) (fuel : Nat),
      ws.all is_blank = true → ctx.input.drop ctx.pos = ws ++ R →
      get_token_loop A cfg (fuel + ws.length) ctx =
        get_token_loop A cfg fuel { ctx with pos := ctx.pos + ws.length } := by
  intro ws
  induction ws with
  | nil => intro ctx R fuel _ _; simp
  | cons c ws ih =>
    intro ctx R fuel hws h
    simp only [List.all_cons, Bool.and_eq_true] at hws
    obtain ⟨hc, hws⟩ := hws
    obtain ⟨hc0, hc1, -⟩ := is_blank_facts hc
    simp only [List.cons_append] at h
    have h1 := drop_succ_of_drop h
    simp only [List.tail_cons] at h1
    have := ih ({ ctx with pos := ctx.pos + 1 } : EvalContext α U) R fuel hws h1
    simp only [List.length_cons, ← Nat.add_assoc, get_token_loop, get_char_eq, h, peek_cons, hc0,
      if_false, hc1, if_true, Nat.add_eq]
    rw [this]
    congr 1
    simp only [EvalContext.mk.injEq, true_and, and_true]
    omega

theorem get_token_skip (A : Arith α) (cfg : Config) (ws : List Char) (ctx : EvalContext α U)
    (R : List Char) (hws : ws.all is_blank = true) (h : ctx.input.drop ctx.pos = ws ++ R) :
    ∃ fuel, get_token A cfg ctx =
      get_token_loop A cfg (fuel + 1) { ctx with pos := ctx.pos + ws.length } := by
  have hlen := length_le_of_drop_eq h
  refine ⟨ctx.input.length - ws.length, ?_⟩
  have := get_token_loop_skip A cfg ws ctx R (ctx.input.length - ws.length + 1) hws h
  rw [← this, get_token]
  congr 1
  omega

theorem lexes_of_loop (A : Arith α) (cfg : Config) (input : List Char) (p : Nat)
    (ws R : List Char) (tok : EvalToken α) (n : Nat)
    (hws : ws.all is_blank = true) (h : input.drop p = ws ++ R)
    (hl : ∀ (ctx : EvalContext α U) (fuel : Nat), ctx.input = input →
      ctx.pos = p + ws.length →
      get_token_loop A cfg (fuel + 1) ctx =
        some (EvalResult.OK, { ctx with pos := p + ws.length + n, token := tok })) :
    Lexes A cfg U input p tok (p + ws.length + n) := by
  intro ctx hi hp
  subst hi; subst hp
  obtain ⟨fuel, hf⟩ := get_token_skip A cfg ws ctx R hws h
  rw [hf, hl ({ ctx with pos := ctx.pos + ws.length } : EvalContext α U) fuel rfl rfl]

theorem lexes_end (A : Arith α) (cfg : Config) (input : List Char) (p : Nat) (ws : List Char)
    (hws : ws.all is_blank = true) (h : input.drop p = ws) :
    Lexes A cfg U input p EvalToken.END (p + ws.length) := by
  have h' : input.drop p = ws ++ [] := by simpa using h
  have := lexes_of_loop (U := U) A cfg input p ws [] EvalToken.END 0 hws h' (by
    intro ctx fuel hi hp
    have hd : ctx.input.drop ctx.pos = [] := by
      rw [hi, hp]; simpa using drop_add_of_drop h'
    simp only [get_token_loop, get_char_eq, hd, peek_nil, if_true, put_char]
    simp [hp])
  simpa using this

theorem lexes_open (A : Arith α) (cfg : Config) (input : List Char) (p : Nat) (ws R : List Char)
    (hws : ws.all is_blank = true) (h : input.drop p = ws ++ '(' :: R) :
    Lexes A cfg U input p EvalToken.OPEN_BRACKET (p + ws.length + 1) := by
  refine lexes_of_loop A cfg input p ws _ _ 1 hws h ?_
  intro ctx fuel hi hp
  have hd : ctx.input.drop ctx.pos = '(' :: R := by
    rw [hi, hp]; exact drop_add_of_drop h
  simp only [get_token_loop, get_char_eq, hd, peek_cons]
  simp [NUL, is_digit, is_dp, is_name_start, hp]

theorem lexes_close (A : Arith α) (cfg : Config) (input : List Char) (p : Nat) (ws R : List Char)
    (hws : ws.all is_blank = true) (h : input.drop p = ws ++ ')' :: R) :
    Lexes A cfg U input p EvalToken.CLOSE_BRACKET (p + ws.length + 1) := by
  refine lexes_of_loop A cfg input p ws _ _ 1 hws h ?_
  intro ctx fuel hi hp
  have hd : ctx.input.drop ctx.pos = ')' :: R := by
    rw [hi, hp]; exact drop_add_of_drop h
  simp only [get_token_loop, get_char_eq, hd, peek_cons]
  simp [NUL, is_digit, is_dp, is_name_start, hp]

theorem lexes_minus (A : Arith α) (cfg : Config) (input : List Char) (p : Nat) (ws R : List Char)
    (hws : ws.all is_blank = true) (h : input.drop p = ws ++ '-' :: R) :
    Lexes A cfg U input p EvalToken.SUBTRACT (p + ws.length + 1) := by
  refine lexes_of_loop A cfg input p ws _ _ 1 hws h ?_
  intro ctx fuel hi hp
  have hd : ctx.input.drop ctx.pos = '-' :: R := by
    rw [hi, hp]; exact drop_add_of_drop h
  simp only [get_token_loop, get_char_eq, hd, peek_cons]
  simp [NUL, is_digit, is_dp, is_name_start, hp]

theorem lexes_op (A : Arith α) (cfg : Config) (input : List Char) (p : Nat) (ws R : List Char)
    (op : BinOp) (hws : ws.all is_blank = true) (h : input.drop p = ws ++ (op.text ++ R))
    (hR : peek R ≠ '=') :
    Lexes A cfg U input p op.token (p + ws.length + op.text.length) := by
  refine lexes_of_loop A cfg input p ws _ _ _ hws h ?_
  intro ctx fuel hi hp
  have hd : ctx.input.drop ctx.pos = op.text ++ R := by
    rw [hi, hp]; exact drop_add_of_drop h
  have h1 := drop_succ_of_drop hd
  cases op <;>
    simp only [BinOp.text, List.cons_append, List.nil_append, List.tail_cons] at hd h1 <;>
    simp only [get_token_loop, get_char_eq, hd, h1, peek_cons] <;>
    simp [NUL, is_digit, is_dp, is_name_start, hp, BinOp.text, BinOp.token, put_char, hR]

theorem literal_text_head (l : Literal) (hwf : l.wf = true) :
    ∃ c T, l.text = c :: T ∧ (is_digit c = true ∨ is_dp c = true) ∧ c ≠ NUL ∧ ¬ c ≤ ' ' ∧
      c ≠ '=' := by
  obtain ⟨int, fr, ox⟩ := l
  cases int with
  | cons d ds =>
    refine ⟨digit_char d, List.map digit_char ds ++ (frac_text fr ++ exp_text ox),
      by simp [Literal.text], Or.inl (digit_char_facts d).1,
      (digit_char_facts d).2.2.2.1, (digit_char_facts d).2.2.2.2.1, ?_⟩
    intro hc
    have := (digit_char_facts d).1
    rw [hc] at this
    revert this; decide
  | nil =>
    cases fr with
    | none => simp [Literal.wf] at hwf
    | some f =>
      exact ⟨'.', List.map digit_char f ++ exp_text ox, by simp [Literal.text, frac_text], Or.inr (by decide), by decide, by decide,
        by decide⟩

theorem lexes_number (A : Arith α) (cfg : Config) (input : List Char) (p : Nat)
    (ws R : List Char) (l : Literal) (hws : ws.all is_blank = true) (hwf : l.wf = true)
    (hfit : l.exp_fits = true) (h : input.drop p = ws ++ (l.text ++ R)) (hstop : l.stops (peek R) = true) :
    Lexes A cfg U input p (EvalToken.NUMBER (l.value A)) (p + ws.length + l.text.length) := by
  refine lexes_of_loop A cfg input p ws _ _ _ hws h ?_
  intro ctx fuel hi hp
  have hd : ctx.input.drop ctx.pos = l.text ++ R := by
    rw [hi, hp]; exact drop_add_of_drop h
  obtain ⟨c, T, hT, hc, hc0, hc1, -⟩ := literal_text_head l hwf
  have hnum := get_number_literal A l hwf hfit ctx R hd hstop
  have hcc : (is_digit c || is_dp c) = true := by
    cases hc with
    | inl h => simp [h]
    | inr h => simp [h]
  have hput : put_char ({ ctx with pos := ctx.pos + 1 } : EvalContext α U) = ctx := by
    simp [put_char]
  rw [hT] at hd
  simp only [List.cons_append] at hd
  simp only [get_token_loop, get_char_eq, hd, peek_cons, hc0, if_false, hc1, hcc, if_true, hput,
    hnum]
  simp [hp]

end Eval

namespace Eval

variable {α U : Type}

/-! ## One step of each parsing loop -/

theorem parse_unary_eq_from (A : Arith α) (cfg : Config)
    (pe : EvalContext α U → α → Option (EvalResult × EvalContext α U × α))
    (ctx : EvalContext α U) (out : α) :
    parse_unary A cfg pe ctx out = unary_from A cfg pe (ctx.input.length + 1) false ctx out :=
  rfl

theorem unary_from_exit (A : Arith α) (cfg : Config)
    (pe : EvalContext α U → α → Option (EvalResult × EvalContext α U × α))
    (n : Nat) (b : Bool) (c c' : EvalContext α U) (out v : α)
    (ht : c.token.type ≠ EvalTokenType.SUBTRACT)
    (hp : parse_term A cfg pe c (A.ofNat 0) = some (EvalResult.OK, c', v)) :
    unary_from A cfg pe (n + 1) b c out =
      some (EvalResult.OK, c', if b then A.neg v else v) := by
  simp [unary_from, parse_unary_loop, ht, hp]

theorem unary_from_step (A : Arith α) (cfg : Config)
    (pe : EvalContext α U → α → Option (EvalResult × EvalContext α U × α))
    (n : Nat) (b : Bool) (c c2 : EvalContext α U) (out : α)
    (ht : c.token.type = EvalTokenType.SUBTRACT)
    (hg : get_token A cfg c = some (EvalResult.OK, c2)) :
    unary_from A cfg pe (n + 1) b c out = unary_from A cfg pe n (!b) c2 out := by
  simp [unary_from, parse_unary_loop, ht, hg]

theorem parse_product_loop_exit (A : Arith α) (cfg : Config)
    (pe : EvalContext α U → α → Option (EvalResult × EvalContext α U × α))
    (n : Nat) (c : EvalContext α U) (lhs rhs : α)
    (ht : is_product_op c.token.type = false) :
    parse_product_loop A cfg pe (n + 1) c lhs rhs = some (EvalResult.OK, c, lhs) := by
  simp only [is_product_op, Bool.or_eq_false_iff, decide_eq_false_iff_not] at ht
  simp [parse_product_loop, ht]

theorem parse_sum_loop_exit (A : Arith α) (cfg : Config)
    (pe : EvalContext α U → α → Option (EvalResult × EvalContext α U × α))
    (n : Nat) (c : EvalContext α U) (lhs rhs : α)
    (ht : is_sum_op c.token.type = false) :
    parse_sum_loop A cfg pe (n + 1) c lhs rhs = some (EvalResult.OK, c, lhs) := by
  simp only [is_sum_op, Bool.or_eq_false_iff, decide_eq_false_iff_not] at ht
  simp [parse_sum_loop, ht]

theorem parse_product_loop_step (A : Arith α) (cfg : Config)
    (pe : EvalContext α U → α → Option (EvalResult × EvalContext α U × α))
    (n : Nat) (op : BinOp) (c c2 c3 : EvalContext α U) (lhs rhs rv : α)
    (hop : op.isSum = false) (ht : c.token = op.token)
    (hg : get_token A cfg c = some (EvalResult.OK, c2))
    (hu : parse_unary A cfg pe c2 rhs = some (EvalResult.OK, c3, rv)) :
    parse_product_loop A cfg pe (n + 1) c lhs rhs =
      parse_product_loop A cfg pe n c3 (op.apply A lhs rv) rv := by
  cases op <;> simp [BinOp.isSum] at hop <;>
    simp [parse_product_loop, ht, BinOp.token, EvalToken.type, hg, hu, BinOp.apply, relational]

theorem parse_sum_loop_step (A : Arith α) (cfg : Config)
    (pe : EvalContext α U → α → Option (EvalResult × EvalContext α U × α))
    (n : Nat) (op : BinOp) (c c2 c3 : EvalContext α U) (lhs rhs rv : α)
    (hop : op.isSum = true) (ht : c.token = op.token)
    (hg : get_token A cfg c = some (EvalResult.OK, c2))
    (hu : parse_product A cfg pe c2 rhs = some (EvalResult.OK, c3, rv)) :
    parse_sum_loop A cfg pe (n + 1) c lhs rhs =
      parse_sum_loop A cfg pe n c3 (op.apply A lhs rv) rv := by
  cases op <;> simp [BinOp.isSum] at hop <;>
    simp [parse_sum_loop, ht, BinOp.token, EvalToken.type, hg, hu, BinOp.apply]

theorem parse_product_of_from (A : Arith α) (cfg : Config)
    (pe : EvalContext α U → α → Option (EvalResult × EvalContext α U × α))
    (c c' : EvalContext α U) (out v : α)
    (h : product_from A cfg pe (c.input.length + 1) c = some (EvalResult.OK, c', v)) :
    parse_product A cfg pe c out = some (EvalResult.OK, c', v) := by
  simp only [product_from] at h
  simp only [parse_product]
  cases hu : parse_unary A cfg pe c (A.ofNat 0) with
  | none => simp [hu] at h
  | some r =>
    obtain ⟨r1, c1, v1⟩ := r
    simp only [hu] at h
    by_cases hr : r1 = EvalResult.OK
    · subst hr
      simp only [ne_eq, not_true_eq_false, if_false] at h
      simp [h]
    · simp only [ne_eq, hr, not_false_eq_true, if_true, Option.some.injEq, Prod.mk.injEq] at h
      exact h.1.elim

theorem parse_sum_of_from (A : Arith α) (cfg : Config)
    (pe : EvalContext α U → α → Option (EvalResult × EvalContext α U × α))
    (c c' : EvalContext α U) (out v : α)
    (h : sum_from A cfg pe (c.input.length + 1) c = some (EvalResult.OK, c', v)) :
    parse_sum A cfg pe c out = some (EvalResult.OK, c', v) := by
  simp only [sum_from] at h
  simp only [parse_sum]
  cases hu : parse_product A cfg pe c (A.ofNat 0) with
  | none => simp [hu] at h
  | some r =>
    obtain ⟨r1, c1, v1⟩ := r
    simp only [hu] at h
    by_cases hr : r1 = EvalResult.OK
    · subst hr
      simp only [ne_eq, not_true_eq_false, if_false] at h
      simp [h]
    · simp only [ne_eq, hr, not_false_eq_true, if_true, Option.some.injEq, Prod.mk.injEq] at h
      exact h.1.elim

/-! ## Facts about the texts of the grammar -/

theorem follows_blank {c : Char} (R : List Char) (h : is_blank c = true) :
    follows (c :: R) = true := by
  obtain ⟨-, -, h1, h2, h3⟩ := is_blank_facts h
  simp [follows, h1, h2, h3]

theorem follows_append_blank (ws R : List Char) (hws : ws.all is_blank = true)
    (hR : follows R = true) : follows (ws ++ R) = true := by
  cases ws with
  | nil => simpa using hR
  | cons c ws =>
    simp only [List.all_cons, Bool.and_eq_true] at hws
    simpa using follows_blank (ws ++ R) hws.1

theorem follows_op (op : BinOp) (R : List Char) : follows (op.text ++ R) = true := by
  cases op <;> simp [BinOp.text, follows, is_digit, is_dp, is_exp]

theorem follows_close (R : List Char) : follows (')' :: R) = true := by
  simp [follows, is_digit, is_dp, is_exp]

theorem stops_of_follows (l : Literal) (R : List Char) (h : follows R = true) :
    l.stops (peek R) = true := by
  simp only [follows, Bool.and_eq_true, Bool.not_eq_true'] at h
  simp [Literal.stops, h.1.1, h.1.2, h.2]

theorem gen_mono (e : Expr) : ∀ (j k : Nat), j ≤ k → e.gen j = true → e.gen k = true := by
  cases e with
  | num ws lit => intro j k _ h; simpa [Expr.gen] using h
  | paren ws e ws' => intro j k _ h; simpa [Expr.gen] using h
  | neg ws e =>
    intro j k hjk h
    simp only [Expr.gen, Bool.and_eq_true, decide_eq_true_eq] at h ⊢
    exact ⟨⟨by omega, h.1.2⟩, h.2⟩
  | bin l ws op r =>
    intro j k hjk h
    cases hop : op.isSum <;>
      simp only [Expr.gen, hop, Bool.false_eq_true, if_false, if_true, Bool.and_eq_true,
        decide_eq_true_eq] at h ⊢ <;>
      exact ⟨⟨⟨by omega, h.1.1.2⟩, h.1.2⟩, h.2⟩

theorem text_head_of_blank (ws : List Char) (c : Char) (T : List Char)
    (hws : ws.all is_blank = true) (hc : c ≠ '=') :
    ∃ c' T', ws ++ c :: T = c' :: T' ∧ c' ≠ '=' := by
  cases ws with
  | nil => exact ⟨c, T, rfl, hc⟩
  | cons w ws =>
    simp only [List.all_cons, Bool.and_eq_true] at hws
    refine ⟨w, ws ++ c :: T, rfl, ?_⟩
    rintro rfl
    have := (is_blank_facts hws.1).2.1
    revert this; decide

theorem text_head (e : Expr) : ∀ k, e.gen k = true → ∃ c T, e.text = c :: T ∧ c ≠ '=' := by
  induction e with
  | num ws lit =>
    intro k h
    simp only [Expr.gen, Bool.and_eq_true] at h
    obtain ⟨c, T, hT, -, -, -, hc⟩ := literal_text_head lit h.1.2
    simp only [Expr.text, hT]
    exact text_head_of_blank ws c T h.1.1 hc
  | paren ws e ws' _ =>
    intro k h
    simp only [Expr.gen, Bool.and_eq_true] at h
    exact text_head_of_blank ws '(' _ h.1.1 (by decide)
  | neg ws e _ =>
    intro k h
    simp only [Expr.gen, Bool.and_eq_true] at h
    exact text_head_of_blank ws '-' _ h.1.2 (by decide)
  | bin l ws op r ihl _ =>
    intro k h
    have hl : ∃ j, l.gen j = true := by
      simp only [Expr.gen] at h
      split at h
      · simp only [Bool.and_eq_true] at h; exact ⟨3, h.1.1.2⟩
      · simp only [Bool.and_eq_true] at h; exact ⟨2, h.1.1.2⟩
    obtain ⟨j, hj⟩ := hl
    obtain ⟨c, T, hT, hc⟩ := ihl j hj
    exact ⟨c, T ++ (ws ++ (op.text ++ r.text)), by simp [Expr.text, hT], hc⟩

theorem peek_text_ne_eq (e : Expr) (k : Nat) (h : e.gen k = true) (R : List Char) :
    peek (e.text ++ R) ≠ '=' := by
  obtain ⟨c, T, hT, hc⟩ := text_head e k h
  simpa [hT] using hc

end Eval

namespace Eval

variable {α U : Type}

/-! ## The parsing functions on the trees of the grammar -/

theorem stands_length (A : Arith α) (cfg : Config) {e : Expr} {input : List Char} {p : Nat}
    {R : List Char} {tokR : EvalToken α} {pR : Nat}
    (hs : Stands A cfg U e input p R tokR pR) : e.text.length ≤ input.length :=
  length_le_of_drop_eq hs.1

theorem valueAux_term (A : Arith α) (e : Expr) (h : e.gen 0 = true) (b : Bool) :
    e.valueAux A b = if b then A.neg (e.value A) else e.value A := by
  cases e with
  | num ws lit => simp [Expr.valueAux, Expr.value]
  | paren ws e ws' => simp [Expr.valueAux, Expr.value]
  | neg ws e => simp [Expr.gen] at h
  | bin l ws op r =>
    simp only [Expr.gen] at h
    split at h <;> simp at h

theorem term_num (A : Arith α) (cfg : Config) (f : Nat) (ws : List Char) (lit : Literal)
    (input : List Char) (p : Nat) (R : List Char) (tokR : EvalToken α) (pR : Nat)
    (hs : Stands A cfg U (.num ws lit) input p R tokR pR)
    (hg : (Expr.num ws lit).gen 0 = true) :
    TermOk A cfg U f (.num ws lit) input p tokR pR := by
  obtain ⟨hd, hf, hl⟩ := hs
  simp only [Expr.gen, Bool.and_eq_true] at hg
  obtain ⟨⟨hws, hwf⟩, hfit⟩ := hg
  simp only [Expr.text, List.append_assoc, List.length_append] at hd hl
  refine ⟨EvalToken.NUMBER (lit.value A), p + ws.length + lit.text.length,
    lexes_number A cfg input p ws R lit hws hwf hfit hd (stops_of_follows lit R hf),
    by simp [EvalToken.type], ?_⟩
  intro c out hi _
  subst hi
  have := hl ({ c with pos := p + ws.length + lit.text.length, token := EvalToken.NUMBER (lit.value A) } : EvalContext α U) rfl (by simp only; omega)
  simp only [parse_term, this]
  simp [Expr.value, Expr.valueAux]

theorem term_paren (A : Arith α) (cfg : Config) (f : Nat) (ws ws' : List Char) (e : Expr)
    (input : List Char) (p : Nat) (R : List Char) (tokR : EvalToken α) (pR : Nat)
    (hs : Stands A cfg U (.paren ws e ws') input p R tokR pR)
    (hws : ws.all is_blank = true)
    (hS : SumOk A cfg U f e input (p + ws.length + 1) EvalToken.CLOSE_BRACKET
      (p + ws.length + 1 + e.text.length + ws'.length + 1)) :
    TermOk A cfg U (f + 1) (.paren ws e ws') input p tokR pR := by
  obtain ⟨hd, hf, hl⟩ := hs
  simp only [Expr.text, List.length_append, List.length_cons, List.length_nil,
    List.append_assoc, List.cons_append] at hd hl
  refine ⟨EvalToken.OPEN_BRACKET, p + ws.length + 1,
    lexes_open A cfg input p ws _ hws hd, by simp [EvalToken.type], ?_⟩
  intro c out hi hdep
  subst hi
  obtain ⟨tok2, p2, k, hlex2, hk, hsum⟩ := hS
  simp only [Expr.depth] at hdep
  have hlen : e.text.length ≤ c.input.length := by
    have := length_le_of_drop_eq (T := ws ++ '(' :: e.text) (R := ws' ++ ')' :: R)
      (by simpa using hd)
    simp only [List.length_append, List.length_cons] at this
    omega
  have hg1 := hlex2 ({ c with pos := p + ws.length + 1, token := EvalToken.OPEN_BRACKET } :
    EvalContext α U) rfl rfl
  obtain ⟨rhs, hsum'⟩ := hsum ({ c with stack_level := c.stack_level + 1 } : EvalContext α U)
    (c.input.length + 1 - k) rfl (by simp only; omega)
  have hn : c.input.length + 1 - k + k = c.input.length + 1 := by omega
  rw [hn] at hsum'
  obtain ⟨m, hm⟩ : ∃ m, c.input.length + 1 - k = m + 1 := ⟨c.input.length - k, by omega⟩
  rw [hm, parse_sum_loop_exit _ _ _ _ _ _ _ (by simp [EvalToken.type, is_sum_op])] at hsum'
  have hps := parse_sum_of_from A cfg (parse_expr A cfg f)
    ({ c with stack_level := c.stack_level + 1, pos := p2, token := tok2 } : EvalContext α U)
    _ out _ (by simpa using hsum')
  have hnot : ¬ (cfg.EVAL_MAX_STACK_DEPTH ≤ c.stack_level) := by omega
  have hfin := hl ({ c with pos := p + ws.length + 1 + e.text.length + ws'.length + 1, token := EvalToken.CLOSE_BRACKET } : EvalContext α U) rfl (by simp only; omega)
  simp only [parse_term, hg1, ne_eq, not_true_eq_false, if_false, parse_expr, ge_iff_le, hnot,
    hps, EvalToken.type, Nat.add_sub_cancel, hfin]
  simp [Expr.value, Expr.valueAux]

theorem unary_of_term (A : Arith α) (cfg : Config) (f : Nat) (e : Expr)
    (input : List Char) (p : Nat) (tokR : EvalToken α) (pR : Nat)
    (hg : e.gen 0 = true) (hT : TermOk A cfg U f e input p tokR pR) :
    UnaryOk A cfg U f e input p tokR pR := by
  obtain ⟨tok1, p1, hlex, hne, hterm⟩ := hT
  refine ⟨tok1, p1, hlex, ?_⟩
  intro c n b out hi hdep _
  subst hi
  rw [unary_from_exit A cfg _ n b _ _ out _ (by simpa using hne) (hterm c (A.ofNat 0) rfl hdep),
    valueAux_term A e hg b]

theorem unary_neg (A : Arith α) (cfg : Config) (f : Nat) (ws : List Char) (e : Expr)
    (input : List Char) (p : Nat) (R : List Char) (tokR : EvalToken α) (pR : Nat)
    (hs : Stands A cfg U (.neg ws e) input p R tokR pR)
    (hws : ws.all is_blank = true)
    (hU : UnaryOk A cfg U f e input (p + ws.length + 1) tokR pR) :
    UnaryOk A cfg U f (.neg ws e) input p tokR pR := by
  obtain ⟨hd, hf, hl⟩ := hs
  simp only [Expr.text, List.append_assoc, List.cons_append] at hd
  refine ⟨EvalToken.SUBTRACT, p + ws.length + 1, lexes_minus A cfg input p ws _ hws hd, ?_⟩
  intro c n b out hi hdep hn
  subst hi
  obtain ⟨tok2, p2, hlex2, hun⟩ := hU
  simp only [Expr.depth] at hdep
  simp only [Expr.text, List.length_append, List.length_cons] at hn
  obtain ⟨m, rfl⟩ : ∃ m, n = m + 1 := ⟨n - 1, by omega⟩
  have hg1 := hlex2 ({ c with pos := p + ws.length + 1, token := EvalToken.SUBTRACT } :
    EvalContext α U) rfl rfl
  rw [unary_from_step A cfg _ (m + 1) b _ _ out (by simp [EvalToken.type]) hg1]
  have := hun c m (!b) out rfl hdep (by omega)
  simpa [Expr.valueAux] using this

theorem product_of_unary (A : Arith α) (cfg : Config) (f : Nat) (e : Expr)
    (input : List Char) (p : Nat) (R : List Char) (tokR : EvalToken α) (pR : Nat)
    (hs : Stands A cfg U e input p R tokR pR)
    (hU : UnaryOk A cfg U f e input p tokR pR) :
    ProductOk A cfg U f e input p tokR pR := by
  obtain ⟨tok1, p1, hlex, hun⟩ := hU
  refine ⟨tok1, p1, 0, hlex, Nat.zero_le _, ?_⟩
  intro c n hi hdep
  subst hi
  refine ⟨A.ofNat 0, ?_⟩
  have := hun c c.input.length false (A.ofNat 0) rfl hdep (stands_length A cfg hs)
  simp only [product_from, parse_unary_eq_from, this]
  simp [Expr.value]

theorem sum_of_product (A : Arith α) (cfg : Config) (f : Nat) (e : Expr)
    (input : List Char) (p : Nat) (R : List Char) (tokR : EvalToken α) (pR : Nat)
    (hs : Stands A cfg U e input p R tokR pR)
    (hstop : is_product_op tokR.type = false)
    (hP : ProductOk A cfg U f e input p tokR pR) :
    SumOk A cfg U f e input p tokR pR := by
  obtain ⟨tok1, p1, k, hlex, hk, hpr⟩ := hP
  refine ⟨tok1, p1, 0, hlex, Nat.zero_le _, ?_⟩
  intro c n hi hdep
  subst hi
  refine ⟨A.ofNat 0, ?_⟩
  have hlen := stands_length A cfg hs
  obtain ⟨rhs, hpr'⟩ := hpr c (c.input.length + 1 - k) rfl hdep
  have hn : c.input.length + 1 - k + k = c.input.length + 1 := by omega
  rw [hn] at hpr'
  obtain ⟨m, hm⟩ : ∃ m, c.input.length + 1 - k = m + 1 := ⟨c.input.length - k, by omega⟩
  rw [hm, parse_product_loop_exit _ _ _ _ _ _ _ (by simpa using hstop)] at hpr'
  have hpp := parse_product_of_from A cfg (parse_expr A cfg f)
    ({ c with pos := p1, token := tok1 } : EvalContext α U) _ (A.ofNat 0) _
    (by simpa using hpr')
  simp only [sum_from, hpp]
  simp

theorem op_text_pos (op : BinOp) : 1 ≤ op.text.length := by
  cases op <;> simp [BinOp.text]

theorem product_bin (A : Arith α) (cfg : Config) (f : Nat) (l r : Expr) (ws : List Char)
    (op : BinOp) (input : List Char) (p : Nat) (R : List Char) (tokR : EvalToken α) (pR : Nat)
    (hs : Stands A cfg U (.bin l ws op r) input p R tokR pR)
    (hop : op.isSum = false)
    (hP : ProductOk A cfg U f l input p op.token
      (p + l.text.length + ws.length + op.text.length))
    (hU : UnaryOk A cfg U f r input (p + l.text.length + ws.length + op.text.length) tokR pR) :
    ProductOk A cfg U f (.bin l ws op r) input p tokR pR := by
  obtain ⟨tok1, p1, k, hlex, hk, hpr⟩ := hP
  obtain ⟨tok2, p2, hlex2, hun⟩ := hU
  have hlen := stands_length A cfg hs
  simp only [Expr.text, List.length_append] at hlen
  have hop1 := op_text_pos op
  refine ⟨tok1, p1, k + 1, hlex, by simp only [Expr.text, List.length_append]; omega, ?_⟩
  intro c n hi hdep
  subst hi
  simp only [Expr.depth] at hdep
  obtain ⟨rhs, h1⟩ := hpr c (n + 1) rfl (by omega)
  have hg := hlex2 ({ c with pos := p + l.text.length + ws.length + op.text.length, token := op.token } : EvalContext α U) rfl rfl
  have hu := hun c c.input.length false rhs rfl (by omega) (by omega)
  refine ⟨r.value A, ?_⟩
  have e1 : n + (k + 1) = n + 1 + k := by omega
  rw [e1, h1, parse_product_loop_step A cfg _ n op _ _ _ _ rhs (r.value A) hop rfl hg
    (by rw [parse_unary_eq_from]; exact hu)]
  simp [Expr.value, Expr.valueAux]

theorem sum_bin (A : Arith α) (cfg : Config) (f : Nat) (l r : Expr) (ws : List Char)
    (op : BinOp) (input : List Char) (p : Nat) (R : List Char) (tokR : EvalToken α) (pR : Nat)
    (hs : Stands A cfg U (.bin l ws op r) input p R tokR pR)
    (hop : op.isSum = true) (hstop : is_product_op tokR.type = false)
    (hS : SumOk A cfg U f l input p op.token
      (p + l.text.length + ws.length + op.text.length))
    (hP : ProductOk A cfg U f r input (p + l.text.length + ws.length + op.text.length)
      tokR pR) :
    SumOk A cfg U f (.bin l ws op r) input p tokR pR := by
  obtain ⟨tok1, p1, k, hlex, hk, hsm⟩ := hS
  obtain ⟨tok2, p2, k2, hlex2, hk2, hpr⟩ := hP
  have hlen := stands_length A cfg hs
  simp only [Expr.text, List.length_append] at hlen
  have hop1 := op_text_pos op
  refine ⟨tok1, p1, k + 1, hlex, by simp only [Expr.text, List.length_append]; omega, ?_⟩
  intro c n hi hdep
  subst hi
  simp only [Expr.depth] at hdep
  obtain ⟨rhs, h1⟩ := hsm c (n + 1) rfl (by omega)
  have hg := hlex2 ({ c with pos := p + l.text.length + ws.length + op.text.length, token := op.token } : EvalContext α U) rfl rfl
  obtain ⟨rhs2, hpr'⟩ := hpr c (c.input.length + 1 - k2) rfl (by omega)
  have hn : c.input.length + 1 - k2 + k2 = c.input.length + 1 := by omega
  rw [hn] at hpr'
  obtain ⟨m, hm⟩ : ∃ m, c.input.length + 1 - k2 = m + 1 := ⟨c.input.length - k2, by omega⟩
  rw [hm, parse_product_loop_exit _ _ _ _ _ _ _ (by simpa using hstop)] at hpr'
  have hpp := parse_product_of_from A cfg (parse_expr A cfg f)
    ({ c with pos := p2, token := tok2 } : EvalContext α U) _ rhs _ (by simpa using hpr')
  refine ⟨r.value A, ?_⟩
  have e1 : n + (k + 1) = n + 1 + k := by omega
  rw [e1, h1, parse_sum_loop_step A cfg _ n op _ _ _ _ rhs (r.value A) hop rfl hg hpp]
  simp [Expr.value, Expr.valueAux]

/-! ## The operands of a tree stand where the tree says -/

theorem stands_bin_left (A : Arith α) (cfg : Config) (l r : Expr) (ws : List Char) (op : BinOp)
    (input : List Char) (p : Nat) (R : List Char) (tokR : EvalToken α) (pR : Nat) (k : Nat)
    (hs : Stands A cfg U (.bin l ws op r) input p R tokR pR)
    (hws : ws.all is_blank = true) (hr : r.gen k = true) :
    Stands A cfg U l input p (ws ++ (op.text ++ (r.text ++ R))) op.token
      (p + l.text.length + ws.length + op.text.length) := by
  obtain ⟨hd, hf, hl⟩ := hs
  simp only [Expr.text, List.append_assoc] at hd
  refine ⟨hd, follows_append_blank _ _ hws (follows_op op _), ?_⟩
  exact lexes_op A cfg input (p + l.text.length) ws (r.text ++ R) op hws
    (drop_add_of_drop hd) (peek_text_ne_eq r k hr R)

theorem stands_bin_right (A : Arith α) (cfg : Config) (l r : Expr) (ws : List Char) (op : BinOp)
    (input : List Char) (p : Nat) (R : List Char) (tokR : EvalToken α) (pR : Nat)
    (hs : Stands A cfg U (.bin l ws op r) input p R tokR pR) :
    Stands A cfg U r input (p + l.text.length + ws.length + op.text.length) R tokR pR := by
  obtain ⟨hd, hf, hl⟩ := hs
  simp only [Expr.text, List.append_assoc, List.length_append] at hd hl
  refine ⟨drop_add_of_drop (drop_add_of_drop (drop_add_of_drop hd)), hf, ?_⟩
  have e : p + l.text.length + ws.length + op.text.length + r.text.length =
      p + (l.text.length + (ws.length + (op.text.length + r.text.length))) := by omega
  rw [e]; exact hl

theorem stands_neg (A : Arith α) (cfg : Config) (e : Expr) (ws : List Char)
    (input : List Char) (p : Nat) (R : List Char) (tokR : EvalToken α) (pR : Nat)
    (hs : Stands A cfg U (.neg ws e) input p R tokR pR) :
    Stands A cfg U e input (p + ws.length + 1) R tokR pR := by
  obtain ⟨hd, hf, hl⟩ := hs
  simp only [Expr.text, List.append_assoc, List.length_append, List.length_cons,
    List.cons_append] at hd hl
  have h1 := drop_add_of_drop hd
  have h2 := drop_succ_of_drop h1
  simp only [List.tail_cons] at h2
  refine ⟨h2, hf, ?_⟩
  have e1 : p + ws.length + 1 + e.text.length = p + (ws.length + (e.text.length + 1)) := by
    omega
  rw [e1]; exact hl

theorem stands_paren (A : Arith α) (cfg : Config) (e : Expr) (ws ws' : List Char)
    (input : List Char) (p : Nat) (R : List Char) (tokR : EvalToken α) (pR : Nat)
    (hs : Stands A cfg U (.paren ws e ws') input p R tokR pR)
    (hws' : ws'.all is_blank = true) :
    Stands A cfg U e input (p + ws.length + 1) (ws' ++ ')' :: R) EvalToken.CLOSE_BRACKET
      (p + ws.length + 1 + e.text.length + ws'.length + 1) := by
  obtain ⟨hd, hf, hl⟩ := hs
  simp only [Expr.text, List.append_assoc, List.length_append, List.length_cons,
    List.cons_append, List.nil_append] at hd hl
  have h1 := drop_add_of_drop hd
  have h2 := drop_succ_of_drop h1
  simp only [List.tail_cons] at h2
  refine ⟨h2, follows_append_blank _ _ hws' (follows_close R), ?_⟩
  exact lexes_close A cfg input (p + ws.length + 1 + e.text.length) ws' R hws'
    (drop_add_of_drop h2)

end Eval

namespace Eval

variable {α U : Type}

/-! ## Every tree of the grammar is evaluated by the parser -/

theorem parse_gen (A : Arith α) (cfg : Config) (e : Expr) :
    ∀ (f : Nat) (input : List Char) (p : Nat) (R : List Char) (tokR : EvalToken α) (pR : Nat),
      Stands A cfg U e input p R tokR pR → e.depth ≤ f →
      (e.gen 0 = true → TermOk A cfg U f e input p tokR pR) ∧
      (e.gen 1 = true → UnaryOk A cfg U f e input p tokR pR) ∧
      (e.gen 2 = true → ProductOk A cfg U f e input p tokR pR) ∧
      (e.gen 3 = true → is_product_op tokR.type = false →
        SumOk A cfg U f e input p tokR pR) := by
  induction e with
  | num ws lit =>
    intro f input p R tokR pR hs _
    have hT : ∀ k, (Expr.num ws lit).gen k = true →
        TermOk A cfg U f (.num ws lit) input p tokR pR := fun k hk =>
      term_num A cfg f ws lit input p R tokR pR hs (by simpa [Expr.gen] using hk)
    have hg0 : ∀ k, (Expr.num ws lit).gen k = true → (Expr.num ws lit).gen 0 = true :=
      fun k hk => by simpa [Expr.gen] using hk
    have hU := fun k hk => unary_of_term A cfg f _ input p tokR pR (hg0 k hk) (hT k hk)
    have hP := fun k hk => product_of_unary A cfg f _ input p R tokR pR hs (hU k hk)
    exact ⟨hT 0, hU 1, hP 2, fun hk hstop =>
      sum_of_product A cfg f _ input p R tokR pR hs hstop (hP 3 hk)⟩
  | paren ws e ws' ih =>
    intro f input p R tokR pR hs hdep
    simp only [Expr.depth] at hdep
    obtain ⟨f', rfl⟩ : ∃ f', f = f' + 1 := ⟨f - 1, by omega⟩
    have hT : ∀ k, (Expr.paren ws e ws').gen k = true →
        TermOk A cfg U (f' + 1) (.paren ws e ws') input p tokR pR := by
      intro k hk
      simp only [Expr.gen, Bool.and_eq_true] at hk
      obtain ⟨⟨hws, hws'⟩, hge⟩ := hk
      have hse := stands_paren A cfg e ws ws' input p R tokR pR hs hws'
      have hS := (ih f' input _ _ _ _ hse (by omega)).2.2.2 hge
        (by simp [EvalToken.type, is_product_op])
      exact term_paren A cfg f' ws ws' e input p R tokR pR hs hws hS
    have hg0 : ∀ k, (Expr.paren ws e ws').gen k = true →
        (Expr.paren ws e ws').gen 0 = true := fun k hk => by simpa [Expr.gen] using hk
    have hU := fun k hk => unary_of_term A cfg (f' + 1) _ input p tokR pR (hg0 k hk) (hT k hk)
    have hP := fun k hk => product_of_unary A cfg (f' + 1) _ input p R tokR pR hs (hU k hk)
    exact ⟨hT 0, hU 1, hP 2, fun hk hstop =>
      sum_of_product A cfg (f' + 1) _ input p R tokR pR hs hstop (hP 3 hk)⟩
  | neg ws e ih =>
    intro f input p R tokR pR hs hdep
    simp only [Expr.depth] at hdep
    have hU : ∀ k, (Expr.neg ws e).gen k = true →
        UnaryOk A cfg U f (.neg ws e) input p tokR pR := by
      intro k hk
      simp only [Expr.gen, Bool.and_eq_true] at hk
      obtain ⟨⟨-, hws⟩, hge⟩ := hk
      have hse := stands_neg A cfg e ws input p R tokR pR hs
      exact unary_neg A cfg f ws e input p R tokR pR hs hws ((ih f input _ _ _ _ hse hdep).2.1 hge)
    have hP := fun k hk => product_of_unary A cfg f _ input p R tokR pR hs (hU k hk)
    exact ⟨fun hk => by simp [Expr.gen] at hk, hU 1, hP 2, fun hk hstop =>
      sum_of_product A cfg f _ input p R tokR pR hs hstop (hP 3 hk)⟩
  | bin l ws op r ihl ihr =>
    intro f input p R tokR pR hs hdep
    simp only [Expr.depth] at hdep
    have hsr := stands_bin_right A cfg l r ws op input p R tokR pR hs
    have hP : ∀ k, op.isSum = false → (Expr.bin l ws op r).gen k = true →
        ProductOk A cfg U f (.bin l ws op r) input p tokR pR := by
      intro k hop hk
      simp only [Expr.gen, hop, Bool.false_eq_true, if_false, Bool.and_eq_true] at hk
      obtain ⟨⟨⟨-, hgl⟩, hws⟩, hgr⟩ := hk
      have hsl := stands_bin_left A cfg l r ws op input p R tokR pR 1 hs hws hgr
      exact product_bin A cfg f l r ws op input p R tokR pR hs hop
        ((ihl f input _ _ _ _ hsl (by omega)).2.2.1 hgl)
        ((ihr f input _ _ _ _ hsr (by omega)).2.1 hgr)
    refine ⟨fun hk => ?_, fun hk => ?_, fun hk => ?_, fun hk hstop => ?_⟩
    · simp only [Expr.gen] at hk
      split at hk <;> simp at hk
    · simp only [Expr.gen] at hk
      split at hk <;> simp at hk
    · cases hop : op.isSum with
      | true => simp [Expr.gen, hop] at hk
      | false => exact hP 2 hop hk
    · cases hop : op.isSum with
      | false =>
        exact sum_of_product A cfg f _ input p R tokR pR hs hstop (hP 3 hop hk)
      | true =>
        simp only [Expr.gen, hop, if_true, Bool.and_eq_true] at hk
        obtain ⟨⟨⟨-, hgl⟩, hws⟩, hgr⟩ := hk
        have hsl := stands_bin_left A cfg l r ws op input p R tokR pR 2 hs hws hgr
        have hopt : is_product_op (op.token : EvalToken α).type = false := by
          cases op <;> simp [BinOp.isSum] at hop <;>
            simp [BinOp.token, EvalToken.type, is_product_op]
        exact sum_bin A cfg f l r ws op input p R tokR pR hs hop hstop
          ((ihl f input _ _ _ _ hsl (by omega)).2.2.2 hgl hopt)
          ((ihr f input _ _ _ _ hsr (by omega)).2.2.1 hgr)

/-- On the text of a tree generated by `sum`, followed by blanks, with bracket
nesting below the depth limit, `eval_execute` returns `OK` with the value of
the tree. -/
theorem eval_execute_gen (A : Arith α) (cfg : Config) (e : Expr) (ws : List Char)
    (hooks : Option (EvalHooks α U)) (user_data : U) (output : α)
    (hg : e.gen 3 = true) (hws : ws.all is_blank = true)
    (hd : e.depth < cfg.EVAL_MAX_STACK_DEPTH) :
    eval_execute A cfg (e.text ++ ws) hooks user_data output =
      some (EvalResult.OK, e.value A) := by
  have hend : Lexes A cfg U (e.text ++ ws) (0 + e.text.length) EvalToken.END
      (0 + e.text.length + ws.length) :=
    lexes_end A cfg (e.text ++ ws) (0 + e.text.length) ws hws (by simp)
  have hfol : follows ws = true := by
    have := follows_append_blank ws [] hws (by simp [follows, NUL, is_digit, is_dp, is_exp])
    simpa using this
  have hs : Stands A cfg U e (e.text ++ ws) 0 ws EvalToken.END
      (0 + e.text.length + ws.length) := ⟨by simp, hfol, hend⟩
  obtain ⟨tok1, p1, k, hlex, hk, hsum⟩ :=
    (parse_gen A cfg e cfg.EVAL_MAX_STACK_DEPTH (e.text ++ ws) 0 ws EvalToken.END _ hs
      (by omega)).2.2.2 hg (by simp [EvalToken.type, is_product_op])
  have hg1 := hlex ({ hooks := hooks, user_data := user_data, input := e.text ++ ws, pos := 0, stack_level := 0, token := EvalToken.END } : EvalContext α U) rfl rfl
  have hlen : k ≤ (e.text ++ ws).length := by simp only [List.length_append]; omega
  obtain ⟨rhs, hsum'⟩ := hsum ({ hooks := hooks, user_data := user_data, input := e.text ++ ws, pos := 0, stack_level := 1, token := EvalToken.END } : EvalContext α U)
    ((e.text ++ ws).length + 1 - k) rfl (by simp only; omega)
  have hn : (e.text ++ ws).length + 1 - k + k = (e.text ++ ws).length + 1 := by omega
  rw [hn] at hsum'
  obtain ⟨m, hm⟩ : ∃ m, (e.text ++ ws).length + 1 - k = m + 1 :=
    ⟨(e.text ++ ws).length - k, by omega⟩
  rw [hm, parse_sum_loop_exit _ _ _ _ _ _ _ (by simp [EvalToken.type, is_sum_op])] at hsum'
  have hps := parse_sum_of_from A cfg (parse_expr A cfg cfg.EVAL_MAX_STACK_DEPTH)
    ({ hooks := hooks, user_data := user_data, input := e.text ++ ws, pos := p1, stack_level := 1, token := tok1 } : EvalContext α U)
    _ output _ (by simpa using hsum')
  have hnot : ¬ (cfg.EVAL_MAX_STACK_DEPTH ≤ 0) := by omega
  simp only [eval_execute, hg1, ne_eq, not_true_eq_false, if_false, parse_expr, ge_iff_le, hnot,
    Nat.zero_add, hps, EvalToken.type, if_true]

end Eval

namespace Eval

variable {α U : Type}

/-- C4: for all well-formed literals `a` and `b` whose exponent digits, if
any, denote a number below `2^31`, and each of the operators `<`, `<=`, `==`,
`>=` and `>`, `eval_execute` on the text `a op b` returns `OK`
with `1` when the relation holds between the values of `a` and `b` and with
`0` when it does not. -/
theorem C4_relational (A : Arith α) (cfg : Config) (o : RelOp) (a b : Literal)
    (hooks : Option (EvalHooks α U)) (user_data : U) (output : α)
    (ha : a.wf = true) (hb : b.wf = true)
    (fa : a.exp_fits = true) (fb : b.exp_fits = true)
    (hd : 0 < cfg.EVAL_MAX_STACK_DEPTH) :
    eval_execute A cfg (a.text ++ [' '] ++ o.text ++ [' '] ++ b.text) hooks user_data output =
      some (EvalResult.OK,
        if o.holds A (a.value A) (b.value A) = true then A.ofNat 1 else A.ofNat 0) := by
  have h := eval_execute_gen A cfg
    (.bin (.num [] a) [' '] o.toBinOp (.num [' '] b)) []
    hooks user_data output
    (by cases o <;> simp [Expr.gen, ha, hb, fa, fb, BinOp.isSum, is_blank, NUL, RelOp.toBinOp])
    (by simp) (by simpa [Expr.depth] using hd)
  cases o <;>
    simpa [Expr.text, Expr.value, Expr.valueAux, BinOp.text, BinOp.apply, RelOp.text,
      RelOp.toBinOp, RelOp.holds, Arith.ofBool] using h

/-- C4, the five tests of `test.c` in exact arithmetic: `2 < 3` and `2 <= 3`
give 1; `2 == 3`, `2 >= 3` and `2 > 3` give 0. -/
theorem C4_relational_witness :
    eval_execute Arith.rat sample_config "2 < 3".toList no_hooks () 0
      = some (EvalResult.OK, 1) ∧
    eval_execute Arith.rat sample_config "2 <= 3".toList no_hooks () 0
      = some (EvalResult.OK, 1) ∧
    eval_execute Arith.rat sample_config "2 == 3".toList no_hooks () 0
      = some (EvalResult.OK, 0) ∧
    eval_execute Arith.rat sample_config "2 >= 3".toList no_hooks () 0
      = some (EvalResult.OK, 0) ∧
    eval_execute Arith.rat sample_config "2 > 3".toList no_hooks () 0
      = some (EvalResult.OK, 0) := by
  have hv : (Literal.ofDigits [2]).value Arith.rat = 2 ∧
      (Literal.ofDigits [3]).value Arith.rat = 3 := by decide!
  have h := fun o => C4_relational Arith.rat sample_config o (Literal.ofDigits [2])
    (Literal.ofDigits [3]) no_hooks () 0 (by decide) (by decide) (by decide) (by decide)
    (by decide)
  simp only [hv.1, hv.2] at h
  refine ⟨?_, ?_, ?_, ?_, ?_⟩
  · exact (h .lt).trans (by decide!)
  · exact (h .le).trans (by decide!)
  · exact (h .eq).trans (by decide!)
  · exact (h .ge).trans (by decide!)
  · exact (h .gt).trans (by decide!)

end Eval

namespace Eval

variable {α U : Type}

/-! ## Runs of minus signs and of brackets -/

theorem negs_text (n : Nat) (e : Expr) :
    (Expr.negs n e).text = List.replicate n '-' ++ e.text := by
  induction n with
  | zero => simp [Expr.negs]
  | succ n ih => simp [Expr.negs, Expr.text, ih, List.replicate_succ]

theorem negs_gen (n : Nat) (e : Expr) (h : e.gen 1 = true) : (Expr.negs n e).gen 1 = true := by
  induction n with
  | zero => simpa [Expr.negs] using h
  | succ n ih => simp [Expr.negs, Expr.gen, ih]

theorem negs_depth (n : Nat) (e : Expr) : (Expr.negs n e).depth = e.depth := by
  induction n with
  | zero => simp [Expr.negs]
  | succ n ih => simp [Expr.negs, Expr.depth, ih]

theorem negs_valueAux (A : Arith α) (n : Nat) (e : Expr) :
    ∀ b : Bool, (Expr.negs n e).valueAux A b = e.valueAux A (xor b (decide (n % 2 = 1))) := by
  induction n with
  | zero => intro b; simp [Expr.negs]
  | succ n ih =>
    intro b
    simp only [Expr.negs, Expr.valueAux, ih]
    congr 1
    rcases Nat.mod_two_eq_zero_or_one n with h | h
    · have : (n + 1) % 2 = 1 := by omega
      simp [h, this]
    · have : (n + 1) % 2 = 0 := by omega
      simp [h, this]

theorem pars_text (n : Nat) (e : Expr) :
    (Expr.pars n e).text = List.replicate n '(' ++ (e.text ++ List.replicate n ')') := by
  induction n with
  | zero => simp [Expr.pars]
  | succ n ih =>
    simp only [Expr.pars, Expr.text, ih, List.replicate_succ, List.nil_append, List.cons_append,
      List.append_assoc]
    congr 3
    rw [← List.replicate_succ, List.replicate_succ']

theorem pars_gen (n : Nat) (e : Expr) (h : e.gen 3 = true) : (Expr.pars n e).gen 3 = true := by
  induction n with
  | zero => simpa [Expr.pars] using h
  | succ n ih => simp [Expr.pars, Expr.gen, ih]

theorem pars_depth (n : Nat) (e : Expr) : (Expr.pars n e).depth = n + e.depth := by
  induction n with
  | zero => simp [Expr.pars]
  | succ n ih => simp [Expr.pars, Expr.depth, ih]; omega

theorem pars_value (A : Arith α) (n : Nat) (e : Expr) :
    (Expr.pars n e).value A = e.value A := by
  induction n with
  | zero => simp [Expr.pars]
  | succ n ih => simpa [Expr.pars, Expr.value, Expr.valueAux] using ih

theorem literal_one_value (A : Arith α) :
    (Literal.ofDigits [1]).value A = A.add (A.mul (A.ofNat 0) (A.ofNat 10)) (A.ofNat 1) := by
  simp [Literal.value, Literal.ofDigits, Literal.mantissa, Literal.exponent, exp_after, scale,
    scale_mul_loop, digits_value]

/-! ## Errors travel up unchanged -/

theorem parse_unary_err (A : Arith α) (cfg : Config)
    (pe : EvalContext α U → α → Option (EvalResult × EvalContext α U × α))
    (c c' : EvalContext α U) (out v : α) (r : EvalResult)
    (ht : c.token.type ≠ EvalTokenType.SUBTRACT)
    (hp : parse_term A cfg pe c (A.ofNat 0) = some (r, c', v)) (hr : r ≠ EvalResult.OK) :
    parse_unary A cfg pe c out = some (r, c', out) := by
  simp [parse_unary, parse_unary_loop, ht, hp, hr]

theorem parse_product_err (A : Arith α) (cfg : Config)
    (pe : EvalContext α U → α → Option (EvalResult × EvalContext α U × α))
    (c c' : EvalContext α U) (out v : α) (r : EvalResult)
    (hp : parse_unary A cfg pe c (A.ofNat 0) = some (r, c', v)) (hr : r ≠ EvalResult.OK) :
    parse_product A cfg pe c out = some (r, c', out) := by
  simp [parse_product, hp, hr]

theorem parse_sum_err (A : Arith α) (cfg : Config)
    (pe : EvalContext α U → α → Option (EvalResult × EvalContext α U × α))
    (c c' : EvalContext α U) (out v : α) (r : EvalResult)
    (hp : parse_product A cfg pe c (A.ofNat 0) = some (r, c', v)) (hr : r ≠ EvalResult.OK) :
    parse_sum A cfg pe c out = some (r, c', out) := by
  simp [parse_sum, hp, hr]

/-! ## The depth guard -/

theorem parse_expr_overflow (A : Arith α) (cfg : Config) (input R : List Char)
    (tokX : EvalToken α) (pX : Nat) :
    ∀ (j p : Nat), input.drop p = List.replicate j '(' ++ R →
      Lexes A cfg U input (p + j) tokX pX →
      ∃ (tok1 : EvalToken α) (p1 : Nat), Lexes A cfg U input p tok1 p1 ∧
        ∀ (c : EvalContext α U) (f : Nat) (out : α), c.input = input →
          c.stack_level + j = cfg.EVAL_MAX_STACK_DEPTH → j < f →
          ∃ c', parse_expr A cfg f { c with pos := p1, token := tok1 } out =
            some (EvalResult.STACK_OVERFLOW, c', out) := by
  intro j
  induction j with
  | zero =>
    intro p _ hl
    refine ⟨tokX, pX, by simpa using hl, ?_⟩
    intro c f out _ hsl hf
    obtain ⟨f', rfl⟩ : ∃ f', f = f' + 1 := ⟨f - 1, by omega⟩
    have : cfg.EVAL_MAX_STACK_DEPTH ≤ c.stack_level := by omega
    exact ⟨{ c with pos := pX, token := tokX }, by simp [parse_expr, this]⟩
  | succ j ih =>
    intro p hd hl
    simp only [List.replicate_succ, List.cons_append] at hd
    have hd' : input.drop p = [] ++ '(' :: (List.replicate j '(' ++ R) := by simpa using hd
    have hopen := lexes_open (U := U) A cfg input p [] _ (by simp) hd'
    have h1 := drop_succ_of_drop hd
    simp only [List.tail_cons] at h1
    obtain ⟨tok2, p2, hlex2, hov⟩ := ih (p + 1) h1 (by
      have e : p + 1 + j = p + (j + 1) := by omega
      rw [e]; exact hl)
    refine ⟨EvalToken.OPEN_BRACKET, p + 1, by simpa using hopen, ?_⟩
    intro c f out hi hsl hf
    subst hi
    obtain ⟨f', rfl⟩ : ∃ f', f = f' + 1 := ⟨f - 1, by omega⟩
    have hnot : ¬ (cfg.EVAL_MAX_STACK_DEPTH ≤ c.stack_level) := by omega
    have hg := hlex2 ({ c with pos := p + 1, stack_level := c.stack_level + 1, token := EvalToken.OPEN_BRACKET } : EvalContext α U) rfl rfl
    obtain ⟨c', hc'⟩ := hov ({ c with stack_level := c.stack_level + 1 } : EvalContext α U) f'
      (A.ofNat 0) rfl (by simp only; omega) (by omega)
    have hterm : parse_term A cfg (parse_expr A cfg f')
        ({ c with pos := p + 1, stack_level := c.stack_level + 1, token := EvalToken.OPEN_BRACKET } : EvalContext α U)
        (A.ofNat 0) = some (EvalResult.STACK_OVERFLOW, c', A.ofNat 0) := by
      simp only [parse_term, hg]
      simp only [ne_eq, not_true_eq_false, if_false]
      rw [hc']
      simp
    have hu := parse_unary_err A cfg _ _ _ (A.ofNat 0) _ _ (by simp [EvalToken.type]) hterm
      (by decide)
    have hp := parse_product_err A cfg _ _ _ (A.ofNat 0) _ _ hu (by decide)
    have hs := parse_sum_err A cfg _ _ _ out _ _ hp (by decide)
    exact ⟨{ c' with stack_level := c'.stack_level - 1 }, by
      simp only [parse_expr, ge_iff_le, hnot, if_false]
      rw [hs]⟩

theorem eval_execute_overflow (A : Arith α) (cfg : Config) (n : Nat) (R : List Char)
    (tokX : EvalToken α) (pX : Nat)
    (hooks : Option (EvalHooks α U)) (user_data : U) (output : α)
    (hn : cfg.EVAL_MAX_STACK_DEPTH ≤ n)
    (hl : Lexes A cfg U (List.replicate n '(' ++ R) cfg.EVAL_MAX_STACK_DEPTH tokX pX) :
    eval_execute A cfg (List.replicate n '(' ++ R) hooks user_data output =
      some (EvalResult.STACK_OVERFLOW, output) := by
  obtain ⟨m, rfl⟩ : ∃ m, n = cfg.EVAL_MAX_STACK_DEPTH + m := ⟨n - cfg.EVAL_MAX_STACK_DEPTH, by omega⟩
  have hd : (List.replicate (cfg.EVAL_MAX_STACK_DEPTH + m) '(' ++ R).drop 0 =
      List.replicate cfg.EVAL_MAX_STACK_DEPTH '(' ++ (List.replicate m '(' ++ R) := by
    rw [List.drop_zero, List.replicate_add, List.append_assoc]
  obtain ⟨tok1, p1, hlex, hov⟩ := parse_expr_overflow (U := U) A cfg _ _ tokX pX
    cfg.EVAL_MAX_STACK_DEPTH 0 hd (by simpa using hl)
  have hg := hlex ({ hooks := hooks, user_data := user_data, input := List.replicate (cfg.EVAL_MAX_STACK_DEPTH + m) '(' ++ R, pos := 0, stack_level := 0, token := EvalToken.END } : EvalContext α U) rfl rfl
  obtain ⟨c', hc'⟩ := hov ({ hooks := hooks, user_data := user_data, input := List.replicate (cfg.EVAL_MAX_STACK_DEPTH + m) '(' ++ R, pos := 0, stack_level := 0, token := EvalToken.END } : EvalContext α U)
    (cfg.EVAL_MAX_STACK_DEPTH + 1) output rfl (by simp) (by omega)
  simp only [eval_execute, hg]
  simp only [ne_eq, not_true_eq_false, if_false]
  rw [hc']
  simp

end Eval

namespace Eval

variable {α U : Type}

/-- C5: for every `n` and every well-formed literal `x` (and `a`) whose
exponent digits, if any, denote a number below `2^31`, `eval_execute` on `n`
characters `-` followed by `x` returns `OK` with the value of `x` when `n`
is even and with its negation when `n` is odd; and on `a + -x` it returns the
sum of `a` and the negation of `x`. -/
theorem C5_unary_minus_parity (A : Arith α) (cfg : Config)
    (hooks : Option (EvalHooks α U)) (user_data : U) (output : α)
    (hd : 0 < cfg.EVAL_MAX_STACK_DEPTH) :
    (∀ (n : Nat) (x : Literal), x.wf = true → x.exp_fits = true →
      eval_execute A cfg (List.replicate n '-' ++ x.text) hooks user_data output =
        some (EvalResult.OK, if n % 2 = 0 then x.value A else A.neg (x.value A))) ∧
    (∀ (a x : Literal), a.wf = true → x.wf = true → a.exp_fits = true → x.exp_fits = true →
      eval_execute A cfg (a.text ++ [' ', '+', ' ', '-'] ++ x.text) hooks user_data output =
        some (EvalResult.OK, A.add (a.value A) (A.neg (x.value A)))) := by
  constructor
  · intro n x hx fx
    have hg : (Expr.negs n (.num [] x)).gen 3 = true :=
      gen_mono _ 1 3 (by omega) (negs_gen n _ (by simp [Expr.gen, hx, fx]))
    have h := eval_execute_gen A cfg (Expr.negs n (.num [] x)) [] hooks user_data output hg
      (by simp) (by rw [negs_depth]; simpa [Expr.depth] using hd)
    rw [negs_text] at h
    simp only [Expr.text, List.nil_append, List.append_nil, Expr.value, negs_valueAux,
      Bool.false_bne, Expr.valueAux] at h
    rw [h]
    rcases Nat.mod_two_eq_zero_or_one n with h2 | h2 <;> simp [h2]
  · intro a x ha hx fa fx
    have h := eval_execute_gen A cfg (.bin (.num [] a) [' '] .add (.neg [' '] (.num [] x))) []
      hooks user_data output (by simp [Expr.gen, ha, hx, fa, fx, BinOp.isSum, is_blank, NUL])
      (by simp) (by simpa [Expr.depth] using hd)
    simpa [Expr.text, Expr.value, Expr.valueAux, BinOp.text, BinOp.apply] using h

/-- C5, the examples of the claim in exact arithmetic: `--5` gives 5, `-5`
gives -5 and `1 + -2` gives -1. -/
theorem C5_unary_minus_parity_witness :
    eval_execute Arith.rat sample_config "--5".toList no_hooks () 0
      = some (EvalResult.OK, 5) ∧
    eval_execute Arith.rat sample_config "-5".toList no_hooks () 0
      = some (EvalResult.OK, -5) ∧
    eval_execute Arith.rat sample_config "1 + -2".toList no_hooks () 0
      = some (EvalResult.OK, -1) := by
  have h := C5_unary_minus_parity Arith.rat sample_config no_hooks () 0 (by decide)
  refine ⟨?_, ?_, ?_⟩
  · exact (h.1 2 (Literal.ofDigits [5]) (by decide) (by decide)).trans (by decide!)
  · exact (h.1 1 (Literal.ofDigits [5]) (by decide) (by decide)).trans (by decide!)
  · exact (h.2 (Literal.ofDigits [1]) (Literal.ofDigits [2]) (by decide) (by decide)
      (by decide) (by decide)).trans (by decide!)

theorem drop_replicate_append (a b : Nat) (c : Char) (R : List Char) :
    (List.replicate (a + b) c ++ R).drop a = List.replicate b c ++ R := by
  rw [List.replicate_add, List.append_assoc]
  exact List.drop_left' (by simp)

/-- C8: `eval_execute` on `n` opening brackets, the literal `1` and `n`
closing brackets returns `OK` with the number of that literal (`0 * 10 + 1`)
when `n < EVAL_MAX_STACK_DEPTH` and `STACK_OVERFLOW` when
`n >= EVAL_MAX_STACK_DEPTH`; on `n >= EVAL_MAX_STACK_DEPTH` opening brackets
alone it returns `STACK_OVERFLOW` too. -/
theorem C8_bracket_depth (A : Arith α) (cfg : Config) (n : Nat)
    (hooks : Option (EvalHooks α U)) (user_data : U) (output : α) :
    (n < cfg.EVAL_MAX_STACK_DEPTH →
      eval_execute A cfg (List.replicate n '(' ++ ['1'] ++ List.replicate n ')')
          hooks user_data output =
        some (EvalResult.OK, A.add (A.mul (A.ofNat 0) (A.ofNat 10)) (A.ofNat 1))) ∧
    (cfg.EVAL_MAX_STACK_DEPTH ≤ n →
      eval_execute A cfg (List.replicate n '(' ++ ['1'] ++ List.replicate n ')')
          hooks user_data output =
        some (EvalResult.STACK_OVERFLOW, output)) ∧
    (cfg.EVAL_MAX_STACK_DEPTH ≤ n →
      eval_execute A cfg (List.replicate n '(') hooks user_data output =
        some (EvalResult.STACK_OVERFLOW, output)) := by
  refine ⟨fun hn => ?_, fun hn => ?_, fun hn => ?_⟩
  · have h := eval_execute_gen A cfg (Expr.pars n (Expr.lit [1])) [] hooks user_data output
      (pars_gen n _ (by decide)) (by simp)
      (by rw [pars_depth]; simpa [Expr.lit, Expr.depth] using hn)
    rw [pars_text, pars_value] at h
    simpa [Expr.lit, Expr.text, Expr.value, Expr.valueAux, literal_one_value, Literal.text,
      Literal.ofDigits, frac_text, exp_text, digit_char] using h
  · obtain ⟨m, rfl⟩ : ∃ m, n = cfg.EVAL_MAX_STACK_DEPTH + m :=
      ⟨n - cfg.EVAL_MAX_STACK_DEPTH, by omega⟩
    have hdrop := drop_replicate_append cfg.EVAL_MAX_STACK_DEPTH m '('
      ('1' :: List.replicate (cfg.EVAL_MAX_STACK_DEPTH + m) ')')
    have key : ∃ (tokX : EvalToken α) (pX : Nat), Lexes A cfg U
        (List.replicate (cfg.EVAL_MAX_STACK_DEPTH + m) '(' ++
          '1' :: List.replicate (cfg.EVAL_MAX_STACK_DEPTH + m) ')')
        cfg.EVAL_MAX_STACK_DEPTH tokX pX := by
      cases m with
      | zero =>
        have hl : (Literal.ofDigits [1]).text = ['1'] := by decide
        refine ⟨_, _, lexes_number A cfg _ _ [] (List.replicate (cfg.EVAL_MAX_STACK_DEPTH + 0) ')')
          (Literal.ofDigits [1]) (by simp) (by decide) (by decide) (by simp [hl]) ?_⟩
        cases h0 : cfg.EVAL_MAX_STACK_DEPTH with
        | zero => simp [Literal.stops, NUL, is_digit, is_dp, is_exp]
        | succ k => simp [Literal.stops, List.replicate_succ, is_digit, is_dp, is_exp]
      | succ m =>
        exact ⟨_, _, lexes_open A cfg _ _ []
          (List.replicate m '(' ++ '1' :: List.replicate (cfg.EVAL_MAX_STACK_DEPTH + (m + 1)) ')')
          (by simp) (by rw [hdrop]; rfl)⟩
    obtain ⟨tokX, pX, hl⟩ := key
    have := eval_execute_overflow A cfg (cfg.EVAL_MAX_STACK_DEPTH + m)
      ('1' :: List.replicate (cfg.EVAL_MAX_STACK_DEPTH + m) ')') tokX pX hooks user_data output
      hn hl
    simpa using this
  · obtain ⟨m, rfl⟩ : ∃ m, n = cfg.EVAL_MAX_STACK_DEPTH + m :=
      ⟨n - cfg.EVAL_MAX_STACK_DEPTH, by omega⟩
    have hdrop := drop_replicate_append cfg.EVAL_MAX_STACK_DEPTH m '(' []
    have key : ∃ (tokX : EvalToken α) (pX : Nat), Lexes A cfg U
        (List.replicate (cfg.EVAL_MAX_STACK_DEPTH + m) '(' ++ [])
        cfg.EVAL_MAX_STACK_DEPTH tokX pX := by
      cases m with
      | zero =>
        exact ⟨_, _, lexes_end A cfg _ _ [] (by simp) (by rw [hdrop]; rfl)⟩
      | succ m =>
        exact ⟨_, _, lexes_open A cfg _ _ [] (List.replicate m '(' ++ []) (by simp)
          (by rw [hdrop]; rfl)⟩
    obtain ⟨tokX, pX, hl⟩ := key
    have := eval_execute_overflow A cfg (cfg.EVAL_MAX_STACK_DEPTH + m) [] tokX pX hooks
      user_data output hn hl
    simpa using this

/-- C8, with the depth limit 16 of the sample configuration, in exact
arithmetic: two levels of brackets give 1, sixteen levels give
`STACK_OVERFLOW`, closed or not. -/
theorem C8_bracket_depth_witness :
    eval_execute Arith.rat sample_config "((1))".toList no_hooks () 0
      = some (EvalResult.OK, 1) ∧
    eval_execute Arith.rat sample_config
        (List.replicate 16 '(' ++ ['1'] ++ List.replicate 16 ')') no_hooks () 0
      = some (EvalResult.STACK_OVERFLOW, 0) ∧
    eval_execute Arith.rat sample_config (List.replicate 16 '(') no_hooks () 0
      = some (EvalResult.STACK_OVERFLOW, 0) := by
  refine ⟨?_, ?_, ?_⟩
  · exact ((C8_bracket_depth Arith.rat sample_config 2 no_hooks () 0).1 (by decide)).trans
      (by decide!)
  · exact (C8_bracket_depth Arith.rat sample_config 16 no_hooks () 0).2.1 (by decide)
  · exact (C8_bracket_depth Arith.rat sample_config 16 no_hooks () 0).2.2 (by decide)

end Eval

namespace Eval

variable {α U : Type}

/-! ## Malformed literals -/

theorem get_number_lone_point (A : Arith α) (ctx : EvalContext α U) (R : List Char)
    (h : ctx.input.drop ctx.pos = '.' :: R) (hd : is_digit (peek R) = false) :
    get_number A ctx =
      some (EvalResult.INVALID_LITERAL, { ctx with pos := ctx.pos + 1 + 1 }) := by
  have h1 := drop_succ_of_drop h
  simp only [List.tail_cons] at h1
  have hdp : is_dp '.' = true := by decide
  simp [get_number, get_number_frac, get_char_eq, h, h1, hdp, hd]

theorem get_number_exp_no_digit (A : Arith α) (fuel : Nat) (value : α) (exp : Int)
    (upper : Bool) (sign : Option Bool) (ctx : EvalContext α U) (R : List Char)
    (h : ctx.input.drop ctx.pos = sign_text sign ++ R)
    (hd : is_digit (peek R) = false)
    (hs : sign = none → peek R ≠ '-' ∧ peek R ≠ '+') :
    ∃ c', get_number_exp A fuel value exp (if upper = true then 'E' else 'e') ctx =
      some (EvalResult.INVALID_LITERAL, c') := by
  have hm : is_exp (if upper = true then 'E' else 'e') = true := by cases upper <;> decide
  cases sign with
  | none =>
    obtain ⟨hs1, hs2⟩ := hs rfl
    simp only [sign_text, List.nil_append] at h
    exact ⟨{ ctx with pos := ctx.pos + 1 }, by
      simp [get_number_exp, hm, get_char_eq, h, hs1, hs2, hd]⟩
  | some sg =>
    cases sg with
    | true =>
      simp only [sign_text, List.cons_append, List.nil_append] at h
      have h1 := drop_succ_of_drop h
      simp only [List.tail_cons] at h1
      exact ⟨{ ctx with pos := ctx.pos + 1 + 1 }, by
        simp [get_number_exp, hm, get_char_eq, h, h1, hd]⟩
    | false =>
      simp only [sign_text, List.cons_append, List.nil_append] at h
      have h1 := drop_succ_of_drop h
      simp only [List.tail_cons] at h1
      exact ⟨{ ctx with pos := ctx.pos + 1 + 1 }, by
        simp [get_number_exp, hm, get_char_eq, h, h1, hd]⟩

/-- C7: `eval_execute` returns `INVALID_LITERAL` on `.` and on `1e`; `get_number`
returns `INVALID_LITERAL` whenever the text at the cursor is a decimal point
with no digit before it and none after it, and whenever it is a well-formed
mantissa followed by an exponent marker `e` or `E` and an optional sign that
no digit follows. -/
theorem C7_invalid_literal (A : Arith α) (cfg : Config) :
    (∀ (hooks : Option (EvalHooks α U)) (user_data : U) (output : α),
      eval_execute A cfg ['.'] hooks user_data output =
        some (EvalResult.INVALID_LITERAL, output)) ∧
    (∀ (hooks : Option (EvalHooks α U)) (user_data : U) (output : α),
      eval_execute A cfg ['1', 'e'] hooks user_data output =
        some (EvalResult.INVALID_LITERAL, output)) ∧
    (∀ (ctx : EvalContext α U) (R : List Char),
      ctx.input.drop ctx.pos = '.' :: R → is_digit (peek R) = false →
      ∃ c', get_number A ctx = some (EvalResult.INVALID_LITERAL, c')) ∧
    (∀ (m : Literal) (upper : Bool) (sign : Option Bool) (ctx : EvalContext α U)
      (R : List Char), m.wf = true → m.exp = none →
      ctx.input.drop ctx.pos =
        m.text ++ ((if upper = true then 'E' else 'e') :: (sign_text sign ++ R)) →
      is_digit (peek R) = false → (sign = none → peek R ≠ '-' ∧ peek R ≠ '+') →
      ∃ c', get_number A ctx = some (EvalResult.INVALID_LITERAL, c')) := by
  refine ⟨?_, ?_, ?_, ?_⟩
  · intro hooks user_data output
    simp [eval_execute, get_token, get_token_loop, get_char, put_char, get_number,
      get_number_frac, NUL, is_digit, is_dp]
  · intro hooks user_data output
    simp [eval_execute, get_token, get_token_loop, get_char, put_char, get_number,
      get_number_int_loop, get_number_frac, get_number_exp, NUL, is_digit, is_dp, is_exp]
  · intro ctx R h hd
    exact ⟨_, get_number_lone_point A ctx R h hd⟩
  · intro m upper sign ctx R hwf hexp h hd hs
    obtain ⟨int, fr, ox⟩ := m
    simp only at hexp
    subst hexp
    simp only [Literal.wf, Bool.and_eq_true, Bool.or_eq_true, Bool.not_eq_true',
      List.isEmpty_eq_false] at hwf
    obtain ⟨⟨hw1, hw2⟩, -⟩ := hwf
    have hwf' : ∀ f, fr = some f → f ≠ [] := by
      intro f hf; subst hf; simpa using hw2
    have hw1' : int ≠ [] ∨ fr.isSome = true := by
      cases hw1 with
      | inl h => exact Or.inl (by simpa using h)
      | inr h => exact Or.inr h
    simp only [Literal.text, exp_text, List.append_nil, List.append_assoc] at h
    have hr := get_number_reach A int fr hw1' hwf' ctx
      ((if upper = true then 'E' else 'e') :: (sign_text sign ++ R)) h
      (by simpa using (marker_facts upper).1) (fun _ => by simpa using (marker_facts upper).2)
    have h3 := drop_add_of_drop (T := List.map digit_char int ++ frac_text fr)
      (S := (if upper = true then 'E' else 'e') :: (sign_text sign ++ R)) (by simpa using h)
    have h4 := drop_succ_of_drop h3
    simp only [List.tail_cons, List.length_append, List.length_map] at h4
    rw [hr, peek_cons]
    exact get_number_exp_no_digit A _ _ _ upper sign _ R h4 hd hs

/-- C7, at the two texts of the claim in exact arithmetic, and `get_number`
on `1.5e+` followed by `x` and on `.` followed by `+`. -/
theorem C7_invalid_literal_witness :
    eval_execute Arith.rat sample_config ".".toList no_hooks () 0
      = some (EvalResult.INVALID_LITERAL, 0) ∧
    eval_execute Arith.rat sample_config "1e".toList no_hooks () 0
      = some (EvalResult.INVALID_LITERAL, 0) ∧
    (∃ c', get_number Arith.rat (start_context ".+".toList)
      = some (EvalResult.INVALID_LITERAL, c')) ∧
    (∃ c', get_number Arith.rat (start_context "1.5e+x".toList)
      = some (EvalResult.INVALID_LITERAL, c')) := by
  have h := C7_invalid_literal (U := Unit) Arith.rat sample_config
  refine ⟨h.1 no_hooks () 0, h.2.1 no_hooks () 0, ?_, ?_⟩
  · exact h.2.2.1 (start_context ".+".toList) ['+'] (by decide) (by decide)
  · exact h.2.2.2 { int := [1], frac := some [5], exp := none } false (some false)
      (start_context "1.5e+x".toList) ['x'] (by decide) rfl (by decide) (by decide)
      (by simp)

/-! ## Names -/

theorem get_name_loop_run (cfg : Config) (R : List Char) (hR : is_name (peek R) = false) :
    ∀ (run name : List Char) (ctx : EvalContext α U) (fuel : Nat),
      run.all is_name = true → ctx.input.drop ctx.pos = run ++ R → run.length < fuel →
      name.length ≤ cfg.EVAL_MAX_NAME_LENGTH - 1 →
      (name.length + run.length ≤ cfg.EVAL_MAX_NAME_LENGTH - 1 →
        get_name_loop cfg fuel name ctx =
          some (EvalResult.OK, name ++ run, { ctx with pos := ctx.pos + run.length + 1 })) ∧
      (cfg.EVAL_MAX_NAME_LENGTH - 1 < name.length + run.length →
        ∃ name' c', get_name_loop cfg fuel name ctx =
          some (EvalResult.NAME_TOO_LONG, name', c')) := by
  intro run
  induction run with
  | nil =>
    intro name ctx fuel _ h hf hinv
    obtain ⟨fuel, rfl⟩ : ∃ f, fuel = f + 1 := ⟨fuel - 1, by simp at hf; omega⟩
    simp only [List.nil_append] at h
    refine ⟨fun _ => ?_, fun hlt => ?_⟩
    · simp [get_name_loop, get_char_eq, h, hR]
    · simp at hlt; omega
  | cons c run ih =>
    intro name ctx fuel hrun h hf hinv
    obtain ⟨fuel, rfl⟩ : ∃ f, fuel = f + 1 := ⟨fuel - 1, by simp at hf; omega⟩
    simp only [List.all_cons, Bool.and_eq_true] at hrun
    obtain ⟨hc, hrun⟩ := hrun
    simp only [List.cons_append] at h
    have h1 := drop_succ_of_drop h
    simp only [List.tail_cons] at h1
    simp only [List.length_cons] at hf ⊢
    by_cases hfull : cfg.EVAL_MAX_NAME_LENGTH - 1 ≤ name.length
    · refine ⟨fun hle => by omega, fun _ => ⟨name, { ctx with pos := ctx.pos + 1 }, ?_⟩⟩
      simp [get_name_loop, get_char_eq, h, hc, hfull]
    · have := ih (name ++ [c]) ({ ctx with pos := ctx.pos + 1 } : EvalContext α U) fuel hrun h1
        (by omega) (by simp; omega)
      simp only [List.length_append, List.length_cons, List.length_nil] at this
      refine ⟨fun hle => ?_, fun hlt => ?_⟩
      · have h2 := this.1 (by omega)
        simp only [get_name_loop, get_char_eq, h, peek_cons, hc, Bool.not_true,
          Bool.false_eq_true, if_false, ge_iff_le, hfull, h2]
        simp only [List.append_assoc, List.singleton_append, Option.some.injEq, Prod.mk.injEq,
          true_and]
        exact ctx_pos_congr ctx (by omega)
      · obtain ⟨name', c', h2⟩ := this.2 (by omega)
        exact ⟨name', c', by
          simp only [get_name_loop, get_char_eq, h, peek_cons, hc, Bool.not_true,
            Bool.false_eq_true, if_false, ge_iff_le, hfull, h2]⟩

/-- C9: when the text at the cursor is a run of letter, digit and underscore
characters followed by a character that is none of these, `get_name` returns
`NAME_TOO_LONG` if the run is longer than `EVAL_MAX_NAME_LENGTH - 1`, and
otherwise returns `OK` with the whole run as the name of the token and the
cursor on the first character after the run. -/
theorem C9_get_name (cfg : Config) (ctx : EvalContext α U) (type : List Char → EvalToken α)
    (run R : List Char) (hrun : run.all is_name = true) (hR : is_name (peek R) = false)
    (h : ctx.input.drop ctx.pos = run ++ R) :
    (cfg.EVAL_MAX_NAME_LENGTH - 1 < run.length →
      ∃ c', get_name cfg ctx type = some (EvalResult.NAME_TOO_LONG, c')) ∧
    (run.length ≤ cfg.EVAL_MAX_NAME_LENGTH - 1 →
      get_name cfg ctx type =
        some (EvalResult.OK, { ctx with pos := ctx.pos + run.length, token := type run }) ∧
      ctx.input.drop (ctx.pos + run.length) = R) := by
  have hlen := length_le_of_drop_eq h
  have hl := get_name_loop_run cfg R hR run [] ctx (ctx.input.length + 1) hrun h (by omega)
    (by simp)
  simp only [List.length_nil, Nat.zero_add, List.nil_append] at hl
  refine ⟨fun hlt => ?_, fun hle => ⟨?_, drop_add_of_drop h⟩⟩
  · obtain ⟨name', c', h2⟩ := hl.2 hlt
    exact ⟨c', by simp [get_name, h2]⟩
  · simp [get_name, hl.1 hle, put_char]

/-- C9, with the name bound 32 of the sample configuration: on `sin(0)` the
name `sin` is captured and the cursor is left on `(`; a run of 32 letters is
too long. -/
theorem C9_get_name_witness :
    get_name sample_config (start_context "sin(0)".toList) EvalToken.FUNC
      = some (EvalResult.OK,
          { start_context "sin(0)".toList with pos := 3, token := EvalToken.FUNC "sin".toList }) ∧
    (∃ c', get_name sample_config (start_context (List.replicate 32 'a')) EvalToken.FUNC
      = some (EvalResult.NAME_TOO_LONG, c')) := by
  constructor
  · exact ((C9_get_name sample_config (start_context "sin(0)".toList) EvalToken.FUNC
      "sin".toList "(0)".toList (by decide) (by decide) (by decide)).2 (by decide)).1
  · exact (C9_get_name sample_config (start_context (List.replicate 32 'a')) EvalToken.FUNC
      (List.replicate 32 'a') [] (by decide) (by decide) (by decide)).1 (by decide)

end Eval

namespace Eval

variable {α U : Type}

/-! ## Literals in exact arithmetic -/

theorem digits_value_rat (ds : List (Fin 10)) :
    ∀ n : Nat, digits_value Arith.rat (n : ℚ) ds =
      ((ds.foldl (fun n d => n * 10 + d.val) n : Nat) : ℚ) := by
  induction ds with
  | nil => intro n; simp [digits_value]
  | cons d ds ih =>
    intro n
    have := ih (n * 10 + d.val)
    simp only [digits_value, List.foldl_cons] at this ⊢
    rw [← this]
    simp [Arith.rat]

theorem mantissa_rat (l : Literal) :
    l.mantissa Arith.rat = (l.digits_number : ℚ) := by
  have h0 : Arith.rat.ofNat 0 = ((0 : Nat) : ℚ) := by simp [Arith.rat]
  simp only [Literal.mantissa, Literal.digits_number, digits_nat, List.foldl_append, h0,
    digits_value_rat]

theorem foldl_digits_le (ds : List (Fin 10)) :
    ∀ n : Nat, n ≤ ds.foldl (fun n d => n * 10 + d.val) n := by
  induction ds with
  | nil => intro n; simp
  | cons d ds ih =>
    intro n
    have := ih (n * 10 + d.val)
    simp only [List.foldl_cons]
    omega

theorem exponent_eq (l : Literal) :
    l.exponent = l.written_exponent - (l.frac_count : Int) := by
  obtain ⟨int, fr, ox⟩ := l
  cases ox with
  | none => simp [Literal.exponent, exp_after, Literal.written_exponent, Literal.frac_count]
  | some x =>
    simp only [Literal.exponent, exp_after, Literal.written_exponent, Literal.frac_count,
      digits_int_nat x.digits]
    split <;> ring

theorem scale_mul_loop_rat :
    ∀ (fuel exp : Nat) (value power : ℚ), exp ≤ fuel →
      scale_mul_loop Arith.rat fuel exp value power = some (value * power ^ exp) := by
  intro fuel
  induction fuel with
  | zero =>
    intro exp value power h
    have : exp = 0 := by omega
    subst this
    simp [scale_mul_loop]
  | succ fuel ih =>
    intro exp value power h
    by_cases h0 : exp = 0
    · subst h0; simp [scale_mul_loop]
    · simp only [scale_mul_loop, h0, if_false]
      rw [ih _ _ _ (by omega)]
      have h2 : exp = 2 * (exp / 2) + exp % 2 := (Nat.div_add_mod exp 2).symm
      simp only [Option.some.injEq, Arith.rat]
      rcases Nat.mod_two_eq_zero_or_one exp with h1 | h1
      · rw [h1] at h2
        simp only [h1, zero_ne_one, if_false]
        conv_rhs => rw [h2]
        rw [Nat.add_zero, pow_mul, ← sq]
      · rw [h1] at h2
        simp only [h1, if_true]
        conv_rhs => rw [h2]
        rw [pow_succ, pow_mul, ← sq]
        ring

theorem scale_div_loop_rat :
    ∀ (fuel exp : Nat) (value power : ℚ), exp ≤ fuel →
      scale_div_loop Arith.rat fuel exp value power = some (value / power ^ exp) := by
  intro fuel
  induction fuel with
  | zero =>
    intro exp value power h
    have : exp = 0 := by omega
    subst this
    simp [scale_div_loop]
  | succ fuel ih =>
    intro exp value power h
    by_cases h0 : exp = 0
    · subst h0; simp [scale_div_loop]
    · simp only [scale_div_loop, h0, if_false]
      rw [ih _ _ _ (by omega)]
      have h2 : exp = 2 * (exp / 2) + exp % 2 := (Nat.div_add_mod exp 2).symm
      simp only [Option.some.injEq, Arith.rat]
      rcases Nat.mod_two_eq_zero_or_one exp with h1 | h1
      · rw [h1] at h2
        simp only [h1, zero_ne_one, if_false]
        conv_rhs => rw [h2]
        rw [Nat.add_zero, pow_mul, ← sq]
      · rw [h1] at h2
        simp only [h1, if_true]
        conv_rhs => rw [h2]
        rw [pow_succ, pow_mul, ← sq, div_div, mul_comm]

theorem scale_rat (value : ℚ) (exp : Int) :
    scale Arith.rat value exp = some (value * (10 : ℚ) ^ exp) := by
  have h10 : Arith.rat.ofNat 10 = (10 : ℚ) := by simp [Arith.rat]
  unfold scale
  by_cases h : exp < 0
  · simp only [h, if_true, h10]
    rw [scale_div_loop_rat _ _ _ _ (le_refl _)]
    obtain ⟨k, hk⟩ : ∃ k : Nat, exp = -(k : Int) := ⟨(-exp).toNat, by omega⟩
    subst hk
    simp [div_eq_mul_inv]
  · simp only [h, if_false, h10]
    rw [scale_mul_loop_rat _ _ _ _ (le_refl _)]
    obtain ⟨k, hk⟩ : ∃ k : Nat, exp = (k : Int) := ⟨exp.toNat, by omega⟩
    subst hk
    simp

theorem literal_value_rat (l : Literal) :
    l.value Arith.rat =
      (l.digits_number : ℚ) * (10 : ℚ) ^ (l.written_exponent - (l.frac_count : Int)) := by
  simp [Literal.value, scale_rat, mantissa_rat, exponent_eq l]

/-- C6: in exact arithmetic, for every well-formed literal whose written
exponent fits the `int` accumulator, standing at the cursor and followed by a
character that does not continue it, `get_number` returns `OK` and stores a
`NUMBER` token of value `N * 10^(s*X - |F|)`, `N` being the integer written by
the integer digits followed by the fractional digits, `|F|` the number of
fractional digits and `s*X` the written exponent with its sign; the cursor is
left after the literal.  The scaling multiplies by `10^k` for the exponent
`k >= 0` and divides by `10^k` for the exponent `-k`.  So does `eval_execute`
on the text of the literal. -/
theorem C6_literal_value (cfg : Config) (l : Literal) (hwf : l.wf = true)
    (hfit : l.exp_fits = true) :
    (∀ (ctx : EvalContext ℚ U) (R : List Char),
      ctx.input.drop ctx.pos = l.text ++ R → l.stops (peek R) = true →
      get_number Arith.rat ctx =
        some (EvalResult.OK,
          { ctx with
            pos := ctx.pos + l.text.length
            token := EvalToken.NUMBER ((l.digits_number : ℚ) *
              (10 : ℚ) ^ (l.written_exponent - (l.frac_count : Int))) })) ∧
    (∀ (value : ℚ) (k : Nat),
      scale Arith.rat value (k : Int) = some (value * (10 : ℚ) ^ k) ∧
      scale Arith.rat value (-(k : Int)) = some (value / (10 : ℚ) ^ k)) ∧
    (∀ (hooks : Option (EvalHooks ℚ U)) (user_data : U) (output : ℚ),
      0 < cfg.EVAL_MAX_STACK_DEPTH →
      eval_execute Arith.rat cfg l.text hooks user_data output =
        some (EvalResult.OK, (l.digits_number : ℚ) *
          (10 : ℚ) ^ (l.written_exponent - (l.frac_count : Int)))) := by
  refine ⟨?_, ?_, ?_⟩
  · intro ctx R h hstop
    rw [get_number_literal Arith.rat l hwf hfit ctx R h hstop, literal_value_rat l]
  · intro value k
    constructor
    · rw [scale_rat]; simp
    · rw [scale_rat]; simp [div_eq_mul_inv]
  · intro hooks user_data output hd
    have h := eval_execute_gen Arith.rat cfg (.num [] l) [] hooks user_data output
      (by simp [Expr.gen, hwf, hfit]) (by simp) (by simpa [Expr.depth] using hd)
    simpa [Expr.text, Expr.value, Expr.valueAux, literal_value_rat l] using h

/-- C6, the examples of the claim: `1.5e2` gives 150 and `.5` gives 0.5, from
`get_number` and from `eval_execute`. -/
theorem C6_literal_value_witness :
    get_number Arith.rat (start_context "1.5e2".toList)
      = some (EvalResult.OK,
          { start_context "1.5e2".toList with pos := 5, token := EvalToken.NUMBER 150 }) ∧
    eval_execute Arith.rat sample_config "1.5e2".toList no_hooks () 0
      = some (EvalResult.OK, 150) ∧
    eval_execute Arith.rat sample_config ".5".toList no_hooks () 0
      = some (EvalResult.OK, 1 / 2) := by
  have h1 := C6_literal_value (U := Unit) sample_config literal_1_5e2 (by decide) (by decide)
  have h2 := C6_literal_value (U := Unit) sample_config literal_point_5 (by decide) (by decide)
  have hv1 : (literal_1_5e2.digits_number : ℚ) *
      (10 : ℚ) ^ (literal_1_5e2.written_exponent - (literal_1_5e2.frac_count : Int)) = 150 := by
    decide!
  have hv2 : (literal_point_5.digits_number : ℚ) *
      (10 : ℚ) ^ (literal_point_5.written_exponent - (literal_point_5.frac_count : Int))
      = 1 / 2 := by
    decide!
  rw [hv1] at h1
  rw [hv2] at h2
  exact ⟨h1.1 (start_context "1.5e2".toList) [] (by decide) (by decide),
    h1.2.2 no_hooks () 0 (by decide), h2.2.2 no_hooks () 0 (by decide)⟩

end Eval

namespace Eval

variable {α U : Type}

/-! ## Two texts that the lexer cannot tell apart inside a token

`i2` is `i1` with a `)` where `i1` ends.  Read at the same index, the two
texts give the same character, or the terminator in `i1` and `)` in `i2`. -/

theorem csim_facts {a b : Char} (h : csim a b) :
    is_digit a = is_digit b ∧ is_dp a = is_dp b ∧ is_exp a = is_exp b ∧
    is_name a = is_name b ∧ is_name_start a = is_name_start b ∧
    (a = '-' ↔ b = '-') ∧ (a = '+' ↔ b = '+') ∧ (a = '=' ↔ b = '=') ∧
    (is_digit a = true → a = b) ∧ (is_name a = true → a = b) ∧ (a ≠ NUL → a = b) := by
  rcases h with h | ⟨h1, h2⟩
  · subst h; simp
  · subst h1; subst h2; decide

theorem get_char_sim (ctx : EvalContext α U) (i2 : List Char) (h : CSim ctx.input i2) :
    csim (get_char ctx).1 (get_char ({ ctx with input := i2 } : EvalContext α U)).1 ∧
    (get_char ({ ctx with input := i2 } : EvalContext α U)).2 =
      { (get_char ctx).2 with input := i2 } := by
  exact ⟨h ctx.pos, rfl⟩

theorem int_loop_sim (A : Arith α) (i2 : List Char) :
    ∀ (f1 f2 : Nat) (value : α) (c : Char) (ctx : EvalContext α U) (r : α × Char × EvalContext α U),
      CSim ctx.input i2 → f1 ≤ f2 → get_number_int_loop A f1 value c ctx = some r →
      ∃ ch2, get_number_int_loop A f2 value c { ctx with input := i2 } =
          some (r.1, ch2, { r.2.2 with input := i2 }) ∧ csim r.2.1 ch2 ∧
        r.2.2.input = ctx.input := by
  intro f1
  induction f1 with
  | zero => intro f2 value c ctx r _ _ h; simp [get_number_int_loop] at h
  | succ f1 ih =>
    intro f2 value c ctx r hs hf h
    obtain ⟨f2, rfl⟩ : ∃ f, f2 = f + 1 := ⟨f2 - 1, by omega⟩
    have hc := get_char_sim ctx i2 hs
    have hfacts := csim_facts hc.1
    simp only [get_number_int_loop] at h ⊢
    rw [hc.2]
    cases hd : is_digit (get_char ctx).1 with
    | true =>
      have heq := hfacts.2.2.2.2.2.2.2.2.1 hd
      simp only [hd, if_true] at h
      rw [← heq]
      simp only [hd, if_true]
      exact ih f2 _ _ _ r hs (by omega) h
    | false =>
      simp only [hd, Bool.false_eq_true, if_false, Option.some.injEq] at h
      subst h
      simp only [← hfacts.1, hd, Bool.false_eq_true, if_false]
      exact ⟨_, rfl, hc.1, rfl⟩

theorem frac_loop_sim (A : Arith α) (i2 : List Char) :
    ∀ (f1 f2 : Nat) (value : α) (exp : Int) (c : Char) (ctx : EvalContext α U)
      (r : α × Int × Char × EvalContext α U),
      CSim ctx.input i2 → f1 ≤ f2 → get_number_frac_loop A f1 value exp c ctx = some r →
      ∃ ch2, get_number_frac_loop A f2 value exp c { ctx with input := i2 } =
          some (r.1, r.2.1, ch2, { r.2.2.2 with input := i2 }) ∧ csim r.2.2.1 ch2 ∧
        r.2.2.2.input = ctx.input := by
  intro f1
  induction f1 with
  | zero => intro f2 value exp c ctx r _ _ h; simp [get_number_frac_loop] at h
  | succ f1 ih =>
    intro f2 value exp c ctx r hs hf h
    obtain ⟨f2, rfl⟩ : ∃ f, f2 = f + 1 := ⟨f2 - 1, by omega⟩
    have hc := get_char_sim ctx i2 hs
    have hfacts := csim_facts hc.1
    simp only [get_number_frac_loop] at h ⊢
    rw [hc.2]
    cases hd : is_digit (get_char ctx).1 with
    | true =>
      have heq := hfacts.2.2.2.2.2.2.2.2.1 hd
      simp only [hd, if_true] at h
      rw [← heq]
      simp only [hd, if_true]
      exact ih f2 _ _ _ _ r hs (by omega) h
    | false =>
      simp only [hd, Bool.false_eq_true, if_false, Option.some.injEq] at h
      subst h
      simp only [← hfacts.1, hd, Bool.false_eq_true, if_false]
      exact ⟨_, rfl, hc.1, rfl⟩

theorem exp_loop_sim (i2 : List Char) :
    ∀ (f1 f2 : Nat) (int_val : Int) (c : Char) (ctx : EvalContext α U)
      (r : Int × Char × EvalContext α U),
      CSim ctx.input i2 → f1 ≤ f2 → get_number_exp_loop f1 int_val c ctx = some r →
      ∃ ch2, get_number_exp_loop f2 int_val c { ctx with input := i2 } =
          some (r.1, ch2, { r.2.2 with input := i2 }) ∧ csim r.2.1 ch2 ∧
        r.2.2.input = ctx.input := by
  intro f1
  induction f1 with
  | zero => intro f2 int_val c ctx r _ _ h; simp [get_number_exp_loop] at h
  | succ f1 ih =>
    intro f2 int_val c ctx r hs hf h
    obtain ⟨f2, rfl⟩ : ∃ f, f2 = f + 1 := ⟨f2 - 1, by omega⟩
    have hc := get_char_sim ctx i2 hs
    have hfacts := csim_facts hc.1
    simp only [get_number_exp_loop] at h ⊢
    by_cases hov : int_val * 10 + (digit_value c : Int) > INT_MAX
    · rw [if_pos hov] at h; cases h
    rw [if_neg hov] at h ⊢
    rw [hc.2]
    cases hd : is_digit (get_char ctx).1 with
    | true =>
      have heq := hfacts.2.2.2.2.2.2.2.2.1 hd
      simp only [hd, if_true] at h
      rw [← heq]
      simp only [hd, if_true]
      exact ih f2 _ _ _ r hs (by omega) h
    | false =>
      simp only [hd, Bool.false_eq_true, if_false, Option.some.injEq] at h
      subst h
      simp only [← hfacts.1, hd, Bool.false_eq_true, if_false]
      exact ⟨_, rfl, hc.1, rfl⟩

theorem get_number_scale_sim (A : Arith α) (i2 : List Char) (value : α) (exp : Int)
    (ctx : EvalContext α U) (r : EvalResult × EvalContext α U)
    (h : get_number_scale A value exp ctx = some r) :
    get_number_scale A value exp { ctx with input := i2 } =
      some (r.1, { r.2 with input := i2 }) := by
  simp only [get_number_scale] at h ⊢
  cases hs : scale A value exp with
  | none => simp [hs] at h
  | some v =>
    simp only [hs, Option.some.injEq] at h
    subst h
    simp [put_char]

theorem get_number_exp_sim (A : Arith α) (i2 : List Char) (f1 f2 : Nat) (value : α) (exp : Int)
    (c1 c2 : Char) (ctx : EvalContext α U) (r : EvalResult × EvalContext α U)
    (hs : CSim ctx.input i2) (hc : csim c1 c2) (hf : f1 ≤ f2)
    (h : get_number_exp A f1 value exp c1 ctx = some r) :
    get_number_exp A f2 value exp c2 { ctx with input := i2 } =
      some (r.1, { r.2 with input := i2 }) := by
  have hcf := csim_facts hc
  simp only [get_number_exp] at h ⊢
  rw [← hcf.2.2.1]
  cases he : is_exp c1 with
  | false =>
    simp only [he, Bool.false_eq_true, if_false] at h ⊢
    exact get_number_scale_sim A i2 value exp ctx r h
  | true =>
    simp only [he, if_true] at h ⊢
    have hd := get_char_sim ctx i2 hs
    have hdf := csim_facts hd.1
    rw [hd.2]
    have hs1 : CSim (get_char ctx).2.input i2 := hs
    have hg := get_char_sim (get_char ctx).2 i2 hs1
    have hgf := csim_facts hg.1
    by_cases hm : (get_char ctx).1 = '-'
    · have hm2 := hdf.2.2.2.2.2.1.mp hm
      simp only [hm, if_true] at h
      simp only [hm2, if_true]
      rw [hg.2, ← hgf.1]
      cases hdig : is_digit (get_char (get_char ctx).2).1 with
      | false =>
        simp only [hdig, Bool.not_false, if_true, Option.some.injEq] at h ⊢
        subst h; rfl
      | true =>
        simp only [hdig, Bool.not_true, Bool.false_eq_true, if_false] at h ⊢
        rw [← hgf.2.2.2.2.2.2.2.2.1 hdig]
        cases hl : get_number_exp_loop f1 0 (get_char (get_char ctx).2).1
            (get_char (get_char ctx).2).2 with
        | none => simp [hl] at h
        | some rl =>
          obtain ⟨ch2, hl2, -, -⟩ := exp_loop_sim i2 f1 f2 0 _ (get_char (get_char ctx).2).2 rl
            hs hf hl
          simp only [hl] at h
          simp only [hl2]
          exact get_number_scale_sim A i2 _ _ _ r h
    · have hm2 : ¬ (get_char ({ ctx with input := i2 } : EvalContext α U)).1 = '-' :=
        fun hx => hm (hdf.2.2.2.2.2.1.mpr hx)
      simp only [hm, if_false] at h
      simp only [hm2, if_false]
      by_cases hp : (get_char ctx).1 = '+'
      · have hp2 := hdf.2.2.2.2.2.2.1.mp hp
        simp only [hp, if_true] at h
        simp only [hp2, if_true]
        rw [hg.2, ← hgf.1]
        cases hdig : is_digit (get_char (get_char ctx).2).1 with
        | false =>
          simp only [hdig, Bool.not_false, if_true, Option.some.injEq] at h ⊢
          subst h; rfl
        | true =>
          simp only [hdig, Bool.not_true, Bool.false_eq_true, if_false] at h ⊢
          rw [← hgf.2.2.2.2.2.2.2.2.1 hdig]
          cases hl : get_number_exp_loop f1 0 (get_char (get_char ctx).2).1
              (get_char (get_char ctx).2).2 with
          | none => simp [hl] at h
          | some rl =>
            obtain ⟨ch2, hl2, -, -⟩ := exp_loop_sim i2 f1 f2 0 _ (get_char (get_char ctx).2).2 rl
              hs hf hl
            simp only [hl] at h
            simp only [hl2]
            exact get_number_scale_sim A i2 _ _ _ r h
      · have hp2 : ¬ (get_char ({ ctx with input := i2 } : EvalContext α U)).1 = '+' :=
          fun hx => hp (hdf.2.2.2.2.2.2.1.mpr hx)
        simp only [hp, if_false] at h
        simp only [hp2, if_false]
        rw [← hdf.1]
        cases hdig : is_digit (get_char ctx).1 with
        | false =>
          simp only [hdig, Bool.not_false, if_true, Option.some.injEq] at h ⊢
          subst h; rfl
        | true =>
          simp only [hdig, Bool.not_true, Bool.false_eq_true, if_false] at h ⊢
          rw [← hdf.2.2.2.2.2.2.2.2.1 hdig]
          cases hl : get_number_exp_loop f1 0 (get_char ctx).1 (get_char ctx).2 with
          | none => simp [hl] at h
          | some rl =>
            obtain ⟨ch2, hl2, -, -⟩ := exp_loop_sim i2 f1 f2 0 _ (get_char ctx).2 rl hs hf hl
            simp only [hl] at h
            simp only [hl2]
            exact get_number_scale_sim A i2 _ _ _ r h

theorem get_number_frac_sim (A : Arith α) (i2 : List Char) (f1 f2 : Nat) (value : α)
    (exp : Int) (c1 c2 : Char) (ctx : EvalContext α U) (r : EvalResult × EvalContext α U)
    (hs : CSim ctx.input i2) (hc : csim c1 c2) (hf : f1 ≤ f2)
    (h : get_number_frac A f1 value exp c1 ctx = some r) :
    get_number_frac A f2 value exp c2 { ctx with input := i2 } =
      some (r.1, { r.2 with input := i2 }) := by
  have hcf := csim_facts hc
  simp only [get_number_frac] at h ⊢
  rw [← hcf.2.1]
  cases hp : is_dp c1 with
  | false =>
    simp only [hp, Bool.false_eq_true, if_false] at h ⊢
    exact get_number_exp_sim A i2 f1 f2 value exp c1 c2 ctx r hs hc hf h
  | true =>
    simp only [hp, if_true] at h ⊢
    have hd := get_char_sim ctx i2 hs
    have hdf := csim_facts hd.1
    rw [hd.2, ← hdf.1]
    cases hdig : is_digit (get_char ctx).1 with
    | false =>
      simp only [hdig, Bool.not_false, if_true, Option.some.injEq] at h ⊢
      subst h; rfl
    | true =>
      simp only [hdig, Bool.not_true, Bool.false_eq_true, if_false] at h ⊢
      rw [← hdf.2.2.2.2.2.2.2.2.1 hdig]
      cases hl : get_number_frac_loop A f1 value exp (get_char ctx).1 (get_char ctx).2 with
      | none => simp [hl] at h
      | some rl =>
        obtain ⟨ch2, hl2, hch, hin⟩ := frac_loop_sim A i2 f1 f2 value exp _ (get_char ctx).2 rl
          hs hf hl
        simp only [hl] at h
        simp only [hl2]
        have hsl : CSim rl.2.2.2.input i2 := by rw [hin]; exact hs
        exact get_number_exp_sim A i2 f1 f2 _ _ _ _ _ r hsl hch hf h

theorem get_number_sim (A : Arith α) (i2 : List Char) (ctx : EvalContext α U)
    (r : EvalResult × EvalContext α U)
    (hs : CSim ctx.input i2) (hlen : ctx.input.length ≤ i2.length)
    (h : get_number A ctx = some r) :
    get_number A { ctx with input := i2 } = some (r.1, { r.2 with input := i2 }) := by
  simp only [get_number] at h ⊢
  have hd := get_char_sim ctx i2 hs
  have hdf := csim_facts hd.1
  have hf : ctx.input.length + 1 ≤ i2.length + 1 := by omega
  rw [hd.2, ← hdf.2.1]
  cases hp : is_dp (get_char ctx).1 with
  | true =>
    simp only [hp, Bool.not_true, Bool.false_eq_true, if_false] at h ⊢
    exact get_number_frac_sim A i2 _ _ _ _ _ _ (get_char ctx).2 r hs hd.1 hf h
  | false =>
    simp only [hp, Bool.not_false, if_true] at h ⊢
    rw [← hdf.1]
    cases hdig : is_digit (get_char ctx).1 with
    | false =>
      simp only [hdig, Bool.not_false, if_true, Option.some.injEq] at h ⊢
      subst h; rfl
    | true =>
      simp only [hdig, Bool.not_true, Bool.false_eq_true, if_false] at h ⊢
      rw [← hdf.2.2.2.2.2.2.2.2.1 hdig]
      cases hl : get_number_int_loop A (ctx.input.length + 1) (A.ofNat 0) (get_char ctx).1
          (get_char ctx).2 with
      | none => simp [hl] at h
      | some rl =>
        obtain ⟨ch2, hl2, hch, hin⟩ := int_loop_sim A i2 _ _ (A.ofNat 0) _ (get_char ctx).2 rl
          hs hf hl
        simp only [hl] at h
        simp only [hl2]
        have hsl : CSim rl.2.2.input i2 := by rw [hin]; exact hs
        exact get_number_frac_sim A i2 _ _ _ _ _ _ _ r hsl hch hf h

theorem get_name_loop_sim (cfg : Config) (i2 : List Char) :
    ∀ (f1 f2 : Nat) (name : List Char) (ctx : EvalContext α U)
      (r : EvalResult × List Char × EvalContext α U),
      CSim ctx.input i2 → f1 ≤ f2 → get_name_loop cfg f1 name ctx = some r →
      get_name_loop cfg f2 name { ctx with input := i2 } =
        some (r.1, r.2.1, { r.2.2 with input := i2 }) := by
  intro f1
  induction f1 with
  | zero => intro f2 name ctx r _ _ h; simp [get_name_loop] at h
  | succ f1 ih =>
    intro f2 name ctx r hs hf h
    obtain ⟨f2, rfl⟩ : ∃ f, f2 = f + 1 := ⟨f2 - 1, by omega⟩
    have hc := get_char_sim ctx i2 hs
    have hfacts := csim_facts hc.1
    simp only [get_name_loop] at h ⊢
    rw [hc.2, ← hfacts.2.2.2.1]
    cases hn : is_name (get_char ctx).1 with
    | false =>
      simp only [hn, Bool.not_false, if_true, Option.some.injEq] at h ⊢
      subst h; rfl
    | true =>
      simp only [hn, Bool.not_true, Bool.false_eq_true, if_false] at h ⊢
      by_cases hfull : cfg.EVAL_MAX_NAME_LENGTH - 1 ≤ name.length
      · simp only [ge_iff_le, hfull, if_true, Option.some.injEq] at h ⊢
        subst h; rfl
      · simp only [ge_iff_le, hfull, if_false] at h ⊢
        rw [← hfacts.2.2.2.2.2.2.2.2.2.1 hn]
        exact ih f2 _ (get_char ctx).2 r hs (by omega) h

theorem get_name_sim (cfg : Config) (i2 : List Char) (ctx : EvalContext α U)
    (type : List Char → EvalToken α) (r : EvalResult × EvalContext α U)
    (hs : CSim ctx.input i2) (hlen : ctx.input.length ≤ i2.length)
    (h : get_name cfg ctx type = some r) :
    get_name cfg { ctx with input := i2 } type = some (r.1, { r.2 with input := i2 }) := by
  simp only [get_name] at h ⊢
  cases hl : get_name_loop cfg (ctx.input.length + 1) [] ctx with
  | none => simp [hl] at h
  | some rl =>
    have hl2 := get_name_loop_sim cfg i2 _ (i2.length + 1) [] ctx rl hs (by omega) hl
    simp only [hl] at h
    simp only [hl2]
    by_cases hr : rl.1 = EvalResult.OK
    · simp only [hr, ne_eq, not_true_eq_false, if_false, Option.some.injEq] at h ⊢
      subst h; rfl
    · simp only [ne_eq, hr, not_false_eq_true, if_true, Option.some.injEq] at h ⊢
      subst h; rfl

end Eval

namespace Eval

variable {α U : Type}

/-! ## The cursor stays inside the text -/

theorem getD_ne_nul_lt {l : List Char} {q : Nat} (h : l.getD q NUL ≠ NUL) : q < l.length := by
  by_contra hq
  exact h (List.getD_eq_default _ _ (by omega))

theorem last_get_char (ctx : EvalContext α U) (h : ctx.pos ≤ ctx.input.length) :
    Last (get_char ctx).1 (get_char ctx).2 := by
  refine ⟨by simp [get_char], by simp [get_char]; omega, by simp [get_char]⟩

theorem last_pos_le {c : Char} {ctx : EvalContext α U} (h : Last c ctx) (hc : c ≠ NUL) :
    ctx.pos ≤ ctx.input.length := by
  obtain ⟨h1, -, h3⟩ := h
  rw [h3] at hc
  have := getD_ne_nul_lt hc
  omega

theorem last_put_char {c : Char} {ctx : EvalContext α U} (h : Last c ctx) :
    (put_char ctx).pos ≤ ctx.input.length := by
  obtain ⟨h1, h2, -⟩ := h
  simp only [put_char]
  omega

theorem digit_ne_nul {c : Char} (h : is_digit c = true) : c ≠ NUL := by
  rintro rfl
  revert h; decide

theorem name_ne_nul {c : Char} (h : is_name c = true) : c ≠ NUL := by
  rintro rfl
  revert h; decide

theorem int_loop_last (A : Arith α) :
    ∀ (fuel : Nat) (value : α) (c : Char) (ctx : EvalContext α U)
      (r : α × Char × EvalContext α U),
      Last c ctx → is_digit c = true → get_number_int_loop A fuel value c ctx = some r →
      Last r.2.1 r.2.2 ∧ r.2.2.input = ctx.input := by
  intro fuel
  induction fuel with
  | zero => intro value c ctx r _ _ h; simp [get_number_int_loop] at h
  | succ fuel ih =>
    intro value c ctx r hl hd h
    have hl1 := last_get_char ctx (last_pos_le hl (digit_ne_nul hd))
    simp only [get_number_int_loop] at h
    cases hdig : is_digit (get_char ctx).1 with
    | true =>
      simp only [hdig, if_true] at h
      exact ih _ _ (get_char ctx).2 r hl1 hdig h
    | false =>
      simp only [hdig, Bool.false_eq_true, if_false, Option.some.injEq] at h
      subst h
      exact ⟨hl1, rfl⟩

theorem frac_loop_last (A : Arith α) :
    ∀ (fuel : Nat) (value : α) (exp : Int) (c : Char) (ctx : EvalContext α U)
      (r : α × Int × Char × EvalContext α U),
      Last c ctx → is_digit c = true → get_number_frac_loop A fuel value exp c ctx = some r →
      Last r.2.2.1 r.2.2.2 ∧ r.2.2.2.input = ctx.input := by
  intro fuel
  induction fuel with
  | zero => intro value exp c ctx r _ _ h; simp [get_number_frac_loop] at h
  | succ fuel ih =>
    intro value exp c ctx r hl hd h
    have hl1 := last_get_char ctx (last_pos_le hl (digit_ne_nul hd))
    simp only [get_number_frac_loop] at h
    cases hdig : is_digit (get_char ctx).1 with
    | true =>
      simp only [hdig, if_true] at h
      exact ih _ _ _ (get_char ctx).2 r hl1 hdig h
    | false =>
      simp only [hdig, Bool.false_eq_true, if_false, Option.some.injEq] at h
      subst h
      exact ⟨hl1, rfl⟩

theorem exp_loop_last :
    ∀ (fuel : Nat) (int_val : Int) (c : Char) (ctx : EvalContext α U)
      (r : Int × Char × EvalContext α U),
      Last c ctx → is_digit c = true → get_number_exp_loop fuel int_val c ctx = some r →
      Last r.2.1 r.2.2 ∧ r.2.2.input = ctx.input := by
  intro fuel
  induction fuel with
  | zero => intro int_val c ctx r _ _ h; simp [get_number_exp_loop] at h
  | succ fuel ih =>
    intro int_val c ctx r hl hd h
    have hl1 := last_get_char ctx (last_pos_le hl (digit_ne_nul hd))
    simp only [get_number_exp_loop] at h
    by_cases hov : int_val * 10 + (digit_value c : Int) > INT_MAX
    · rw [if_pos hov] at h; cases h
    rw [if_neg hov] at h
    cases hdig : is_digit (get_char ctx).1 with
    | true =>
      simp only [hdig, if_true] at h
      exact ih _ _ (get_char ctx).2 r hl1 hdig h
    | false =>
      simp only [hdig, Bool.false_eq_true, if_false, Option.some.injEq] at h
      subst h
      exact ⟨hl1, rfl⟩

/-- What a successful `get_number` leaves: a `NUMBER` token, the cursor inside
the text, and the text unchanged. -/
theorem get_number_scale_bound (A : Arith α) (value : α) (exp : Int) (c : Char)
    (ctx cx : EvalContext α U) (hl : Last c ctx)
    (h : get_number_scale A value exp ctx = some (EvalResult.OK, cx)) :
    cx.pos ≤ ctx.input.length ∧ cx.input = ctx.input ∧ cx.token.type = EvalTokenType.NUMBER := by
  simp only [get_number_scale] at h
  cases hs : scale A value exp with
  | none => simp [hs] at h
  | some v =>
    simp only [hs, Option.some.injEq, Prod.mk.injEq, true_and] at h
    subst h
    exact ⟨last_put_char hl, rfl, rfl⟩

theorem exp_ne_nul {c : Char} (h : is_exp c = true) : c ≠ NUL := by
  rintro rfl
  revert h; decide

theorem dp_ne_nul {c : Char} (h : is_dp c = true) : c ≠ NUL := by
  rintro rfl
  revert h; decide

theorem get_number_exp_bound (A : Arith α) (fuel : Nat) (value : α) (exp : Int) (c : Char)
    (ctx cx : EvalContext α U) (hl : Last c ctx)
    (h : get_number_exp A fuel value exp c ctx = some (EvalResult.OK, cx)) :
    cx.pos ≤ ctx.input.length ∧ cx.input = ctx.input ∧ cx.token.type = EvalTokenType.NUMBER := by
  simp only [get_number_exp] at h
  cases he : is_exp c with
  | false =>
    simp only [he, Bool.false_eq_true, if_false] at h
    exact get_number_scale_bound A value exp c ctx cx hl h
  | true =>
    simp only [he, if_true] at h
    have hl1 := last_get_char ctx (last_pos_le hl (exp_ne_nul he))
    by_cases hm : (get_char ctx).1 = '-'
    · simp only [hm, if_true] at h
      have hl2 := last_get_char (get_char ctx).2 (last_pos_le hl1 (by rw [hm]; decide))
      cases hdig : is_digit (get_char (get_char ctx).2).1 with
      | false => simp [hdig] at h
      | true =>
        simp only [hdig, Bool.not_true, Bool.false_eq_true, if_false] at h
        cases hlp : get_number_exp_loop fuel 0 (get_char (get_char ctx).2).1
            (get_char (get_char ctx).2).2 with
        | none => simp [hlp] at h
        | some rl =>
          simp only [hlp] at h
          obtain ⟨hl3, hin⟩ := exp_loop_last fuel 0 _ _ rl hl2 hdig hlp
          have := get_number_scale_bound A _ _ _ _ cx hl3 h
          rw [hin] at this
          exact this
    · simp only [hm, if_false] at h
      by_cases hp : (get_char ctx).1 = '+'
      · simp only [hp, if_true] at h
        have hl2 := last_get_char (get_char ctx).2 (last_pos_le hl1 (by rw [hp]; decide))
        cases hdig : is_digit (get_char (get_char ctx).2).1 with
        | false => simp [hdig] at h
        | true =>
          simp only [hdig, Bool.not_true, Bool.false_eq_true, if_false] at h
          cases hlp : get_number_exp_loop fuel 0 (get_char (get_char ctx).2).1
              (get_char (get_char ctx).2).2 with
          | none => simp [hlp] at h
          | some rl =>
            simp only [hlp] at h
            obtain ⟨hl3, hin⟩ := exp_loop_last fuel 0 _ _ rl hl2 hdig hlp
            have := get_number_scale_bound A _ _ _ _ cx hl3 h
            rw [hin] at this
            exact this
      · simp only [hp, if_false] at h
        cases hdig : is_digit (get_char ctx).1 with
        | false => simp [hdig] at h
        | true =>
          simp only [hdig, Bool.not_true, Bool.false_eq_true, if_false] at h
          cases hlp : get_number_exp_loop fuel 0 (get_char ctx).1 (get_char ctx).2 with
          | none => simp [hlp] at h
          | some rl =>
            simp only [hlp] at h
            obtain ⟨hl3, hin⟩ := exp_loop_last fuel 0 _ _ rl hl1 hdig hlp
            have := get_number_scale_bound A _ _ _ _ cx hl3 h
            rw [hin] at this
            exact this

theorem get_number_frac_bound (A : Arith α) (fuel : Nat) (value : α) (exp : Int) (c : Char)
    (ctx cx : EvalContext α U) (hl : Last c ctx)
    (h : get_number_frac A fuel value exp c ctx = some (EvalResult.OK, cx)) :
    cx.pos ≤ ctx.input.length ∧ cx.input = ctx.input ∧ cx.token.type = EvalTokenType.NUMBER := by
  simp only [get_number_frac] at h
  cases hp : is_dp c with
  | false =>
    simp only [hp, Bool.false_eq_true, if_false] at h
    exact get_number_exp_bound A fuel value exp c ctx cx hl h
  | true =>
    simp only [hp, if_true] at h
    have hl1 := last_get_char ctx (last_pos_le hl (dp_ne_nul hp))
    cases hdig : is_digit (get_char ctx).1 with
    | false => simp [hdig] at h
    | true =>
      simp only [hdig, Bool.not_true, Bool.false_eq_true, if_false] at h
      cases hlp : get_number_frac_loop A fuel value exp (get_char ctx).1 (get_char ctx).2 with
      | none => simp [hlp] at h
      | some rl =>
        simp only [hlp] at h
        obtain ⟨hl3, hin⟩ := frac_loop_last A fuel _ _ _ _ rl hl1 hdig hlp
        have := get_number_exp_bound A fuel _ _ _ _ cx hl3 h
        rw [hin] at this
        exact this

theorem get_number_bound (A : Arith α) (ctx cx : EvalContext α U)
    (hpos : ctx.pos ≤ ctx.input.length)
    (h : get_number A ctx = some (EvalResult.OK, cx)) :
    cx.pos ≤ ctx.input.length ∧ cx.input = ctx.input ∧ cx.token.type = EvalTokenType.NUMBER := by
  simp only [get_number] at h
  have hl1 := last_get_char ctx hpos
  cases hp : is_dp (get_char ctx).1 with
  | true =>
    simp only [hp, Bool.not_true, Bool.false_eq_true, if_false] at h
    exact get_number_frac_bound A _ _ _ _ (get_char ctx).2 cx hl1 h
  | false =>
    simp only [hp, Bool.not_false, if_true] at h
    cases hdig : is_digit (get_char ctx).1 with
    | false => simp [hdig] at h
    | true =>
      simp only [hdig, Bool.not_true, Bool.false_eq_true, if_false] at h
      cases hlp : get_number_int_loop A (ctx.input.length + 1) (A.ofNat 0) (get_char ctx).1
          (get_char ctx).2 with
      | none => simp [hlp] at h
      | some rl =>
        simp only [hlp] at h
        obtain ⟨hl3, hin⟩ := int_loop_last A _ _ _ _ rl hl1 hdig hlp
        have := get_number_frac_bound A _ _ _ _ _ cx hl3 h
        rw [hin] at this
        exact this

theorem get_name_loop_last (cfg : Config) :
    ∀ (fuel : Nat) (name : List Char) (ctx : EvalContext α U) (name' : List Char)
      (cx : EvalContext α U),
      ctx.pos ≤ ctx.input.length →
      get_name_loop cfg fuel name ctx = some (EvalResult.OK, name', cx) →
      (put_char cx).pos ≤ ctx.input.length ∧ cx.input = ctx.input := by
  intro fuel
  induction fuel with
  | zero => intro name ctx name' cx _ h; simp [get_name_loop] at h
  | succ fuel ih =>
    intro name ctx name' cx hpos h
    have hl1 := last_get_char ctx hpos
    simp only [get_name_loop] at h
    cases hn : is_name (get_char ctx).1 with
    | false =>
      simp only [hn, Bool.not_false, if_true, Option.some.injEq, Prod.mk.injEq, true_and] at h
      obtain ⟨-, rfl⟩ := h
      exact ⟨last_put_char hl1, rfl⟩
    | true =>
      simp only [hn, Bool.not_true, Bool.false_eq_true, if_false] at h
      by_cases hfull : cfg.EVAL_MAX_NAME_LENGTH - 1 ≤ name.length
      · simp [hfull] at h
      · simp only [ge_iff_le, hfull, if_false] at h
        exact ih _ (get_char ctx).2 name' cx (last_pos_le hl1 (name_ne_nul hn)) h

/-- What a successful `get_name` leaves: a token of the requested type, the
cursor inside the text, and the text unchanged. -/
theorem get_name_bound (cfg : Config) (ctx cx : EvalContext α U)
    (type : List Char → EvalToken α) (hpos : ctx.pos ≤ ctx.input.length)
    (h : get_name cfg ctx type = some (EvalResult.OK, cx)) :
    cx.pos ≤ ctx.input.length ∧ cx.input = ctx.input ∧ ∃ name, cx.token = type name := by
  simp only [get_name] at h
  cases hl : get_name_loop cfg (ctx.input.length + 1) [] ctx with
  | none => simp [hl] at h
  | some rl =>
    obtain ⟨r, name, cl⟩ := rl
    simp only [hl] at h
    by_cases hr : r = EvalResult.OK
    · subst hr
      simp only [ne_eq, not_true_eq_false, if_false, Option.some.injEq, Prod.mk.injEq,
        true_and] at h
      subst h
      obtain ⟨h1, h2⟩ := get_name_loop_last cfg _ [] ctx name cl hpos hl
      exact ⟨h1, by simpa [put_char] using h2, name, rfl⟩
    · simp [hr] at h

end Eval

namespace Eval

variable {α U : Type}

/-! ## One token of the two runs -/

theorem getD_mem_ne_nul {e : List Char} {p : Nat} (hnul : NUL ∉ e) (hp : p < e.length) :
    e.getD p NUL ≠ NUL := by
  rw [List.getD_eq_getElem _ _ hp]
  intro h
  exact hnul (h ▸ List.getElem_mem hp)

theorem csim_append_close (e : List Char) : CSim e (e ++ [')']) := by
  intro p
  rcases Nat.lt_trichotomy p e.length with h | h | h
  · left
    rw [List.getD_append _ _ _ _ h]
  · right
    subst h
    constructor
    · exact List.getD_eq_default _ _ (le_refl _)
    · rw [List.getD_append_right _ _ _ _ (le_refl _)]
      simp
  · left
    rw [List.getD_eq_default _ _ (by omega), List.getD_eq_default _ _ (by simp; omega)]

theorem get_token_loop_sim (A : Arith α) (cfg : Config) (e : List Char) (hnul : NUL ∉ e) :
    ∀ (f1 f2 : Nat) (c1 cx : EvalContext α U), c1.input = e → c1.pos ≤ e.length → f1 ≤ f2 →
      get_token_loop A cfg f1 c1 = some (EvalResult.OK, cx) →
      ∃ cx2, get_token_loop A cfg f2 { c1 with input := e ++ [')'] } = some (EvalResult.OK, cx2) ∧
        Simulates e cx cx2 := by
  intro f1
  induction f1 with
  | zero => intro f2 c1 cx _ _ _ h; simp [get_token_loop] at h
  | succ f1 ih =>
    intro f2 c1 cx hi hpos hf h
    obtain ⟨f2, rfl⟩ : ∃ f, f2 = f + 1 := ⟨f2 - 1, by omega⟩
    obtain ⟨hooks, ud, input, pos, sl, tok⟩ := c1
    simp only at hi hpos
    subst hi
    rcases Nat.lt_or_ge pos input.length with hp | hp
    · have hc := getD_mem_ne_nul hnul hp
      have hc2 : (input ++ [')']).getD pos NUL = input.getD pos NUL :=
        List.getD_append _ _ _ _ hp
      have hn := csim_append_close input (pos + 1)
      simp only [get_token_loop, get_char] at h ⊢
      rw [hc2]
      generalize input.getD pos NUL = c at h hc ⊢
      simp only [hc, if_false] at h ⊢
      by_cases h1 : c ≤ ' '
      · simp only [h1, if_true] at h ⊢
        exact ih f2 _ cx rfl (by simp only; omega) (by omega) h
      simp only [h1, if_false] at h ⊢
      have hnf := csim_facts hn
      by_cases h2 : (is_digit c || is_dp c) = true
      · simp only [h2, if_true, put_char, Nat.add_sub_cancel] at h ⊢
        have hs := get_number_sim A (input ++ [')']) ⟨hooks, ud, input, pos, sl, tok⟩
          (EvalResult.OK, cx) (csim_append_close input) (by simp) h
        have hb := get_number_bound A _ cx hpos h
        exact ⟨_, hs, hb.2.1, Or.inl ⟨by rw [hb.2.2]; decide, hb.1, rfl⟩⟩
      simp only [h2, Bool.false_eq_true, if_false] at h ⊢
      by_cases h3 : is_name_start c = true
      · simp only [h3, if_true, put_char, Nat.add_sub_cancel] at h ⊢
        have hs := get_name_sim cfg (input ++ [')']) ⟨hooks, ud, input, pos, sl, tok⟩
          EvalToken.FUNC (EvalResult.OK, cx) (csim_append_close input) (by simp) h
        obtain ⟨hb1, hb2, name, hb3⟩ := get_name_bound cfg _ cx EvalToken.FUNC hpos h
        exact ⟨_, hs, hb2, Or.inl ⟨by rw [hb3]; simp [EvalToken.type], hb1, rfl⟩⟩
      simp only [h3, Bool.false_eq_true, if_false] at h ⊢
      by_cases h4 : c = '$'
      · simp only [h4, if_true] at h ⊢
        have hs := get_name_sim cfg (input ++ [')']) ⟨hooks, ud, input, pos + 1, sl, tok⟩
          EvalToken.VARIABLE (EvalResult.OK, cx) (csim_append_close input) (by simp) h
        obtain ⟨hb1, hb2, name, hb3⟩ := get_name_bound cfg _ cx EvalToken.VARIABLE
          (by simp only; omega) h
        exact ⟨_, hs, hb2, Or.inl ⟨by rw [hb3]; simp [EvalToken.type], hb1, rfl⟩⟩
      simp only [h4, if_false] at h ⊢
      by_cases hgt : c = '>'
      · simp only [hgt, if_true] at h ⊢
        by_cases hq : input.getD (pos + 1) NUL = '='
        · have hq2 := hnf.2.2.2.2.2.2.2.1.1 hq
          have hlt : pos + 1 < input.length := getD_ne_nul_lt (by rw [hq]; decide)
          simp only [hq, hq2, if_true, put_char, Option.some.injEq, Prod.mk.injEq, true_and,
            ne_eq, not_true_eq_false, if_false] at h ⊢
          subst h
          exact ⟨_, rfl, rfl, Or.inl ⟨by simp [EvalToken.type], by simp only; omega, rfl⟩⟩
        · have hq2 : ¬ (input ++ [')']).getD (pos + 1) NUL = '=' :=
            fun hh => hq (hnf.2.2.2.2.2.2.2.1.2 hh)
          simp only [hq, hq2, if_false, put_char, Option.some.injEq, Prod.mk.injEq, true_and,
            ne_eq, not_false_eq_true, if_true] at h ⊢
          subst h
          exact ⟨_, rfl, rfl, Or.inl ⟨by simp [EvalToken.type], by simp only; omega, rfl⟩⟩
      simp only [hgt, if_false] at h ⊢
      by_cases hlt : c = '<'
      · simp only [hlt, if_true] at h ⊢
        by_cases hq : input.getD (pos + 1) NUL = '='
        · have hq2 := hnf.2.2.2.2.2.2.2.1.1 hq
          have hlt : pos + 1 < input.length := getD_ne_nul_lt (by rw [hq]; decide)
          simp only [hq, hq2, if_true, put_char, Option.some.injEq, Prod.mk.injEq, true_and,
            ne_eq, not_true_eq_false, if_false] at h ⊢
          subst h
          exact ⟨_, rfl, rfl, Or.inl ⟨by simp [EvalToken.type], by simp only; omega, rfl⟩⟩
        · have hq2 : ¬ (input ++ [')']).getD (pos + 1) NUL = '=' :=
            fun hh => hq (hnf.2.2.2.2.2.2.2.1.2 hh)
          simp only [hq, hq2, if_false, put_char, Option.some.injEq, Prod.mk.injEq, true_and,
            ne_eq, not_false_eq_true, if_true] at h ⊢
          subst h
          exact ⟨_, rfl, rfl, Or.inl ⟨by simp [EvalToken.type], by simp only; omega, rfl⟩⟩
      simp only [hlt, if_false] at h ⊢
      by_cases heq : c = '='
      · simp only [heq, if_true] at h ⊢
        by_cases hq : input.getD (pos + 1) NUL = '='
        · have hq2 := hnf.2.2.2.2.2.2.2.1.1 hq
          have hlt : pos + 1 < input.length := getD_ne_nul_lt (by rw [hq]; decide)
          simp only [hq, hq2, if_true, put_char, Option.some.injEq, Prod.mk.injEq, true_and,
            ne_eq, not_true_eq_false, if_false] at h ⊢
          subst h
          exact ⟨_, rfl, rfl, Or.inl ⟨by simp [EvalToken.type], by simp only; omega, rfl⟩⟩
        · have hq2 : ¬ (input ++ [')']).getD (pos + 1) NUL = '=' :=
            fun hh => hq (hnf.2.2.2.2.2.2.2.1.2 hh)
          simp only [hq, hq2, if_false, put_char, Option.some.injEq, Prod.mk.injEq, true_and,
            ne_eq, not_false_eq_true, if_true] at h ⊢
          subst h
          exact ⟨_, rfl, rfl, Or.inl ⟨by simp [EvalToken.type], by simp only; omega, rfl⟩⟩
      simp only [heq, if_false] at h ⊢
      by_cases hadd : c = '+'
      · simp only [hadd, if_true, Option.some.injEq, Prod.mk.injEq, true_and] at h ⊢
        subst h
        exact ⟨_, rfl, rfl, Or.inl ⟨by simp [EvalToken.type], by simp only; omega, rfl⟩⟩
      simp only [hadd, if_false] at h ⊢
      by_cases hsub : c = '-'
      · simp only [hsub, if_true, Option.some.injEq, Prod.mk.injEq, true_and] at h ⊢
        subst h
        exact ⟨_, rfl, rfl, Or.inl ⟨by simp [EvalToken.type], by simp only; omega, rfl⟩⟩
      simp only [hsub, if_false] at h ⊢
      by_cases hmul : c = '*'
      · simp only [hmul, if_true, Option.some.injEq, Prod.mk.injEq, true_and] at h ⊢
        subst h
        exact ⟨_, rfl, rfl, Or.inl ⟨by simp [EvalToken.type], by simp only; omega, rfl⟩⟩
      simp only [hmul, if_false] at h ⊢
      by_cases hdiv : c = '/'
      · simp only [hdiv, if_true, Option.some.injEq, Prod.mk.injEq, true_and] at h ⊢
        subst h
        exact ⟨_, rfl, rfl, Or.inl ⟨by simp [EvalToken.type], by simp only; omega, rfl⟩⟩
      simp only [hdiv, if_false] at h ⊢
      by_cases hop : c = '('
      · simp only [hop, if_true, Option.some.injEq, Prod.mk.injEq, true_and] at h ⊢
        subst h
        exact ⟨_, rfl, rfl, Or.inl ⟨by simp [EvalToken.type], by simp only; omega, rfl⟩⟩
      simp only [hop, if_false] at h ⊢
      by_cases hcl : c = ')'
      · simp only [hcl, if_true, Option.some.injEq, Prod.mk.injEq, true_and] at h ⊢
        subst h
        exact ⟨_, rfl, rfl, Or.inl ⟨by simp [EvalToken.type], by simp only; omega, rfl⟩⟩
      simp only [hcl, if_false] at h ⊢
      simp at h
    · have hpe : pos = input.length := by omega
      subst hpe
      have hc1 : input.getD input.length NUL = NUL := List.getD_eq_default _ _ (le_refl _)
      have hc2 : (input ++ [')']).getD input.length NUL = ')' := by
        rw [List.getD_append_right _ _ _ _ (le_refl _)]
        simp
      simp only [get_token_loop, get_char, hc1, hc2, if_true, put_char, Option.some.injEq,
        Prod.mk.injEq, true_and, Nat.add_sub_cancel] at h ⊢
      subst h
      refine ⟨_, ?_, rfl, Or.inr ⟨rfl, rfl, rfl⟩⟩
      simp [NUL, is_digit, is_dp, is_name_start]

theorem get_token_sim (A : Arith α) (cfg : Config) (e : List Char) (hnul : NUL ∉ e)
    (c1 cx : EvalContext α U) (hi : c1.input = e) (hpos : c1.pos ≤ e.length)
    (h : get_token A cfg c1 = some (EvalResult.OK, cx)) :
    ∃ cx2, get_token A cfg { c1 with input := e ++ [')'] } = some (EvalResult.OK, cx2) ∧
      Simulates e cx cx2 := by
  simp only [get_token] at h ⊢
  exact get_token_loop_sim A cfg e hnul _ _ c1 cx hi hpos (by rw [hi]; simp) h

/-! ## Facts about two simulating contexts -/

theorem sim_input {e : List Char} {c1 c2 : EvalContext α U} (h : Simulates e c1 c2) :
    c1.input = e ∧ c2.input = e ++ [')'] := by
  obtain ⟨hi, ⟨-, -, rfl⟩ | ⟨-, -, rfl⟩⟩ := h <;> exact ⟨hi, rfl⟩

theorem sim_frame {e : List Char} {c1 c2 : EvalContext α U} (h : Simulates e c1 c2) :
    c2.hooks = c1.hooks ∧ c2.user_data = c1.user_data ∧ c2.stack_level = c1.stack_level := by
  obtain ⟨-, ⟨-, -, rfl⟩ | ⟨-, -, rfl⟩⟩ := h <;> exact ⟨rfl, rfl, rfl⟩

theorem sim_sync {e : List Char} {c1 c2 : EvalContext α U} (h : Simulates e c1 c2)
    (hne : c1.token.type ≠ EvalTokenType.END) :
    c1.pos ≤ e.length ∧ c2 = { c1 with input := e ++ [')'] } ∧ c2.token = c1.token := by
  obtain ⟨-, ⟨-, hp, rfl⟩ | ⟨hend, -, -⟩⟩ := h
  · exact ⟨hp, rfl, rfl⟩
  · exact absurd hend hne

theorem sim_type {e : List Char} {c1 c2 : EvalContext α U} (h : Simulates e c1 c2)
    (t : EvalTokenType) (ht1 : t ≠ EvalTokenType.END) (ht2 : t ≠ EvalTokenType.CLOSE_BRACKET) :
    (c2.token.type = t) = (c1.token.type = t) := by
  obtain ⟨-, ⟨-, -, rfl⟩ | ⟨hend, -, rfl⟩⟩ := h
  · rfl
  · apply propext
    constructor
    · intro hh
      exact (ht2 hh.symm).elim
    · intro hh
      rw [hend] at hh
      exact (ht1 hh.symm).elim

theorem sim_stack_level {e : List Char} {c1 c2 : EvalContext α U} (h : Simulates e c1 c2)
    (n : Nat) :
    Simulates e { c1 with stack_level := n } { c2 with stack_level := n } := by
  obtain ⟨hi, ⟨hne, hp, rfl⟩ | ⟨hend, hp, rfl⟩⟩ := h
  · exact ⟨hi, Or.inl ⟨hne, hp, rfl⟩⟩
  · exact ⟨hi, Or.inr ⟨hend, hp, rfl⟩⟩

theorem sim_get_token (A : Arith α) (cfg : Config) {e : List Char} (hnul : NUL ∉ e)
    {c1 c2 : EvalContext α U} (h : Simulates e c1 c2) (hne : c1.token.type ≠ EvalTokenType.END)
    {cg : EvalContext α U} (hg : get_token A cfg c1 = some (EvalResult.OK, cg)) :
    ∃ cg2, get_token A cfg c2 = some (EvalResult.OK, cg2) ∧ Simulates e cg cg2 := by
  obtain ⟨hp, rfl, -⟩ := sim_sync h hne
  exact get_token_sim A cfg e hnul c1 cg h.1 hp hg

end Eval

namespace Eval

variable {α U : Type}

/-! ## The parser on the two runs -/

theorem parse_term_sim (A : Arith α) (cfg : Config) {e : List Char} (hnul : NUL ∉ e)
    (pe1 pe2 : EvalContext α U → α → Option (EvalResult × EvalContext α U × α))
    (hpe : SimPE e pe1 pe2) : SimPE e (parse_term A cfg pe1) (parse_term A cfg pe2) := by
  intro c1 c2 cx out v hsim h
  cases htok : c1.token with
  | NUMBER number =>
    have hne : c1.token.type ≠ EvalTokenType.END := by rw [htok]; simp [EvalToken.type]
    have htok2 : c2.token = EvalToken.NUMBER number := by rw [(sim_sync hsim hne).2.2, htok]
    simp only [parse_term, htok] at h
    simp only [parse_term, htok2]
    cases hg : get_token A cfg c1 with
    | none => simp [hg] at h
    | some r =>
      obtain ⟨res, cg⟩ := r
      simp only [hg, Option.some.injEq, Prod.mk.injEq] at h
      obtain ⟨rfl, rfl, rfl⟩ := h
      obtain ⟨cg2, hg2, hs2⟩ := sim_get_token A cfg hnul hsim hne hg
      exact ⟨cg2, by simp only [hg2], hs2⟩
  | OPEN_BRACKET =>
    have hne : c1.token.type ≠ EvalTokenType.END := by rw [htok]; simp [EvalToken.type]
    have htok2 : c2.token = EvalToken.OPEN_BRACKET := by rw [(sim_sync hsim hne).2.2, htok]
    simp only [parse_term, htok] at h
    simp only [parse_term, htok2]
    cases hg : get_token A cfg c1 with
    | none => simp [hg] at h
    | some r =>
      obtain ⟨res, cg⟩ := r
      simp only [hg] at h
      by_cases hr : res = EvalResult.OK
      swap
      · simp [hr] at h
      subst hr
      simp only [ne_eq, not_true_eq_false, if_false] at h
      obtain ⟨cg2, hg2, hs2⟩ := sim_get_token A cfg hnul hsim hne hg
      cases hp : pe1 cg out with
      | none => simp [hp] at h
      | some r =>
        obtain ⟨res, ci, w⟩ := r
        simp only [hp] at h
        by_cases hr : res = EvalResult.OK
        swap
        · simp [hr] at h
        subst hr
        simp only [ne_eq, not_true_eq_false, if_false] at h
        obtain ⟨ci2, hp2, hs3⟩ := hpe cg cg2 ci out w hs2 hp
        by_cases hcl : ci.token.type = EvalTokenType.CLOSE_BRACKET
        swap
        · simp [hcl] at h
        simp only [hcl, not_true_eq_false, if_false] at h
        have hne3 : ci.token.type ≠ EvalTokenType.END := by rw [hcl]; decide
        have hcl2 : ci2.token.type = EvalTokenType.CLOSE_BRACKET := by
          rw [(sim_sync hs3 hne3).2.2, hcl]
        cases hg3 : get_token A cfg ci with
        | none => simp [hg3] at h
        | some r =>
          obtain ⟨res, cj⟩ := r
          simp only [hg3, Option.some.injEq, Prod.mk.injEq] at h
          obtain ⟨rfl, rfl, rfl⟩ := h
          obtain ⟨cj2, hg4, hs4⟩ := sim_get_token A cfg hnul hs3 hne3 hg3
          exact ⟨cj2, by simp [hg2, hp2, hcl2, hg4], hs4⟩
  | FUNC name =>
    have hne : c1.token.type ≠ EvalTokenType.END := by rw [htok]; simp [EvalToken.type]
    have htok2 : c2.token = EvalToken.FUNC name := by rw [(sim_sync hsim hne).2.2, htok]
    obtain ⟨hh2, hu2, -⟩ := sim_frame hsim
    simp only [parse_term, htok] at h
    simp only [parse_term, htok2, hh2, hu2]
    cases hgf : c1.hooks.bind (fun hooks => hooks.get_func) with
    | none => simp [hgf] at h
    | some get_func =>
      simp only [hgf] at h ⊢
      cases hfn : get_func name c1.user_data with
      | none => simp [hfn] at h
      | some func =>
        simp only [hfn] at h ⊢
        cases hg : get_token A cfg c1 with
        | none => simp [hg] at h
        | some r =>
          obtain ⟨res, cg⟩ := r
          simp only [hg] at h
          by_cases hr : res = EvalResult.OK
          swap
          · simp [hr] at h
          subst hr
          simp only [ne_eq, not_true_eq_false, if_false] at h
          obtain ⟨cg2, hg2, hs2⟩ := sim_get_token A cfg hnul hsim hne hg
          by_cases hop : cg.token.type = EvalTokenType.OPEN_BRACKET
          swap
          · simp [hop] at h
          simp only [hop, not_true_eq_false, if_false] at h
          have hneg : cg.token.type ≠ EvalTokenType.END := by rw [hop]; decide
          have hop2 : cg2.token.type = EvalTokenType.OPEN_BRACKET := by
            rw [(sim_sync hs2 hneg).2.2, hop]
          cases hgh : get_token A cfg cg with
          | none => simp [hgh] at h
          | some r =>
            obtain ⟨res, ch⟩ := r
            simp only [hgh] at h
            by_cases hr : res = EvalResult.OK
            swap
            · simp [hr] at h
            subst hr
            simp only [ne_eq, not_true_eq_false, if_false] at h
            obtain ⟨ch2, hgh2, hsh⟩ := sim_get_token A cfg hnul hs2 hneg hgh
            cases hp : pe1 ch (A.ofNat 0) with
            | none => simp [hp] at h
            | some r =>
              obtain ⟨res, ci, arg⟩ := r
              simp only [hp] at h
              by_cases hr : res = EvalResult.OK
              swap
              · simp [hr] at h
              subst hr
              simp only [ne_eq, not_true_eq_false, if_false] at h
              obtain ⟨ci2, hp2, hs3⟩ := hpe ch ch2 ci (A.ofNat 0) arg hsh hp
              by_cases hcl : ci.token.type = EvalTokenType.CLOSE_BRACKET
              swap
              · simp [hcl] at h
              simp only [hcl, not_true_eq_false, if_false] at h
              have hne3 : ci.token.type ≠ EvalTokenType.END := by rw [hcl]; decide
              have hcl2 : ci2.token.type = EvalTokenType.CLOSE_BRACKET := by
                rw [(sim_sync hs3 hne3).2.2, hcl]
              obtain ⟨-, hu3, -⟩ := sim_frame hs3
              cases hfv : func arg ci.user_data out with
              | mk res w =>
                simp only [hfv] at h
                by_cases hr : res = EvalResult.OK
                swap
                · simp [hr] at h
                subst hr
                simp only [ne_eq, not_true_eq_false, if_false] at h
                cases hg3 : get_token A cfg ci with
                | none => simp [hg3] at h
                | some r =>
                  obtain ⟨res, cj⟩ := r
                  simp only [hg3, Option.some.injEq, Prod.mk.injEq] at h
                  obtain ⟨rfl, rfl, rfl⟩ := h
                  obtain ⟨cj2, hg4, hs4⟩ := sim_get_token A cfg hnul hs3 hne3 hg3
                  exact ⟨cj2, by simp [hg2, hop2, hgh2, hp2, hcl2, hu3, hfv, hg4], hs4⟩
  | VARIABLE name =>
    have hne : c1.token.type ≠ EvalTokenType.END := by rw [htok]; simp [EvalToken.type]
    have htok2 : c2.token = EvalToken.VARIABLE name := by rw [(sim_sync hsim hne).2.2, htok]
    obtain ⟨hh2, hu2, -⟩ := sim_frame hsim
    simp only [parse_term, htok] at h
    simp only [parse_term, htok2, hh2, hu2]
    cases hgv : c1.hooks.bind (fun hooks => hooks.get_variable) with
    | none => simp [hgv] at h
    | some get_variable =>
      simp only [hgv] at h ⊢
      cases hfv : get_variable name c1.user_data out with
      | mk res w =>
        simp only [hfv] at h ⊢
        by_cases hr : res = EvalResult.OK
        swap
        · simp [hr] at h
        subst hr
        simp only [ne_eq, not_true_eq_false, if_false] at h ⊢
        cases hg : get_token A cfg c1 with
        | none => simp [hg] at h
        | some r =>
          obtain ⟨res, cg⟩ := r
          simp only [hg, Option.some.injEq, Prod.mk.injEq] at h
          obtain ⟨rfl, rfl, rfl⟩ := h
          obtain ⟨cg2, hg2, hs2⟩ := sim_get_token A cfg hnul hsim hne hg
          exact ⟨cg2, by simp only [hg2], hs2⟩
  | _ => simp [parse_term, htok] at h

end Eval

namespace Eval

variable {α U : Type}

theorem parse_unary_loop_sim (A : Arith α) (cfg : Config) {e : List Char} (hnul : NUL ∉ e) :
    ∀ (f1 f2 : Nat) (neg neg' : Bool) (c1 c2 cx : EvalContext α U), Simulates e c1 c2 →
      f1 ≤ f2 → parse_unary_loop A cfg f1 neg c1 = some (EvalResult.OK, neg', cx) →
      ∃ cx2, parse_unary_loop A cfg f2 neg c2 = some (EvalResult.OK, neg', cx2) ∧
        Simulates e cx cx2 := by
  intro f1
  induction f1 with
  | zero => intro f2 neg neg' c1 c2 cx _ _ h; simp [parse_unary_loop] at h
  | succ f1 ih =>
    intro f2 neg neg' c1 c2 cx hsim hf h
    obtain ⟨f2, rfl⟩ : ∃ f, f2 = f + 1 := ⟨f2 - 1, by omega⟩
    simp only [parse_unary_loop] at h
    simp only [parse_unary_loop, sim_type hsim EvalTokenType.SUBTRACT (by decide) (by decide)]
    by_cases ht : c1.token.type = EvalTokenType.SUBTRACT
    · have hne : c1.token.type ≠ EvalTokenType.END := by rw [ht]; decide
      simp only [ht, if_true] at h ⊢
      cases hg : get_token A cfg c1 with
      | none => simp [hg] at h
      | some r =>
        obtain ⟨res, cg⟩ := r
        simp only [hg] at h
        by_cases hr : res = EvalResult.OK
        swap
        · simp [hr] at h
        subst hr
        simp only [ne_eq, not_true_eq_false, if_false] at h
        obtain ⟨cg2, hg2, hs2⟩ := sim_get_token A cfg hnul hsim hne hg
        obtain ⟨cx2, hl2, hs3⟩ := ih f2 _ neg' cg cg2 cx hs2 (by omega) h
        exact ⟨cx2, by simp [hg2, hl2], hs3⟩
    · simp only [ht, if_false, Option.some.injEq, Prod.mk.injEq, true_and] at h ⊢
      obtain ⟨rfl, rfl⟩ := h
      exact ⟨c2, ⟨rfl, rfl⟩, hsim⟩

theorem parse_unary_sim (A : Arith α) (cfg : Config) {e : List Char} (hnul : NUL ∉ e)
    (pe1 pe2 : EvalContext α U → α → Option (EvalResult × EvalContext α U × α))
    (hpe : SimPE e pe1 pe2) : SimPE e (parse_unary A cfg pe1) (parse_unary A cfg pe2) := by
  intro c1 c2 cx out v hsim h
  obtain ⟨hi1, hi2⟩ := sim_input hsim
  simp only [parse_unary] at h ⊢
  cases hl : parse_unary_loop A cfg (c1.input.length + 1) false c1 with
  | none => simp [hl] at h
  | some r =>
    obtain ⟨res, neg, cg⟩ := r
    simp only [hl] at h
    by_cases hr : res = EvalResult.OK
    swap
    · simp [hr] at h
    subst hr
    simp only [ne_eq, not_true_eq_false, if_false] at h
    obtain ⟨cg2, hl2, hs2⟩ := parse_unary_loop_sim A cfg hnul _ (c2.input.length + 1) false neg
      c1 c2 cg hsim (by rw [hi1, hi2]; simp) hl
    cases ht : parse_term A cfg pe1 cg (A.ofNat 0) with
    | none => simp [ht] at h
    | some r =>
      obtain ⟨res, ci, w⟩ := r
      simp only [ht] at h
      by_cases hr : res = EvalResult.OK
      swap
      · simp [hr] at h
      subst hr
      simp only [ne_eq, not_true_eq_false, if_false, Option.some.injEq, Prod.mk.injEq,
        true_and] at h
      obtain ⟨rfl, rfl⟩ := h
      obtain ⟨ci2, ht2, hs3⟩ := parse_term_sim A cfg hnul pe1 pe2 hpe cg cg2 ci (A.ofNat 0) w
        hs2 ht
      exact ⟨ci2, by simp [hl2, ht2], hs3⟩

theorem parse_product_loop_sim (A : Arith α) (cfg : Config) {e : List Char} (hnul : NUL ∉ e)
    (pe1 pe2 : EvalContext α U → α → Option (EvalResult × EvalContext α U × α))
    (hpe : SimPE e pe1 pe2) :
    ∀ (f1 f2 : Nat) (lhs rhs v : α) (c1 c2 cx : EvalContext α U), Simulates e c1 c2 →
      f1 ≤ f2 → parse_product_loop A cfg pe1 f1 c1 lhs rhs = some (EvalResult.OK, cx, v) →
      ∃ cx2, parse_product_loop A cfg pe2 f2 c2 lhs rhs = some (EvalResult.OK, cx2, v) ∧
        Simulates e cx cx2 := by
  intro f1
  induction f1 with
  | zero => intro f2 lhs rhs v c1 c2 cx _ _ h; simp [parse_product_loop] at h
  | succ f1 ih =>
    intro f2 lhs rhs v c1 c2 cx hsim hf h
    obtain ⟨f2, rfl⟩ : ∃ f, f2 = f + 1 := ⟨f2 - 1, by omega⟩
    have hstep : ∀ (op : α → α → α) (cg : EvalContext α U),
        c1.token.type ≠ EvalTokenType.END →
        (match get_token A cfg c1 with
          | none => none
          | some (result, ctx) =>
            if result ≠ EvalResult.OK then some (result, ctx, lhs)
            else
              match parse_unary A cfg pe1 ctx rhs with
              | none => none
              | some (result, ctx, rhs) =>
                if result ≠ EvalResult.OK then some (result, ctx, lhs)
                else parse_product_loop A cfg pe1 f1 ctx (op lhs rhs) rhs) =
          some (EvalResult.OK, cx, v) →
        ∃ cx2, (match get_token A cfg c2 with
          | none => none
          | some (result, ctx) =>
            if result ≠ EvalResult.OK then some (result, ctx, lhs)
            else
              match parse_unary A cfg pe2 ctx rhs with
              | none => none
              | some (result, ctx, rhs) =>
                if result ≠ EvalResult.OK then some (result, ctx, lhs)
                else parse_product_loop A cfg pe2 f2 ctx (op lhs rhs) rhs) =
          some (EvalResult.OK, cx2, v) ∧ Simulates e cx cx2 := by
      intro op cg hne h
      cases hg : get_token A cfg c1 with
      | none => simp [hg] at h
      | some r =>
        obtain ⟨res, cg⟩ := r
        simp only [hg] at h
        by_cases hr : res = EvalResult.OK
        swap
        · simp [hr] at h
        subst hr
        simp only [ne_eq, not_true_eq_false, if_false] at h
        obtain ⟨cg2, hg2, hs2⟩ := sim_get_token A cfg hnul hsim hne hg
        cases hu : parse_unary A cfg pe1 cg rhs with
        | none => simp [hu] at h
        | some r =>
          obtain ⟨res, ci, w⟩ := r
          simp only [hu] at h
          by_cases hr : res = EvalResult.OK
          swap
          · simp [hr] at h
          subst hr
          simp only [ne_eq, not_true_eq_false, if_false] at h
          obtain ⟨ci2, hu2, hs3⟩ := parse_unary_sim A cfg hnul pe1 pe2 hpe cg cg2 ci rhs w hs2 hu
          obtain ⟨cx2, hl2, hs4⟩ := ih f2 _ w v ci ci2 cx hs3 (by omega) h
          exact ⟨cx2, by simp [hg2, hu2, hl2], hs4⟩
    have hT := fun t h1 h2 => sim_type hsim t h1 h2
    simp only [parse_product_loop] at h
    simp only [parse_product_loop, hT EvalTokenType.MULTIPLY (by decide) (by decide),
      hT EvalTokenType.DIVIDE (by decide) (by decide), hT EvalTokenType.E (by decide) (by decide),
      hT EvalTokenType.LE (by decide) (by decide), hT EvalTokenType.L (by decide) (by decide),
      hT EvalTokenType.GE (by decide) (by decide), hT EvalTokenType.G (by decide) (by decide)]
    by_cases hm : c1.token.type = EvalTokenType.MULTIPLY
    · simp only [hm, if_true] at h ⊢
      exact hstep A.mul c1 (by rw [hm]; decide) h
    simp only [hm, if_false] at h ⊢
    by_cases hd : c1.token.type = EvalTokenType.DIVIDE
    · simp only [hd, if_true] at h ⊢
      exact hstep A.div c1 (by rw [hd]; decide) h
    simp only [hd, if_false] at h ⊢
    by_cases hr : c1.token.type = EvalTokenType.E ∨ c1.token.type = EvalTokenType.LE ∨
        c1.token.type = EvalTokenType.L ∨ c1.token.type = EvalTokenType.GE ∨
        c1.token.type = EvalTokenType.G
    · have hne : c1.token.type ≠ EvalTokenType.END := by
        rcases hr with h1 | h1 | h1 | h1 | h1 <;> rw [h1] <;> decide
      rw [if_pos hr] at h ⊢
      rw [(sim_sync hsim hne).2.2]
      exact hstep (relational A c1.token.type) c1 hne h
    · rw [if_neg hr] at h ⊢
      simp only [Option.some.injEq, Prod.mk.injEq, true_and] at h ⊢
      obtain ⟨rfl, rfl⟩ := h
      exact ⟨c2, ⟨rfl, rfl⟩, hsim⟩

end Eval

namespace Eval

variable {α U : Type}

theorem parse_product_sim (A : Arith α) (cfg : Config) {e : List Char} (hnul : NUL ∉ e)
    (pe1 pe2 : EvalContext α U → α → Option (EvalResult × EvalContext α U × α))
    (hpe : SimPE e pe1 pe2) : SimPE e (parse_product A cfg pe1) (parse_product A cfg pe2) := by
  intro c1 c2 cx out v hsim h
  obtain ⟨hi1, hi2⟩ := sim_input hsim
  simp only [parse_product] at h ⊢
  cases hu : parse_unary A cfg pe1 c1 (A.ofNat 0) with
  | none => simp [hu] at h
  | some r =>
    obtain ⟨res, cg, w⟩ := r
    simp only [hu] at h
    by_cases hr : res = EvalResult.OK
    swap
    · simp [hr] at h
    subst hr
    simp only [ne_eq, not_true_eq_false, if_false] at h
    obtain ⟨cg2, hu2, hs2⟩ := parse_unary_sim A cfg hnul pe1 pe2 hpe c1 c2 cg (A.ofNat 0) w hsim hu
    cases hl : parse_product_loop A cfg pe1 (c1.input.length + 1) cg w (A.ofNat 0) with
    | none => simp [hl] at h
    | some r =>
      obtain ⟨res, ci, w2⟩ := r
      simp only [hl] at h
      by_cases hr : res = EvalResult.OK
      swap
      · simp [hr] at h
      subst hr
      simp only [ne_eq, not_true_eq_false, if_false, Option.some.injEq, Prod.mk.injEq,
        true_and] at h
      obtain ⟨rfl, rfl⟩ := h
      obtain ⟨ci2, hl2, hs3⟩ := parse_product_loop_sim A cfg hnul pe1 pe2 hpe _
        (c2.input.length + 1) w (A.ofNat 0) w2 cg cg2 ci hs2 (by rw [hi1, hi2]; simp) hl
      exact ⟨ci2, by simp [hu2, hl2], hs3⟩

theorem parse_sum_loop_sim (A : Arith α) (cfg : Config) {e : List Char} (hnul : NUL ∉ e)
    (pe1 pe2 : EvalContext α U → α → Option (EvalResult × EvalContext α U × α))
    (hpe : SimPE e pe1 pe2) :
    ∀ (f1 f2 : Nat) (lhs rhs v : α) (c1 c2 cx : EvalContext α U), Simulates e c1 c2 →
      f1 ≤ f2 → parse_sum_loop A cfg pe1 f1 c1 lhs rhs = some (EvalResult.OK, cx, v) →
      ∃ cx2, parse_sum_loop A cfg pe2 f2 c2 lhs rhs = some (EvalResult.OK, cx2, v) ∧
        Simulates e cx cx2 := by
  intro f1
  induction f1 with
  | zero => intro f2 lhs rhs v c1 c2 cx _ _ h; simp [parse_sum_loop] at h
  | succ f1 ih =>
    intro f2 lhs rhs v c1 c2 cx hsim hf h
    obtain ⟨f2, rfl⟩ : ∃ f, f2 = f + 1 := ⟨f2 - 1, by omega⟩
    have hstep : ∀ (op : α → α → α) (cg : EvalContext α U),
        c1.token.type ≠ EvalTokenType.END →
        (match get_token A cfg c1 with
          | none => none
          | some (result, ctx) =>
            if result ≠ EvalResult.OK then some (result, ctx, lhs)
            else
              match parse_product A cfg pe1 ctx rhs with
              | none => none
              | some (result, ctx, rhs) =>
                if result ≠ EvalResult.OK then some (result, ctx, lhs)
                else parse_sum_loop A cfg pe1 f1 ctx (op lhs rhs) rhs) =
          some (EvalResult.OK, cx, v) →
        ∃ cx2, (match get_token A cfg c2 with
          | none => none
          | some (result, ctx) =>
            if result ≠ EvalResult.OK then some (result, ctx, lhs)
            else
              match parse_product A cfg pe2 ctx rhs with
              | none => none
              | some (result, ctx, rhs) =>
                if result ≠ EvalResult.OK then some (result, ctx, lhs)
                else parse_sum_loop A cfg pe2 f2 ctx (op lhs rhs) rhs) =
          some (EvalResult.OK, cx2, v) ∧ Simulates e cx cx2 := by
      intro op cg hne h
      cases hg : get_token A cfg c1 with
      | none => simp [hg] at h
      | some r =>
        obtain ⟨res, cg⟩ := r
        simp only [hg] at h
        by_cases hr : res = EvalResult.OK
        swap
        · simp [hr] at h
        subst hr
        simp only [ne_eq, not_true_eq_false, if_false] at h
        obtain ⟨cg2, hg2, hs2⟩ := sim_get_token A cfg hnul hsim hne hg
        cases hu : parse_product A cfg pe1 cg rhs with
        | none => simp [hu] at h
        | some r =>
          obtain ⟨res, ci, w⟩ := r
          simp only [hu] at h
          by_cases hr : res = EvalResult.OK
          swap
          · simp [hr] at h
          subst hr
          simp only [ne_eq, not_true_eq_false, if_false] at h
          obtain ⟨ci2, hu2, hs3⟩ := parse_product_sim A cfg hnul pe1 pe2 hpe cg cg2 ci rhs w hs2 hu
          obtain ⟨cx2, hl2, hs4⟩ := ih f2 _ w v ci ci2 cx hs3 (by omega) h
          exact ⟨cx2, by simp [hg2, hu2, hl2], hs4⟩
    have hT := fun t h1 h2 => sim_type hsim t h1 h2
    simp only [parse_sum_loop] at h
    simp only [parse_sum_loop, hT EvalTokenType.ADD (by decide) (by decide),
      hT EvalTokenType.SUBTRACT (by decide) (by decide)]
    by_cases hm : c1.token.type = EvalTokenType.ADD
    · simp only [hm, if_true] at h ⊢
      exact hstep A.add c1 (by rw [hm]; decide) h
    simp only [hm, if_false] at h ⊢
    by_cases hd : c1.token.type = EvalTokenType.SUBTRACT
    · simp only [hd, if_true] at h ⊢
      exact hstep A.sub c1 (by rw [hd]; decide) h
    simp only [hd, if_false, Option.some.injEq, Prod.mk.injEq, true_and] at h ⊢
    obtain ⟨rfl, rfl⟩ := h
    exact ⟨c2, ⟨rfl, rfl⟩, hsim⟩

theorem parse_sum_sim (A : Arith α) (cfg : Config) {e : List Char} (hnul : NUL ∉ e)
    (pe1 pe2 : EvalContext α U → α → Option (EvalResult × EvalContext α U × α))
    (hpe : SimPE e pe1 pe2) : SimPE e (parse_sum A cfg pe1) (parse_sum A cfg pe2) := by
  intro c1 c2 cx out v hsim h
  obtain ⟨hi1, hi2⟩ := sim_input hsim
  simp only [parse_sum] at h ⊢
  cases hu : parse_product A cfg pe1 c1 (A.ofNat 0) with
  | none => simp [hu] at h
  | some r =>
    obtain ⟨res, cg, w⟩ := r
    simp only [hu] at h
    by_cases hr : res = EvalResult.OK
    swap
    · simp [hr] at h
    subst hr
    simp only [ne_eq, not_true_eq_false, if_false] at h
    obtain ⟨cg2, hu2, hs2⟩ := parse_product_sim A cfg hnul pe1 pe2 hpe c1 c2 cg (A.ofNat 0) w
      hsim hu
    cases hl : parse_sum_loop A cfg pe1 (c1.input.length + 1) cg w (A.ofNat 0) with
    | none => simp [hl] at h
    | some r =>
      obtain ⟨res, ci, w2⟩ := r
      simp only [hl] at h
      by_cases hr : res = EvalResult.OK
      swap
      · simp [hr] at h
      subst hr
      simp only [ne_eq, not_true_eq_false, if_false, Option.some.injEq, Prod.mk.injEq,
        true_and] at h
      obtain ⟨rfl, rfl⟩ := h
      obtain ⟨ci2, hl2, hs3⟩ := parse_sum_loop_sim A cfg hnul pe1 pe2 hpe _
        (c2.input.length + 1) w (A.ofNat 0) w2 cg cg2 ci hs2 (by rw [hi1, hi2]; simp) hl
      exact ⟨ci2, by simp [hu2, hl2], hs3⟩

theorem parse_expr_sim (A : Arith α) (cfg : Config) {e : List Char} (hnul : NUL ∉ e) :
    ∀ fuel : Nat, SimPE e (parse_expr A cfg fuel : EvalContext α U → α → _)
      (parse_expr A cfg fuel) := by
  intro fuel
  induction fuel with
  | zero => intro c1 c2 cx out v _ h; simp [parse_expr] at h
  | succ fuel ih =>
    intro c1 c2 cx out v hsim h
    obtain ⟨-, -, hsl⟩ := sim_frame hsim
    simp only [parse_expr] at h
    simp only [parse_expr, hsl]
    by_cases hge : c1.stack_level ≥ cfg.EVAL_MAX_STACK_DEPTH
    · simp [hge] at h
    simp only [hge, if_false] at h ⊢
    cases hp : parse_sum A cfg (parse_expr A cfg fuel)
        { c1 with stack_level := c1.stack_level + 1 } out with
    | none => simp [hp] at h
    | some r =>
      obtain ⟨res, cg, w⟩ := r
      simp only [hp, Option.some.injEq, Prod.mk.injEq] at h
      obtain ⟨rfl, rfl, rfl⟩ := h
      obtain ⟨cg2, hp2, hs2⟩ := parse_sum_sim A cfg hnul _ _ ih _ _ cg out w
        (sim_stack_level hsim (c1.stack_level + 1)) hp
      obtain ⟨-, -, hsl2⟩ := sim_frame hs2
      refine ⟨{ cg2 with stack_level := cg2.stack_level - 1 }, by simp only [hp2], ?_⟩
      rw [hsl2]
      exact sim_stack_level hs2 _

/-- Where `eval_execute` returns `OK` on a text without the terminator inside,
its top-level parse ends on `END` with the cursor at the end of the text, and
the top-level parse of the text followed by `)` succeeds with the same value
and ends on that `)`. -/
theorem top_level_close (A : Arith α) (cfg : Config) (e : List Char)
    (hooks : Option (EvalHooks α U)) (user_data : U) (output v : α) (hnul : NUL ∉ e)
    (h : eval_execute A cfg e hooks user_data output = some (EvalResult.OK, v)) :
    (∃ c ctx, get_token A cfg (⟨hooks, user_data, e, 0, 0, EvalToken.END⟩ : EvalContext α U) =
          some (EvalResult.OK, c) ∧
        parse_expr A cfg (cfg.EVAL_MAX_STACK_DEPTH + 1) c output = some (EvalResult.OK, ctx, v) ∧
        ctx.token.type = EvalTokenType.END ∧ ctx.pos = e.length) ∧
    (∃ c ctx, get_token A cfg
          (⟨hooks, user_data, e ++ [')'], 0, 0, EvalToken.END⟩ : EvalContext α U) =
          some (EvalResult.OK, c) ∧
        parse_expr A cfg (cfg.EVAL_MAX_STACK_DEPTH + 1) c output = some (EvalResult.OK, ctx, v) ∧
        ctx.token.type = EvalTokenType.CLOSE_BRACKET ∧ ctx.pos = e.length + 1) := by
  simp only [eval_execute] at h
  cases hg : get_token A cfg (⟨hooks, user_data, e, 0, 0, EvalToken.END⟩ : EvalContext α U) with
  | none => simp [hg] at h
  | some r =>
    obtain ⟨res, cg⟩ := r
    simp only [hg] at h
    by_cases hr : res = EvalResult.OK
    swap
    · simp [hr] at h
    subst hr
    simp only [ne_eq, not_true_eq_false, if_false] at h
    obtain ⟨cg2, hg2, hs2⟩ := get_token_sim A cfg e hnul _ cg rfl (Nat.zero_le _) hg
    cases hp : parse_expr A cfg (cfg.EVAL_MAX_STACK_DEPTH + 1) cg output with
    | none => simp [hp] at h
    | some r =>
      obtain ⟨res, ci, w⟩ := r
      simp only [hp] at h
      by_cases hr : res = EvalResult.OK
      swap
      · simp [hr] at h
      subst hr
      simp only [ne_eq, not_true_eq_false, if_false] at h
      obtain ⟨ci2, hp2, hs3⟩ := parse_expr_sim A cfg hnul _ cg cg2 ci output w hs2 hp
      by_cases hend : ci.token.type = EvalTokenType.END
      swap
      · simp [hend] at h
      simp only [hend, if_true, Option.some.injEq, Prod.mk.injEq, true_and] at h
      subst h
      obtain ⟨-, ⟨hne, -, -⟩ | ⟨-, hpos, rfl⟩⟩ := hs3
      · exact absurd hend hne
      · exact ⟨⟨cg, ci, rfl, hp, hend, hpos⟩, ⟨cg2, _, hg2, hp2, rfl, rfl⟩⟩

/-- The last step of `eval_execute`: after a successful top-level parse the
result is `OK` on `END` and `UNEXPECTED_CHAR` on any other token. -/
theorem eval_execute_of_parse (A : Arith α) (cfg : Config) (e : List Char)
    (hooks : Option (EvalHooks α U)) (user_data : U) (output w : α) (c ctx : EvalContext α U)
    (hg : get_token A cfg (⟨hooks, user_data, e, 0, 0, EvalToken.END⟩ : EvalContext α U) =
      some (EvalResult.OK, c))
    (hp : parse_expr A cfg (cfg.EVAL_MAX_STACK_DEPTH + 1) c output =
      some (EvalResult.OK, ctx, w)) :
    eval_execute A cfg e hooks user_data output =
      some (if ctx.token.type = EvalTokenType.END then EvalResult.OK
        else EvalResult.UNEXPECTED_CHAR, w) := by
  simp only [eval_execute, hg, hp, ne_eq, not_true_eq_false, if_false]
  by_cases hend : ctx.token.type = EvalTokenType.END <;> simp [hend]

end Eval

namespace Eval

variable {α U : Type}

/-- C10: on a text `e` (a C string, so without the terminator inside),
whenever the first token is read and the top-level `parse_expr` succeeds with
a current token other than `END`, `eval_execute` returns `UNEXPECTED_CHAR`;
and whenever `eval_execute` returns `OK` on `e`, its top-level parse has ended
on `END` with the cursor at the end of `e`, and `eval_execute` on `e` followed
by `)` returns `UNEXPECTED_CHAR`. -/
theorem C10_whole_input (A : Arith α) (cfg : Config) (e : List Char)
    (hooks : Option (EvalHooks α U)) (user_data : U) (output v : α) (hnul : NUL ∉ e) :
    (∀ (c ctx : EvalContext α U) (w : α),
      get_token A cfg (⟨hooks, user_data, e, 0, 0, EvalToken.END⟩ : EvalContext α U) =
        some (EvalResult.OK, c) →
      parse_expr A cfg (cfg.EVAL_MAX_STACK_DEPTH + 1) c output = some (EvalResult.OK, ctx, w) →
      ctx.token.type ≠ EvalTokenType.END →
      eval_execute A cfg e hooks user_data output = some (EvalResult.UNEXPECTED_CHAR, w)) ∧
    (eval_execute A cfg e hooks user_data output = some (EvalResult.OK, v) →
      (∃ c ctx, get_token A cfg (⟨hooks, user_data, e, 0, 0, EvalToken.END⟩ : EvalContext α U) =
          some (EvalResult.OK, c) ∧
        parse_expr A cfg (cfg.EVAL_MAX_STACK_DEPTH + 1) c output = some (EvalResult.OK, ctx, v) ∧
        ctx.token.type = EvalTokenType.END ∧ ctx.pos = e.length) ∧
      eval_execute A cfg (e ++ [')']) hooks user_data output =
        some (EvalResult.UNEXPECTED_CHAR, v)) := by
  refine ⟨fun c ctx w hg hp hne => ?_, fun h => ?_⟩
  · rw [eval_execute_of_parse A cfg e hooks user_data output w c ctx hg hp, if_neg hne]
  · obtain ⟨h1, c2, ctx2, hg2, hp2, ht2, -⟩ :=
      top_level_close A cfg e hooks user_data output v hnul h
    refine ⟨h1, ?_⟩
    rw [eval_execute_of_parse A cfg _ hooks user_data output v c2 ctx2 hg2 hp2, ht2]
    rfl

/-- C10, the example of the claim: `1+2` gives `OK` with 3, so `1+2)` gives
`UNEXPECTED_CHAR`; the top-level parse of `1+2)` succeeds and stops on `)`. -/
theorem C10_whole_input_witness :
    NUL ∉ "1+2".toList ∧
    eval_execute Arith.rat sample_config "1+2".toList no_hooks () 0 = some (EvalResult.OK, 3) ∧
    eval_execute Arith.rat sample_config "1+2)".toList no_hooks () 0 =
      some (EvalResult.UNEXPECTED_CHAR, 3) ∧
    (∃ c ctx : EvalContext ℚ Unit,
      get_token Arith.rat sample_config ⟨no_hooks, (), "1+2)".toList, 0, 0, EvalToken.END⟩ =
        some (EvalResult.OK, c) ∧
      parse_expr Arith.rat sample_config (sample_config.EVAL_MAX_STACK_DEPTH + 1) c 0 =
        some (EvalResult.OK, ctx, 3) ∧
      ctx.token.type ≠ EvalTokenType.END ∧
      eval_execute Arith.rat sample_config "1+2)".toList no_hooks () 0 =
        some (EvalResult.UNEXPECTED_CHAR, 3)) := by
  have hnul : NUL ∉ "1+2".toList := by decide
  have hok : eval_execute Arith.rat sample_config "1+2".toList no_hooks () 0 =
      some (EvalResult.OK, 3) := by decide!
  have h3 := ((C10_whole_input Arith.rat sample_config "1+2".toList no_hooks () 0 3 hnul).2
    hok).2
  obtain ⟨-, c, ctx, hg, hp, ht, -⟩ :=
    top_level_close Arith.rat sample_config "1+2".toList no_hooks () 0 3 hnul hok
  have hne : ctx.token.type ≠ EvalTokenType.END := by rw [ht]; decide
  exact ⟨hnul, hok, h3, c, ctx, hg, hp, hne,
    (C10_whole_input Arith.rat sample_config "1+2)".toList no_hooks () 0 3 (by decide)).1
      c ctx 3 hg hp hne⟩

end Eval

namespace Eval

variable {α U : Type}

/-! ## Result strings -/

/-- C16: with `N_EVAL_RESULT_CODES` at least the number 12 of defined codes,
`eval_result_to_string` maps the 12 result codes, in their order, to the 12
descriptions `ok`, `illegal character`, ..., `expected close bracket`, which
are pairwise distinct, and maps every code at or above `N_EVAL_RESULT_CODES`
to `undefined error`. -/
theorem C16_result_strings (n : Nat) (hn : 12 ≤ n) :
    [EvalResult.OK, .ILLEGAL_CHARACTER, .INVALID_LITERAL, .LITERAL_OUT_OF_RANGE,
        .NAME_TOO_LONG, .UNEXPECTED_CHAR, .EXPECTED_TERM, .STACK_OVERFLOW,
        .UNDEFINED_FUNCTION, .UNDEFINED_VARIABLE, .EXPECTED_OPEN_BRACKET,
        .EXPECTED_CLOSE_BRACKET].map (fun r => eval_result_to_string n r.code) =
      [some "ok", some "illegal character", some "invalid literal",
        some "literal out-of-range", some "name too long", some "unexpected character",
        some "expected term", some "stack overflow", some "undefined function",
        some "undefined variable", some "expected open bracket",
        some "expected close bracket"] ∧
    (∀ r s : EvalResult, eval_result_to_string n r.code = eval_result_to_string n s.code →
      r = s) ∧
    (∀ r : EvalResult, eval_result_to_string n r.code ≠ some "undefined error") ∧
    (∀ code : Nat, n ≤ code → eval_result_to_string n code = some "undefined error") := by
  have hlt : ∀ r : EvalResult, r.code < n := by
    intro r
    have : r.code < 12 := by cases r <;> decide
    omega
  have hval : ∀ r : EvalResult, eval_result_to_string n r.code = STRS.get? r.code := by
    intro r
    simp [eval_result_to_string, hlt r]
  refine ⟨?_, ?_, ?_, ?_⟩
  · simp only [List.map, hval]
    decide
  · intro r s h
    rw [hval, hval] at h
    revert h
    cases r <;> cases s <;> decide
  · intro r
    rw [hval]
    cases r <;> decide
  · intro code hc
    simp [eval_result_to_string, Nat.not_lt.mpr hc]

/-- C16, with `N_EVAL_RESULT_CODES` equal to 12: `ok` for code 0, `expected
close bracket` for code 11, and the fallback for the codes 12 and 1000. -/
theorem C16_result_strings_witness :
    12 ≤ 12 ∧
    eval_result_to_string 12 EvalResult.OK.code = some "ok" ∧
    eval_result_to_string 12 EvalResult.EXPECTED_CLOSE_BRACKET.code =
      some "expected close bracket" ∧
    eval_result_to_string 12 12 = some "undefined error" ∧
    eval_result_to_string 12 1000 = some "undefined error" := by
  have h := C16_result_strings 12 (le_refl 12)
  refine ⟨le_refl 12, by decide, by decide, h.2.2.2 12 (le_refl 12), h.2.2.2 1000 (by decide)⟩

end Eval

namespace Eval

variable {α U : Type}

/-! ## From the first term to the result of `eval_execute` -/

/-- The result of `eval_execute` from the first token and the result of the
top-level `parse_sum`. -/
theorem eval_execute_of_sum (A : Arith α) (cfg : Config) (input : List Char)
    (hooks : Option (EvalHooks α U)) (user_data : U) (output v : α) (r : EvalResult)
    (c1 c' : EvalContext α U) (hmax : 0 < cfg.EVAL_MAX_STACK_DEPTH)
    (hg : get_token A cfg (⟨hooks, user_data, input, 0, 0, EvalToken.END⟩ : EvalContext α U) =
      some (EvalResult.OK, c1))
    (hsl : c1.stack_level = 0)
    (hp : parse_sum A cfg (parse_expr A cfg cfg.EVAL_MAX_STACK_DEPTH)
      { c1 with stack_level := 1 } output = some (r, c', v)) :
    eval_execute A cfg input hooks user_data output =
      some (if r ≠ EvalResult.OK then (r, v)
        else if c'.token.type = EvalTokenType.END then (EvalResult.OK, v)
        else (EvalResult.UNEXPECTED_CHAR, v)) := by
  have hnot : ¬ (cfg.EVAL_MAX_STACK_DEPTH ≤ 0) := by omega
  simp only [eval_execute, hg, ne_eq, not_true_eq_false, if_false, parse_expr, ge_iff_le, hsl,
    hnot, Nat.zero_add, hp]
  by_cases hr : r = EvalResult.OK
  · by_cases he : c'.token.type = EvalTokenType.END <;> simp [hr, he]
  · simp [hr]

/-- An error of `parse_term` on the first term is the result of `parse_sum`. -/
theorem parse_sum_term_err (A : Arith α) (cfg : Config)
    (pe : EvalContext α U → α → Option (EvalResult × EvalContext α U × α))
    (c c' : EvalContext α U) (out v : α) (r : EvalResult)
    (ht : c.token.type ≠ EvalTokenType.SUBTRACT)
    (hp : parse_term A cfg pe c (A.ofNat 0) = some (r, c', v)) (hr : r ≠ EvalResult.OK) :
    parse_sum A cfg pe c out = some (r, c', out) :=
  parse_sum_err A cfg pe c c' out (A.ofNat 0) r
    (parse_product_err A cfg pe c c' (A.ofNat 0) (A.ofNat 0) r
      (parse_unary_err A cfg pe c c' (A.ofNat 0) v r ht hp hr) hr) hr

/-- A first term that `parse_term` accepts, followed by a token that is no
operator, is what `parse_sum` returns. -/
theorem parse_sum_term_ok (A : Arith α) (cfg : Config)
    (pe : EvalContext α U → α → Option (EvalResult × EvalContext α U × α))
    (c c' : EvalContext α U) (out v : α)
    (ht : c.token.type ≠ EvalTokenType.SUBTRACT)
    (hp : parse_term A cfg pe c (A.ofNat 0) = some (EvalResult.OK, c', v))
    (h1 : is_product_op c'.token.type = false) (h2 : is_sum_op c'.token.type = false) :
    parse_sum A cfg pe c out = some (EvalResult.OK, c', v) := by
  have hu : parse_unary A cfg pe c (A.ofNat 0) = some (EvalResult.OK, c', v) := by
    rw [parse_unary_eq_from, unary_from_exit A cfg pe _ false c c' _ v ht hp]
    simp
  have hpr : parse_product A cfg pe c (A.ofNat 0) = some (EvalResult.OK, c', v) := by
    apply parse_product_of_from
    simp only [product_from, hu, ne_eq, not_true_eq_false, if_false]
    exact parse_product_loop_exit A cfg pe _ c' v _ h1
  apply parse_sum_of_from
  simp only [sum_from, hpr, ne_eq, not_true_eq_false, if_false]
  exact parse_sum_loop_exit A cfg pe _ c' v _ h2

/-- An error of `parse_term` on the first term is the result of
`eval_execute`. -/
theorem eval_execute_term_err (A : Arith α) (cfg : Config) (input : List Char)
    (hooks : Option (EvalHooks α U)) (user_data : U) (output v : α) (r : EvalResult)
    (c1 c' : EvalContext α U) (hmax : 0 < cfg.EVAL_MAX_STACK_DEPTH)
    (hg : get_token A cfg (⟨hooks, user_data, input, 0, 0, EvalToken.END⟩ : EvalContext α U) =
      some (EvalResult.OK, c1))
    (hsl : c1.stack_level = 0) (ht : c1.token.type ≠ EvalTokenType.SUBTRACT)
    (hp : parse_term A cfg (parse_expr A cfg cfg.EVAL_MAX_STACK_DEPTH)
      { c1 with stack_level := 1 } (A.ofNat 0) = some (r, c', v))
    (hr : r ≠ EvalResult.OK) :
    eval_execute A cfg input hooks user_data output = some (r, output) := by
  rw [eval_execute_of_sum A cfg input hooks user_data output output r c1 c' hmax hg hsl
    (parse_sum_term_err A cfg _ _ c' output v r ht hp hr), if_pos hr]

/-- A first term that `parse_term` accepts and that ends the text is the
result of `eval_execute`. -/
theorem eval_execute_term_ok (A : Arith α) (cfg : Config) (input : List Char)
    (hooks : Option (EvalHooks α U)) (user_data : U) (output v : α)
    (c1 c' : EvalContext α U) (hmax : 0 < cfg.EVAL_MAX_STACK_DEPTH)
    (hg : get_token A cfg (⟨hooks, user_data, input, 0, 0, EvalToken.END⟩ : EvalContext α U) =
      some (EvalResult.OK, c1))
    (hsl : c1.stack_level = 0) (ht : c1.token.type ≠ EvalTokenType.SUBTRACT)
    (hp : parse_term A cfg (parse_expr A cfg cfg.EVAL_MAX_STACK_DEPTH)
      { c1 with stack_level := 1 } (A.ofNat 0) = some (EvalResult.OK, c', v))
    (hend : c'.token.type = EvalTokenType.END) :
    eval_execute A cfg input hooks user_data output = some (EvalResult.OK, v) := by
  rw [eval_execute_of_sum A cfg input hooks user_data output v EvalResult.OK c1 c' hmax hg hsl
    (parse_sum_term_ok A cfg _ _ c' output v ht hp (by rw [hend]; decide)
      (by rw [hend]; decide))]
  simp [hend]

end Eval

namespace Eval

variable {α U : Type}

/-! ## A missing term -/

theorem parse_term_expected (A : Arith α) (cfg : Config)
    (pe : EvalContext α U → α → Option (EvalResult × EvalContext α U × α))
    (ctx : EvalContext α U) (out : α)
    (h : ctx.token.type ≠ EvalTokenType.NUMBER ∧ ctx.token.type ≠ EvalTokenType.OPEN_BRACKET ∧
      ctx.token.type ≠ EvalTokenType.FUNC ∧ ctx.token.type ≠ EvalTokenType.VARIABLE) :
    parse_term A cfg pe ctx out = some (EvalResult.EXPECTED_TERM, ctx, out) := by
  cases htok : ctx.token <;> simp [htok, EvalToken.type] at h <;> simp [parse_term, htok]

theorem parse_product_loop_err (A : Arith α) (cfg : Config)
    (pe : EvalContext α U → α → Option (EvalResult × EvalContext α U × α))
    (n : Nat) (c c2 c3 : EvalContext α U) (lhs rhs rv : α) (r : EvalResult)
    (ht : is_product_op c.token.type = true)
    (hg : get_token A cfg c = some (EvalResult.OK, c2))
    (hu : parse_unary A cfg pe c2 rhs = some (r, c3, rv)) (hr : r ≠ EvalResult.OK) :
    parse_product_loop A cfg pe (n + 1) c lhs rhs = some (r, c3, lhs) := by
  simp only [parse_product_loop]
  split_ifs with h1 h2 h3
  · simp [hg, hu, hr]
  · simp [hg, hu, hr]
  · simp [hg, hu, hr]
  · exfalso
    simp only [is_product_op, h1, h2, decide_False, Bool.false_or, Bool.or_eq_true,
      decide_eq_true_eq] at ht
    exact h3 (by tauto)

theorem parse_sum_loop_err (A : Arith α) (cfg : Config)
    (pe : EvalContext α U → α → Option (EvalResult × EvalContext α U × α))
    (n : Nat) (c c2 c3 : EvalContext α U) (lhs rhs rv : α) (r : EvalResult)
    (ht : is_sum_op c.token.type = true)
    (hg : get_token A cfg c = some (EvalResult.OK, c2))
    (hu : parse_product A cfg pe c2 rhs = some (r, c3, rv)) (hr : r ≠ EvalResult.OK) :
    parse_sum_loop A cfg pe (n + 1) c lhs rhs = some (r, c3, lhs) := by
  simp only [parse_sum_loop]
  split_ifs with h1 h2
  · simp [hg, hu, hr]
  · simp [hg, hu, hr]
  · exfalso
    simp only [is_sum_op, h1, h2, decide_False, Bool.false_or, Bool.false_eq_true] at ht

theorem parse_product_of_from_err (A : Arith α) (cfg : Config)
    (pe : EvalContext α U → α → Option (EvalResult × EvalContext α U × α))
    (c c' : EvalContext α U) (out v : α) (r : EvalResult)
    (h : product_from A cfg pe (c.input.length + 1) c = some (r, c', v))
    (hr : r ≠ EvalResult.OK) :
    parse_product A cfg pe c out = some (r, c', out) := by
  simp only [product_from] at h
  simp only [parse_product]
  cases hu : parse_unary A cfg pe c (A.ofNat 0) with
  | none => simp [hu] at h
  | some x =>
    obtain ⟨r1, c1, v1⟩ := x
    simp only [hu] at h ⊢
    by_cases h1 : r1 = EvalResult.OK
    · subst h1
      simp only [ne_eq, not_true_eq_false, if_false] at h ⊢
      simp [h, hr]
    · simp only [ne_eq, h1, not_false_eq_true, if_true, Option.some.injEq, Prod.mk.injEq] at h ⊢
      exact ⟨h.1, h.2.1, trivial⟩

theorem parse_sum_of_from_err (A : Arith α) (cfg : Config)
    (pe : EvalContext α U → α → Option (EvalResult × EvalContext α U × α))
    (c c' : EvalContext α U) (out v : α) (r : EvalResult)
    (h : sum_from A cfg pe (c.input.length + 1) c = some (r, c', v))
    (hr : r ≠ EvalResult.OK) :
    parse_sum A cfg pe c out = some (r, c', out) := by
  simp only [sum_from] at h
  simp only [parse_sum]
  cases hu : parse_product A cfg pe c (A.ofNat 0) with
  | none => simp [hu] at h
  | some x =>
    obtain ⟨r1, c1, v1⟩ := x
    simp only [hu] at h ⊢
    by_cases h1 : r1 = EvalResult.OK
    · subst h1
      simp only [ne_eq, not_true_eq_false, if_false] at h ⊢
      simp [h, hr]
    · simp only [ne_eq, h1, not_false_eq_true, if_true, Option.some.injEq, Prod.mk.injEq] at h ⊢
      exact ⟨h.1, h.2.1, trivial⟩

end Eval

namespace Eval

variable {α U : Type}

theorem peek_blank_ne_eq (ws : List Char) (hws : ws.all is_blank = true) : peek ws ≠ '=' := by
  cases ws with
  | nil => simp [NUL]
  | cons c T =>
    simp only [List.all_cons, Bool.and_eq_true] at hws
    rw [peek_cons]
    intro h
    rw [h] at hws
    exact absurd hws.1 (by decide)

/-- The tree `e` stands before a binary operator that ends the text. -/
theorem stands_dangling (A : Arith α) (cfg : Config) (e : Expr) (input : List Char) (p : Nat)
    (ws ws' : List Char) (op : BinOp) (hws : ws.all is_blank = true)
    (hws' : ws'.all is_blank = true)
    (hdrop : input.drop p = e.text ++ (ws ++ (op.text ++ ws'))) :
    Stands A cfg U e input p (ws ++ (op.text ++ ws')) op.token
        (p + e.text.length + ws.length + op.text.length) ∧
      Lexes A cfg U input (p + e.text.length + ws.length + op.text.length) EvalToken.END
        (p + e.text.length + ws.length + op.text.length + ws'.length) := by
  refine ⟨⟨hdrop, follows_append_blank _ _ hws (follows_op op _), ?_⟩, ?_⟩
  · exact lexes_op A cfg input (p + e.text.length) ws ws' op hws (drop_add_of_drop hdrop)
      (peek_blank_ne_eq ws' hws')
  · refine lexes_end A cfg input _ ws' hws' ?_
    have h1 := drop_add_of_drop (drop_add_of_drop (drop_add_of_drop hdrop))
    simpa using h1

/-- The operand of an operator is missing: `parse_unary` on `END`. -/
theorem parse_unary_end (A : Arith α) (cfg : Config)
    (pe : EvalContext α U → α → Option (EvalResult × EvalContext α U × α))
    (c : EvalContext α U) (out : α) (h : c.token = EvalToken.END) :
    parse_unary A cfg pe c out = some (EvalResult.EXPECTED_TERM, c, out) :=
  parse_unary_err A cfg pe c c out (A.ofNat 0) _ (by rw [h]; simp [EvalToken.type])
    (parse_term_expected A cfg pe c _ (by rw [h]; simp [EvalToken.type])) (by decide)

theorem product_dangling (A : Arith α) (cfg : Config) (f : Nat) (e : Expr) (input : List Char)
    (p : Nat) (ws ws' : List Char) (op : BinOp) (hop : op.isSum = false)
    (hg : e.gen 2 = true) (hws : ws.all is_blank = true) (hws' : ws'.all is_blank = true)
    (hdrop : input.drop p = e.text ++ (ws ++ (op.text ++ ws'))) (hdep : e.depth ≤ f) :
    ∃ (tok1 : EvalToken α) (p1 : Nat), Lexes A cfg U input p tok1 p1 ∧
      ∀ (c : EvalContext α U) (out : α), c.input = input →
        c.stack_level + e.depth ≤ cfg.EVAL_MAX_STACK_DEPTH →
        ∃ c', parse_product A cfg (parse_expr A cfg f) { c with pos := p1, token := tok1 } out =
          some (EvalResult.EXPECTED_TERM, c', out) := by
  obtain ⟨hs, hend⟩ := stands_dangling A cfg (U := U) e input p ws ws' op hws hws' hdrop
  obtain ⟨tok1, p1, k, hlex, hk, hpr⟩ := (parse_gen A cfg e f input p _ _ _ hs hdep).2.2.1 hg
  have hlen := stands_length A cfg hs
  refine ⟨tok1, p1, hlex, ?_⟩
  intro c out hi hd
  subst hi
  obtain ⟨rhs, h1⟩ := hpr c (c.input.length + 1 - k) rfl hd
  have hn : c.input.length + 1 - k + k = c.input.length + 1 := by omega
  rw [hn] at h1
  obtain ⟨m, hm⟩ : ∃ m, c.input.length + 1 - k = m + 1 := ⟨c.input.length - k, by omega⟩
  have hg2 := hend ({ c with pos := p + e.text.length + ws.length + op.text.length, token := op.token } : EvalContext α U) rfl rfl
  rw [hm, parse_product_loop_err A cfg _ m _ _ _ _ rhs rhs EvalResult.EXPECTED_TERM
    (by cases op <;> simp [BinOp.isSum] at hop <;> simp [BinOp.token, EvalToken.type, is_product_op])
    hg2 (parse_unary_end A cfg _ _ rhs rfl) (by decide)] at h1
  exact ⟨_, parse_product_of_from_err A cfg _
    ({ c with pos := p1, token := tok1 } : EvalContext α U) _ out _ _ h1 (by decide)⟩

theorem gen_three_not_two (e : Expr) (h3 : e.gen 3 = true) (h2 : e.gen 2 = false) :
    ∃ l ws op r, e = .bin l ws op r ∧ op.isSum = true ∧ l.gen 3 = true ∧
      ws.all is_blank = true ∧ r.gen 2 = true := by
  cases e with
  | num ws lit => simp only [Expr.gen] at h3 h2; rw [h3] at h2; cases h2
  | paren ws e ws' => simp only [Expr.gen] at h3 h2; rw [h3] at h2; cases h2
  | neg ws e =>
    simp only [Expr.gen, Bool.and_eq_true, decide_eq_true_eq] at h3
    simp [Expr.gen, h3.1.2, h3.2] at h2
  | bin l ws op r =>
    cases hop : op.isSum with
    | false =>
      simp only [Expr.gen, hop, Bool.false_eq_true, if_false, Bool.and_eq_true,
        decide_eq_true_eq] at h3
      simp [Expr.gen, hop, h3.1.1.2, h3.1.2, h3.2] at h2
    | true =>
      simp only [Expr.gen, hop, if_true, Bool.and_eq_true, decide_eq_true_eq] at h3
      exact ⟨l, ws, op, r, rfl, hop, h3.1.1.2, h3.1.2, h3.2⟩

theorem sum_dangling (A : Arith α) (cfg : Config) (f : Nat) (e : Expr) (input : List Char)
    (p : Nat) (ws ws' : List Char) (op : BinOp)
    (hg : e.gen 3 = true) (hws : ws.all is_blank = true) (hws' : ws'.all is_blank = true)
    (hdrop : input.drop p = e.text ++ (ws ++ (op.text ++ ws'))) (hdep : e.depth ≤ f) :
    ∃ (tok1 : EvalToken α) (p1 : Nat), Lexes A cfg U input p tok1 p1 ∧
      ∀ (c : EvalContext α U) (out : α), c.input = input →
        c.stack_level + e.depth ≤ cfg.EVAL_MAX_STACK_DEPTH →
        ∃ c', parse_sum A cfg (parse_expr A cfg f) { c with pos := p1, token := tok1 } out =
          some (EvalResult.EXPECTED_TERM, c', out) := by
  obtain ⟨hs, hend⟩ := stands_dangling A cfg (U := U) e input p ws ws' op hws hws' hdrop
  have hlen := stands_length A cfg hs
  cases hop : op.isSum with
  | true =>
    obtain ⟨tok1, p1, k, hlex, hk, hsm⟩ := (parse_gen A cfg e f input p _ _ _ hs hdep).2.2.2 hg
      (by cases op <;> simp [BinOp.isSum] at hop <;>
        simp [BinOp.token, EvalToken.type, is_product_op])
    refine ⟨tok1, p1, hlex, ?_⟩
    intro c out hi hd
    subst hi
    obtain ⟨rhs, h1⟩ := hsm c (c.input.length + 1 - k) rfl hd
    have hn : c.input.length + 1 - k + k = c.input.length + 1 := by omega
    rw [hn] at h1
    obtain ⟨m, hm⟩ : ∃ m, c.input.length + 1 - k = m + 1 := ⟨c.input.length - k, by omega⟩
    have hg2 := hend ({ c with pos := p + e.text.length + ws.length + op.text.length, token := op.token } : EvalContext α U) rfl rfl
    rw [hm, parse_sum_loop_err A cfg _ m _ _ _ _ rhs rhs EvalResult.EXPECTED_TERM
      (by cases op <;> simp [BinOp.isSum] at hop <;>
        simp [BinOp.token, EvalToken.type, is_sum_op])
      hg2 (parse_product_err A cfg _ _ _ rhs (A.ofNat 0) _
        (parse_unary_end A cfg _ _ (A.ofNat 0) rfl) (by decide)) (by decide)] at h1
    exact ⟨_, parse_sum_of_from_err A cfg _
      ({ c with pos := p1, token := tok1 } : EvalContext α U) _ out _ _ h1 (by decide)⟩
  | false =>
    cases h2 : e.gen 2 with
    | true =>
      obtain ⟨tok1, p1, hlex, hpr⟩ :=
        product_dangling A cfg (U := U) f e input p ws ws' op hop h2 hws hws' hdrop hdep
      refine ⟨tok1, p1, hlex, ?_⟩
      intro c out hi hd
      obtain ⟨c', hc'⟩ := hpr c (A.ofNat 0) hi hd
      exact ⟨c', parse_sum_err A cfg _ _ c' out (A.ofNat 0) _ hc' (by decide)⟩
    | false =>
      obtain ⟨l, ws0, sop, r, rfl, hsop, hl3, hws0, hr2⟩ := gen_three_not_two e hg h2
      simp only [Expr.depth] at hdep
      have hsl := stands_bin_left A cfg l r ws0 sop input p _ _ _ 2 hs hws0 hr2
      have hsr := stands_bin_right A cfg l r ws0 sop input p _ _ _ hs
      obtain ⟨tok1, p1, k, hlex, hk, hsm⟩ :=
        (parse_gen A cfg l f input p _ _ _ hsl (by omega)).2.2.2 hl3
          (by cases sop <;> simp [BinOp.isSum] at hsop <;>
            simp [BinOp.token, EvalToken.type, is_product_op])
      obtain ⟨tok2, p2, hlex2, hpr⟩ :=
        product_dangling A cfg (U := U) f r input
          (p + l.text.length + ws0.length + sop.text.length) ws ws' op hop hr2 hws hws'
          hsr.1 (by omega)
      have hlenl := stands_length A cfg hsl
      refine ⟨tok1, p1, hlex, ?_⟩
      intro c out hi hd
      subst hi
      simp only [Expr.depth] at hd
      obtain ⟨rhs, h1⟩ := hsm c (c.input.length + 1 - k) rfl (by omega)
      have hn : c.input.length + 1 - k + k = c.input.length + 1 := by omega
      rw [hn] at h1
      obtain ⟨m, hm⟩ : ∃ m, c.input.length + 1 - k = m + 1 := ⟨c.input.length - k, by omega⟩
      have hg2 := hlex2 ({ c with pos := p + l.text.length + ws0.length + sop.text.length, token := sop.token } : EvalContext α U) rfl rfl
      obtain ⟨c', hc'⟩ := hpr c rhs rfl (by omega)
      rw [hm, parse_sum_loop_err A cfg _ m _ _ c' _ rhs rhs EvalResult.EXPECTED_TERM
        (by cases sop <;> simp [BinOp.isSum] at hsop <;>
          simp [BinOp.token, EvalToken.type, is_sum_op])
        hg2 hc' (by decide)] at h1
      exact ⟨_, parse_sum_of_from_err A cfg _
        ({ c with pos := p1, token := tok1 } : EvalContext α U) _ out _ _ h1 (by decide)⟩

/-- A text that ends right after a binary operator: the tree `e`, the
operator `op` and blanks. -/
theorem eval_execute_dangling (A : Arith α) (cfg : Config) (e : Expr) (ws ws' : List Char)
    (op : BinOp) (hooks : Option (EvalHooks α U)) (user_data : U) (output : α)
    (hg : e.gen 3 = true) (hws : ws.all is_blank = true) (hws' : ws'.all is_blank = true)
    (hd : e.depth < cfg.EVAL_MAX_STACK_DEPTH) :
    eval_execute A cfg (e.text ++ (ws ++ (op.text ++ ws'))) hooks user_data output =
      some (EvalResult.EXPECTED_TERM, output) := by
  obtain ⟨tok1, p1, hlex, hsm⟩ := sum_dangling A cfg (U := U) cfg.EVAL_MAX_STACK_DEPTH e
    (e.text ++ (ws ++ (op.text ++ ws'))) 0 ws ws' op hg hws hws' (by simp) (by omega)
  have hg1 := hlex (⟨hooks, user_data, e.text ++ (ws ++ (op.text ++ ws')), 0, 0, EvalToken.END⟩ : EvalContext α U) rfl rfl
  obtain ⟨c', hc'⟩ := hsm (⟨hooks, user_data, e.text ++ (ws ++ (op.text ++ ws')), 0, 1, EvalToken.END⟩ : EvalContext α U) output rfl (by simp only; omega)
  rw [eval_execute_of_sum A cfg _ hooks user_data output output EvalResult.EXPECTED_TERM _ c'
    (by omega) hg1 rfl hc']
  simp

end Eval

namespace Eval

variable {α U : Type}

/-- C20: on a current token that is `END`, `+`, `*`, `/`, `)` or a relational
operator, `parse_term` returns `EXPECTED_TERM` and leaves the context as it
is; and, the depth limit being at least 1, `eval_execute` returns
`EXPECTED_TERM` on every text made of blanks only (the empty text among
them), on every text whose first token is `)`, and on every text made of an
expression of the grammar followed by a binary operator and blanks only; the
exponent digits of the literals of the expression, if any, denote numbers
below `2^31` (`Expr.gen` asks `Literal.exp_fits` of every literal: the `int`
accumulator of `get_number` does not overflow). -/
theorem C20_expected_term (A : Arith α) (cfg : Config) (hmax : 0 < cfg.EVAL_MAX_STACK_DEPTH) :
    (∀ (pe : EvalContext α U → α → Option (EvalResult × EvalContext α U × α))
        (ctx : EvalContext α U) (out : α),
      ctx.token.type ∈ [EvalTokenType.END, .ADD, .MULTIPLY, .DIVIDE, .CLOSE_BRACKET,
        .G, .GE, .L, .LE, .E] →
      parse_term A cfg pe ctx out = some (EvalResult.EXPECTED_TERM, ctx, out)) ∧
    (∀ (ws : List Char) (hooks : Option (EvalHooks α U)) (user_data : U) (output : α),
      ws.all is_blank = true →
      eval_execute A cfg ws hooks user_data output = some (EvalResult.EXPECTED_TERM, output)) ∧
    (∀ (ws R : List Char) (hooks : Option (EvalHooks α U)) (user_data : U) (output : α),
      ws.all is_blank = true →
      eval_execute A cfg (ws ++ ')' :: R) hooks user_data output =
        some (EvalResult.EXPECTED_TERM, output)) ∧
    (∀ (e : Expr) (ws ws' : List Char) (op : BinOp) (hooks : Option (EvalHooks α U))
        (user_data : U) (output : α),
      e.gen 3 = true → ws.all is_blank = true → ws'.all is_blank = true →
      e.depth < cfg.EVAL_MAX_STACK_DEPTH →
      eval_execute A cfg (e.text ++ (ws ++ (op.text ++ ws'))) hooks user_data output =
        some (EvalResult.EXPECTED_TERM, output)) := by
  refine ⟨?_, ?_, ?_, ?_⟩
  · intro pe ctx out h
    apply parse_term_expected
    simp only [List.mem_cons, List.mem_singleton, List.not_mem_nil, or_false] at h
    rcases h with h | h | h | h | h | h | h | h | h | h <;> rw [h] <;> decide
  · intro ws hooks user_data output hws
    have hg := lexes_end A cfg (U := U) ws 0 ws hws (by simp)
      (⟨hooks, user_data, ws, 0, 0, EvalToken.END⟩ : EvalContext α U) rfl rfl
    exact eval_execute_term_err A cfg ws hooks user_data output _ _ _ _ hmax hg rfl
      (by simp [EvalToken.type])
      (parse_term_expected A cfg _ _ _ (by simp [EvalToken.type])) (by decide)
  · intro ws R hooks user_data output hws
    have hg := lexes_close A cfg (U := U) (ws ++ ')' :: R) 0 ws R hws (by simp)
      (⟨hooks, user_data, ws ++ ')' :: R, 0, 0, EvalToken.END⟩ : EvalContext α U) rfl rfl
    exact eval_execute_term_err A cfg _ hooks user_data output _ _ _ _ hmax hg rfl
      (by simp [EvalToken.type])
      (parse_term_expected A cfg _ _ _ (by simp [EvalToken.type])) (by decide)
  · intro e ws ws' op hooks user_data output hg hws hws' hd
    exact eval_execute_dangling A cfg e ws ws' op hooks user_data output hg hws hws' hd

/-- C20, with the sample configuration in exact arithmetic: the empty text,
a text of two spaces, `)`, `1+` and `1+2*` give `EXPECTED_TERM`. -/
theorem C20_expected_term_witness :
    0 < sample_config.EVAL_MAX_STACK_DEPTH ∧
    eval_execute Arith.rat sample_config [] no_hooks () 0 =
      some (EvalResult.EXPECTED_TERM, 0) ∧
    eval_execute Arith.rat sample_config "  ".toList no_hooks () 0 =
      some (EvalResult.EXPECTED_TERM, 0) ∧
    eval_execute Arith.rat sample_config ")".toList no_hooks () 0 =
      some (EvalResult.EXPECTED_TERM, 0) ∧
    eval_execute Arith.rat sample_config "1+".toList no_hooks () 0 =
      some (EvalResult.EXPECTED_TERM, 0) ∧
    eval_execute Arith.rat sample_config "1+2*".toList no_hooks () 0 =
      some (EvalResult.EXPECTED_TERM, 0) := by
  have h := C20_expected_term (U := Unit) Arith.rat sample_config (by decide)
  refine ⟨by decide, h.2.1 [] no_hooks () 0 (by decide),
    h.2.1 "  ".toList no_hooks () 0 (by decide),
    h.2.2.1 [] [] no_hooks () 0 (by decide),
    h.2.2.2 (Expr.lit [1]) [] [] BinOp.add no_hooks () 0 (by decide) (by decide) (by decide)
      (by decide),
    h.2.2.2 (Expr.op (Expr.lit [1]) BinOp.add (Expr.lit [2])) [] [] BinOp.mul no_hooks () 0
      (by decide) (by decide) (by decide) (by decide)⟩

end Eval

namespace Eval

variable {α U : Type}

/-! ## Names as tokens -/

theorem name_start_facts {c : Char} (h : is_name_start c = true) :
    c ≠ NUL ∧ ¬ c ≤ ' ' ∧ is_digit c = false ∧ is_dp c = false ∧ is_name c = true := by
  have hname : is_name c = true := by simp [is_name, h]
  simp only [is_name_start, Bool.or_eq_true, Bool.and_eq_true, decide_eq_true_eq] at h
  rcases h with (⟨h1, h2⟩ | ⟨h1, h2⟩) | h
  · refine ⟨?_, ?_, ?_, ?_, hname⟩
    · rintro rfl; revert h1; decide
    · intro h3; exact absurd (le_trans h1 h3) (by decide)
    · simp only [is_digit, Bool.and_eq_false_imp, decide_eq_true_eq, decide_eq_false_iff_not]
      intro _ h3; exact absurd (le_trans h1 h3) (by decide)
    · simp only [is_dp, decide_eq_false_iff_not]
      rintro rfl; revert h1; decide
  · refine ⟨?_, ?_, ?_, ?_, hname⟩
    · rintro rfl; revert h1; decide
    · intro h3; exact absurd (le_trans h1 h3) (by decide)
    · simp only [is_digit, Bool.and_eq_false_imp, decide_eq_true_eq, decide_eq_false_iff_not]
      intro _ h3; exact absurd (le_trans h1 h3) (by decide)
    · simp only [is_dp, decide_eq_false_iff_not]
      rintro rfl; revert h1; decide
  · subst h
    exact ⟨by decide, by decide, by decide, by decide, hname⟩

/-- What `get_name` does on a run of name characters that fits the buffer. -/
theorem get_name_run (cfg : Config) (ctx : EvalContext α U) (type : List Char → EvalToken α)
    (run R : List Char) (hrun : run.all is_name = true) (hR : is_name (peek R) = false)
    (h : ctx.input.drop ctx.pos = run ++ R)
    (hle : run.length ≤ cfg.EVAL_MAX_NAME_LENGTH - 1) :
    get_name cfg ctx type =
      some (EvalResult.OK, { ctx with pos := ctx.pos + run.length, token := type run }) := by
  have hlen := length_le_of_drop_eq h
  have hl := get_name_loop_run cfg R hR run [] ctx (ctx.input.length + 1) hrun h (by omega)
    (by simp)
  simp only [List.length_nil, Nat.zero_add, List.nil_append] at hl
  simp [get_name, hl.1 hle, put_char]

theorem lexes_func (A : Arith α) (cfg : Config) (input : List Char) (p : Nat)
    (ws n R : List Char) (hws : ws.all is_blank = true)
    (hn0 : is_name_start (peek n) = true) (hn : n.all is_name = true)
    (hR : is_name (peek R) = false) (hle : n.length ≤ cfg.EVAL_MAX_NAME_LENGTH - 1)
    (h : input.drop p = ws ++ (n ++ R)) :
    Lexes A cfg U input p (EvalToken.FUNC n) (p + ws.length + n.length) := by
  refine lexes_of_loop A cfg input p ws _ _ _ hws h ?_
  intro ctx fuel hi hp
  have hd : ctx.input.drop ctx.pos = n ++ R := by
    rw [hi, hp]; exact drop_add_of_drop h
  have hrun := get_name_run cfg ctx EvalToken.FUNC n R hn hR hd hle
  cases n with
  | nil => simp [NUL, is_name_start] at hn0
  | cons c T =>
    rw [peek_cons] at hn0
    obtain ⟨h0, h1, h2, h3, -⟩ := name_start_facts hn0
    have hput : put_char ({ ctx with pos := ctx.pos + 1 } : EvalContext α U) = ctx := by
      simp [put_char]
    simp only [List.cons_append] at hd
    simp only [get_token_loop, get_char_eq, hd, peek_cons, h0, if_false, h1, h2, h3,
      Bool.or_self, Bool.false_eq_true, hn0, if_true, hput, hrun]
    simp [hp]

theorem lexes_variable (A : Arith α) (cfg : Config) (input : List Char) (p : Nat)
    (ws n R : List Char) (hws : ws.all is_blank = true) (hn : n.all is_name = true)
    (hR : is_name (peek R) = false) (hle : n.length ≤ cfg.EVAL_MAX_NAME_LENGTH - 1)
    (h : input.drop p = ws ++ ('$' :: (n ++ R))) :
    Lexes A cfg U input p (EvalToken.VARIABLE n) (p + ws.length + (n.length + 1)) := by
  refine lexes_of_loop A cfg input p ws _ _ _ hws h ?_
  intro ctx fuel hi hp
  have hd : ctx.input.drop ctx.pos = '$' :: (n ++ R) := by
    rw [hi, hp]; exact drop_add_of_drop h
  have hd1 := drop_succ_of_drop hd
  simp only [List.tail_cons] at hd1
  have hrun := get_name_run cfg ({ ctx with pos := ctx.pos + 1 } : EvalContext α U)
    EvalToken.VARIABLE n R hn hR hd1 hle
  simp only [get_token_loop, get_char_eq, hd, peek_cons]
  simp only [hrun]
  simp [NUL, is_digit, is_dp, is_name_start, hp]
  omega

end Eval

namespace Eval

variable {α U : Type}

/-! ## Function names -/

theorem parse_term_undefined_function (A : Arith α) (cfg : Config)
    (pe : EvalContext α U → α → Option (EvalResult × EvalContext α U × α))
    (c : EvalContext α U) (out : α) (n : List Char) (ht : c.token = EvalToken.FUNC n)
    (h : c.hooks = none ∨ (∃ hk, c.hooks = some hk ∧ hk.get_func = none) ∨
      (∃ hk gf, c.hooks = some hk ∧ hk.get_func = some gf ∧ gf n c.user_data = none)) :
    parse_term A cfg pe c out = some (EvalResult.UNDEFINED_FUNCTION, c, out) := by
  rcases h with h | ⟨hk, h1, h2⟩ | ⟨hk, gf, h1, h2, h3⟩
  · simp [parse_term, ht, h]
  · simp [parse_term, ht, h1, h2]
  · simp [parse_term, ht, h1, h2, h3]

theorem parse_term_expected_open (A : Arith α) (cfg : Config)
    (pe : EvalContext α U → α → Option (EvalResult × EvalContext α U × α))
    (c c' : EvalContext α U) (out : α) (n : List Char) (hk : EvalHooks α U)
    (gf : List Char → U → Option (EvalFunc α U)) (f : EvalFunc α U)
    (ht : c.token = EvalToken.FUNC n) (h1 : c.hooks = some hk) (h2 : hk.get_func = some gf)
    (h3 : gf n c.user_data = some f)
    (hg : get_token A cfg c = some (EvalResult.OK, c'))
    (hno : c'.token.type ≠ EvalTokenType.OPEN_BRACKET) :
    parse_term A cfg pe c out = some (EvalResult.EXPECTED_OPEN_BRACKET, c', out) := by
  simp [parse_term, ht, h1, h2, h3, hg, hno]

theorem table_find_isSome {β : Type} (name : List Char) :
    ∀ tbl : List (List Char × β), (table_find tbl name).isSome = true ↔
      name ∈ tbl.map Prod.fst := by
  intro tbl
  induction tbl with
  | nil => simp [table_find]
  | cons x rest ih =>
    obtain ⟨n, v⟩ := x
    by_cases h : n = name
    · subst h
      simp only [table_find, if_true, Option.isSome_some, List.map_cons, List.mem_cons,
        true_or]
    · simp only [table_find, h, if_false, ih, List.map_cons, List.mem_cons]
      constructor
      · exact fun hh => Or.inr hh
      · rintro (hh | hh)
        · exact absurd hh.symm h
        · exact hh

/-- C13: the text starts (after blanks) with a name `n` that fits the name
buffer, and the depth limit is at least 1.  If `hooks` is null, or has no
`get_func`, or its `get_func` returns no callable for `n`, `eval_execute`
returns `UNDEFINED_FUNCTION`, whatever follows the name.  If `get_func`
resolves `n` and the token after the name is read and is not `(`,
`eval_execute` returns `EXPECTED_OPEN_BRACKET`.  And `default_get_func`
resolves exactly the names `cos`, `sin`, `tan`, `acos`, `asin`, `atan`, `exp`,
`log`, `log10`, `sqrt`, `ceil`, `floor` and `round`. -/
theorem C13_function_name (A : Arith α) (cfg : Config) (ws n R : List Char)
    (hooks : Option (EvalHooks α U)) (user_data : U) (output : α)
    (hmax : 0 < cfg.EVAL_MAX_STACK_DEPTH) (hws : ws.all is_blank = true)
    (hn0 : is_name_start (peek n) = true) (hn : n.all is_name = true)
    (hR : is_name (peek R) = false) (hle : n.length ≤ cfg.EVAL_MAX_NAME_LENGTH - 1) :
    ((hooks = none ∨ (∃ hk, hooks = some hk ∧ hk.get_func = none) ∨
        (∃ hk gf, hooks = some hk ∧ hk.get_func = some gf ∧ gf n user_data = none)) →
      eval_execute A cfg (ws ++ (n ++ R)) hooks user_data output =
        some (EvalResult.UNDEFINED_FUNCTION, output)) ∧
    (∀ (hk : EvalHooks α U) (gf : List Char → U → Option (EvalFunc α U)) (f : EvalFunc α U)
        (c' : EvalContext α U),
      hooks = some hk → hk.get_func = some gf → gf n user_data = some f →
      get_token A cfg (⟨hooks, user_data, ws ++ (n ++ R), ws.length + n.length, 1,
        EvalToken.FUNC n⟩ : EvalContext α U) = some (EvalResult.OK, c') →
      c'.token.type ≠ EvalTokenType.OPEN_BRACKET →
      eval_execute A cfg (ws ++ (n ++ R)) hooks user_data output =
        some (EvalResult.EXPECTED_OPEN_BRACKET, output)) ∧
    (∀ (M : LibM α) (name : List Char) (ud : U),
      (default_get_func A M name ud).isSome = true ↔
        name ∈ ["cos".toList, "sin".toList, "tan".toList, "acos".toList, "asin".toList,
          "atan".toList, "exp".toList, "log".toList, "log10".toList, "sqrt".toList,
          "ceil".toList, "floor".toList, "round".toList]) := by
  have hg := lexes_func A cfg (U := U) (ws ++ (n ++ R)) 0 ws n R hws hn0 hn hR hle (by simp)
    (⟨hooks, user_data, ws ++ (n ++ R), 0, 0, EvalToken.END⟩ : EvalContext α U) rfl rfl
  refine ⟨fun h => ?_, fun hk gf f c' h1 h2 h3 hgt hno => ?_, fun M name ud => ?_⟩
  · exact eval_execute_term_err A cfg _ hooks user_data output _ _ _ _ hmax hg rfl
      (by simp [EvalToken.type])
      (parse_term_undefined_function A cfg _ _ _ n rfl h) (by decide)
  · refine eval_execute_term_err A cfg _ hooks user_data output _ _ _ c' hmax hg rfl
      (by simp [EvalToken.type])
      (parse_term_expected_open A cfg _ _ c' _ n hk gf f rfl h1 h2 h3 ?_ hno) (by decide)
    simpa using hgt
  · rw [default_get_func, table_find_isSome]
    rfl

/-- C13, with the sample configuration and the sample hooks in exact
arithmetic: without hooks `twice(1)` is an undefined function, as is `thrice`
with the sample hooks; `twice` alone and `twice 1` lack the open bracket. -/
theorem C13_function_name_witness :
    eval_execute Arith.rat sample_config "twice(1)".toList no_hooks () 0 =
      some (EvalResult.UNDEFINED_FUNCTION, 0) ∧
    eval_execute Arith.rat sample_config "thrice(1)".toList (some sample_hooks) () 0 =
      some (EvalResult.UNDEFINED_FUNCTION, 0) ∧
    eval_execute Arith.rat sample_config "twice".toList (some sample_hooks) () 0 =
      some (EvalResult.EXPECTED_OPEN_BRACKET, 0) := by
  refine ⟨?_, ?_, ?_⟩
  · exact (C13_function_name Arith.rat sample_config [] "twice".toList "(1)".toList no_hooks
      () 0 (by decide) (by decide) (by decide) (by decide) (by decide) (by decide)).1
      (Or.inl rfl)
  · exact (C13_function_name Arith.rat sample_config [] "thrice".toList "(1)".toList
      (some sample_hooks) () 0 (by decide) (by decide) (by decide) (by decide) (by decide)
      (by decide)).1 (Or.inr (Or.inr ⟨sample_hooks, _, rfl, rfl, rfl⟩))
  · have hl := lexes_end Arith.rat sample_config (U := Unit) "twice".toList 5 [] (by decide)
      (by decide) ⟨some sample_hooks, (), "twice".toList, 5, 1,
        EvalToken.FUNC "twice".toList⟩ rfl rfl
    exact (C13_function_name Arith.rat sample_config [] "twice".toList [] (some sample_hooks)
      () 0 (by decide) (by decide) (by decide) (by decide) (by decide) (by decide)).2.1
      sample_hooks _ _ _ rfl rfl rfl hl (by decide)

end Eval

namespace Eval

variable {α U : Type}

/-! ## Variables -/

theorem parse_term_undefined_variable (A : Arith α) (cfg : Config)
    (pe : EvalContext α U → α → Option (EvalResult × EvalContext α U × α))
    (c : EvalContext α U) (out : α) (n : List Char) (ht : c.token = EvalToken.VARIABLE n)
    (h : c.hooks = none ∨ (∃ hk, c.hooks = some hk ∧ hk.get_variable = none)) :
    parse_term A cfg pe c out = some (EvalResult.UNDEFINED_VARIABLE, c, out) := by
  rcases h with h | ⟨hk, h1, h2⟩
  · simp [parse_term, ht, h]
  · simp [parse_term, ht, h1, h2]

theorem parse_term_variable (A : Arith α) (cfg : Config)
    (pe : EvalContext α U → α → Option (EvalResult × EvalContext α U × α))
    (c c' : EvalContext α U) (out : α) (n : List Char) (hk : EvalHooks α U)
    (gv : List Char → U → α → EvalResult × α)
    (ht : c.token = EvalToken.VARIABLE n) (h1 : c.hooks = some hk)
    (h2 : hk.get_variable = some gv)
    (hg : get_token A cfg c = some (EvalResult.OK, c')) :
    parse_term A cfg pe c out =
      some (if (gv n c.user_data out).1 ≠ EvalResult.OK then
          ((gv n c.user_data out).1, c, (gv n c.user_data out).2)
        else (EvalResult.OK, c', (gv n c.user_data out).2)) := by
  simp only [parse_term, ht, h1, Option.bind_some, h2, hg]
  by_cases hr : (gv n c.user_data out).1 = EvalResult.OK <;> simp [hr, h2]

/-- The text `$n` as a whole: the result of `eval_execute` from the result of
`get_variable`. -/
theorem eval_execute_variable (A : Arith α) (cfg : Config) (n : List Char)
    (hk : EvalHooks α U) (gv : List Char → U → α → EvalResult × α) (user_data : U)
    (output : α) (hmax : 0 < cfg.EVAL_MAX_STACK_DEPTH) (hn : n.all is_name = true)
    (hle : n.length ≤ cfg.EVAL_MAX_NAME_LENGTH - 1) (h2 : hk.get_variable = some gv) :
    eval_execute A cfg ('$' :: n) (some hk) user_data output =
      some (if (gv n user_data (A.ofNat 0)).1 = EvalResult.OK then
          (EvalResult.OK, (gv n user_data (A.ofNat 0)).2)
        else ((gv n user_data (A.ofNat 0)).1, output)) := by
  have hg := lexes_variable A cfg (U := U) ('$' :: n) 0 [] n [] (by simp) hn (by decide) hle
    (by simp)
    (⟨some hk, user_data, '$' :: n, 0, 0, EvalToken.END⟩ : EvalContext α U) rfl rfl
  have hend := lexes_end A cfg (U := U) ('$' :: n) (0 + ([] : List Char).length + (n.length + 1))
    [] (by simp) (by simp)
    (⟨some hk, user_data, '$' :: n, 0 + ([] : List Char).length + (n.length + 1), 1,
      EvalToken.VARIABLE n⟩ : EvalContext α U) rfl rfl
  have hp := parse_term_variable A cfg (parse_expr A cfg cfg.EVAL_MAX_STACK_DEPTH) _ _
    (A.ofNat 0) n hk gv rfl rfl h2 hend
  by_cases hr : (gv n user_data (A.ofNat 0)).1 = EvalResult.OK
  · simp only [hr, ne_eq, not_true_eq_false, if_false, if_true] at hp ⊢
    exact eval_execute_term_ok A cfg _ (some hk) user_data output _ _ _ hmax hg rfl
      (by simp [EvalToken.type]) hp rfl
  · simp only [hr, ne_eq, not_false_eq_true, if_true, if_false] at hp ⊢
    exact eval_execute_term_err A cfg _ (some hk) user_data output _ _ _ _ hmax hg rfl
      (by simp [EvalToken.type]) hp hr

/-- C14: for a name `n` that fits the name buffer, the depth limit being at
least 1, `eval_execute` on `$n` returns `UNDEFINED_VARIABLE` when `hooks` is
null or has no `get_variable`; otherwise its result is that of `get_variable`
called with `n`, the caller's `user_data` and a slot holding `0`: `OK` with
the value stored, or the error returned, the caller's output untouched.  With
the default hooks `$PI` gives `OK` with the constant `PI` of the table and
`$UNKNOWN` gives `UNDEFINED_VARIABLE`, when the name buffer holds them. -/
theorem C14_variable (A : Arith α) (cfg : Config) (n : List Char)
    (hooks : Option (EvalHooks α U)) (user_data : U) (output : α)
    (hmax : 0 < cfg.EVAL_MAX_STACK_DEPTH) (hn : n.all is_name = true)
    (hle : n.length ≤ cfg.EVAL_MAX_NAME_LENGTH - 1) :
    ((hooks = none ∨ (∃ hk, hooks = some hk ∧ hk.get_variable = none)) →
      eval_execute A cfg ('$' :: n) hooks user_data output =
        some (EvalResult.UNDEFINED_VARIABLE, output)) ∧
    (∀ (hk : EvalHooks α U) (gv : List Char → U → α → EvalResult × α),
      hooks = some hk → hk.get_variable = some gv →
      eval_execute A cfg ('$' :: n) hooks user_data output =
        some (if (gv n user_data (A.ofNat 0)).1 = EvalResult.OK then
            (EvalResult.OK, (gv n user_data (A.ofNat 0)).2)
          else ((gv n user_data (A.ofNat 0)).1, output))) ∧
    (∀ M : LibM α, 3 ≤ cfg.EVAL_MAX_NAME_LENGTH →
      eval_execute A cfg "$PI".toList (some (eval_default_hooks A M)) user_data output =
        some (EvalResult.OK, M.PI)) ∧
    (∀ M : LibM α, 8 ≤ cfg.EVAL_MAX_NAME_LENGTH →
      eval_execute A cfg "$UNKNOWN".toList (some (eval_default_hooks A M)) user_data output =
        some (EvalResult.UNDEFINED_VARIABLE, output)) := by
  refine ⟨fun h => ?_, fun hk gv h1 h2 => ?_, fun M h3 => ?_, fun M h8 => ?_⟩
  · have hg := lexes_variable A cfg (U := U) ('$' :: n) 0 [] n [] (by simp) hn (by decide) hle
      (by simp)
      (⟨hooks, user_data, '$' :: n, 0, 0, EvalToken.END⟩ : EvalContext α U) rfl rfl
    exact eval_execute_term_err A cfg _ hooks user_data output _ _ _ _ hmax hg rfl
      (by simp [EvalToken.type])
      (parse_term_undefined_variable A cfg _ _ _ n rfl h) (by decide)
  · subst h1
    exact eval_execute_variable A cfg n hk gv user_data output hmax hn hle h2
  · have h := eval_execute_variable A cfg "PI".toList (eval_default_hooks A M)
      (default_get_variable M) user_data output hmax (by decide) (by simp; omega) rfl
    simpa [default_get_variable, VARIABLES, table_find] using h
  · have h := eval_execute_variable A cfg "UNKNOWN".toList (eval_default_hooks A M)
      (default_get_variable M) user_data output hmax (by decide) (by simp; omega) rfl
    simpa [default_get_variable, VARIABLES, table_find] using h

/-- C14, with the sample configuration and the sample hooks in exact
arithmetic: `$x` gives 5, `$y` is undefined, and without hooks `$x` is
undefined. -/
theorem C14_variable_witness :
    eval_execute Arith.rat sample_config "$x".toList (some sample_hooks) () 0 =
      some (EvalResult.OK, 5) ∧
    eval_execute Arith.rat sample_config "$y".toList (some sample_hooks) () 0 =
      some (EvalResult.UNDEFINED_VARIABLE, 0) ∧
    eval_execute Arith.rat sample_config "$x".toList no_hooks () 0 =
      some (EvalResult.UNDEFINED_VARIABLE, 0) := by
  refine ⟨?_, ?_, ?_⟩
  · exact (C14_variable Arith.rat sample_config "x".toList (some sample_hooks) () 0 (by decide)
      (by decide) (by decide)).2.1 sample_hooks _ rfl rfl
  · exact (C14_variable Arith.rat sample_config "y".toList (some sample_hooks) () 0 (by decide)
      (by decide) (by decide)).2.1 sample_hooks _ rfl rfl
  · exact (C14_variable Arith.rat sample_config "x".toList no_hooks () 0 (by decide)
      (by decide) (by decide)).1 (Or.inl rfl)

end Eval

namespace Eval

variable {α U : Type}

/-! ## The characters `!` and `=` -/

theorem parse_term_number (A : Arith α) (cfg : Config)
    (pe : EvalContext α U → α → Option (EvalResult × EvalContext α U × α))
    (c c' : EvalContext α U) (out v : α) (r : EvalResult) (ht : c.token = EvalToken.NUMBER v)
    (hg : get_token A cfg c = some (r, c')) :
    parse_term A cfg pe c out = some (r, c', v) := by
  simp [parse_term, ht, hg]

/-- After blanks, `get_token` rejects the character `!`. -/
theorem get_token_bang (A : Arith α) (cfg : Config) (ctx : EvalContext α U) (ws R : List Char)
    (hws : ws.all is_blank = true) (h : ctx.input.drop ctx.pos = ws ++ '!' :: R) :
    get_token A cfg ctx =
      some (EvalResult.ILLEGAL_CHARACTER, { ctx with pos := ctx.pos + ws.length + 1 }) := by
  obtain ⟨fuel, hf⟩ := get_token_skip A cfg ws ctx _ hws h
  have hd : ({ ctx with pos := ctx.pos + ws.length } : EvalContext α U).input.drop
      ({ ctx with pos := ctx.pos + ws.length } : EvalContext α U).pos = '!' :: R :=
    drop_add_of_drop h
  rw [hf]
  simp only [get_token_loop, get_char_eq, hd, peek_cons]
  simp [NUL, is_digit, is_dp, is_name_start]

/-- A literal, blanks and a text that starts with `!`: `eval_execute` returns
`ILLEGAL_CHARACTER` and no value. -/
theorem eval_execute_bang (A : Arith α) (cfg : Config) (a : Literal) (ws R : List Char)
    (hooks : Option (EvalHooks α U)) (user_data : U) (output : α)
    (ha : a.wf = true) (fa : a.exp_fits = true) (hws : ws.all is_blank = true)
    (hd : 0 < cfg.EVAL_MAX_STACK_DEPTH) :
    eval_execute A cfg (a.text ++ (ws ++ '!' :: R)) hooks user_data output =
      some (EvalResult.ILLEGAL_CHARACTER, output) := by
  have hfol : follows (ws ++ '!' :: R) = true :=
    follows_append_blank ws _ hws (by simp [follows, is_digit, is_dp, is_exp])
  have hg := lexes_number A cfg (U := U) (a.text ++ (ws ++ '!' :: R)) 0 [] (ws ++ '!' :: R) a
    (by simp) ha fa (by simp) (stops_of_follows a _ hfol)
    (⟨hooks, user_data, a.text ++ (ws ++ '!' :: R), 0, 0, EvalToken.END⟩ : EvalContext α U)
    rfl rfl
  have hb := get_token_bang A cfg
    (⟨hooks, user_data, a.text ++ (ws ++ '!' :: R), 0 + ([] : List Char).length + a.text.length,
      1, EvalToken.NUMBER (a.value A)⟩ : EvalContext α U) ws R hws (by simp)
  exact eval_execute_term_err A cfg _ hooks user_data output _ _ _ _ hd hg rfl
    (by simp [EvalToken.type])
    (parse_term_number A cfg _ _ _ (A.ofNat 0) _ _ rfl hb) (by decide)

/-- C17 as stated fails: with the default hooks, whatever the functions of
`<math.h>`, `eval_execute` on `2 != 3` returns `ILLEGAL_CHARACTER` with the
output it was given, not `OK` with the number 1. -/
theorem C17_counterexample :
    (∀ M : LibM ℚ,
      eval_execute Arith.rat sample_config "2 != 3".toList
          (some (eval_default_hooks Arith.rat M)) () 0 =
        some (EvalResult.ILLEGAL_CHARACTER, 0)) ∧
    (∀ M : LibM ℚ,
      eval_execute Arith.rat sample_config "2 != 3".toList
          (some (eval_default_hooks Arith.rat M)) () 0 ≠
        some (EvalResult.OK, 1)) := by
  have h : ∀ M : LibM ℚ,
      eval_execute Arith.rat sample_config "2 != 3".toList
          (some (eval_default_hooks Arith.rat M)) () 0 =
        some (EvalResult.ILLEGAL_CHARACTER, 0) := fun M =>
    eval_execute_bang Arith.rat sample_config (Literal.ofDigits [2]) [' '] "= 3".toList
      (some (eval_default_hooks Arith.rat M)) () 0 (by decide) (by decide) (by decide)
      (by decide)
  refine ⟨h, fun M hx => ?_⟩
  rw [h M] at hx
  simp at hx

/-- C17 (as amended): the operator `!=` is not lexed.  For every hooks, the
default ones included, every well-formed literal `a` whose exponent digits, if
any, denote a number below `2^31`, and the depth limit being at least 1,
`eval_execute` on `a`, blanks and a text that starts with `!` (such as
`a != b`, whatever `b`) returns `ILLEGAL_CHARACTER` and leaves the output as
it was given. -/
theorem C17_not_equal (A : Arith α) (cfg : Config) (a : Literal) (ws R : List Char)
    (hooks : Option (EvalHooks α U)) (user_data : U) (output : α)
    (ha : a.wf = true) (fa : a.exp_fits = true) (hws : ws.all is_blank = true)
    (hd : 0 < cfg.EVAL_MAX_STACK_DEPTH) :
    eval_execute A cfg (a.text ++ (ws ++ '!' :: R)) hooks user_data output =
      some (EvalResult.ILLEGAL_CHARACTER, output) :=
  eval_execute_bang A cfg a ws R hooks user_data output ha fa hws hd

/-- C17, the test `2 != 3` of `test.c`, with the sample configuration in
exact arithmetic and with the sample hooks or none: `ILLEGAL_CHARACTER`. -/
theorem C17_not_equal_witness :
    eval_execute Arith.rat sample_config "2 != 3".toList no_hooks () 0 =
      some (EvalResult.ILLEGAL_CHARACTER, 0) ∧
    eval_execute Arith.rat sample_config "2 != 3".toList (some sample_hooks) () 0 =
      some (EvalResult.ILLEGAL_CHARACTER, 0) :=
  ⟨C17_not_equal Arith.rat sample_config (Literal.ofDigits [2]) [' '] "= 3".toList no_hooks () 0
      (by decide) (by decide) (by decide) (by decide),
    C17_not_equal Arith.rat sample_config (Literal.ofDigits [2]) [' '] "= 3".toList
      (some sample_hooks) () 0 (by decide) (by decide) (by decide) (by decide)⟩

/-- What `get_token` does on `=`: the token `E`, two characters consumed when
a second `=` follows and one when it does not. -/
theorem get_token_equal (A : Arith α) (cfg : Config) (ctx : EvalContext α U) (R : List Char)
    (h : ctx.input.drop ctx.pos = '=' :: R) :
    get_token A cfg ctx =
      some (EvalResult.OK,
        { ctx with pos := ctx.pos + (if peek R = '=' then 2 else 1), token := EvalToken.E }) := by
  have h1 := drop_succ_of_drop h
  simp only [List.tail_cons] at h1
  have h2 : ({ ctx with pos := ctx.pos + 1 } : EvalContext α U).input.drop
      ({ ctx with pos := ctx.pos + 1 } : EvalContext α U).pos = R := h1
  simp only [get_token, get_token_loop, get_char_eq, h, peek_cons]
  simp only [h2]
  by_cases hq : peek R = '='
  · simp [NUL, is_digit, is_dp, is_name_start, hq]
  · simp [NUL, is_digit, is_dp, is_name_start, hq, put_char]

end Eval

namespace Eval

variable {α U : Type}

/-- The text `a=b`, with a single `=`, evaluates as `a==b` does. -/
theorem eval_execute_single_equal (A : Arith α) (cfg : Config) (a b : Literal)
    (hooks : Option (EvalHooks α U)) (user_data : U) (output : α)
    (ha : a.wf = true) (hb : b.wf = true)
    (fa : a.exp_fits = true) (fb : b.exp_fits = true) (hd : 0 < cfg.EVAL_MAX_STACK_DEPTH) :
    eval_execute A cfg (a.text ++ '=' :: b.text) hooks user_data output =
      some (EvalResult.OK, A.ofBool (A.eq (a.value A) (b.value A))) := by
  obtain ⟨cb, Tb, hTb, -, -, -, hcb⟩ := literal_text_head b hb
  have hfol : follows ('=' :: b.text) = true := by simp [follows, is_digit, is_dp, is_exp]
  have hg := lexes_number A cfg (U := U) (a.text ++ '=' :: b.text) 0 [] ('=' :: b.text) a
    (by simp) ha fa (by simp) (stops_of_follows a _ hfol)
    (⟨hooks, user_data, a.text ++ '=' :: b.text, 0, 0, EvalToken.END⟩ : EvalContext α U)
    rfl rfl
  have hpk : peek b.text ≠ '=' := by rw [hTb, peek_cons]; exact hcb
  have he := get_token_equal A cfg
    (⟨hooks, user_data, a.text ++ '=' :: b.text, 0 + ([] : List Char).length + a.text.length,
      1, EvalToken.NUMBER (a.value A)⟩ : EvalContext α U) b.text (by simp)
  simp only [hpk, if_false] at he
  have hfol2 : follows ([] : List Char) = true := by simp [follows, NUL, is_digit, is_dp, is_exp]
  have hn := lexes_number A cfg (U := U) (a.text ++ '=' :: b.text)
    (0 + ([] : List Char).length + a.text.length + 1) [] [] b (by simp) hb fb
    (by simp) (stops_of_follows b _ hfol2)
    (⟨hooks, user_data, a.text ++ '=' :: b.text,
      0 + ([] : List Char).length + a.text.length + 1, 1, EvalToken.E⟩ : EvalContext α U)
    rfl rfl
  have hend := lexes_end A cfg (U := U) (a.text ++ '=' :: b.text)
    (0 + ([] : List Char).length + a.text.length + 1 + ([] : List Char).length + b.text.length)
    [] (by simp) (by simp; omega)
    (⟨hooks, user_data, a.text ++ '=' :: b.text,
      0 + ([] : List Char).length + a.text.length + 1 + ([] : List Char).length +
        b.text.length, 1, EvalToken.NUMBER (b.value A)⟩ : EvalContext α U)
    rfl rfl
  have hta := parse_term_number A cfg (parse_expr A cfg cfg.EVAL_MAX_STACK_DEPTH) _ _ (A.ofNat 0)
    _ _ rfl he
  have htb := parse_term_number A cfg (parse_expr A cfg cfg.EVAL_MAX_STACK_DEPTH) _ _ (A.ofNat 0)
    _ _ rfl hend
  have hua := unary_from_exit A cfg (parse_expr A cfg cfg.EVAL_MAX_STACK_DEPTH)
    (a.text ++ '=' :: b.text).length false _ _ (A.ofNat 0) _ (by simp [EvalToken.type]) hta
  have hub := unary_from_exit A cfg (parse_expr A cfg cfg.EVAL_MAX_STACK_DEPTH)
    (a.text ++ '=' :: b.text).length false _ _ (A.ofNat 0) _ (by simp [EvalToken.type]) htb
  simp only [Bool.false_eq_true, if_false] at hua hub
  obtain ⟨m, hm⟩ : ∃ m, (a.text ++ '=' :: b.text).length = m + 1 := ⟨_, by simp; rfl⟩
  have hstep := parse_product_loop_step A cfg (parse_expr A cfg cfg.EVAL_MAX_STACK_DEPTH)
    (m + 1) BinOp.eq _ _ _ (a.value A) (A.ofNat 0) (b.value A) rfl rfl hn
    (by rw [parse_unary_eq_from]; exact hub)
  rw [parse_product_loop_exit A cfg _ m _ _ _ (by simp [EvalToken.type, is_product_op])] at hstep
  have hpr := parse_product_of_from A cfg (parse_expr A cfg cfg.EVAL_MAX_STACK_DEPTH)
    (⟨hooks, user_data, a.text ++ '=' :: b.text, 0 + ([] : List Char).length + a.text.length,
      1, EvalToken.NUMBER (a.value A)⟩ : EvalContext α U) _ (A.ofNat 0) _ (by
      simp only [product_from, parse_unary_eq_from, hua, ne_eq, not_true_eq_false, if_false]
      rw [hm]
      exact hstep)
  have hsm := parse_sum_of_from A cfg (parse_expr A cfg cfg.EVAL_MAX_STACK_DEPTH)
    (⟨hooks, user_data, a.text ++ '=' :: b.text, 0 + ([] : List Char).length + a.text.length,
      1, EvalToken.NUMBER (a.value A)⟩ : EvalContext α U) _ output _ (by
      simp only [sum_from, hpr, ne_eq, not_true_eq_false, if_false]
      exact parse_sum_loop_exit A cfg _ _ _ _ _ (by simp [EvalToken.type, is_sum_op]))
  rw [eval_execute_of_sum A cfg _ hooks user_data output _ EvalResult.OK _ _ hd hg rfl hsm]
  simp [EvalToken.type, BinOp.apply]

/-- C19: on `=`, `get_token` stores the token `E`, consuming two characters
when a second `=` follows and one when it does not; hence, for well-formed
literals `a` and `b` whose exponent digits, if any, denote a number below
`2^31`, and a depth limit of at least 1, `eval_execute` on `a=b`
and on `a==b` return the same result, `OK` with 1 when the values are equal
and with 0 otherwise. -/
theorem C19_single_equal (A : Arith α) (cfg : Config) (a b : Literal)
    (hooks : Option (EvalHooks α U)) (user_data : U) (output : α)
    (ha : a.wf = true) (hb : b.wf = true)
    (fa : a.exp_fits = true) (fb : b.exp_fits = true) (hd : 0 < cfg.EVAL_MAX_STACK_DEPTH) :
    (∀ (ctx : EvalContext α U) (R : List Char), ctx.input.drop ctx.pos = '=' :: R →
      get_token A cfg ctx =
        some (EvalResult.OK,
          { ctx with pos := ctx.pos + (if peek R = '=' then 2 else 1),
                     token := EvalToken.E })) ∧
    eval_execute A cfg (a.text ++ '=' :: b.text) hooks user_data output =
      some (EvalResult.OK,
        if A.eq (a.value A) (b.value A) = true then A.ofNat 1 else A.ofNat 0) ∧
    eval_execute A cfg (a.text ++ '=' :: '=' :: b.text) hooks user_data output =
      eval_execute A cfg (a.text ++ '=' :: b.text) hooks user_data output := by
  have h1 := eval_execute_single_equal A cfg a b hooks user_data output ha hb fa fb hd
  have h2 := eval_execute_gen A cfg (.bin (.num [] a) [] BinOp.eq (.num [] b)) [] hooks
    user_data output (by simp [Expr.gen, ha, hb, fa, fb, BinOp.isSum]) (by simp)
    (by simpa [Expr.depth] using hd)
  simp only [Expr.text, Expr.value, Expr.valueAux, BinOp.text, BinOp.apply, List.nil_append,
    List.append_nil, List.cons_append, Bool.false_eq_true, if_false] at h2
  refine ⟨fun ctx R h => get_token_equal A cfg ctx R h, ?_, ?_⟩
  · rw [h1]; rfl
  · rw [h1, h2]

/-- C19, with the sample configuration in exact arithmetic: `2=3` and `2==3`
give 0, `2=2` and `2==2` give 1. -/
theorem C19_single_equal_witness :
    eval_execute Arith.rat sample_config "2=3".toList no_hooks () 0 =
      some (EvalResult.OK, 0) ∧
    eval_execute Arith.rat sample_config "2==3".toList no_hooks () 0 =
      eval_execute Arith.rat sample_config "2=3".toList no_hooks () 0 ∧
    eval_execute Arith.rat sample_config "2=2".toList no_hooks () 0 =
      some (EvalResult.OK, 1) ∧
    eval_execute Arith.rat sample_config "2==2".toList no_hooks () 0 =
      eval_execute Arith.rat sample_config "2=2".toList no_hooks () 0 := by
  have h23 := C19_single_equal Arith.rat sample_config (Literal.ofDigits [2])
    (Literal.ofDigits [3]) no_hooks () 0 (by decide) (by decide) (by decide) (by decide)
    (by decide)
  have h22 := C19_single_equal Arith.rat sample_config (Literal.ofDigits [2])
    (Literal.ofDigits [2]) no_hooks () 0 (by decide) (by decide) (by decide) (by decide)
    (by decide)
  exact ⟨h23.2.1.trans (by decide!), h23.2.2, h22.2.1.trans (by decide!), h22.2.2⟩

end Eval

namespace Eval

variable {α U : Type}

/-! ## What the lexer leaves untouched -/

theorem frame_refl (c : EvalContext α U) : Frame c c := ⟨rfl, rfl, rfl, rfl⟩

theorem frame_trans {c x y : EvalContext α U} (h1 : Frame c x) (h2 : Frame x y) : Frame c y :=
  ⟨h2.1.trans h1.1, h2.2.1.trans h1.2.1, h2.2.2.1.trans h1.2.2.1, h2.2.2.2.trans h1.2.2.2⟩

theorem frame_get_char (c : EvalContext α U) : Frame c (get_char c).2 := ⟨rfl, rfl, rfl, rfl⟩

theorem frame_put_char (c : EvalContext α U) : Frame c (put_char c) := ⟨rfl, rfl, rfl, rfl⟩

theorem frame_pos_token (c : EvalContext α U) (p : Nat) (t : EvalToken α) :
    Frame c { c with pos := p, token := t } := ⟨rfl, rfl, rfl, rfl⟩

theorem frame_token {c x : EvalContext α U} (t : EvalToken α) (h : Frame c x) :
    Frame c { x with token := t } := h

theorem int_loop_frame (A : Arith α) :
    ∀ (fuel : Nat) (value : α) (ch : Char) (c : EvalContext α U)
      (r : α × Char × EvalContext α U),
      get_number_int_loop A fuel value ch c = some r → Frame c r.2.2 := by
  intro fuel
  induction fuel with
  | zero => intro value ch c r h; simp [get_number_int_loop] at h
  | succ fuel ih =>
    intro value ch c r h
    simp only [get_number_int_loop] at h
    split_ifs at h
    · exact frame_trans (frame_get_char c) (ih _ _ _ r h)
    · simp only [Option.some.injEq] at h
      subst h
      exact frame_get_char c

theorem frac_loop_frame (A : Arith α) :
    ∀ (fuel : Nat) (value : α) (exp : Int) (ch : Char) (c : EvalContext α U)
      (r : α × Int × Char × EvalContext α U),
      get_number_frac_loop A fuel value exp ch c = some r → Frame c r.2.2.2 := by
  intro fuel
  induction fuel with
  | zero => intro value exp ch c r h; simp [get_number_frac_loop] at h
  | succ fuel ih =>
    intro value exp ch c r h
    simp only [get_number_frac_loop] at h
    split_ifs at h
    · exact frame_trans (frame_get_char c) (ih _ _ _ _ r h)
    · simp only [Option.some.injEq] at h
      subst h
      exact frame_get_char c

theorem exp_loop_frame :
    ∀ (fuel : Nat) (int_val : Int) (ch : Char) (c : EvalContext α U)
      (r : Int × Char × EvalContext α U),
      get_number_exp_loop fuel int_val ch c = some r → Frame c r.2.2 := by
  intro fuel
  induction fuel with
  | zero => intro int_val ch c r h; simp [get_number_exp_loop] at h
  | succ fuel ih =>
    intro int_val ch c r h
    simp only [get_number_exp_loop] at h
    by_cases hov : int_val * 10 + (digit_value ch : Int) > INT_MAX
    · rw [if_pos hov] at h; cases h
    rw [if_neg hov] at h
    split_ifs at h
    · exact frame_trans (frame_get_char c) (ih _ _ _ r h)
    · simp only [Option.some.injEq] at h
      subst h
      exact frame_get_char c

theorem get_number_scale_frame (A : Arith α) (value : α) (exp : Int) (c : EvalContext α U)
    (r : EvalResult × EvalContext α U) (h : get_number_scale A value exp c = some r) :
    Frame c r.2 := by
  simp only [get_number_scale] at h
  split at h
  · simp at h
  · simp only [Option.some.injEq] at h
    subst h
    exact ⟨rfl, rfl, rfl, rfl⟩

theorem get_number_exp_frame (A : Arith α) (fuel : Nat) (value : α) (exp : Int) (ch : Char)
    (c : EvalContext α U) (r : EvalResult × EvalContext α U)
    (h : get_number_exp A fuel value exp ch c = some r) : Frame c r.2 := by
  simp only [get_number_exp] at h
  split_ifs at h with h1 h2 h3 h4 h5 h6 h7
  all_goals first
    | (simp only [Option.some.injEq] at h; subst h; exact ⟨rfl, rfl, rfl, rfl⟩)
    | exact get_number_scale_frame A _ _ _ r h
    | (split at h
       · simp at h
       · rename_i iv ch2 c2 hl
         have f1 := exp_loop_frame _ _ _ _ _ hl
         have f2 := get_number_scale_frame A _ _ _ r h
         exact frame_trans (frame_trans ⟨rfl, rfl, rfl, rfl⟩ f1) f2)

theorem get_number_frac_frame (A : Arith α) (fuel : Nat) (value : α) (exp : Int) (ch : Char)
    (c : EvalContext α U) (r : EvalResult × EvalContext α U)
    (h : get_number_frac A fuel value exp ch c = some r) : Frame c r.2 := by
  simp only [get_number_frac] at h
  split_ifs at h with h1 h2
  · simp only [Option.some.injEq] at h; subst h; exact ⟨rfl, rfl, rfl, rfl⟩
  · split at h
    · simp at h
    · rename_i v e ch2 c2 hl
      have f1 := frac_loop_frame A _ _ _ _ _ _ hl
      have f2 := get_number_exp_frame A _ _ _ _ _ r h
      exact frame_trans (frame_trans (frame_get_char c) f1) f2
  · exact get_number_exp_frame A _ _ _ _ _ r h

theorem get_number_frame (A : Arith α) (c : EvalContext α U)
    (r : EvalResult × EvalContext α U) (h : get_number A c = some r) : Frame c r.2 := by
  simp only [get_number] at h
  split_ifs at h with h1 h2
  · simp only [Option.some.injEq] at h; subst h; exact ⟨rfl, rfl, rfl, rfl⟩
  · split at h
    · simp at h
    · rename_i v ch2 c2 hl
      have f1 := int_loop_frame A _ _ _ _ _ hl
      have f2 := get_number_frac_frame A _ _ _ _ _ r h
      exact frame_trans (frame_trans (frame_get_char c) f1) f2
  · exact frame_trans (frame_get_char c) (get_number_frac_frame A _ _ _ _ _ r h)

theorem get_name_loop_frame (cfg : Config) :
    ∀ (fuel : Nat) (name : List Char) (c : EvalContext α U)
      (r : EvalResult × List Char × EvalContext α U),
      get_name_loop cfg fuel name c = some r → Frame c r.2.2 := by
  intro fuel
  induction fuel with
  | zero => intro name c r h; simp [get_name_loop] at h
  | succ fuel ih =>
    intro name c r h
    simp only [get_name_loop] at h
    split_ifs at h
    · simp only [Option.some.injEq] at h; subst h; exact frame_get_char c
    · simp only [Option.some.injEq] at h; subst h; exact frame_get_char c
    · exact frame_trans (frame_get_char c) (ih _ _ r h)

theorem get_name_frame (cfg : Config) (c : EvalContext α U) (type : List Char → EvalToken α)
    (r : EvalResult × EvalContext α U) (h : get_name cfg c type = some r) : Frame c r.2 := by
  simp only [get_name] at h
  split at h
  · simp at h
  · rename_i res name c2 hl
    have f1 := get_name_loop_frame cfg _ _ _ _ hl
    split_ifs at h <;> simp only [Option.some.injEq] at h <;> subst h
    · exact f1
    · exact f1

theorem get_token_loop_frame (A : Arith α) (cfg : Config) :
    ∀ (fuel : Nat) (c : EvalContext α U) (r : EvalResult × EvalContext α U),
      get_token_loop A cfg fuel c = some r → Frame c r.2 := by
  intro fuel
  induction fuel with
  | zero => intro c r h; simp [get_token_loop] at h
  | succ fuel ih =>
    intro c r h
    simp only [get_token_loop] at h
    by_cases hc : (get_char c).1 = NUL
    · simp only [hc, if_true] at h
      simp only [Option.some.injEq] at h; subst h; exact ⟨rfl, rfl, rfl, rfl⟩
    simp only [hc, if_false] at h
    clear hc
    by_cases hc : (get_char c).1 ≤ ' '
    · simp only [hc, if_true] at h
      exact frame_trans (frame_get_char c) (ih _ r h)
    simp only [hc, if_false] at h
    clear hc
    by_cases hc : (is_digit (get_char c).1 || is_dp (get_char c).1) = true
    · simp only [hc, if_true] at h
      exact frame_trans (frame_put_char (get_char c).2) (get_number_frame A _ r h)
    simp only [hc, Bool.false_eq_true, if_false] at h
    clear hc
    by_cases hc : is_name_start (get_char c).1 = true
    · simp only [hc, if_true] at h
      exact frame_trans (frame_put_char (get_char c).2) (get_name_frame cfg _ _ r h)
    simp only [hc, Bool.false_eq_true, if_false] at h
    clear hc
    by_cases hc : (get_char c).1 = '$'
    · simp only [hc, if_true] at h
      exact frame_trans (frame_get_char c) (get_name_frame cfg _ _ r h)
    simp only [hc, if_false] at h
    clear hc
    by_cases hc : (get_char c).1 = '>'
    · simp only [hc, if_true] at h
      split_ifs at h <;> simp only [Option.some.injEq] at h <;> subst h <;>
        exact ⟨rfl, rfl, rfl, rfl⟩
    simp only [hc, if_false] at h
    clear hc
    by_cases hc : (get_char c).1 = '<'
    · simp only [hc, if_true] at h
      split_ifs at h <;> simp only [Option.some.injEq] at h <;> subst h <;>
        exact ⟨rfl, rfl, rfl, rfl⟩
    simp only [hc, if_false] at h
    clear hc
    by_cases hc : (get_char c).1 = '='
    · simp only [hc, if_true] at h
      split_ifs at h <;> simp only [Option.some.injEq] at h <;> subst h <;>
        exact ⟨rfl, rfl, rfl, rfl⟩
    simp only [hc, if_false] at h
    clear hc
    by_cases hc : (get_char c).1 = '+'
    · simp only [hc, if_true] at h
      simp only [Option.some.injEq] at h; subst h; exact ⟨rfl, rfl, rfl, rfl⟩
    simp only [hc, if_false] at h
    clear hc
    by_cases hc : (get_char c).1 = '-'
    · simp only [hc, if_true] at h
      simp only [Option.some.injEq] at h; subst h; exact ⟨rfl, rfl, rfl, rfl⟩
    simp only [hc, if_false] at h
    clear hc
    by_cases hc : (get_char c).1 = '*'
    · simp only [hc, if_true] at h
      simp only [Option.some.injEq] at h; subst h; exact ⟨rfl, rfl, rfl, rfl⟩
    simp only [hc, if_false] at h
    clear hc
    by_cases hc : (get_char c).1 = '/'
    · simp only [hc, if_true] at h
      simp only [Option.some.injEq] at h; subst h; exact ⟨rfl, rfl, rfl, rfl⟩
    simp only [hc, if_false] at h
    clear hc
    by_cases hc : (get_char c).1 = '('
    · simp only [hc, if_true] at h
      simp only [Option.some.injEq] at h; subst h; exact ⟨rfl, rfl, rfl, rfl⟩
    simp only [hc, if_false] at h
    clear hc
    by_cases hc : (get_char c).1 = ')'
    · simp only [hc, if_true] at h
      simp only [Option.some.injEq] at h; subst h; exact ⟨rfl, rfl, rfl, rfl⟩
    simp only [hc, if_false] at h
    clear hc
    simp only [Option.some.injEq] at h; subst h; exact ⟨rfl, rfl, rfl, rfl⟩

/-- The lexer leaves the hooks, the user data, the text and the recursion
depth as they are, whatever it returns. -/
theorem get_token_frame (A : Arith α) (cfg : Config) (c : EvalContext α U)
    (r : EvalResult × EvalContext α U) (h : get_token A cfg c = some r) : Frame c r.2 :=
  get_token_loop_frame A cfg _ c r h

end Eval

namespace Eval

variable {α U : Type}

/-! ## What the parser leaves untouched -/

theorem parse_term_frame (A : Arith α) (cfg : Config)
    (pe : EvalContext α U → α → Option (EvalResult × EvalContext α U × α))
    (hpe : PEFrame pe) : PEFrame (parse_term A cfg pe) := by
  intro c x out v r h
  simp only [parse_term] at h
  split at h
  · -- NUMBER
    split at h
    · simp at h
    · rename_i res c1 hg
      simp only [Option.some.injEq, Prod.mk.injEq] at h
      obtain ⟨-, rfl, -⟩ := h
      exact get_token_frame A cfg _ _ hg
  · -- OPEN_BRACKET
    split at h
    · simp at h
    · rename_i res c1 hg
      have f1 := get_token_frame A cfg _ _ hg
      split_ifs at h
      · simp only [Option.some.injEq, Prod.mk.injEq] at h
        obtain ⟨-, rfl, -⟩ := h
        exact f1
      · split at h
        · simp at h
        · rename_i res2 c2 v2 hp
          have f2 := frame_trans f1 (hpe _ _ _ _ _ hp)
          split_ifs at h
          · simp only [Option.some.injEq, Prod.mk.injEq] at h
            obtain ⟨-, rfl, -⟩ := h
            exact f2
          · simp only [Option.some.injEq, Prod.mk.injEq] at h
            obtain ⟨-, rfl, -⟩ := h
            exact f2
          · split at h
            · simp at h
            · rename_i res3 c3 hg3
              simp only [Option.some.injEq, Prod.mk.injEq] at h
              obtain ⟨-, rfl, -⟩ := h
              exact frame_trans f2 (get_token_frame A cfg _ _ hg3)
  · -- FUNC
    split at h
    · simp only [Option.some.injEq, Prod.mk.injEq] at h
      obtain ⟨-, rfl, -⟩ := h
      exact frame_refl _
    · split at h
      · simp only [Option.some.injEq, Prod.mk.injEq] at h
        obtain ⟨-, rfl, -⟩ := h
        exact frame_refl _
      · split at h
        · simp at h
        · rename_i res c1 hg
          have f1 := get_token_frame A cfg _ _ hg
          split_ifs at h
          · simp only [Option.some.injEq, Prod.mk.injEq] at h
            obtain ⟨-, rfl, -⟩ := h
            exact f1
          · simp only [Option.some.injEq, Prod.mk.injEq] at h
            obtain ⟨-, rfl, -⟩ := h
            exact f1
          · split at h
            · simp at h
            · rename_i res2 c2 hg2
              have f2 := frame_trans f1 (get_token_frame A cfg _ _ hg2)
              split_ifs at h
              · simp only [Option.some.injEq, Prod.mk.injEq] at h
                obtain ⟨-, rfl, -⟩ := h
                exact f2
              · split at h
                · simp at h
                · rename_i res3 c3 arg hp
                  have f3 := frame_trans f2 (hpe _ _ _ _ _ hp)
                  split_ifs at h
                  · simp only [Option.some.injEq, Prod.mk.injEq] at h
                    obtain ⟨-, rfl, -⟩ := h
                    exact f3
                  · simp only [Option.some.injEq, Prod.mk.injEq] at h
                    obtain ⟨-, rfl, -⟩ := h
                    exact f3
                  · simp only [Option.some.injEq, Prod.mk.injEq] at h
                    obtain ⟨-, rfl, -⟩ := h
                    exact f3
                  · split at h
                    · simp at h
                    · rename_i res4 c4 hg4
                      simp only [Option.some.injEq, Prod.mk.injEq] at h
                      obtain ⟨-, rfl, -⟩ := h
                      exact frame_trans f3 (get_token_frame A cfg _ _ hg4)
  · -- VARIABLE
    split at h
    · simp only [Option.some.injEq, Prod.mk.injEq] at h
      obtain ⟨-, rfl, -⟩ := h
      exact frame_refl _
    · split_ifs at h
      · simp only [Option.some.injEq, Prod.mk.injEq] at h
        obtain ⟨-, rfl, -⟩ := h
        exact frame_refl _
      · split at h
        · simp at h
        · rename_i res4 c4 hg4
          simp only [Option.some.injEq, Prod.mk.injEq] at h
          obtain ⟨-, rfl, -⟩ := h
          exact get_token_frame A cfg _ _ hg4
  · simp only [Option.some.injEq, Prod.mk.injEq] at h
    obtain ⟨-, rfl, -⟩ := h
    exact frame_refl _

theorem parse_unary_loop_frame (A : Arith α) (cfg : Config) :
    ∀ (fuel : Nat) (neg : Bool) (c : EvalContext α U) (r : EvalResult × Bool × EvalContext α U),
      parse_unary_loop A cfg fuel neg c = some r → Frame c r.2.2 := by
  intro fuel
  induction fuel with
  | zero => intro neg c r h; simp [parse_unary_loop] at h
  | succ fuel ih =>
    intro neg c r h
    simp only [parse_unary_loop] at h
    split_ifs at h
    · split at h
      · simp at h
      · rename_i res c1 hg
        have f1 := get_token_frame A cfg _ _ hg
        split_ifs at h
        · simp only [Option.some.injEq] at h
          subst h
          exact f1
        · exact frame_trans f1 (ih _ _ r h)
    · simp only [Option.some.injEq] at h
      subst h
      exact frame_refl _

theorem parse_unary_frame (A : Arith α) (cfg : Config)
    (pe : EvalContext α U → α → Option (EvalResult × EvalContext α U × α))
    (hpe : PEFrame pe) : PEFrame (parse_unary A cfg pe) := by
  intro c x out v r h
  simp only [parse_unary] at h
  split at h
  · simp at h
  · rename_i res neg c1 hl
    have f1 := parse_unary_loop_frame A cfg _ _ _ _ hl
    by_cases hr : res = EvalResult.OK
    · subst hr
      simp only [ne_eq, not_true_eq_false, if_false] at h
      split at h
      · simp at h
      · rename_i res2 c2 v2 hp
        have f2 := frame_trans f1 (parse_term_frame A cfg pe hpe _ _ _ _ _ hp)
        split_ifs at h <;> simp only [Option.some.injEq, Prod.mk.injEq] at h <;>
          obtain ⟨-, rfl, -⟩ := h <;> exact f2
    · simp only [ne_eq, hr, not_false_eq_true, if_true, Option.some.injEq, Prod.mk.injEq] at h
      obtain ⟨-, rfl, -⟩ := h
      exact f1

theorem parse_product_loop_frame (A : Arith α) (cfg : Config)
    (pe : EvalContext α U → α → Option (EvalResult × EvalContext α U × α))
    (hpe : PEFrame pe) :
    ∀ (fuel : Nat) (c x : EvalContext α U) (lhs rhs v : α) (r : EvalResult),
      parse_product_loop A cfg pe fuel c lhs rhs = some (r, x, v) → Frame c x := by
  intro fuel
  induction fuel with
  | zero => intro c x lhs rhs v r h; simp [parse_product_loop] at h
  | succ fuel ih =>
    intro c x lhs rhs v r h
    simp only [parse_product_loop] at h
    split_ifs at h
    ·
      split at h
      · simp at h
      · rename_i res c1 hg
        have f1 := get_token_frame A cfg _ _ hg
        split_ifs at h
        · simp only [Option.some.injEq, Prod.mk.injEq] at h
          obtain ⟨-, rfl, -⟩ := h
          exact f1
        · split at h
          · simp at h
          · rename_i res2 c2 v2 hp
            have f2 := frame_trans f1 (parse_unary_frame A cfg pe hpe _ _ _ _ _ hp)
            split_ifs at h
            · simp only [Option.some.injEq, Prod.mk.injEq] at h
              obtain ⟨-, rfl, -⟩ := h
              exact f2
            · exact frame_trans f2 (ih _ _ _ _ _ _ h)
    ·
      split at h
      · simp at h
      · rename_i res c1 hg
        have f1 := get_token_frame A cfg _ _ hg
        split_ifs at h
        · simp only [Option.some.injEq, Prod.mk.injEq] at h
          obtain ⟨-, rfl, -⟩ := h
          exact f1
        · split at h
          · simp at h
          · rename_i res2 c2 v2 hp
            have f2 := frame_trans f1 (parse_unary_frame A cfg pe hpe _ _ _ _ _ hp)
            split_ifs at h
            · simp only [Option.some.injEq, Prod.mk.injEq] at h
              obtain ⟨-, rfl, -⟩ := h
              exact f2
            · exact frame_trans f2 (ih _ _ _ _ _ _ h)
    ·
      split at h
      · simp at h
      · rename_i res c1 hg
        have f1 := get_token_frame A cfg _ _ hg
        split_ifs at h
        · simp only [Option.some.injEq, Prod.mk.injEq] at h
          obtain ⟨-, rfl, -⟩ := h
          exact f1
        · split at h
          · simp at h
          · rename_i res2 c2 v2 hp
            have f2 := frame_trans f1 (parse_unary_frame A cfg pe hpe _ _ _ _ _ hp)
            split_ifs at h
            · simp only [Option.some.injEq, Prod.mk.injEq] at h
              obtain ⟨-, rfl, -⟩ := h
              exact f2
            · exact frame_trans f2 (ih _ _ _ _ _ _ h)
    · simp only [Option.some.injEq, Prod.mk.injEq] at h
      obtain ⟨-, rfl, -⟩ := h
      exact frame_refl _

theorem parse_product_frame (A : Arith α) (cfg : Config)
    (pe : EvalContext α U → α → Option (EvalResult × EvalContext α U × α))
    (hpe : PEFrame pe) : PEFrame (parse_product A cfg pe) := by
  intro c x out v r h
  simp only [parse_product] at h
  split at h
  · simp at h
  · rename_i res c1 l1 hu
    have f1 := parse_unary_frame A cfg pe hpe _ _ _ _ _ hu
    split_ifs at h
    · simp only [Option.some.injEq, Prod.mk.injEq] at h
      obtain ⟨-, rfl, -⟩ := h
      exact f1
    · split at h
      · simp at h
      · rename_i res2 c2 l2 hl
        have f2 := frame_trans f1 (parse_product_loop_frame A cfg pe hpe _ _ _ _ _ _ _ hl)
        split_ifs at h <;> simp only [Option.some.injEq, Prod.mk.injEq] at h <;>
          obtain ⟨-, rfl, -⟩ := h <;> exact f2

theorem parse_sum_loop_frame (A : Arith α) (cfg : Config)
    (pe : EvalContext α U → α → Option (EvalResult × EvalContext α U × α))
    (hpe : PEFrame pe) :
    ∀ (fuel : Nat) (c x : EvalContext α U) (lhs rhs v : α) (r : EvalResult),
      parse_sum_loop A cfg pe fuel c lhs rhs = some (r, x, v) → Frame c x := by
  intro fuel
  induction fuel with
  | zero => intro c x lhs rhs v r h; simp [parse_sum_loop] at h
  | succ fuel ih =>
    intro c x lhs rhs v r h
    simp only [parse_sum_loop] at h
    split_ifs at h
    ·
      split at h
      · simp at h
      · rename_i res c1 hg
        have f1 := get_token_frame A cfg _ _ hg
        split_ifs at h
        · simp only [Option.some.injEq, Prod.mk.injEq] at h
          obtain ⟨-, rfl, -⟩ := h
          exact f1
        · split at h
          · simp at h
          · rename_i res2 c2 v2 hp
            have f2 := frame_trans f1 (parse_product_frame A cfg pe hpe _ _ _ _ _ hp)
            split_ifs at h
            · simp only [Option.some.injEq, Prod.mk.injEq] at h
              obtain ⟨-, rfl, -⟩ := h
              exact f2
            · exact frame_trans f2 (ih _ _ _ _ _ _ h)
    ·
      split at h
      · simp at h
      · rename_i res c1 hg
        have f1 := get_token_frame A cfg _ _ hg
        split_ifs at h
        · simp only [Option.some.injEq, Prod.mk.injEq] at h
          obtain ⟨-, rfl, -⟩ := h
          exact f1
        · split at h
          · simp at h
          · rename_i res2 c2 v2 hp
            have f2 := frame_trans f1 (parse_product_frame A cfg pe hpe _ _ _ _ _ hp)
            split_ifs at h
            · simp only [Option.some.injEq, Prod.mk.injEq] at h
              obtain ⟨-, rfl, -⟩ := h
              exact f2
            · exact frame_trans f2 (ih _ _ _ _ _ _ h)
    · simp only [Option.some.injEq, Prod.mk.injEq] at h
      obtain ⟨-, rfl, -⟩ := h
      exact frame_refl _

theorem parse_sum_frame (A : Arith α) (cfg : Config)
    (pe : EvalContext α U → α → Option (EvalResult × EvalContext α U × α))
    (hpe : PEFrame pe) : PEFrame (parse_sum A cfg pe) := by
  intro c x out v r h
  simp only [parse_sum] at h
  split at h
  · simp at h
  · rename_i res c1 l1 hu
    have f1 := parse_product_frame A cfg pe hpe _ _ _ _ _ hu
    split_ifs at h
    · simp only [Option.some.injEq, Prod.mk.injEq] at h
      obtain ⟨-, rfl, -⟩ := h
      exact f1
    · split at h
      · simp at h
      · rename_i res2 c2 l2 hl
        have f2 := frame_trans f1 (parse_sum_loop_frame A cfg pe hpe _ _ _ _ _ _ _ hl)
        split_ifs at h <;> simp only [Option.some.injEq, Prod.mk.injEq] at h <;>
          obtain ⟨-, rfl, -⟩ := h <;> exact f2

/-- Whatever `parse_expr` returns, the context it returns has the hooks, the
user data, the text and the recursion depth of the context it was given. -/
theorem parse_expr_frame (A : Arith α) (cfg : Config) :
    ∀ fuel : Nat, PEFrame (parse_expr A cfg fuel : EvalContext α U → α → _) := by
  intro fuel
  induction fuel with
  | zero => intro c x out v r h; simp [parse_expr] at h
  | succ fuel ih =>
    intro c x out v r h
    simp only [parse_expr] at h
    split_ifs at h
    · simp only [Option.some.injEq, Prod.mk.injEq] at h
      obtain ⟨-, rfl, -⟩ := h
      exact frame_refl _
    · split at h
      · simp at h
      · rename_i res c1 v1 hs
        have f1 := parse_sum_frame A cfg _ ih _ _ _ _ _ hs
        simp only [Option.some.injEq, Prod.mk.injEq] at h
        obtain ⟨-, rfl, -⟩ := h
        obtain ⟨h1, h2, h3, h4⟩ := f1
        refine ⟨h1, h2, h3, ?_⟩
        simp only [h4]
        omega

end Eval

namespace Eval

variable {α U : Type}

/-! ## The recursion is entered at the level of the body that calls it -/

theorem parse_term_congr (A : Arith α) (cfg : Config)
    (pe1 pe2 : EvalContext α U → α → Option (EvalResult × EvalContext α U × α))
    (l : Nat) (hagree : ∀ c' o, c'.stack_level = l → pe1 c' o = pe2 c' o)
    (c : EvalContext α U) (out : α) (hl : c.stack_level = l) :
    parse_term A cfg pe1 c out = parse_term A cfg pe2 c out := by
  cases htok : c.token with
  | OPEN_BRACKET =>
    simp only [parse_term, htok]
    cases hg : get_token A cfg c with
    | none => rfl
    | some p =>
      obtain ⟨res, c1⟩ := p
      have f1 := get_token_frame A cfg _ _ hg
      simp only []
      rw [hagree c1 out (by rw [f1.2.2.2, hl])]
  | FUNC name =>
    simp only [parse_term, htok]
    cases hgf : c.hooks.bind (fun hooks => hooks.get_func) with
    | none => rfl
    | some gf =>
      simp only []
      cases hf : gf name c.user_data with
      | none => rfl
      | some f =>
        simp only []
        cases hg : get_token A cfg c with
        | none => rfl
        | some p =>
          obtain ⟨res, c1⟩ := p
          have f1 := get_token_frame A cfg _ _ hg
          simp only []
          cases hg2 : get_token A cfg c1 with
          | none => rfl
          | some p2 =>
            obtain ⟨res2, c2⟩ := p2
            have f2 := get_token_frame A cfg _ _ hg2
            simp only []
            rw [hagree c2 (A.ofNat 0) (by rw [f2.2.2.2, f1.2.2.2, hl])]
  | _ => simp only [parse_term, htok]

theorem parse_unary_congr (A : Arith α) (cfg : Config)
    (pe1 pe2 : EvalContext α U → α → Option (EvalResult × EvalContext α U × α))
    (l : Nat) (hagree : ∀ c' o, c'.stack_level = l → pe1 c' o = pe2 c' o)
    (c : EvalContext α U) (out : α) (hl : c.stack_level = l) :
    parse_unary A cfg pe1 c out = parse_unary A cfg pe2 c out := by
  simp only [parse_unary]
  cases hlp : parse_unary_loop A cfg (c.input.length + 1) false c with
  | none => rfl
  | some p =>
    obtain ⟨res, neg, c1⟩ := p
    have f1 := parse_unary_loop_frame A cfg _ _ _ _ hlp
    simp only []
    rw [parse_term_congr A cfg pe1 pe2 l hagree c1 (A.ofNat 0) (by rw [f1.2.2.2, hl])]

theorem parse_product_loop_congr (A : Arith α) (cfg : Config)
    (pe1 pe2 : EvalContext α U → α → Option (EvalResult × EvalContext α U × α))
    (hpe : PEFrame pe1) (l : Nat) (hagree : ∀ c' o, c'.stack_level = l → pe1 c' o = pe2 c' o) :
    ∀ (fuel : Nat) (c : EvalContext α U) (lhs rhs : α), c.stack_level = l →
      parse_product_loop A cfg pe1 fuel c lhs rhs = parse_product_loop A cfg pe2 fuel c lhs rhs := by
  intro fuel
  induction fuel with
  | zero => intro c lhs rhs _; rfl
  | succ fuel ih =>
    intro c lhs rhs hl
    have hstep : ∀ op : α → α → α,
        (match get_token A cfg c with
          | none => none
          | some (result, ctx) =>
            if result ≠ EvalResult.OK then some (result, ctx, lhs)
            else
              match parse_unary A cfg pe1 ctx rhs with
              | none => none
              | some (result, ctx, rhs) =>
                if result ≠ EvalResult.OK then some (result, ctx, lhs)
                else parse_product_loop A cfg pe1 fuel ctx (op lhs rhs) rhs) =
        (match get_token A cfg c with
          | none => none
          | some (result, ctx) =>
            if result ≠ EvalResult.OK then some (result, ctx, lhs)
            else
              match parse_unary A cfg pe2 ctx rhs with
              | none => none
              | some (result, ctx, rhs) =>
                if result ≠ EvalResult.OK then some (result, ctx, lhs)
                else parse_product_loop A cfg pe2 fuel ctx (op lhs rhs) rhs) := by
      intro op
      cases hg : get_token A cfg c with
      | none => rfl
      | some p =>
        obtain ⟨res, c1⟩ := p
        have f1 := get_token_frame A cfg _ _ hg
        simp only []
        rw [← parse_unary_congr A cfg pe1 pe2 l hagree c1 rhs (by rw [f1.2.2.2, hl])]
        cases hu : parse_unary A cfg pe1 c1 rhs with
        | none => rfl
        | some q =>
          obtain ⟨res2, c2, v2⟩ := q
          have f2 := parse_unary_frame A cfg pe1 hpe _ _ _ _ _ hu
          simp only []
          rw [ih c2 _ v2 (by rw [f2.2.2.2, f1.2.2.2, hl])]
    simp only [parse_product_loop]
    split_ifs
    · exact hstep A.mul
    · exact hstep A.div
    · exact hstep (relational A c.token.type)
    · rfl

theorem parse_product_congr (A : Arith α) (cfg : Config)
    (pe1 pe2 : EvalContext α U → α → Option (EvalResult × EvalContext α U × α))
    (hpe : PEFrame pe1) (l : Nat) (hagree : ∀ c' o, c'.stack_level = l → pe1 c' o = pe2 c' o)
    (c : EvalContext α U) (out : α) (hl : c.stack_level = l) :
    parse_product A cfg pe1 c out = parse_product A cfg pe2 c out := by
  simp only [parse_product]
  rw [← parse_unary_congr A cfg pe1 pe2 l hagree c (A.ofNat 0) hl]
  cases hu : parse_unary A cfg pe1 c (A.ofNat 0) with
  | none => rfl
  | some q =>
    obtain ⟨res2, c2, v2⟩ := q
    have f2 := parse_unary_frame A cfg pe1 hpe _ _ _ _ _ hu
    simp only []
    rw [parse_product_loop_congr A cfg pe1 pe2 hpe l hagree _ c2 v2 _ (by rw [f2.2.2.2, hl])]

theorem parse_sum_loop_congr (A : Arith α) (cfg : Config)
    (pe1 pe2 : EvalContext α U → α → Option (EvalResult × EvalContext α U × α))
    (hpe : PEFrame pe1) (l : Nat) (hagree : ∀ c' o, c'.stack_level = l → pe1 c' o = pe2 c' o) :
    ∀ (fuel : Nat) (c : EvalContext α U) (lhs rhs : α), c.stack_level = l →
      parse_sum_loop A cfg pe1 fuel c lhs rhs = parse_sum_loop A cfg pe2 fuel c lhs rhs := by
  intro fuel
  induction fuel with
  | zero => intro c lhs rhs _; rfl
  | succ fuel ih =>
    intro c lhs rhs hl
    have hstep : ∀ op : α → α → α,
        (match get_token A cfg c with
          | none => none
          | some (result, ctx) =>
            if result ≠ EvalResult.OK then some (result, ctx, lhs)
            else
              match parse_product A cfg pe1 ctx rhs with
              | none => none
              | some (result, ctx, rhs) =>
                if result ≠ EvalResult.OK then some (result, ctx, lhs)
                else parse_sum_loop A cfg pe1 fuel ctx (op lhs rhs) rhs) =
        (match get_token A cfg c with
          | none => none
          | some (result, ctx) =>
            if result ≠ EvalResult.OK then some (result, ctx, lhs)
            else
              match parse_product A cfg pe2 ctx rhs with
              | none => none
              | some (result, ctx, rhs) =>
                if result ≠ EvalResult.OK then some (result, ctx, lhs)
                else parse_sum_loop A cfg pe2 fuel ctx (op lhs rhs) rhs) := by
      intro op
      cases hg : get_token A cfg c with
      | none => rfl
      | some p =>
        obtain ⟨res, c1⟩ := p
        have f1 := get_token_frame A cfg _ _ hg
        simp only []
        rw [← parse_product_congr A cfg pe1 pe2 hpe l hagree c1 rhs (by rw [f1.2.2.2, hl])]
        cases hu : parse_product A cfg pe1 c1 rhs with
        | none => rfl
        | some q =>
          obtain ⟨res2, c2, v2⟩ := q
          have f2 := parse_product_frame A cfg pe1 hpe _ _ _ _ _ hu
          simp only []
          rw [ih c2 _ v2 (by rw [f2.2.2.2, f1.2.2.2, hl])]
    simp only [parse_sum_loop]
    split_ifs
    · exact hstep A.add
    · exact hstep A.sub
    · rfl

theorem parse_sum_congr (A : Arith α) (cfg : Config)
    (pe1 pe2 : EvalContext α U → α → Option (EvalResult × EvalContext α U × α))
    (hpe : PEFrame pe1) (l : Nat) (hagree : ∀ c' o, c'.stack_level = l → pe1 c' o = pe2 c' o)
    (c : EvalContext α U) (out : α) (hl : c.stack_level = l) :
    parse_sum A cfg pe1 c out = parse_sum A cfg pe2 c out := by
  simp only [parse_sum]
  rw [← parse_product_congr A cfg pe1 pe2 hpe l hagree c (A.ofNat 0) hl]
  cases hu : parse_product A cfg pe1 c (A.ofNat 0) with
  | none => rfl
  | some q =>
    obtain ⟨res2, c2, v2⟩ := q
    have f2 := parse_product_frame A cfg pe1 hpe _ _ _ _ _ hu
    simp only []
    rw [parse_sum_loop_congr A cfg pe1 pe2 hpe l hagree _ c2 v2 _ (by rw [f2.2.2.2, hl])]

end Eval

namespace Eval

variable {α U : Type}

theorem at_level_agree (l : Nat)
    (pe : EvalContext α U → α → Option (EvalResult × EvalContext α U × α)) :
    ∀ (c' : EvalContext α U) (o : α), c'.stack_level = l → pe c' o = at_level l pe c' o := by
  intro c' o h
  simp [at_level, h]

/-- C18: whatever `parse_expr` returns (`OK`, `STACK_OVERFLOW` or any other
error), the context it returns has the `stack_level` of the context it was
given, and so have the contexts returned by `get_token` and by `parse_sum`.
`parse_expr` returns `STACK_OVERFLOW` without entering its body when
`stack_level` has reached `EVAL_MAX_STACK_DEPTH`; otherwise the body runs one
level up, which is at most `EVAL_MAX_STACK_DEPTH`, and calls `parse_expr` on
contexts of that level only (refusing every other level changes nothing).
When the top-level call of `eval_execute` returns, `stack_level` is 0. -/
theorem C18_stack_level (A : Arith α) (cfg : Config) :
    (∀ (fuel : Nat) (ctx x : EvalContext α U) (out v : α) (r : EvalResult),
      parse_expr A cfg fuel ctx out = some (r, x, v) → x.stack_level = ctx.stack_level) ∧
    (∀ (ctx x : EvalContext α U) (r : EvalResult),
      get_token A cfg ctx = some (r, x) → x.stack_level = ctx.stack_level) ∧
    (∀ (fuel : Nat) (ctx x : EvalContext α U) (out v : α) (r : EvalResult),
      parse_sum A cfg (parse_expr A cfg fuel) ctx out = some (r, x, v) →
      x.stack_level = ctx.stack_level) ∧
    (∀ (fuel : Nat) (ctx : EvalContext α U) (out : α),
      cfg.EVAL_MAX_STACK_DEPTH ≤ ctx.stack_level →
      parse_expr A cfg (fuel + 1) ctx out = some (EvalResult.STACK_OVERFLOW, ctx, out)) ∧
    (∀ (fuel : Nat) (ctx : EvalContext α U) (out : α),
      ctx.stack_level < cfg.EVAL_MAX_STACK_DEPTH →
      parse_expr A cfg (fuel + 1) ctx out =
        (parse_sum A cfg (at_level (ctx.stack_level + 1) (parse_expr A cfg fuel))
          { ctx with stack_level := ctx.stack_level + 1 } out).map
          (fun p => (p.1, { p.2.1 with stack_level := p.2.1.stack_level - 1 }, p.2.2))) ∧
    (∀ (expression : List Char) (hooks : Option (EvalHooks α U)) (user_data : U) (out v : α)
        (c x : EvalContext α U) (r : EvalResult),
      get_token A cfg (⟨hooks, user_data, expression, 0, 0, EvalToken.END⟩ : EvalContext α U) =
        some (EvalResult.OK, c) →
      parse_expr A cfg (cfg.EVAL_MAX_STACK_DEPTH + 1) c out = some (r, x, v) →
      x.stack_level = 0) := by
  refine ⟨?_, ?_, ?_, ?_, ?_, ?_⟩
  · intro fuel ctx x out v r h
    exact (parse_expr_frame A cfg fuel ctx x out v r h).2.2.2
  · intro ctx x r h
    exact (get_token_frame A cfg ctx (r, x) h).2.2.2
  · intro fuel ctx x out v r h
    exact (parse_sum_frame A cfg _ (parse_expr_frame A cfg fuel) ctx x out v r h).2.2.2
  · intro fuel ctx out h
    simp [parse_expr, h]
  · intro fuel ctx out h
    have hnot : ¬ (cfg.EVAL_MAX_STACK_DEPTH ≤ ctx.stack_level) := by omega
    rw [← parse_sum_congr A cfg (parse_expr A cfg fuel) _ (parse_expr_frame A cfg fuel)
      (ctx.stack_level + 1) (at_level_agree _ _) _ out rfl]
    simp only [parse_expr, ge_iff_le, hnot, if_false]
    cases parse_sum A cfg (parse_expr A cfg fuel)
      { ctx with stack_level := ctx.stack_level + 1 } out with
    | none => rfl
    | some p => rfl
  · intro expression hooks user_data out v c x r hg hp
    have f1 := get_token_frame A cfg _ _ hg
    have f2 := parse_expr_frame A cfg _ c x out v r hp
    rw [f2.2.2.2, f1.2.2.2]

/-- C18, on the text `(1+2)` with the sample configuration in exact
arithmetic: the top-level `parse_expr` returns `OK` with 3 and a context whose
`stack_level` is 0. -/
theorem C18_stack_level_witness :
    ∃ c x : EvalContext ℚ Unit,
      get_token Arith.rat sample_config ⟨no_hooks, (), "(1+2)".toList, 0, 0, EvalToken.END⟩ =
        some (EvalResult.OK, c) ∧
      parse_expr Arith.rat sample_config (sample_config.EVAL_MAX_STACK_DEPTH + 1) c 0 =
        some (EvalResult.OK, x, 3) ∧
      x.stack_level = 0 := by
  obtain ⟨⟨c, x, hg, hp, -, -⟩, -⟩ :=
    top_level_close Arith.rat sample_config "(1+2)".toList no_hooks () 0 3 (by decide)
      (by decide!)
  exact ⟨c, x, hg, hp,
    (C18_stack_level Arith.rat sample_config).2.2.2.2.2 _ no_hooks () 0 3 c x _ hg hp⟩

end Eval

namespace Eval

variable {α U : Type}

/-! ## The lexer of the two runs -/

theorem getD_append_shift (pre l : List Char) (p : Nat) :
    (pre ++ l).getD (pre.length + p) NUL = l.getD p NUL := by
  rw [List.getD_append_right _ _ _ _ (Nat.le_add_right _ _), Nat.add_sub_cancel_left]

theorem get_char_shifted (pre : List Char) (k : Nat) (t : EvalToken α) (c : EvalContext α U) :
    get_char (shifted pre k t c) = ((get_char c).1, shifted pre k t (get_char c).2) := by
  simp only [get_char, shifted, getD_append_shift]
  rfl

theorem put_char_shifted (pre : List Char) (k : Nat) (t : EvalToken α) (c : EvalContext α U)
    (h : 1 ≤ c.pos) :
    put_char (shifted pre k t c) = shifted pre k t (put_char c) := by
  simp only [put_char, shifted]
  congr 1
  omega

theorem put_get_char_shifted (pre : List Char) (k : Nat) (t : EvalToken α)
    (c : EvalContext α U) :
    put_char (shifted pre k t (get_char c).2) = shifted pre k t (put_char (get_char c).2) :=
  put_char_shifted pre k t _ (by simp [get_char])

theorem tok_sim_refl (same : Prop) (t : EvalToken α) : tok_sim same t t := Or.inl rfl

theorem tok_sim_number (same : Prop) (v v' : α) (h : same → v' = v) :
    tok_sim same (EvalToken.NUMBER v) (EvalToken.NUMBER v') := by
  by_cases hs : same
  · left; rw [h hs]
  · right; exact ⟨hs, v, v', rfl, rfl⟩

theorem tok_sim_type {same : Prop} {t t' : EvalToken α} (h : tok_sim same t t') :
    t'.type = t.type := by
  rcases h with h | ⟨-, v, v', h1, h2⟩
  · rw [h]
  · rw [h1, h2]; rfl

theorem tok_sim_same {same : Prop} {t t' : EvalToken α} (h : tok_sim same t t') (hs : same) :
    t' = t := by
  rcases h with h | ⟨hn, -⟩
  · exact h
  · exact absurd hs hn

theorem int_loop_gen (A A' : Arith α) (same : Prop) (hsame : same → A' = A)
    (pre : List Char) (k : Nat) (t : EvalToken α) :
    ∀ (f1 f2 : Nat) (value value' : α) (ch : Char) (c : EvalContext α U)
      (r : α × Char × EvalContext α U),
      f1 ≤ f2 → (same → value' = value) → get_number_int_loop A f1 value ch c = some r →
      ∃ v', get_number_int_loop A' f2 value' ch (shifted pre k t c) =
          some (v', r.2.1, shifted pre k t r.2.2) ∧ (same → v' = r.1) ∧ 1 ≤ r.2.2.pos := by
  intro f1
  induction f1 with
  | zero => intro f2 value value' ch c r _ _ h; simp [get_number_int_loop] at h
  | succ f1 ih =>
    intro f2 value value' ch c r hf hv h
    obtain ⟨f2, rfl⟩ : ∃ f, f2 = f + 1 := ⟨f2 - 1, by omega⟩
    simp only [get_number_int_loop] at h
    simp only [get_number_int_loop, get_char_shifted]
    have hv2 : same → A'.add (A'.mul value' (A'.ofNat 10)) (A'.ofNat (digit_value ch)) =
        A.add (A.mul value (A.ofNat 10)) (A.ofNat (digit_value ch)) := by
      intro hs; rw [hsame hs, hv hs]
    cases hd : is_digit (get_char c).1 with
    | true =>
      simp only [hd, if_true] at h ⊢
      exact ih f2 _ _ _ _ r (by omega) hv2 h
    | false =>
      simp only [hd, Bool.false_eq_true, if_false, Option.some.injEq] at h ⊢
      subst h
      exact ⟨_, rfl, hv2, by simp [get_char]⟩

theorem frac_loop_gen (A A' : Arith α) (same : Prop) (hsame : same → A' = A)
    (pre : List Char) (k : Nat) (t : EvalToken α) :
    ∀ (f1 f2 : Nat) (value value' : α) (exp : Int) (ch : Char) (c : EvalContext α U)
      (r : α × Int × Char × EvalContext α U),
      f1 ≤ f2 → (same → value' = value) → get_number_frac_loop A f1 value exp ch c = some r →
      ∃ v', get_number_frac_loop A' f2 value' exp ch (shifted pre k t c) =
          some (v', r.2.1, r.2.2.1, shifted pre k t r.2.2.2) ∧ (same → v' = r.1) ∧
        1 ≤ r.2.2.2.pos := by
  intro f1
  induction f1 with
  | zero => intro f2 value value' exp ch c r _ _ h; simp [get_number_frac_loop] at h
  | succ f1 ih =>
    intro f2 value value' exp ch c r hf hv h
    obtain ⟨f2, rfl⟩ : ∃ f, f2 = f + 1 := ⟨f2 - 1, by omega⟩
    simp only [get_number_frac_loop] at h
    simp only [get_number_frac_loop, get_char_shifted]
    have hv2 : same → A'.add (A'.mul value' (A'.ofNat 10)) (A'.ofNat (digit_value ch)) =
        A.add (A.mul value (A.ofNat 10)) (A.ofNat (digit_value ch)) := by
      intro hs; rw [hsame hs, hv hs]
    cases hd : is_digit (get_char c).1 with
    | true =>
      simp only [hd, if_true] at h ⊢
      exact ih f2 _ _ _ _ _ r (by omega) hv2 h
    | false =>
      simp only [hd, Bool.false_eq_true, if_false, Option.some.injEq] at h ⊢
      subst h
      exact ⟨_, rfl, hv2, by simp [get_char]⟩

theorem exp_loop_gen (pre : List Char) (k : Nat) (t : EvalToken α) :
    ∀ (f1 f2 : Nat) (int_val : Int) (ch : Char) (c : EvalContext α U)
      (r : Int × Char × EvalContext α U),
      f1 ≤ f2 → get_number_exp_loop f1 int_val ch c = some r →
      get_number_exp_loop f2 int_val ch (shifted pre k t c) =
          some (r.1, r.2.1, shifted pre k t r.2.2) ∧ 1 ≤ r.2.2.pos := by
  intro f1
  induction f1 with
  | zero => intro f2 int_val ch c r _ h; simp [get_number_exp_loop] at h
  | succ f1 ih =>
    intro f2 int_val ch c r hf h
    obtain ⟨f2, rfl⟩ : ∃ f, f2 = f + 1 := ⟨f2 - 1, by omega⟩
    simp only [get_number_exp_loop] at h
    simp only [get_number_exp_loop, get_char_shifted]
    by_cases hov : int_val * 10 + (digit_value ch : Int) > INT_MAX
    · rw [if_pos hov] at h; cases h
    rw [if_neg hov] at h ⊢
    cases hd : is_digit (get_char c).1 with
    | true =>
      simp only [hd, if_true] at h ⊢
      exact ih f2 _ _ _ r (by omega) h
    | false =>
      simp only [hd, Bool.false_eq_true, if_false, Option.some.injEq] at h ⊢
      subst h
      exact ⟨rfl, by simp [get_char]⟩

theorem scale_gen (A A' : Arith α) (same : Prop) (hsame : same → A' = A) (value value' : α)
    (exp : Int) (v : α) (hv : same → value' = value) (h : scale A value exp = some v) :
    ∃ v', scale A' value' exp = some v' ∧ (same → v' = v) := by
  obtain ⟨v', hv'⟩ := scale_isSome A' value' exp
  refine ⟨v', hv', fun hs => ?_⟩
  rw [hsame hs, hv hs, h] at hv'
  exact (Option.some.inj hv').symm

theorem rel_of_token (same : Prop) (pre : List Char) (k : Nat) (t' : EvalToken α)
    (x : EvalContext α U) (h : tok_sim same x.token t') :
    Rel same pre k x (shifted pre k t' x) := ⟨t', rfl, h⟩

theorem get_number_scale_gen (A A' : Arith α) (same : Prop) (hsame : same → A' = A)
    (pre : List Char) (k : Nat) (t : EvalToken α) (value value' : α) (exp : Int)
    (c : EvalContext α U) (ra : EvalResult × EvalContext α U)
    (hv : same → value' = value) (hpos : 1 ≤ c.pos)
    (h : get_number_scale A value exp c = some ra) :
    FollowsTok same pre k ra (get_number_scale A' value' exp (shifted pre k t c)) := by
  simp only [get_number_scale] at h ⊢
  cases hs : scale A value exp with
  | none => simp [hs] at h
  | some v =>
    obtain ⟨v', hv', hvv⟩ := scale_gen A A' same hsame value value' exp v hv hs
    simp only [hs, Option.some.injEq] at h
    subst h
    simp only [hv', put_char_shifted pre k t c hpos]
    exact ⟨_, rfl, fun _ => ⟨EvalToken.NUMBER v', rfl, tok_sim_number same v v' hvv⟩⟩

/-- An error of the lexer in the second run, where the first run has the same
error. -/
theorem follows_tok_err (same : Prop) (pre : List Char) (k : Nat) (r : EvalResult)
    (x x' : EvalContext α U) (hr : r ≠ EvalResult.OK) :
    FollowsTok same pre k (r, x) (some (r, x')) :=
  ⟨x', rfl, fun h => absurd h hr⟩

theorem get_number_exp_gen (A A' : Arith α) (same : Prop) (hsame : same → A' = A)
    (pre : List Char) (k : Nat) (t : EvalToken α) (f1 f2 : Nat) (value value' : α) (exp : Int)
    (ch : Char) (c : EvalContext α U) (ra : EvalResult × EvalContext α U)
    (hf : f1 ≤ f2) (hv : same → value' = value) (hpos : 1 ≤ c.pos)
    (h : get_number_exp A f1 value exp ch c = some ra) :
    FollowsTok same pre k ra (get_number_exp A' f2 value' exp ch (shifted pre k t c)) := by
  simp only [get_number_exp] at h
  simp only [get_number_exp, get_char_shifted]
  have hp1 : 1 ≤ (get_char c).2.pos := by simp [get_char]
  have hp2 : 1 ≤ (get_char (get_char c).2).2.pos := by simp [get_char]
  cases he : is_exp ch with
  | false =>
    simp only [he, Bool.false_eq_true, if_false] at h ⊢
    exact get_number_scale_gen A A' same hsame pre k t value value' exp c ra hv hpos h
  | true =>
    simp only [he, if_true] at h ⊢
    by_cases hm : (get_char c).1 = '-'
    · simp only [hm, if_true] at h ⊢
      cases hd : is_digit (get_char (get_char c).2).1 with
      | false =>
        simp only [hd, Bool.not_false, if_true, Option.some.injEq] at h ⊢
        subst h
        exact follows_tok_err same pre k _ _ _ (by decide)
      | true =>
        simp only [hd, Bool.not_true, Bool.false_eq_true, if_false] at h ⊢
        cases hl : get_number_exp_loop f1 0 (get_char (get_char c).2).1
            (get_char (get_char c).2).2 with
        | none => simp [hl] at h
        | some rl =>
          obtain ⟨hl2, hp3⟩ := exp_loop_gen pre k t f1 f2 0 _ _ rl hf hl
          simp only [hl] at h
          simp only [hl2]
          exact get_number_scale_gen A A' same hsame pre k t value value' _ _ ra hv hp3 h
    · simp only [hm, if_false] at h ⊢
      by_cases hp : (get_char c).1 = '+'
      · simp only [hp, if_true] at h ⊢
        cases hd : is_digit (get_char (get_char c).2).1 with
        | false =>
          simp only [hd, Bool.not_false, if_true, Option.some.injEq] at h ⊢
          subst h
          exact follows_tok_err same pre k _ _ _ (by decide)
        | true =>
          simp only [hd, Bool.not_true, Bool.false_eq_true, if_false] at h ⊢
          cases hl : get_number_exp_loop f1 0 (get_char (get_char c).2).1
              (get_char (get_char c).2).2 with
          | none => simp [hl] at h
          | some rl =>
            obtain ⟨hl2, hp3⟩ := exp_loop_gen pre k t f1 f2 0 _ _ rl hf hl
            simp only [hl] at h
            simp only [hl2]
            exact get_number_scale_gen A A' same hsame pre k t value value' _ _ ra hv hp3 h
      · simp only [hp, if_false] at h ⊢
        cases hd : is_digit (get_char c).1 with
        | false =>
          simp only [hd, Bool.not_false, if_true, Option.some.injEq] at h ⊢
          subst h
          exact follows_tok_err same pre k _ _ _ (by decide)
        | true =>
          simp only [hd, Bool.not_true, Bool.false_eq_true, if_false] at h ⊢
          cases hl : get_number_exp_loop f1 0 (get_char c).1 (get_char c).2 with
          | none => simp [hl] at h
          | some rl =>
            obtain ⟨hl2, hp3⟩ := exp_loop_gen pre k t f1 f2 0 _ _ rl hf hl
            simp only [hl] at h
            simp only [hl2]
            exact get_number_scale_gen A A' same hsame pre k t value value' _ _ ra hv hp3 h

theorem get_number_frac_gen (A A' : Arith α) (same : Prop) (hsame : same → A' = A)
    (pre : List Char) (k : Nat) (t : EvalToken α) (f1 f2 : Nat) (value value' : α) (exp : Int)
    (ch : Char) (c : EvalContext α U) (ra : EvalResult × EvalContext α U)
    (hf : f1 ≤ f2) (hv : same → value' = value) (hpos : 1 ≤ c.pos)
    (h : get_number_frac A f1 value exp ch c = some ra) :
    FollowsTok same pre k ra (get_number_frac A' f2 value' exp ch (shifted pre k t c)) := by
  simp only [get_number_frac] at h
  simp only [get_number_frac, get_char_shifted]
  cases hp : is_dp ch with
  | false =>
    simp only [hp, Bool.false_eq_true, if_false] at h ⊢
    exact get_number_exp_gen A A' same hsame pre k t f1 f2 value value' exp ch c ra hf hv hpos h
  | true =>
    simp only [hp, if_true] at h ⊢
    cases hd : is_digit (get_char c).1 with
    | false =>
      simp only [hd, Bool.not_false, if_true, Option.some.injEq] at h ⊢
      subst h
      exact follows_tok_err same pre k _ _ _ (by decide)
    | true =>
      simp only [hd, Bool.not_true, Bool.false_eq_true, if_false] at h ⊢
      cases hl : get_number_frac_loop A f1 value exp (get_char c).1 (get_char c).2 with
      | none => simp [hl] at h
      | some rl =>
        obtain ⟨v', hl2, hvv, hp3⟩ := frac_loop_gen A A' same hsame pre k t f1 f2 value value'
          exp _ _ rl hf hv hl
        simp only [hl] at h
        simp only [hl2]
        exact get_number_exp_gen A A' same hsame pre k t f1 f2 _ _ _ _ _ ra hf hvv hp3 h

theorem get_number_gen (A A' : Arith α) (same : Prop) (hsame : same → A' = A)
    (pre : List Char) (k : Nat) (t : EvalToken α) (c : EvalContext α U)
    (ra : EvalResult × EvalContext α U) (h : get_number A c = some ra) :
    FollowsTok same pre k ra (get_number A' (shifted pre k t c)) := by
  simp only [get_number] at h
  simp only [get_number, get_char_shifted]
  have hf : c.input.length + 1 ≤ (shifted pre k t c).input.length + 1 := by
    simp [shifted]
  have hv0 : same → A'.ofNat 0 = A.ofNat 0 := fun hs => by rw [hsame hs]
  have hp1 : 1 ≤ (get_char c).2.pos := by simp [get_char]
  cases hp : is_dp (get_char c).1 with
  | true =>
    simp only [hp, Bool.not_true, Bool.false_eq_true, if_false] at h ⊢
    exact get_number_frac_gen A A' same hsame pre k t _ _ _ _ _ _ _ ra hf hv0 hp1 h
  | false =>
    simp only [hp, Bool.not_false, if_true] at h ⊢
    cases hd : is_digit (get_char c).1 with
    | false =>
      simp only [hd, Bool.not_false, if_true, Option.some.injEq] at h ⊢
      subst h
      exact follows_tok_err same pre k _ _ _ (by decide)
    | true =>
      simp only [hd, Bool.not_true, Bool.false_eq_true, if_false] at h ⊢
      cases hl : get_number_int_loop A (c.input.length + 1) (A.ofNat 0) (get_char c).1
          (get_char c).2 with
      | none => simp [hl] at h
      | some rl =>
        obtain ⟨v', hl2, hvv, hp3⟩ := int_loop_gen A A' same hsame pre k t _ _ _ _ _ _ rl hf hv0
          hl
        simp only [hl] at h
        simp only [hl2]
        exact get_number_frac_gen A A' same hsame pre k t _ _ _ _ _ _ _ ra hf hvv hp3 h

end Eval

namespace Eval

variable {α U : Type}

theorem get_name_loop_gen (cfgA cfgB : Config)
    (hN : cfgB.EVAL_MAX_NAME_LENGTH = cfgA.EVAL_MAX_NAME_LENGTH)
    (pre : List Char) (k : Nat) (t : EvalToken α) :
    ∀ (f1 f2 : Nat) (name : List Char) (c : EvalContext α U)
      (r : EvalResult × List Char × EvalContext α U),
      f1 ≤ f2 → get_name_loop cfgA f1 name c = some r →
      get_name_loop cfgB f2 name (shifted pre k t c) =
          some (r.1, r.2.1, shifted pre k t r.2.2) ∧ 1 ≤ r.2.2.pos := by
  intro f1
  induction f1 with
  | zero => intro f2 name c r _ h; simp [get_name_loop] at h
  | succ f1 ih =>
    intro f2 name c r hf h
    obtain ⟨f2, rfl⟩ : ∃ f, f2 = f + 1 := ⟨f2 - 1, by omega⟩
    simp only [get_name_loop] at h
    simp only [get_name_loop, get_char_shifted, hN]
    cases hn : is_name (get_char c).1 with
    | false =>
      simp only [hn, Bool.not_false, if_true, Option.some.injEq] at h ⊢
      subst h
      exact ⟨rfl, by simp [get_char]⟩
    | true =>
      simp only [hn, Bool.not_true, Bool.false_eq_true, if_false] at h ⊢
      by_cases hfull : cfgA.EVAL_MAX_NAME_LENGTH - 1 ≤ name.length
      · simp only [ge_iff_le, hfull, if_true, Option.some.injEq] at h ⊢
        subst h
        exact ⟨rfl, by simp [get_char]⟩
      · simp only [ge_iff_le, hfull, if_false] at h ⊢
        exact ih f2 _ _ r (by omega) h

theorem get_name_gen (cfgA cfgB : Config)
    (hN : cfgB.EVAL_MAX_NAME_LENGTH = cfgA.EVAL_MAX_NAME_LENGTH) (same : Prop)
    (pre : List Char) (k : Nat) (t : EvalToken α) (c : EvalContext α U)
    (type : List Char → EvalToken α) (ra : EvalResult × EvalContext α U)
    (h : get_name cfgA c type = some ra) :
    FollowsTok same pre k ra (get_name cfgB (shifted pre k t c) type) := by
  simp only [get_name] at h ⊢
  cases hl : get_name_loop cfgA (c.input.length + 1) [] c with
  | none => simp [hl] at h
  | some rl =>
    obtain ⟨res, name, c1⟩ := rl
    obtain ⟨hl2, hp⟩ := get_name_loop_gen cfgA cfgB hN pre k t _
      ((shifted pre k t c).input.length + 1) [] c _ (by simp [shifted]) hl
    simp only [hl] at h
    simp only [hl2]
    by_cases hr : res = EvalResult.OK
    · subst hr
      simp only [ne_eq, not_true_eq_false, if_false, Option.some.injEq] at h ⊢
      subst h
      simp only [put_char_shifted pre k t c1 hp]
      exact ⟨_, rfl, fun _ => ⟨type name, rfl, tok_sim_refl same _⟩⟩
    · simp only [ne_eq, hr, not_false_eq_true, if_true, Option.some.injEq] at h ⊢
      subst h
      exact follows_tok_err same pre k _ _ _ hr

theorem put_get_char (c : EvalContext α U) : put_char (get_char c).2 = c := by
  simp [put_char, get_char]

theorem get_token_loop_gen (A A' : Arith α) (same : Prop) (hsame : same → A' = A)
    (cfgA cfgB : Config) (hN : cfgB.EVAL_MAX_NAME_LENGTH = cfgA.EVAL_MAX_NAME_LENGTH)
    (pre : List Char) (k : Nat) (t : EvalToken α) :
    ∀ (f1 f2 : Nat) (c : EvalContext α U) (ra : EvalResult × EvalContext α U),
      f1 ≤ f2 → get_token_loop A cfgA f1 c = some ra →
      FollowsTok same pre k ra (get_token_loop A' cfgB f2 (shifted pre k t c)) := by
  intro f1
  induction f1 with
  | zero => intro f2 c ra _ h; simp [get_token_loop] at h
  | succ f1 ih =>
    intro f2 c ra hf h
    obtain ⟨f2, rfl⟩ : ∃ f, f2 = f + 1 := ⟨f2 - 1, by omega⟩
    simp only [get_token_loop] at h
    simp only [get_token_loop, get_char_shifted]
    by_cases hc : (get_char c).1 = NUL
    · simp only [hc, if_true] at h ⊢
      simp only [Option.some.injEq, put_get_char_shifted] at h ⊢
      subst h
      exact ⟨_, rfl, fun _ => ⟨EvalToken.END, rfl, tok_sim_refl same _⟩⟩
    simp only [hc, if_false] at h ⊢
    clear hc
    by_cases hc : (get_char c).1 ≤ ' '
    · simp only [hc, if_true] at h ⊢
      exact ih f2 _ ra (by omega) h
    simp only [hc, if_false] at h ⊢
    clear hc
    by_cases hc : (is_digit (get_char c).1 || is_dp (get_char c).1) = true
    · simp only [hc, if_true] at h ⊢
      simp only [put_get_char_shifted, put_get_char] at h ⊢
      exact get_number_gen A A' same hsame pre k t c ra h
    simp only [hc, Bool.false_eq_true, if_false] at h ⊢
    clear hc
    by_cases hc : is_name_start (get_char c).1 = true
    · simp only [hc, if_true] at h ⊢
      simp only [put_get_char_shifted, put_get_char] at h ⊢
      exact get_name_gen cfgA cfgB hN same pre k t c _ ra h
    simp only [hc, Bool.false_eq_true, if_false] at h ⊢
    clear hc
    by_cases hc : (get_char c).1 = '$'
    · simp only [hc, if_true] at h ⊢
      exact get_name_gen cfgA cfgB hN same pre k t _ _ ra h
    simp only [hc, if_false] at h ⊢
    clear hc
    by_cases hc : (get_char c).1 = '>'
    · simp only [hc, if_true] at h ⊢
      by_cases hq : (get_char (get_char c).2).1 = '='
      · simp only [hq, if_true, Option.some.injEq] at h ⊢
        subst h
        exact ⟨_, rfl, fun _ => ⟨EvalToken.GE, rfl, tok_sim_refl same _⟩⟩
      · simp only [hq, if_false, Option.some.injEq, put_get_char_shifted] at h ⊢
        subst h
        exact ⟨_, rfl, fun _ => ⟨EvalToken.G, rfl, tok_sim_refl same _⟩⟩
    simp only [hc, if_false] at h ⊢
    clear hc
    by_cases hc : (get_char c).1 = '<'
    · simp only [hc, if_true] at h ⊢
      by_cases hq : (get_char (get_char c).2).1 = '='
      · simp only [hq, if_true, Option.some.injEq] at h ⊢
        subst h
        exact ⟨_, rfl, fun _ => ⟨EvalToken.LE, rfl, tok_sim_refl same _⟩⟩
      · simp only [hq, if_false, Option.some.injEq, put_get_char_shifted] at h ⊢
        subst h
        exact ⟨_, rfl, fun _ => ⟨EvalToken.L, rfl, tok_sim_refl same _⟩⟩
    simp only [hc, if_false] at h ⊢
    clear hc
    by_cases hc : (get_char c).1 = '='
    · simp only [hc, if_true] at h ⊢
      by_cases hq : (get_char (get_char c).2).1 = '='
      · simp only [hq, ne_eq, not_true_eq_false, if_false, Option.some.injEq] at h ⊢
        subst h
        exact ⟨_, rfl, fun _ => ⟨EvalToken.E, rfl, tok_sim_refl same _⟩⟩
      · simp only [hq, ne_eq, not_false_eq_true, if_true, Option.some.injEq] at h ⊢
        subst h
        refine ⟨_, rfl, fun _ => ⟨EvalToken.E, ?_, tok_sim_refl same _⟩⟩
        simp only [put_char, shifted, get_char]
        congr 1
    simp only [hc, if_false] at h ⊢
    clear hc
    by_cases hc : (get_char c).1 = '+'
    · simp only [hc, if_true] at h ⊢
      simp only [Option.some.injEq] at h
      subst h
      exact ⟨_, rfl, fun _ => ⟨EvalToken.ADD, rfl, tok_sim_refl same _⟩⟩
    simp only [hc, if_false] at h ⊢
    clear hc
    by_cases hc : (get_char c).1 = '-'
    · simp only [hc, if_true] at h ⊢
      simp only [Option.some.injEq] at h
      subst h
      exact ⟨_, rfl, fun _ => ⟨EvalToken.SUBTRACT, rfl, tok_sim_refl same _⟩⟩
    simp only [hc, if_false] at h ⊢
    clear hc
    by_cases hc : (get_char c).1 = '*'
    · simp only [hc, if_true] at h ⊢
      simp only [Option.some.injEq] at h
      subst h
      exact ⟨_, rfl, fun _ => ⟨EvalToken.MULTIPLY, rfl, tok_sim_refl same _⟩⟩
    simp only [hc, if_false] at h ⊢
    clear hc
    by_cases hc : (get_char c).1 = '/'
    · simp only [hc, if_true] at h ⊢
      simp only [Option.some.injEq] at h
      subst h
      exact ⟨_, rfl, fun _ => ⟨EvalToken.DIVIDE, rfl, tok_sim_refl same _⟩⟩
    simp only [hc, if_false] at h ⊢
    clear hc
    by_cases hc : (get_char c).1 = '('
    · simp only [hc, if_true] at h ⊢
      simp only [Option.some.injEq] at h
      subst h
      exact ⟨_, rfl, fun _ => ⟨EvalToken.OPEN_BRACKET, rfl, tok_sim_refl same _⟩⟩
    simp only [hc, if_false] at h ⊢
    clear hc
    by_cases hc : (get_char c).1 = ')'
    · simp only [hc, if_true] at h ⊢
      simp only [Option.some.injEq] at h
      subst h
      exact ⟨_, rfl, fun _ => ⟨EvalToken.CLOSE_BRACKET, rfl, tok_sim_refl same _⟩⟩
    simp only [hc, if_false] at h ⊢
    clear hc
    simp only [Option.some.injEq] at h ⊢
    subst h
    exact follows_tok_err same pre k _ _ _ (by decide)

/-- The lexer of the second run follows the lexer of the first, whatever the
token the second run holds before the call. -/
theorem get_token_gen (A A' : Arith α) (same : Prop) (hsame : same → A' = A)
    (cfgA cfgB : Config) (hN : cfgB.EVAL_MAX_NAME_LENGTH = cfgA.EVAL_MAX_NAME_LENGTH)
    (pre : List Char) (k : Nat) (t : EvalToken α) (c : EvalContext α U)
    (ra : EvalResult × EvalContext α U) (h : get_token A cfgA c = some ra) :
    FollowsTok same pre k ra (get_token A' cfgB (shifted pre k t c)) :=
  get_token_loop_gen A A' same hsame cfgA cfgB hN pre k t _ _ c ra (by simp [shifted]) h

theorem get_token_rel (A A' : Arith α) (same : Prop) (hsame : same → A' = A)
    (cfgA cfgB : Config) (hN : cfgB.EVAL_MAX_NAME_LENGTH = cfgA.EVAL_MAX_NAME_LENGTH)
    (pre : List Char) (k : Nat) (c c' : EvalContext α U) (hrel : Rel same pre k c c')
    (ra : EvalResult × EvalContext α U) (h : get_token A cfgA c = some ra) :
    FollowsTok same pre k ra (get_token A' cfgB c') := by
  obtain ⟨t', rfl, -⟩ := hrel
  exact get_token_gen A A' same hsame cfgA cfgB hN pre k t' c ra h

end Eval

namespace Eval

variable {α U : Type}

/-! ## The parser of the two runs -/

theorem tok_sim_number_inv {same : Prop} {v : α} {t' : EvalToken α}
    (h : tok_sim same (EvalToken.NUMBER v) t') :
    ∃ v', t' = EvalToken.NUMBER v' ∧ (same → v' = v) := by
  rcases h with h | ⟨hn, w, w', h1, h2⟩
  · exact ⟨v, h, fun _ => rfl⟩
  · exact ⟨w', h2, fun hs => absurd hs hn⟩

theorem tok_sim_other {same : Prop} {t t' : EvalToken α} (h : tok_sim same t t')
    (hn : t.type ≠ EvalTokenType.NUMBER) : t' = t := by
  rcases h with h | ⟨-, w, w', h1, h2⟩
  · exact h
  · rw [h1] at hn
    exact absurd rfl hn

theorem follows_err (same : Prop) (pre : List Char) (k : Nat) (over : Prop) (r : EvalResult)
    (x x' : EvalContext α U) (v v' : α) (hr : r ≠ EvalResult.OK) :
    Follows same pre k over (r, x, v) (some (r, x', v')) :=
  Or.inl ⟨x', v', rfl, fun h => absurd h hr⟩

theorem follows_ok (same : Prop) (pre : List Char) (k : Nat) (over : Prop)
    (x x' : EvalContext α U) (v v' : α) (hrel : Rel same pre k x x') (hv : same → v' = v) :
    Follows same pre k over (EvalResult.OK, x, v) (some (EvalResult.OK, x', v')) :=
  Or.inl ⟨x', v', rfl, fun _ => ⟨hrel, hv⟩⟩

theorem follows_over (same : Prop) (pre : List Char) (k : Nat) (over : Prop)
    (ra : EvalResult × EvalContext α U × α) (x' : EvalContext α U) (v' : α) (ho : over) :
    Follows same pre k over ra (some (EvalResult.STACK_OVERFLOW, x', v')) :=
  Or.inr ⟨ho, x', v', rfl⟩

/-- The last step of `parse_term`, the token after the term, in the two runs. -/
theorem follows_last_token (A A' : Arith α) (same : Prop) (hsame : same → A' = A)
    (cfgA cfgB : Config) (hN : cfgB.EVAL_MAX_NAME_LENGTH = cfgA.EVAL_MAX_NAME_LENGTH)
    (pre : List Char) (k : Nat) (over : Prop) (c : EvalContext α U) (t : EvalToken α)
    (v v' : α) (hv : same → v' = v) (ra : EvalResult × EvalContext α U × α)
    (h : (match get_token A cfgA c with
      | none => none
      | some (result, ctx) => some (result, ctx, v)) = some ra) :
    Follows same pre k over ra
      (match get_token A' cfgB (shifted pre k t c) with
      | none => none
      | some (result, ctx) => some (result, ctx, v')) := by
  cases hg : get_token A cfgA c with
  | none => simp [hg] at h
  | some p =>
    obtain ⟨res, c1⟩ := p
    obtain ⟨x', hB, hr'⟩ := get_token_gen A A' same hsame cfgA cfgB hN pre k t c _ hg
    simp only [hg, Option.some.injEq] at h
    subst h
    simp only [hB]
    exact Or.inl ⟨x', v', rfl, fun hr => ⟨hr' hr, hv⟩⟩

theorem parse_term_gen (A A' : Arith α) (same : Prop) (hsame : same → A' = A)
    (cfgA cfgB : Config) (hN : cfgB.EVAL_MAX_NAME_LENGTH = cfgA.EVAL_MAX_NAME_LENGTH)
    (pre : List Char) (k : Nat) (over : Prop) (l : Nat) (hooks : Option (EvalHooks α U))
    (hblind : ¬ same → BlindHooks hooks)
    (pe pe' : EvalContext α U → α → Option (EvalResult × EvalContext α U × α))
    (hpe : GenPE same pre k over l hooks pe pe')
    (c c' : EvalContext α U) (out out' : α) (ra : EvalResult × EvalContext α U × α)
    (hl : c.stack_level = l) (hh : c.hooks = hooks) (hrel : Rel same pre k c c')
    (hout : same → out' = out) (h : parse_term A cfgA pe c out = some ra) :
    Follows same pre k over ra (parse_term A' cfgB pe' c' out') := by
  obtain ⟨t', rfl, htok'⟩ := hrel
  cases htok : c.token with
  | NUMBER number =>
    rw [htok] at htok'
    obtain ⟨v', rfl, hv⟩ := tok_sim_number_inv htok'
    simp only [parse_term, htok] at h
    simp only [parse_term, shifted]
    exact follows_last_token A A' same hsame cfgA cfgB hN pre k over c _ _ _ hv ra h
  | OPEN_BRACKET =>
    rw [htok] at htok'
    have ht' := tok_sim_other htok' (by simp [EvalToken.type])
    subst ht'
    simp only [parse_term, htok] at h
    simp only [parse_term, shifted]
    cases hg : get_token A cfgA c with
    | none => simp [hg] at h
    | some p =>
      obtain ⟨res, c1⟩ := p
      have f1 := get_token_frame A cfgA _ _ hg
      obtain ⟨x1, hB1, hr1⟩ := get_token_gen A A' same hsame cfgA cfgB hN pre k
        EvalToken.OPEN_BRACKET c _ hg
      simp only [shifted] at hB1
      simp only [hg] at h
      simp only [hB1]
      by_cases hr : res = EvalResult.OK
      swap
      · simp only [ne_eq, hr, not_false_eq_true, if_true, Option.some.injEq] at h ⊢
        subst h
        exact follows_err same pre k over _ _ _ _ _ hr
      subst hr
      simp only [ne_eq, not_true_eq_false, if_false] at h ⊢
      cases hp : pe c1 out with
      | none => simp [hp] at h
      | some q =>
        obtain ⟨r2, c2, v2⟩ := q
        simp only [hp] at h
        rcases hpe c1 x1 out out' _ (by rw [f1.2.2.2, hl]) (by rw [f1.1, hh]) (hr1 rfl) hp with
          ⟨x2, v2', hB2, hok2⟩ | ⟨ho, x2, v2', hB2⟩
        · simp only [hB2]
          by_cases hr : r2 = EvalResult.OK
          swap
          · simp only [hr, if_true, not_false_eq_true, Option.some.injEq] at h ⊢
            subst h
            exact follows_err same pre k over _ _ _ _ _ hr
          subst hr
          obtain ⟨hrel2, hv2⟩ := hok2 rfl
          obtain ⟨t2, rfl, ht2⟩ := hrel2
          have hty := tok_sim_type ht2
          simp only [shifted] at hty ⊢
          simp only [not_true_eq_false, if_false, hty] at h ⊢
          by_cases hcl : c2.token.type = EvalTokenType.CLOSE_BRACKET
          swap
          · simp only [hcl, not_false_eq_true, if_true, Option.some.injEq] at h ⊢
            subst h
            exact follows_err same pre k over _ _ _ _ _ (by decide)
          simp only [hcl, not_true_eq_false, if_false] at h ⊢
          exact follows_last_token A A' same hsame cfgA cfgB hN pre k over c2 t2 _ _ hv2 ra h
        · simp only [hB2]
          exact follows_over same pre k over ra _ _ ho
  | FUNC name =>
    rw [htok] at htok'
    have ht' := tok_sim_other htok' (by simp [EvalToken.type])
    subst ht'
    simp only [parse_term, htok] at h
    simp only [parse_term, shifted]
    cases hgf : c.hooks.bind (fun hooks => hooks.get_func) with
    | none =>
      simp only [hgf, Option.some.injEq] at h ⊢
      subst h
      exact follows_err same pre k over _ _ _ _ _ (by decide)
    | some gf =>
      simp only [hgf] at h ⊢
      cases hfn : gf name c.user_data with
      | none =>
        simp only [hfn, Option.some.injEq] at h ⊢
        subst h
        exact follows_err same pre k over _ _ _ _ _ (by decide)
      | some func =>
        simp only [hfn] at h ⊢
        cases hg : get_token A cfgA c with
        | none => simp [hg] at h
        | some p =>
          obtain ⟨res, c1⟩ := p
          have f1 := get_token_frame A cfgA _ _ hg
          obtain ⟨x1, hB1, hr1⟩ := get_token_gen A A' same hsame cfgA cfgB hN pre k
            (EvalToken.FUNC name) c _ hg
          simp only [shifted] at hB1
          simp only [hg] at h
          simp only [hB1]
          by_cases hr : res = EvalResult.OK
          swap
          · simp only [ne_eq, hr, not_false_eq_true, if_true, Option.some.injEq] at h ⊢
            subst h
            exact follows_err same pre k over _ _ _ _ _ hr
          subst hr
          have hty1 : x1.token.type = c1.token.type := by
            obtain ⟨t2, rfl, ht2⟩ := hr1 rfl
            exact tok_sim_type ht2
          simp only [ne_eq, not_true_eq_false, if_false, hty1] at h ⊢
          by_cases hop : c1.token.type = EvalTokenType.OPEN_BRACKET
          swap
          · simp only [hop, not_false_eq_true, if_true, Option.some.injEq] at h ⊢
            subst h
            exact follows_err same pre k over _ _ _ _ _ (by decide)
          simp only [hop, not_true_eq_false, if_false] at h ⊢
          cases hg2 : get_token A cfgA c1 with
          | none => simp [hg2] at h
          | some p2 =>
            obtain ⟨res2, c2⟩ := p2
            have f2 := get_token_frame A cfgA _ _ hg2
            obtain ⟨x2, hB2, hr2⟩ := get_token_rel A A' same hsame cfgA cfgB hN pre k c1 x1
              (hr1 rfl) _ hg2
            simp only [hg2] at h
            simp only [hB2]
            by_cases hr : res2 = EvalResult.OK
            swap
            · simp only [hr, not_false_eq_true, if_true, Option.some.injEq] at h ⊢
              subst h
              exact follows_err same pre k over _ _ _ _ _ hr
            subst hr
            simp only [not_true_eq_false, if_false] at h ⊢
            cases hp : pe c2 (A.ofNat 0) with
            | none => simp [hp] at h
            | some q =>
              obtain ⟨r3, c3, arg⟩ := q
              simp only [hp] at h
              rcases hpe c2 x2 (A.ofNat 0) (A'.ofNat 0) _ (by rw [f2.2.2.2, f1.2.2.2, hl])
                (by rw [f2.1, f1.1, hh]) (hr2 rfl) hp with
                ⟨x3, arg', hB3, hok3⟩ | ⟨ho, x3, arg', hB3⟩
              · simp only [hB3]
                by_cases hr : r3 = EvalResult.OK
                swap
                · simp only [hr, not_false_eq_true, if_true, Option.some.injEq] at h ⊢
                  subst h
                  exact follows_err same pre k over _ _ _ _ _ hr
                subst hr
                obtain ⟨hrel3, harg⟩ := hok3 rfl
                obtain ⟨t3, rfl, ht3⟩ := hrel3
                have hty3 := tok_sim_type ht3
                simp only [shifted] at hty3 ⊢
                simp only [not_true_eq_false, if_false, hty3] at h ⊢
                by_cases hcl : c3.token.type = EvalTokenType.CLOSE_BRACKET
                swap
                · simp only [hcl, not_false_eq_true, if_true, Option.some.injEq] at h ⊢
                  subst h
                  exact follows_err same pre k over _ _ _ _ _ (by decide)
                simp only [hcl, not_true_eq_false, if_false] at h ⊢
                have hcode : (func arg' c3.user_data out').1 = (func arg c3.user_data out).1 := by
                  by_cases hs : same
                  · rw [harg hs, hout hs]
                  · cases hhk : c.hooks with
                    | none => simp [hhk] at hgf
                    | some hk =>
                      simp only [hhk, Option.bind_some] at hgf
                      exact ((hblind hs) hk (by rw [← hh, hhk])).1 gf hgf name c.user_data func
                        hfn arg arg' c3.user_data out out'
                have hval : same → (func arg' c3.user_data out').2 =
                    (func arg c3.user_data out).2 := by
                  intro hs
                  rw [harg hs, hout hs]
                rw [hcode]
                by_cases hr : (func arg c3.user_data out).1 = EvalResult.OK
                swap
                · simp only [hr, not_false_eq_true, if_true, Option.some.injEq] at h ⊢
                  subst h
                  exact follows_err same pre k over _ _ _ _ _ hr
                simp only [hr, not_true_eq_false, if_false] at h ⊢
                exact follows_last_token A A' same hsame cfgA cfgB hN pre k over c3 t3 _ _
                  hval ra h
              · simp only [hB3]
                exact follows_over same pre k over ra _ _ ho
  | VARIABLE name =>
    rw [htok] at htok'
    have ht' := tok_sim_other htok' (by simp [EvalToken.type])
    subst ht'
    simp only [parse_term, htok] at h
    simp only [parse_term, shifted]
    cases hgv : c.hooks.bind (fun hooks => hooks.get_variable) with
    | none =>
      simp only [hgv, Option.some.injEq] at h ⊢
      subst h
      exact follows_err same pre k over _ _ _ _ _ (by decide)
    | some gv =>
      simp only [hgv] at h ⊢
      have hcode : (gv name c.user_data out').1 = (gv name c.user_data out).1 := by
        by_cases hs : same
        · rw [hout hs]
        · cases hhk : c.hooks with
          | none => simp [hhk] at hgv
          | some hk =>
            simp only [hhk, Option.bind_some] at hgv
            exact ((hblind hs) hk (by rw [← hh, hhk])).2 gv hgv name c.user_data out out'
      have hval : same → (gv name c.user_data out').2 = (gv name c.user_data out).2 := by
        intro hs
        rw [hout hs]
      rw [hcode]
      by_cases hr : (gv name c.user_data out).1 = EvalResult.OK
      swap
      · simp only [hr, ne_eq, not_false_eq_true, if_true, Option.some.injEq] at h ⊢
        subst h
        exact follows_err same pre k over _ _ _ _ _ hr
      simp only [hr, ne_eq, not_true_eq_false, if_false] at h ⊢
      exact follows_last_token A A' same hsame cfgA cfgB hN pre k over c _ _ _ hval ra h
  | _ =>
    rw [htok] at htok'
    have ht' := tok_sim_other htok' (by simp [EvalToken.type])
    subst ht'
    simp only [parse_term, htok, Option.some.injEq] at h
    subst h
    simp only [parse_term, shifted]
    exact follows_err same pre k over _ _ _ _ _ (by decide)

end Eval

namespace Eval

variable {α U : Type}

theorem parse_unary_loop_gen (A A' : Arith α) (same : Prop) (hsame : same → A' = A)
    (cfgA cfgB : Config) (hN : cfgB.EVAL_MAX_NAME_LENGTH = cfgA.EVAL_MAX_NAME_LENGTH)
    (pre : List Char) (k : Nat) :
    ∀ (f1 f2 : Nat) (neg : Bool) (c c' : EvalContext α U)
      (r : EvalResult × Bool × EvalContext α U),
      f1 ≤ f2 → Rel same pre k c c' → parse_unary_loop A cfgA f1 neg c = some r →
      ∃ x', parse_unary_loop A' cfgB f2 neg c' = some (r.1, r.2.1, x') ∧
        (r.1 = EvalResult.OK → Rel same pre k r.2.2 x') := by
  intro f1
  induction f1 with
  | zero => intro f2 neg c c' r _ _ h; simp [parse_unary_loop] at h
  | succ f1 ih =>
    intro f2 neg c c' r hf hrel h
    obtain ⟨f2, rfl⟩ : ∃ f, f2 = f + 1 := ⟨f2 - 1, by omega⟩
    have hty : c'.token.type = c.token.type := by
      obtain ⟨t2, rfl, ht2⟩ := hrel
      exact tok_sim_type ht2
    simp only [parse_unary_loop] at h
    simp only [parse_unary_loop, hty]
    by_cases ht : c.token.type = EvalTokenType.SUBTRACT
    · simp only [ht, if_true] at h ⊢
      cases hg : get_token A cfgA c with
      | none => simp [hg] at h
      | some p =>
        obtain ⟨res, c1⟩ := p
        obtain ⟨x1, hB1, hr1⟩ := get_token_rel A A' same hsame cfgA cfgB hN pre k c c' hrel _ hg
        simp only [hg] at h
        simp only [hB1]
        by_cases hr : res = EvalResult.OK
        · subst hr
          simp only [ne_eq, not_true_eq_false, if_false] at h ⊢
          exact ih f2 _ c1 x1 r (by omega) (hr1 rfl) h
        · simp only [ne_eq, hr, not_false_eq_true, if_true, Option.some.injEq] at h ⊢
          subst h
          exact ⟨x1, rfl, fun h2 => absurd h2 hr⟩
    · simp only [ht, if_false, Option.some.injEq] at h ⊢
      subst h
      exact ⟨c', rfl, fun _ => hrel⟩

theorem parse_unary_gen (A A' : Arith α) (same : Prop) (hsame : same → A' = A)
    (cfgA cfgB : Config) (hN : cfgB.EVAL_MAX_NAME_LENGTH = cfgA.EVAL_MAX_NAME_LENGTH)
    (pre : List Char) (k : Nat) (over : Prop) (l : Nat) (hooks : Option (EvalHooks α U))
    (hblind : ¬ same → BlindHooks hooks)
    (pe pe' : EvalContext α U → α → Option (EvalResult × EvalContext α U × α))
    (hpe : GenPE same pre k over l hooks pe pe') :
    GenPE same pre k over l hooks (parse_unary A cfgA pe) (parse_unary A' cfgB pe') := by
  intro c c' out out' ra hl hh hrel h
  have hlen : c.input.length + 1 ≤ c'.input.length + 1 := by
    obtain ⟨t2, rfl, -⟩ := hrel
    simp [shifted]
  simp only [parse_unary] at h ⊢
  cases hlp : parse_unary_loop A cfgA (c.input.length + 1) false c with
  | none => simp [hlp] at h
  | some p =>
    obtain ⟨res, neg, c1⟩ := p
    have f1 := parse_unary_loop_frame A cfgA _ _ _ _ hlp
    obtain ⟨x1, hB1, hr1⟩ := parse_unary_loop_gen A A' same hsame cfgA cfgB hN pre k _ _ false
      c c' _ hlen hrel hlp
    simp only [hlp] at h
    simp only [hB1]
    by_cases hr : res = EvalResult.OK
    swap
    · simp only [ne_eq, hr, not_false_eq_true, if_true, Option.some.injEq] at h ⊢
      subst h
      exact follows_err same pre k over _ _ _ _ _ hr
    subst hr
    simp only [ne_eq, not_true_eq_false, if_false] at h ⊢
    cases hp : parse_term A cfgA pe c1 (A.ofNat 0) with
    | none => simp [hp] at h
    | some q =>
      obtain ⟨r2, c2, v2⟩ := q
      simp only [hp] at h
      rcases parse_term_gen A A' same hsame cfgA cfgB hN pre k over l hooks hblind pe pe' hpe
        c1 x1 (A.ofNat 0) (A'.ofNat 0) _ (by rw [f1.2.2.2, hl]) (by rw [f1.1, hh]) (hr1 rfl)
        (fun hs => by rw [hsame hs]) hp with ⟨x2, v2', hB2, hok2⟩ | ⟨ho, x2, v2', hB2⟩
      · simp only [hB2]
        by_cases hr : r2 = EvalResult.OK
        swap
        · simp only [hr, not_false_eq_true, if_true, Option.some.injEq] at h ⊢
          subst h
          exact follows_err same pre k over _ _ _ _ _ hr
        subst hr
        obtain ⟨hrel2, hv2⟩ := hok2 rfl
        simp only [not_true_eq_false, if_false, Option.some.injEq] at h ⊢
        subst h
        refine follows_ok same pre k over _ _ _ _ hrel2 (fun hs => ?_)
        rw [hsame hs, hv2 hs]
      · simp only [hB2]
        exact follows_over same pre k over ra _ _ ho

theorem parse_product_loop_gen (A A' : Arith α) (same : Prop) (hsame : same → A' = A)
    (cfgA cfgB : Config) (hN : cfgB.EVAL_MAX_NAME_LENGTH = cfgA.EVAL_MAX_NAME_LENGTH)
    (pre : List Char) (k : Nat) (over : Prop) (l : Nat) (hooks : Option (EvalHooks α U))
    (hblind : ¬ same → BlindHooks hooks)
    (pe pe' : EvalContext α U → α → Option (EvalResult × EvalContext α U × α))
    (hpef : PEFrame pe) (hpe : GenPE same pre k over l hooks pe pe') :
    ∀ (f1 f2 : Nat) (c c' : EvalContext α U) (lhs lhs' rhs rhs' : α)
      (ra : EvalResult × EvalContext α U × α),
      f1 ≤ f2 → c.stack_level = l → c.hooks = hooks → Rel same pre k c c' →
      (same → lhs' = lhs) →
      parse_product_loop A cfgA pe f1 c lhs rhs = some ra →
      Follows same pre k over ra (parse_product_loop A' cfgB pe' f2 c' lhs' rhs') := by
  intro f1
  induction f1 with
  | zero => intro f2 c c' lhs lhs' rhs rhs' ra _ _ _ _ _ h; simp [parse_product_loop] at h
  | succ f1 ih =>
    intro f2 c c' lhs lhs' rhs rhs' ra hf hl hh hrel hlhs h
    obtain ⟨f2, rfl⟩ : ∃ f, f2 = f + 1 := ⟨f2 - 1, by omega⟩
    have hty : c'.token.type = c.token.type := by
      obtain ⟨t2, rfl, ht2⟩ := hrel
      exact tok_sim_type ht2
    have hstep : ∀ (op op' : α → α → α),
        (∀ a a' b b', (same → a' = a) → (same → b' = b) → same → op' a' b' = op a b) →
        (match get_token A cfgA c with
          | none => none
          | some (result, ctx) =>
            if result ≠ EvalResult.OK then some (result, ctx, lhs)
            else
              match parse_unary A cfgA pe ctx rhs with
              | none => none
              | some (result, ctx, rhs) =>
                if result ≠ EvalResult.OK then some (result, ctx, lhs)
                else parse_product_loop A cfgA pe f1 ctx (op lhs rhs) rhs) = some ra →
        Follows same pre k over ra
          (match get_token A' cfgB c' with
          | none => none
          | some (result, ctx) =>
            if result ≠ EvalResult.OK then some (result, ctx, lhs')
            else
              match parse_unary A' cfgB pe' ctx rhs' with
              | none => none
              | some (result, ctx, rhs) =>
                if result ≠ EvalResult.OK then some (result, ctx, lhs')
                else parse_product_loop A' cfgB pe' f2 ctx (op' lhs' rhs) rhs) := by
      intro op op' hop h
      cases hg : get_token A cfgA c with
      | none => simp [hg] at h
      | some p =>
        obtain ⟨res, c1⟩ := p
        have f1' := get_token_frame A cfgA _ _ hg
        obtain ⟨x1, hB1, hr1⟩ := get_token_rel A A' same hsame cfgA cfgB hN pre k c c' hrel _ hg
        simp only [hg] at h
        simp only [hB1]
        by_cases hr : res = EvalResult.OK
        swap
        · simp only [ne_eq, hr, not_false_eq_true, if_true, Option.some.injEq] at h ⊢
          subst h
          exact follows_err same pre k over _ _ _ _ _ hr
        subst hr
        simp only [ne_eq, not_true_eq_false, if_false] at h ⊢
        cases hu : parse_unary A cfgA pe c1 rhs with
        | none => simp [hu] at h
        | some q =>
          obtain ⟨r2, c2, v2⟩ := q
          have f2' := parse_unary_frame A cfgA pe hpef _ _ _ _ _ hu
          simp only [hu] at h
          rcases parse_unary_gen A A' same hsame cfgA cfgB hN pre k over l hooks hblind pe pe'
            hpe c1 x1 rhs rhs' _ (by rw [f1'.2.2.2, hl]) (by rw [f1'.1, hh]) (hr1 rfl) hu with
            ⟨x2, v2', hB2, hok2⟩ | ⟨ho, x2, v2', hB2⟩
          · simp only [hB2]
            by_cases hr : r2 = EvalResult.OK
            swap
            · simp only [hr, not_false_eq_true, if_true, Option.some.injEq] at h ⊢
              subst h
              exact follows_err same pre k over _ _ _ _ _ hr
            subst hr
            obtain ⟨hrel2, hv2⟩ := hok2 rfl
            simp only [not_true_eq_false, if_false] at h ⊢
            exact ih f2 c2 x2 _ _ v2 v2' ra (by omega) (by rw [f2'.2.2.2, f1'.2.2.2, hl])
              (by rw [f2'.1, f1'.1, hh]) hrel2 (hop _ _ _ _ hlhs hv2) h
          · simp only [hB2]
            exact follows_over same pre k over ra _ _ ho
    simp only [parse_product_loop] at h
    simp only [parse_product_loop, hty]
    by_cases h1 : c.token.type = EvalTokenType.MULTIPLY
    · simp only [h1, if_true] at h ⊢
      exact hstep A.mul A'.mul (fun a a' b b' ha hb hs => by rw [hsame hs, ha hs, hb hs]) h
    simp only [h1, if_false] at h ⊢
    by_cases h2 : c.token.type = EvalTokenType.DIVIDE
    · simp only [h2, if_true] at h ⊢
      exact hstep A.div A'.div (fun a a' b b' ha hb hs => by rw [hsame hs, ha hs, hb hs]) h
    simp only [h2, if_false] at h ⊢
    by_cases h3 : c.token.type = EvalTokenType.E ∨ c.token.type = EvalTokenType.LE ∨
        c.token.type = EvalTokenType.L ∨ c.token.type = EvalTokenType.GE ∨
        c.token.type = EvalTokenType.G
    · rw [if_pos h3] at h ⊢
      exact hstep (relational A c.token.type) (relational A' c.token.type)
        (fun a a' b b' ha hb hs => by rw [hsame hs, ha hs, hb hs]) h
    · rw [if_neg h3] at h ⊢
      simp only [Option.some.injEq] at h
      subst h
      exact follows_ok same pre k over _ _ _ _ hrel hlhs

theorem parse_product_gen (A A' : Arith α) (same : Prop) (hsame : same → A' = A)
    (cfgA cfgB : Config) (hN : cfgB.EVAL_MAX_NAME_LENGTH = cfgA.EVAL_MAX_NAME_LENGTH)
    (pre : List Char) (k : Nat) (over : Prop) (l : Nat) (hooks : Option (EvalHooks α U))
    (hblind : ¬ same → BlindHooks hooks)
    (pe pe' : EvalContext α U → α → Option (EvalResult × EvalContext α U × α))
    (hpef : PEFrame pe) (hpe : GenPE same pre k over l hooks pe pe') :
    GenPE same pre k over l hooks (parse_product A cfgA pe) (parse_product A' cfgB pe') := by
  intro c c' out out' ra hl hh hrel h
  have hlen : c.input.length + 1 ≤ c'.input.length + 1 := by
    obtain ⟨t2, rfl, -⟩ := hrel
    simp [shifted]
  simp only [parse_product] at h ⊢
  cases hu : parse_unary A cfgA pe c (A.ofNat 0) with
  | none => simp [hu] at h
  | some q =>
    obtain ⟨r2, c2, v2⟩ := q
    have f2' := parse_unary_frame A cfgA pe hpef _ _ _ _ _ hu
    simp only [hu] at h
    rcases parse_unary_gen A A' same hsame cfgA cfgB hN pre k over l hooks hblind pe pe'
      hpe c c' (A.ofNat 0) (A'.ofNat 0) _ hl hh hrel hu with
      ⟨x2, v2', hB2, hok2⟩ | ⟨ho, x2, v2', hB2⟩
    · simp only [hB2]
      by_cases hr : r2 = EvalResult.OK
      swap
      · simp only [ne_eq, hr, not_false_eq_true, if_true, Option.some.injEq] at h ⊢
        subst h
        exact follows_err same pre k over _ _ _ _ _ hr
      subst hr
      obtain ⟨hrel2, hv2⟩ := hok2 rfl
      simp only [ne_eq, not_true_eq_false, if_false] at h ⊢
      cases hlp : parse_product_loop A cfgA pe (c.input.length + 1) c2 v2 (A.ofNat 0) with
      | none => simp [hlp] at h
      | some q3 =>
        obtain ⟨r3, c3, v3⟩ := q3
        simp only [hlp] at h
        rcases parse_product_loop_gen A A' same hsame cfgA cfgB hN pre k over l hooks hblind
          pe pe' hpef hpe _ (c'.input.length + 1) c2 x2 v2 v2' (A.ofNat 0) (A'.ofNat 0) _ hlen
          (by rw [f2'.2.2.2, hl]) (by rw [f2'.1, hh]) hrel2 hv2 hlp with
          ⟨x3, v3', hB3, hok3⟩ | ⟨ho, x3, v3', hB3⟩
        · simp only [hB3]
          by_cases hr : r3 = EvalResult.OK
          swap
          · simp only [hr, not_false_eq_true, if_true, Option.some.injEq] at h ⊢
            subst h
            exact follows_err same pre k over _ _ _ _ _ hr
          subst hr
          obtain ⟨hrel3, hv3⟩ := hok3 rfl
          simp only [not_true_eq_false, if_false, Option.some.injEq] at h ⊢
          subst h
          exact follows_ok same pre k over _ _ _ _ hrel3 hv3
        · simp only [hB3]
          exact follows_over same pre k over ra _ _ ho
    · simp only [hB2]
      exact follows_over same pre k over ra _ _ ho

end Eval

namespace Eval

variable {α U : Type}

theorem parse_sum_loop_gen (A A' : Arith α) (same : Prop) (hsame : same → A' = A)
    (cfgA cfgB : Config) (hN : cfgB.EVAL_MAX_NAME_LENGTH = cfgA.EVAL_MAX_NAME_LENGTH)
    (pre : List Char) (k : Nat) (over : Prop) (l : Nat) (hooks : Option (EvalHooks α U))
    (hblind : ¬ same → BlindHooks hooks)
    (pe pe' : EvalContext α U → α → Option (EvalResult × EvalContext α U × α))
    (hpef : PEFrame pe) (hpe : GenPE same pre k over l hooks pe pe') :
    ∀ (f1 f2 : Nat) (c c' : EvalContext α U) (lhs lhs' rhs rhs' : α)
      (ra : EvalResult × EvalContext α U × α),
      f1 ≤ f2 → c.stack_level = l → c.hooks = hooks → Rel same pre k c c' →
      (same → lhs' = lhs) →
      parse_sum_loop A cfgA pe f1 c lhs rhs = some ra →
      Follows same pre k over ra (parse_sum_loop A' cfgB pe' f2 c' lhs' rhs') := by
  intro f1
  induction f1 with
  | zero => intro f2 c c' lhs lhs' rhs rhs' ra _ _ _ _ _ h; simp [parse_sum_loop] at h
  | succ f1 ih =>
    intro f2 c c' lhs lhs' rhs rhs' ra hf hl hh hrel hlhs h
    obtain ⟨f2, rfl⟩ : ∃ f, f2 = f + 1 := ⟨f2 - 1, by omega⟩
    have hty : c'.token.type = c.token.type := by
      obtain ⟨t2, rfl, ht2⟩ := hrel
      exact tok_sim_type ht2
    have hstep : ∀ (op op' : α → α → α),
        (∀ a a' b b', (same → a' = a) → (same → b' = b) → same → op' a' b' = op a b) →
        (match get_token A cfgA c with
          | none => none
          | some (result, ctx) =>
            if result ≠ EvalResult.OK then some (result, ctx, lhs)
            else
              match parse_product A cfgA pe ctx rhs with
              | none => none
              | some (result, ctx, rhs) =>
                if result ≠ EvalResult.OK then some (result, ctx, lhs)
                else parse_sum_loop A cfgA pe f1 ctx (op lhs rhs) rhs) = some ra →
        Follows same pre k over ra
          (match get_token A' cfgB c' with
          | none => none
          | some (result, ctx) =>
            if result ≠ EvalResult.OK then some (result, ctx, lhs')
            else
              match parse_product A' cfgB pe' ctx rhs' with
              | none => none
              | some (result, ctx, rhs) =>
                if result ≠ EvalResult.OK then some (result, ctx, lhs')
                else parse_sum_loop A' cfgB pe' f2 ctx (op' lhs' rhs) rhs) := by
      intro op op' hop h
      cases hg : get_token A cfgA c with
      | none => simp [hg] at h
      | some p =>
        obtain ⟨res, c1⟩ := p
        have f1' := get_token_frame A cfgA _ _ hg
        obtain ⟨x1, hB1, hr1⟩ := get_token_rel A A' same hsame cfgA cfgB hN pre k c c' hrel _ hg
        simp only [hg] at h
        simp only [hB1]
        by_cases hr : res = EvalResult.OK
        swap
        · simp only [ne_eq, hr, not_false_eq_true, if_true, Option.some.injEq] at h ⊢
          subst h
          exact follows_err same pre k over _ _ _ _ _ hr
        subst hr
        simp only [ne_eq, not_true_eq_false, if_false] at h ⊢
        cases hu : parse_product A cfgA pe c1 rhs with
        | none => simp [hu] at h
        | some q =>
          obtain ⟨r2, c2, v2⟩ := q
          have f2' := parse_product_frame A cfgA pe hpef _ _ _ _ _ hu
          simp only [hu] at h
          rcases parse_product_gen A A' same hsame cfgA cfgB hN pre k over l hooks hblind pe pe'
            hpef hpe c1 x1 rhs rhs' _ (by rw [f1'.2.2.2, hl]) (by rw [f1'.1, hh]) (hr1 rfl)
            hu with ⟨x2, v2', hB2, hok2⟩ | ⟨ho, x2, v2', hB2⟩
          · simp only [hB2]
            by_cases hr : r2 = EvalResult.OK
            swap
            · simp only [hr, not_false_eq_true, if_true, Option.some.injEq] at h ⊢
              subst h
              exact follows_err same pre k over _ _ _ _ _ hr
            subst hr
            obtain ⟨hrel2, hv2⟩ := hok2 rfl
            simp only [not_true_eq_false, if_false] at h ⊢
            exact ih f2 c2 x2 _ _ v2 v2' ra (by omega) (by rw [f2'.2.2.2, f1'.2.2.2, hl])
              (by rw [f2'.1, f1'.1, hh]) hrel2 (hop _ _ _ _ hlhs hv2) h
          · simp only [hB2]
            exact follows_over same pre k over ra _ _ ho
    simp only [parse_sum_loop] at h
    simp only [parse_sum_loop, hty]
    by_cases h1 : c.token.type = EvalTokenType.ADD
    · simp only [h1, if_true] at h ⊢
      exact hstep A.add A'.add (fun a a' b b' ha hb hs => by rw [hsame hs, ha hs, hb hs]) h
    simp only [h1, if_false] at h ⊢
    by_cases h2 : c.token.type = EvalTokenType.SUBTRACT
    · simp only [h2, if_true] at h ⊢
      exact hstep A.sub A'.sub (fun a a' b b' ha hb hs => by rw [hsame hs, ha hs, hb hs]) h
    simp only [h2, if_false, Option.some.injEq] at h ⊢
    subst h
    exact follows_ok same pre k over _ _ _ _ hrel hlhs

theorem parse_sum_gen (A A' : Arith α) (same : Prop) (hsame : same → A' = A)
    (cfgA cfgB : Config) (hN : cfgB.EVAL_MAX_NAME_LENGTH = cfgA.EVAL_MAX_NAME_LENGTH)
    (pre : List Char) (k : Nat) (over : Prop) (l : Nat) (hooks : Option (EvalHooks α U))
    (hblind : ¬ same → BlindHooks hooks)
    (pe pe' : EvalContext α U → α → Option (EvalResult × EvalContext α U × α))
    (hpef : PEFrame pe) (hpe : GenPE same pre k over l hooks pe pe') :
    GenPE same pre k over l hooks (parse_sum A cfgA pe) (parse_sum A' cfgB pe') := by
  intro c c' out out' ra hl hh hrel h
  have hlen : c.input.length + 1 ≤ c'.input.length + 1 := by
    obtain ⟨t2, rfl, -⟩ := hrel
    simp [shifted]
  simp only [parse_sum] at h ⊢
  cases hu : parse_product A cfgA pe c (A.ofNat 0) with
  | none => simp [hu] at h
  | some q =>
    obtain ⟨r2, c2, v2⟩ := q
    have f2' := parse_product_frame A cfgA pe hpef _ _ _ _ _ hu
    simp only [hu] at h
    rcases parse_product_gen A A' same hsame cfgA cfgB hN pre k over l hooks hblind pe pe'
      hpef hpe c c' (A.ofNat 0) (A'.ofNat 0) _ hl hh hrel hu with
      ⟨x2, v2', hB2, hok2⟩ | ⟨ho, x2, v2', hB2⟩
    · simp only [hB2]
      by_cases hr : r2 = EvalResult.OK
      swap
      · simp only [ne_eq, hr, not_false_eq_true, if_true, Option.some.injEq] at h ⊢
        subst h
        exact follows_err same pre k over _ _ _ _ _ hr
      subst hr
      obtain ⟨hrel2, hv2⟩ := hok2 rfl
      simp only [ne_eq, not_true_eq_false, if_false] at h ⊢
      cases hlp : parse_sum_loop A cfgA pe (c.input.length + 1) c2 v2 (A.ofNat 0) with
      | none => simp [hlp] at h
      | some q3 =>
        obtain ⟨r3, c3, v3⟩ := q3
        simp only [hlp] at h
        rcases parse_sum_loop_gen A A' same hsame cfgA cfgB hN pre k over l hooks hblind
          pe pe' hpef hpe _ (c'.input.length + 1) c2 x2 v2 v2' (A.ofNat 0) (A'.ofNat 0) _ hlen
          (by rw [f2'.2.2.2, hl]) (by rw [f2'.1, hh]) hrel2 hv2 hlp with
          ⟨x3, v3', hB3, hok3⟩ | ⟨ho, x3, v3', hB3⟩
        · simp only [hB3]
          by_cases hr : r3 = EvalResult.OK
          swap
          · simp only [hr, not_false_eq_true, if_true, Option.some.injEq] at h ⊢
            subst h
            exact follows_err same pre k over _ _ _ _ _ hr
          subst hr
          obtain ⟨hrel3, hv3⟩ := hok3 rfl
          simp only [not_true_eq_false, if_false, Option.some.injEq] at h ⊢
          subst h
          exact follows_ok same pre k over _ _ _ _ hrel3 hv3
        · simp only [hB3]
          exact follows_over same pre k over ra _ _ ho
    · simp only [hB2]
      exact follows_over same pre k over ra _ _ ho

theorem rel_level_up (same : Prop) (pre : List Char) (k : Nat) (c c' : EvalContext α U)
    (h : Rel same pre k c c') :
    Rel same pre k { c with stack_level := c.stack_level + 1 }
      { c' with stack_level := c'.stack_level + 1 } := by
  obtain ⟨t2, rfl, ht2⟩ := h
  exact ⟨t2, rfl, ht2⟩

theorem rel_level_down (same : Prop) (pre : List Char) (k : Nat) (c c' : EvalContext α U)
    (hpos : 1 ≤ c.stack_level) (h : Rel same pre k c c') :
    Rel same pre k { c with stack_level := c.stack_level - 1 }
      { c' with stack_level := c'.stack_level - 1 } := by
  obtain ⟨t2, rfl, ht2⟩ := h
  refine ⟨t2, ?_, ht2⟩
  simp only [shifted, EvalContext.mk.injEq, true_and, and_true]
  omega

theorem parse_expr_gen (A A' : Arith α) (same : Prop) (hsame : same → A' = A)
    (cfgA cfgB : Config) (hN : cfgB.EVAL_MAX_NAME_LENGTH = cfgA.EVAL_MAX_NAME_LENGTH)
    (pre : List Char) (k : Nat)
    (hM : cfgB.EVAL_MAX_STACK_DEPTH ≤ cfgA.EVAL_MAX_STACK_DEPTH + k)
    (hooks : Option (EvalHooks α U)) (hblind : ¬ same → BlindHooks hooks) :
    ∀ (fA fB l : Nat), 1 ≤ fB → cfgB.EVAL_MAX_STACK_DEPTH + 1 ≤ fB + (k + l) →
      GenPE same pre k (cfgB.EVAL_MAX_STACK_DEPTH < cfgA.EVAL_MAX_STACK_DEPTH + k) l hooks
        (parse_expr A cfgA fA) (parse_expr A' cfgB fB) := by
  intro fA
  induction fA with
  | zero => intro fB l _ _ c c' out out' ra _ _ _ h; simp [parse_expr] at h
  | succ fA ih =>
    intro fB l hfB hfuel c c' out out' ra hl hh hrel h
    obtain ⟨fB, rfl⟩ : ∃ f, fB = f + 1 := ⟨fB - 1, by omega⟩
    have hsl : c'.stack_level = k + c.stack_level := by
      obtain ⟨t2, rfl, -⟩ := hrel
      rfl
    simp only [parse_expr] at h ⊢
    by_cases hgA : c.stack_level ≥ cfgA.EVAL_MAX_STACK_DEPTH
    · have hgB : c'.stack_level ≥ cfgB.EVAL_MAX_STACK_DEPTH := by omega
      simp only [hgA, if_true, Option.some.injEq] at h
      simp only [hgB, if_true]
      subst h
      exact follows_err same pre k _ _ _ _ _ _ (by decide)
    simp only [hgA, if_false] at h
    by_cases hgB : c'.stack_level ≥ cfgB.EVAL_MAX_STACK_DEPTH
    · simp only [hgB, if_true]
      exact follows_over same pre k _ ra _ _ (by omega)
    simp only [hgB, if_false]
    cases hs : parse_sum A cfgA (parse_expr A cfgA fA)
        { c with stack_level := c.stack_level + 1 } out with
    | none => simp [hs] at h
    | some q =>
      obtain ⟨r2, c2, v2⟩ := q
      have f2 := parse_sum_frame A cfgA _ (parse_expr_frame A cfgA fA) _ _ _ _ _ hs
      simp only [hs, Option.some.injEq] at h
      subst h
      have hpe := ih fB (l + 1) (by omega) (by omega)
      rcases parse_sum_gen A A' same hsame cfgA cfgB hN pre k _ (l + 1) hooks hblind _ _
        (parse_expr_frame A cfgA fA) hpe { c with stack_level := c.stack_level + 1 }
        { c' with stack_level := c'.stack_level + 1 } out out' _ (by simp [hl]) hh
        (rel_level_up same pre k c c' hrel) hs with
        ⟨x2, v2', hB2, hok2⟩ | ⟨ho, x2, v2', hB2⟩
      · simp only [hB2]
        left
        refine ⟨_, _, rfl, fun hr => ?_⟩
        obtain ⟨hrel2, hv2⟩ := hok2 hr
        refine ⟨rel_level_down same pre k _ _ ?_ hrel2, hv2⟩
        rw [f2.2.2.2]
        simp
      · simp only [hB2]
        exact follows_over same pre k _ _ _ _ ho

end Eval

namespace Eval

variable {α U : Type}

/-- What an `OK` of `eval_execute` says about its two steps. -/
theorem eval_execute_inv (A : Arith α) (cfg : Config) (e : List Char)
    (hooks : Option (EvalHooks α U)) (user_data : U) (output v : α)
    (h : eval_execute A cfg e hooks user_data output = some (EvalResult.OK, v)) :
    0 < cfg.EVAL_MAX_STACK_DEPTH ∧
    ∃ c ctx, get_token A cfg (⟨hooks, user_data, e, 0, 0, EvalToken.END⟩ : EvalContext α U) =
        some (EvalResult.OK, c) ∧
      parse_expr A cfg (cfg.EVAL_MAX_STACK_DEPTH + 1) c output = some (EvalResult.OK, ctx, v) ∧
      ctx.token.type = EvalTokenType.END := by
  simp only [eval_execute] at h
  cases hg : get_token A cfg (⟨hooks, user_data, e, 0, 0, EvalToken.END⟩ : EvalContext α U) with
  | none => simp [hg] at h
  | some r =>
    obtain ⟨res, cg⟩ := r
    have fg := get_token_frame A cfg _ _ hg
    simp only [hg] at h
    by_cases hr : res = EvalResult.OK
    swap
    · simp [hr] at h
    subst hr
    simp only [ne_eq, not_true_eq_false, if_false] at h
    cases hp : parse_expr A cfg (cfg.EVAL_MAX_STACK_DEPTH + 1) cg output with
    | none => simp [hp] at h
    | some r =>
      obtain ⟨res, ci, w⟩ := r
      simp only [hp] at h
      by_cases hr : res = EvalResult.OK
      swap
      · simp [hr] at h
      subst hr
      simp only [not_true_eq_false, if_false] at h
      by_cases hend : ci.token.type = EvalTokenType.END
      swap
      · simp [hend] at h
      simp only [hend, if_true, Option.some.injEq, Prod.mk.injEq, true_and] at h
      subst h
      refine ⟨?_, cg, ci, rfl, hp, hend⟩
      by_contra hz
      have hz0 : cfg.EVAL_MAX_STACK_DEPTH = 0 := by omega
      have hsl : cg.stack_level = 0 := fg.2.2.2
      simp [parse_expr, hz0] at hp

/-- The run of `get_token` and `parse_expr` on a text, repeated one bracket
deeper behind a prefix `pre` that has been read: the same tokens are read, and
the outcome is the same unless the depth limit is met. -/
theorem nested_run (A : Arith α) (cfgA cfgB : Config)
    (hN : cfgB.EVAL_MAX_NAME_LENGTH = cfgA.EVAL_MAX_NAME_LENGTH)
    (hM : cfgB.EVAL_MAX_STACK_DEPTH ≤ cfgA.EVAL_MAX_STACK_DEPTH + 1)
    (hMB : 1 ≤ cfgB.EVAL_MAX_STACK_DEPTH)
    (pre inp : List Char) (hooks : Option (EvalHooks α U)) (user_data : U)
    (t : EvalToken α) (c ctx : EvalContext α U) (out out' v : α) (r : EvalResult)
    (hg : get_token A cfgA (⟨hooks, user_data, inp, 0, 0, EvalToken.END⟩ : EvalContext α U) =
      some (EvalResult.OK, c))
    (hp : parse_expr A cfgA (cfgA.EVAL_MAX_STACK_DEPTH + 1) c out = some (r, ctx, v)) :
    ∃ x1, get_token A cfgB (⟨hooks, user_data, pre ++ inp, pre.length, 1, t⟩ : EvalContext α U) =
        some (EvalResult.OK, x1) ∧ x1.stack_level = 1 ∧
      Follows True pre 1 (cfgB.EVAL_MAX_STACK_DEPTH < cfgA.EVAL_MAX_STACK_DEPTH + 1)
        (r, ctx, v) (parse_expr A cfgB cfgB.EVAL_MAX_STACK_DEPTH x1 out') := by
  have fg := get_token_frame A cfgA _ _ hg
  obtain ⟨x1, hB1, hr1⟩ := get_token_gen A A True (fun _ => rfl) cfgA cfgB hN pre 1 t _ _ hg
  have hx1 : x1.stack_level = 1 := by
    obtain ⟨t2, rfl, -⟩ := hr1 rfl
    have h0 : c.stack_level = 0 := fg.2.2.2
    simp only [shifted, h0]
  refine ⟨x1, hB1, hx1, ?_⟩
  exact parse_expr_gen A A True (fun _ => rfl) cfgA cfgB hN pre 1 hM hooks
    (fun hn => absurd trivial hn) (cfgA.EVAL_MAX_STACK_DEPTH + 1) cfgB.EVAL_MAX_STACK_DEPTH 0
    hMB (by omega) c x1 out out' _ fg.2.2.2 fg.1 (hr1 rfl) hp

/-- An opening bracket in front of a text that evaluates, and no closing
bracket behind it. -/
theorem open_unclosed (A : Arith α) (cfgA cfgB : Config)
    (hN : cfgB.EVAL_MAX_NAME_LENGTH = cfgA.EVAL_MAX_NAME_LENGTH)
    (hM : cfgB.EVAL_MAX_STACK_DEPTH ≤ cfgA.EVAL_MAX_STACK_DEPTH + 1)
    (hMB : 1 ≤ cfgB.EVAL_MAX_STACK_DEPTH)
    (e : List Char) (hooks : Option (EvalHooks α U)) (user_data : U) (output v : α)
    (h : eval_execute A cfgA e hooks user_data output = some (EvalResult.OK, v)) :
    eval_execute A cfgB ('(' :: e) hooks user_data output =
        some (EvalResult.EXPECTED_CLOSE_BRACKET, output) ∨
      (cfgB.EVAL_MAX_STACK_DEPTH < cfgA.EVAL_MAX_STACK_DEPTH + 1 ∧
        eval_execute A cfgB ('(' :: e) hooks user_data output =
          some (EvalResult.STACK_OVERFLOW, output)) := by
  obtain ⟨-, c, ctx, hg, hp, hend⟩ := eval_execute_inv A cfgA e hooks user_data output v h
  have hlex := lexes_open (U := U) A cfgB ('(' :: e) 0 [] e (by simp) (by simp)
    (⟨hooks, user_data, '(' :: e, 0, 0, EvalToken.END⟩ : EvalContext α U) rfl rfl
  obtain ⟨x1, hB1, hx1, hfol⟩ := nested_run A cfgA cfgB hN hM hMB ['('] e hooks user_data
    EvalToken.OPEN_BRACKET c ctx output (A.ofNat 0) v EvalResult.OK hg hp
  have hB1' : get_token A cfgB
      (⟨hooks, user_data, '(' :: e, 1, 1, EvalToken.OPEN_BRACKET⟩ : EvalContext α U) =
      some (EvalResult.OK, x1) := hB1
  rcases hfol with ⟨x2, v2, hB2, hok2⟩ | ⟨ho, x2, v2, hB2⟩
  · left
    obtain ⟨hrel2, -⟩ := hok2 rfl
    have hty : x2.token.type = EvalTokenType.END := by
      obtain ⟨t2, rfl, ht2⟩ := hrel2
      exact (tok_sim_type ht2).trans hend
    refine eval_execute_term_err A cfgB ('(' :: e) hooks user_data output v2
      EvalResult.EXPECTED_CLOSE_BRACKET _ x2 (by omega) hlex rfl (by simp [EvalToken.type]) ?_
      (by decide)
    simp only [parse_term, List.length_nil, Nat.zero_add, hB1', ne_eq, not_true_eq_false,
      if_false, hB2, hty]
    simp
  · right
    refine ⟨ho, ?_⟩
    refine eval_execute_term_err A cfgB ('(' :: e) hooks user_data output v2
      EvalResult.STACK_OVERFLOW _ x2 (by omega) hlex rfl (by simp [EvalToken.type]) ?_
      (by decide)
    simp only [parse_term, List.length_nil, Nat.zero_add, hB1', ne_eq, not_true_eq_false,
      if_false, hB2]
    simp

end Eval

namespace Eval

variable {α U : Type}

/-- The text `1+2` evaluates under every depth limit of at least 1. -/
theorem eval_execute_one_plus_two (A : Arith α) (cfg : Config)
    (hooks : Option (EvalHooks α U)) (user_data : U) (output : α)
    (hmax : 0 < cfg.EVAL_MAX_STACK_DEPTH) :
    ∃ v, eval_execute A cfg "1+2".toList hooks user_data output = some (EvalResult.OK, v) := by
  have h := eval_execute_gen A cfg
    (Expr.bin (Expr.num [] ⟨[1], none, none⟩) [] BinOp.add (Expr.num [] ⟨[2], none, none⟩)) []
    hooks user_data output (by decide) (by decide) (by simpa [Expr.depth] using hmax)
  exact ⟨_, h⟩

/-- C11: the closing bracket is mandatory.  Where `eval_execute` returns `OK`
on the text `e`, it returns `EXPECTED_CLOSE_BRACKET` on `(` followed by `e`
when the depth limit is one higher (the extra level does not reach the limit),
and `EXPECTED_CLOSE_BRACKET` or `STACK_OVERFLOW` under the same limit; in both
cases `*output` is left as it was.  On `(1+2` the result is
`EXPECTED_CLOSE_BRACKET` under every limit of at least 2, and `STACK_OVERFLOW`
under the limit 1, where the bracket already reaches it. -/
theorem C11_missing_close_bracket (A : Arith α) (cfg : Config) (e : List Char)
    (hooks : Option (EvalHooks α U)) (user_data : U) (output v : α)
    (h : eval_execute A cfg e hooks user_data output = some (EvalResult.OK, v)) :
    eval_execute A ⟨cfg.EVAL_MAX_NAME_LENGTH, cfg.EVAL_MAX_STACK_DEPTH + 1⟩ ('(' :: e) hooks
        user_data output = some (EvalResult.EXPECTED_CLOSE_BRACKET, output) ∧
    (eval_execute A cfg ('(' :: e) hooks user_data output =
        some (EvalResult.EXPECTED_CLOSE_BRACKET, output) ∨
      eval_execute A cfg ('(' :: e) hooks user_data output =
        some (EvalResult.STACK_OVERFLOW, output)) ∧
    (2 ≤ cfg.EVAL_MAX_STACK_DEPTH →
      eval_execute A cfg "(1+2".toList hooks user_data output =
        some (EvalResult.EXPECTED_CLOSE_BRACKET, output)) ∧
    (cfg.EVAL_MAX_STACK_DEPTH = 1 →
      eval_execute A cfg "(1+2".toList hooks user_data output =
        some (EvalResult.STACK_OVERFLOW, output)) := by
  have hpos := (eval_execute_inv A cfg e hooks user_data output v h).1
  refine ⟨?_, ?_, ?_, ?_⟩
  · rcases open_unclosed A cfg ⟨cfg.EVAL_MAX_NAME_LENGTH, cfg.EVAL_MAX_STACK_DEPTH + 1⟩ rfl
      (Nat.le_refl _) (Nat.le_add_left _ _) e hooks user_data output v h with h1 | ⟨h1, -⟩
    · exact h1
    · exact absurd h1 (Nat.lt_irrefl _)
  · rcases open_unclosed A cfg cfg rfl (Nat.le_succ _) hpos e hooks user_data output v h with
      h1 | ⟨-, h1⟩
    · exact Or.inl h1
    · exact Or.inr h1
  · intro h2
    obtain ⟨w, hw⟩ := eval_execute_one_plus_two A
      ⟨cfg.EVAL_MAX_NAME_LENGTH, cfg.EVAL_MAX_STACK_DEPTH - 1⟩ hooks user_data output
      (Nat.sub_pos_of_lt h2)
    rcases open_unclosed A ⟨cfg.EVAL_MAX_NAME_LENGTH, cfg.EVAL_MAX_STACK_DEPTH - 1⟩ cfg rfl
      (by simp only; omega) (by omega) "1+2".toList hooks user_data output w hw with
      h1 | ⟨h1, -⟩
    · exact h1
    · exact absurd h1 (by simp only; omega)
  · intro h1
    have hl : Lexes A cfg U (List.replicate 1 '(' ++ "1+2".toList) cfg.EVAL_MAX_STACK_DEPTH
        (EvalToken.NUMBER (Literal.value A ⟨[1], none, none⟩)) (1 + 0 + 1) := by
      rw [h1]
      exact lexes_number A cfg _ 1 [] "+2".toList ⟨[1], none, none⟩ (by decide) (by decide)
        (by decide) (by decide) (by decide)
    exact eval_execute_overflow A cfg 1 "1+2".toList _ _ hooks user_data output (by omega) hl

/-- C11 on the text `1+2`, which gives 3: `(1+2` gives
`EXPECTED_CLOSE_BRACKET` under the limits 17 and 16. -/
theorem C11_missing_close_bracket_witness :
    eval_execute Arith.rat sample_config "1+2".toList no_hooks () 0 = some (EvalResult.OK, 3) ∧
    eval_execute Arith.rat ⟨32, 17⟩ "(1+2".toList no_hooks () 0 =
      some (EvalResult.EXPECTED_CLOSE_BRACKET, 0) ∧
    eval_execute Arith.rat sample_config "(1+2".toList no_hooks () 0 =
      some (EvalResult.EXPECTED_CLOSE_BRACKET, 0) := by
  have hok : eval_execute Arith.rat sample_config "1+2".toList no_hooks () 0 =
      some (EvalResult.OK, 3) := by decide!
  have h := C11_missing_close_bracket Arith.rat sample_config "1+2".toList no_hooks () 0 3 hok
  exact ⟨hok, h.1, h.2.2.1 (by decide)⟩

end Eval

namespace Eval

variable {α U : Type}

/-- The call `n(e)` as the whole text, where `get_func` resolves `n` to `f`
and `e` evaluates: the result is what `f` returns on the value of `e`, unless
the depth limit is met. -/
theorem call_run (A : Arith α) (cfgA cfgB : Config)
    (hN : cfgB.EVAL_MAX_NAME_LENGTH = cfgA.EVAL_MAX_NAME_LENGTH)
    (hM : cfgB.EVAL_MAX_STACK_DEPTH ≤ cfgA.EVAL_MAX_STACK_DEPTH + 1)
    (hMB : 1 ≤ cfgB.EVAL_MAX_STACK_DEPTH)
    (n e : List Char) (hk : EvalHooks α U)
    (gf : List Char → U → Option (EvalFunc α U)) (f : EvalFunc α U)
    (user_data : U) (output v : α)
    (hn0 : is_name_start (peek n) = true) (hn : n.all is_name = true)
    (hle : n.length ≤ cfgB.EVAL_MAX_NAME_LENGTH - 1) (hnul : NUL ∉ e)
    (hgf : hk.get_func = some gf) (hf : gf n user_data = some f)
    (h : eval_execute A cfgA e (some hk) user_data output = some (EvalResult.OK, v)) :
    eval_execute A cfgB (n ++ '(' :: (e ++ [')'])) (some hk) user_data output =
        some (if (f v user_data (A.ofNat 0)).1 = EvalResult.OK
          then (EvalResult.OK, (f v user_data (A.ofNat 0)).2)
          else ((f v user_data (A.ofNat 0)).1, output)) ∨
      (cfgB.EVAL_MAX_STACK_DEPTH < cfgA.EVAL_MAX_STACK_DEPTH + 1 ∧
        eval_execute A cfgB (n ++ '(' :: (e ++ [')'])) (some hk) user_data output =
          some (EvalResult.STACK_OVERFLOW, output)) := by
  obtain ⟨-, c, ctx, hg, hp, hclose, hpos⟩ :=
    top_level_close A cfgA e (some hk) user_data output v hnul h
  have fg := get_token_frame A cfgA _ _ hg
  have fp := parse_expr_frame A cfgA _ _ _ _ _ _ hp
  have hud : ctx.user_data = user_data := fp.2.1.trans fg.2.1
  have hin : ctx.input = e ++ [')'] := fp.2.2.1.trans fg.2.2.1
  have hlex := lexes_func (U := U) A cfgB (n ++ '(' :: (e ++ [')'])) 0 [] n
    ('(' :: (e ++ [')'])) (by simp) hn0 hn (by rw [peek_cons]; decide) hle (by simp)
    (⟨some hk, user_data, n ++ '(' :: (e ++ [')']), 0, 0, EvalToken.END⟩ : EvalContext α U)
    rfl rfl
  have hopen := lexes_open (U := U) A cfgB (n ++ '(' :: (e ++ [')'])) n.length [] (e ++ [')'])
    (by simp) (by simp)
    (⟨some hk, user_data, n ++ '(' :: (e ++ [')']), n.length, 1, EvalToken.FUNC n⟩ :
      EvalContext α U) rfl rfl
  obtain ⟨x1, hB1, hx1, hfol⟩ := nested_run A cfgA cfgB hN hM hMB (n ++ ['(']) (e ++ [')'])
    (some hk) user_data EvalToken.OPEN_BRACKET c ctx output (A.ofNat 0) v EvalResult.OK hg hp
  have hB1' : get_token A cfgB
      (⟨some hk, user_data, n ++ '(' :: (e ++ [')']), n.length + 1, 1,
        EvalToken.OPEN_BRACKET⟩ : EvalContext α U) = some (EvalResult.OK, x1) := by
    have := hB1
    simpa using this
  simp only [List.length_nil, Nat.zero_add, Nat.add_zero] at hlex hopen
  have hT : (EvalToken.OPEN_BRACKET : EvalToken α).type = EvalTokenType.OPEN_BRACKET := rfl
  rcases hfol with ⟨x2, v2, hB2, hok2⟩ | ⟨ho, x2, v2, hB2⟩
  swap
  · right
    refine ⟨ho, ?_⟩
    refine eval_execute_term_err A cfgB _ (some hk) user_data output (A.ofNat 0)
      EvalResult.STACK_OVERFLOW _ x2 (by omega) hlex rfl (by simp [EvalToken.type]) ?_
      (by decide)
    simp only [parse_term, Option.bind, hgf, hf, hopen, ne_eq, not_true_eq_false, if_false,
      hT, hB1', hB2]
    simp
  left
  obtain ⟨hrel2, hv2⟩ := hok2 rfl
  have hv : v2 = v := hv2 trivial
  subst hv
  obtain ⟨t2, rfl, ht2⟩ := hrel2
  have hty : t2.type = EvalTokenType.CLOSE_BRACKET := (tok_sim_type ht2).trans hclose
  have hend := lexes_end (U := U) A cfgB ((n ++ ['(']) ++ (e ++ [')']))
    ((n ++ ['(']).length + (e.length + 1)) [] (by simp) (by simp; omega)
    (shifted (n ++ ['(']) 1 t2 ctx) (by simp [shifted, hin]) (by simp [shifted, hpos])
  obtain ⟨xe, hxe, hxt⟩ : ∃ xe, get_token A cfgB (shifted (n ++ ['(']) 1 t2 ctx) =
      some (EvalResult.OK, xe) ∧ xe.token.type = EvalTokenType.END := ⟨_, hend, rfl⟩
  cases hfr : f v2 user_data (A.ofNat 0) with
  | mk fr fo =>
    by_cases hr : fr = EvalResult.OK
    · subst hr
      simp only [if_true]
      refine eval_execute_term_ok A cfgB _ (some hk) user_data output fo _ xe (by omega) hlex rfl
        (by simp [EvalToken.type]) ?_ hxt
      simp only [parse_term, Option.bind, hgf, hf, hopen, ne_eq, not_true_eq_false, if_false,
        hT, hB1', hB2]
      simp only [shifted, hty, hud, hfr, not_true_eq_false, if_false]
      simp only [shifted, hud] at hxe
      rw [hxe]
    · simp only [hr, if_false]
      refine eval_execute_term_err A cfgB _ (some hk) user_data output fo
        fr _ (shifted (n ++ ['(']) 1 t2 ctx) (by omega) hlex rfl (by simp [EvalToken.type]) ?_
        hr
      simp only [parse_term, Option.bind, hgf, hf, hopen, ne_eq, not_true_eq_false, if_false,
        hT, hB1', hB2]
      simp only [shifted, hty, hud, hfr, not_true_eq_false, if_false]
      simp [hr]

end Eval

namespace Eval

variable {α U : Type}

/-- C12: a function call.  Let `get_func` of the hooks resolve the name `n`
(a name of the lexer that fits the name buffer) to the callable `f`, and let
`eval_execute` return `OK` with the value `v` on the argument text `e`.  Then on
`n(e)`, under a depth limit one higher (so that the extra level does not reach
it), `eval_execute` returns what `f` returns on `v`, the caller's `user_data`
and an output cell holding 0: `OK` with the output `f` stored, or the error
code of `f` unchanged, with `*output` as it was.  Under the same limit the
result is that one or `STACK_OVERFLOW`. -/
theorem C12_function_call (A : Arith α) (cfg : Config) (n e : List Char) (hk : EvalHooks α U)
    (gf : List Char → U → Option (EvalFunc α U)) (f : EvalFunc α U)
    (user_data : U) (output v : α)
    (hn0 : is_name_start (peek n) = true) (hn : n.all is_name = true)
    (hle : n.length ≤ cfg.EVAL_MAX_NAME_LENGTH - 1) (hnul : NUL ∉ e)
    (hgf : hk.get_func = some gf) (hf : gf n user_data = some f)
    (h : eval_execute A cfg e (some hk) user_data output = some (EvalResult.OK, v)) :
    eval_execute A ⟨cfg.EVAL_MAX_NAME_LENGTH, cfg.EVAL_MAX_STACK_DEPTH + 1⟩
        (n ++ '(' :: (e ++ [')'])) (some hk) user_data output =
      some (if (f v user_data (A.ofNat 0)).1 = EvalResult.OK
        then (EvalResult.OK, (f v user_data (A.ofNat 0)).2)
        else ((f v user_data (A.ofNat 0)).1, output)) ∧
    (eval_execute A cfg (n ++ '(' :: (e ++ [')'])) (some hk) user_data output =
        some (if (f v user_data (A.ofNat 0)).1 = EvalResult.OK
          then (EvalResult.OK, (f v user_data (A.ofNat 0)).2)
          else ((f v user_data (A.ofNat 0)).1, output)) ∨
      eval_execute A cfg (n ++ '(' :: (e ++ [')'])) (some hk) user_data output =
        some (EvalResult.STACK_OVERFLOW, output)) := by
  have hpos := (eval_execute_inv A cfg e (some hk) user_data output v h).1
  constructor
  · rcases call_run A cfg ⟨cfg.EVAL_MAX_NAME_LENGTH, cfg.EVAL_MAX_STACK_DEPTH + 1⟩ rfl
      (Nat.le_refl _) (Nat.le_add_left _ _) n e hk gf f user_data output v hn0 hn hle hnul hgf hf
      h with h1 | ⟨h1, -⟩
    · exact h1
    · exact absurd h1 (Nat.lt_irrefl _)
  · rcases call_run A cfg cfg rfl (Nat.le_succ _) hpos n e hk gf f user_data output v hn0 hn hle
      hnul hgf hf h with h1 | ⟨-, h1⟩
    · exact Or.inl h1
    · exact Or.inr h1

/-- C12 with the sample hooks: `1+2` gives 3 and `twice(1+2)` gives `OK`
with 6; `0` gives 0 and `nonzero(0)` gives the error code of `nonzero`,
`LITERAL_OUT_OF_RANGE`, with the output cell untouched. -/
theorem C12_function_call_witness :
    eval_execute Arith.rat sample_config "1+2".toList (some sample_hooks) () 7 =
      some (EvalResult.OK, 3) ∧
    eval_execute Arith.rat ⟨32, 17⟩ ("twice".toList ++ '(' :: ("1+2".toList ++ [')']))
      (some sample_hooks) () 7 = some (EvalResult.OK, 6) ∧
    eval_execute Arith.rat sample_config "0".toList (some sample_hooks) () 7 =
      some (EvalResult.OK, 0) ∧
    eval_execute Arith.rat ⟨32, 17⟩ ("nonzero".toList ++ '(' :: ("0".toList ++ [')']))
      (some sample_hooks) () 7 = some (EvalResult.LITERAL_OUT_OF_RANGE, 7) := by
  have hok : eval_execute Arith.rat sample_config "1+2".toList (some sample_hooks) () 7 =
      some (EvalResult.OK, 3) := by decide!
  have hok0 : eval_execute Arith.rat sample_config "0".toList (some sample_hooks) () 7 =
      some (EvalResult.OK, 0) := by decide!
  have h1 := (C12_function_call Arith.rat sample_config "twice".toList "1+2".toList sample_hooks
    _ (fun x _ _ => (EvalResult.OK, 2 * x)) () 7 3 (by decide) (by decide) (by decide)
    (by decide) rfl rfl hok).1
  have h2 := (C12_function_call Arith.rat sample_config "nonzero".toList "0".toList sample_hooks
    _ (fun x _ out => if x = 0 then (EvalResult.LITERAL_OUT_OF_RANGE, out) else (EvalResult.OK, x))
    () 7 0 (by decide) (by decide) (by decide) (by decide) rfl rfl hok0).1
  refine ⟨hok, h1.trans ?_, hok0, h2.trans ?_⟩
  · norm_num
  · simp

end Eval

namespace Eval

variable {α U : Type}

/-- With hooks whose result codes ignore the values, the result code of
`eval_execute` under one arithmetic is its result code under any other. -/
theorem eval_execute_code_gen (A A' : Arith α) (cfg : Config)
    (hooks : Option (EvalHooks α U)) (hblind : BlindHooks hooks)
    (e : List Char) (user_data : U) (out out' v : α) (r : EvalResult)
    (h : eval_execute A cfg e hooks user_data out = some (r, v)) :
    ∃ v', eval_execute A' cfg e hooks user_data out' = some (r, v') := by
  simp only [eval_execute] at h ⊢
  cases hg : get_token A cfg (⟨hooks, user_data, e, 0, 0, EvalToken.END⟩ : EvalContext α U) with
  | none => simp [hg] at h
  | some p =>
    obtain ⟨res, c⟩ := p
    have fg := get_token_frame A cfg _ _ hg
    obtain ⟨x1, hB1, hr1⟩ := get_token_gen A A' False (fun hf => hf.elim) cfg cfg rfl [] 0
      EvalToken.END _ _ hg
    have hB1' : get_token A' cfg (⟨hooks, user_data, e, 0, 0, EvalToken.END⟩ : EvalContext α U) =
        some (res, x1) := by
      have := hB1
      simpa [shifted] using this
    simp only [hg] at h
    simp only [hB1']
    by_cases hr : res = EvalResult.OK
    swap
    · simp only [ne_eq, hr, not_false_eq_true, if_true, Option.some.injEq, Prod.mk.injEq] at h ⊢
      exact ⟨out', h.1, rfl⟩
    subst hr
    simp only [ne_eq, not_true_eq_false, if_false] at h ⊢
    cases hp : parse_expr A cfg (cfg.EVAL_MAX_STACK_DEPTH + 1) c out with
    | none => simp [hp] at h
    | some q =>
      obtain ⟨r2, ctx, v2⟩ := q
      simp only [hp] at h
      rcases parse_expr_gen A A' False (fun hf => hf.elim) cfg cfg rfl [] 0 (Nat.le_refl _) hooks
        (fun _ => hblind) (cfg.EVAL_MAX_STACK_DEPTH + 1) (cfg.EVAL_MAX_STACK_DEPTH + 1) 0
        (Nat.le_add_left _ _) (Nat.le_refl _) c x1 out out' _ fg.2.2.2 fg.1 (hr1 rfl) hp with
        ⟨x2, v2', hB2, hok2⟩ | ⟨ho, -⟩
      swap
      · exact absurd ho (Nat.lt_irrefl _)
      simp only [hB2]
      by_cases hr : r2 = EvalResult.OK
      swap
      · simp only [hr, not_false_eq_true, if_true, Option.some.injEq, Prod.mk.injEq] at h ⊢
        exact ⟨v2', h.1, rfl⟩
      subst hr
      obtain ⟨hrel2, -⟩ := hok2 rfl
      have hty : x2.token.type = ctx.token.type := by
        obtain ⟨t2, rfl, ht2⟩ := hrel2
        exact tok_sim_type ht2
      simp only [not_true_eq_false, if_false, hty] at h ⊢
      by_cases hend : ctx.token.type = EvalTokenType.END
      · simp only [hend, if_true, Option.some.injEq, Prod.mk.injEq] at h ⊢
        exact ⟨v2', h.1, rfl⟩
      · simp only [hend, if_false, Option.some.injEq, Prod.mk.injEq] at h ⊢
        exact ⟨v2', h.1, rfl⟩

theorem eval_execute_code_eq (A A' : Arith α) (cfg : Config)
    (hooks : Option (EvalHooks α U)) (hblind : BlindHooks hooks)
    (e : List Char) (user_data : U) (out out' : α) :
    (eval_execute A cfg e hooks user_data out).map Prod.fst =
      (eval_execute A' cfg e hooks user_data out').map Prod.fst := by
  cases hA : eval_execute A cfg e hooks user_data out with
  | none =>
    cases hB : eval_execute A' cfg e hooks user_data out' with
    | none => rfl
    | some q =>
      obtain ⟨r, v⟩ := q
      obtain ⟨w, hw⟩ := eval_execute_code_gen A' A cfg hooks hblind e user_data out' out v r hB
      rw [hA] at hw
      simp at hw
  | some q =>
    obtain ⟨r, v⟩ := q
    obtain ⟨w, hw⟩ := eval_execute_code_gen A A' cfg hooks hblind e user_data out out' v r hA
    rw [hw]
    rfl

/-- Without hooks there is no callback whose result code could depend on a
value. -/
theorem blind_none : BlindHooks (none : Option (EvalHooks α U)) := by
  intro hk h
  simp at h

theorem table_find_mem {β : Type} (l : List (List Char × β)) (n : List Char) (v : β)
    (h : table_find l n = some v) : v ∈ l.map Prod.snd := by
  induction l with
  | nil => simp [table_find] at h
  | cons p l ih =>
    obtain ⟨m, w⟩ := p
    simp only [table_find] at h
    split_ifs at h
    · simp only [Option.some.injEq] at h
      subst h
      simp only [List.map_cons, List.mem_cons, true_or]
    · simp only [List.map_cons, List.mem_cons]
      exact Or.inr (ih h)

/-- The default functions all return `OK`, and `default_get_variable` decides
by the name alone. -/
theorem blind_default_hooks (A : Arith α) (M : LibM α) :
    BlindHooks (some (eval_default_hooks A M : EvalHooks α U)) := by
  intro hk h
  have hk' : hk = eval_default_hooks A M := (Option.some.inj h).symm
  subst hk'
  constructor
  · intro gf hgf n ud f hf x x' ud' o o'
    have hgf' : gf = default_get_func A M := (Option.some.inj hgf).symm
    subst hgf'
    have hmem := table_find_mem (FUNCTIONS A M) n f hf
    simp only [FUNCTIONS, List.map_cons, List.map_nil, List.mem_cons, List.mem_singleton,
      List.mem_nil_iff, or_false] at hmem
    rcases hmem with h | h | h | h | h | h | h | h | h | h | h | h | h <;> (subst h; rfl)
  · intro gv hgv n ud o o'
    have hgv' : gv = default_get_variable M := (Option.some.inj hgv).symm
    subst hgv'
    simp only [default_get_variable]
    cases table_find (VARIABLES M) n <;> rfl

/-- In the arithmetic with infinities and NaN, the literal `0` is the number
zero and every quotient by it is an infinity or NaN. -/
theorem ext_div_zero (x : Ext) :
    (Arith.ext.div x ((Literal.ofDigits [0]).value Arith.ext)).is_inf = true ∨
    (Arith.ext.div x ((Literal.ofDigits [0]).value Arith.ext)).is_nan = true := by
  have h0 : (Literal.ofDigits [0]).value Arith.ext = Ext.fin 0 := by decide!
  rw [h0]
  cases x with
  | fin a =>
    simp only [Arith.ext, Ext.div, if_true, Ext.inf_of]
    split_ifs <;> simp [Ext.is_inf, Ext.is_nan]
  | pinf => left; simp [Arith.ext, Ext.div, Ext.is_inf]
  | ninf => left; simp [Arith.ext, Ext.div, Ext.is_inf]
  | nan => right; simp [Arith.ext, Ext.div, Ext.is_nan]

/-- A quotient of two literals evaluates, whatever the divisor. -/
theorem eval_execute_quotient (A : Arith α) (cfg : Config) (a d : Literal)
    (hooks : Option (EvalHooks α U)) (user_data : U) (output : α)
    (ha : a.wf = true) (hd : d.wf = true) (fa : a.exp_fits = true) (fd : d.exp_fits = true)
    (hmax : 0 < cfg.EVAL_MAX_STACK_DEPTH) :
    eval_execute A cfg (a.text ++ '/' :: d.text) hooks user_data output =
      some (EvalResult.OK, A.div (a.value A) (d.value A)) := by
  have h := eval_execute_gen A cfg (Expr.bin (Expr.num [] a) [] BinOp.div (Expr.num [] d)) []
    hooks user_data output (by simp [Expr.gen, BinOp.isSum, ha, hd, fa, fd]) (by decide)
    (by simpa [Expr.depth] using hmax)
  simpa [Expr.text, BinOp.text, Expr.value, Expr.valueAux, BinOp.apply] using h

end Eval

namespace Eval

variable {α U : Type}

/-- C15, the counterexample: with the sample hooks, whose function `nonzero`
returns an error code of its own on the argument 0, the texts `nonzero(1-2/2)`
and `nonzero(1-2/1)` differ in the divisor only, and `eval_execute` returns
`LITERAL_OUT_OF_RANGE` on the first and `OK` on the second. -/
theorem C15_divisor_counterexample :
    eval_execute Arith.rat sample_config "nonzero(1-2/2)".toList (some sample_hooks) () 7 =
      some (EvalResult.LITERAL_OUT_OF_RANGE, 7) ∧
    eval_execute Arith.rat sample_config "nonzero(1-2/1)".toList (some sample_hooks) () 7 =
      some (EvalResult.OK, -1) := by
  constructor <;> decide!

/-- C15, amended: division by zero is never reported as an error.  For every
numeric literal `a` whose exponent digits, if any, denote a number below
`2^31`, `eval_execute` on `a/0` (and on `a/d` for every such literal `d`)
returns `OK` with the quotient the arithmetic gives; in the arithmetic with
the infinities and NaN of IEEE 754 (`Arith.ext`) the quotient by `0` is an
infinity or NaN.  And with hooks whose callbacks do not make their own result
code depend on the values they are given (the functions that `get_func`
resolves, and `get_variable`), the result code of `eval_execute` on any text
is the same under any two arithmetics, in particular under two that differ in
the quotients only: no result code depends on the value of a divisor.  The
default hooks are such hooks, and so is the absence of hooks. -/
theorem C15_division_by_zero (A A' : Arith α) (cfg : Config) (hooks : Option (EvalHooks α U))
    (hblind : BlindHooks hooks) :
    (∀ (a : Literal) (hooks' : Option (EvalHooks α U)) (user_data : U) (output : α),
      a.wf = true → a.exp_fits = true → 0 < cfg.EVAL_MAX_STACK_DEPTH →
      eval_execute A cfg (a.text ++ "/0".toList) hooks' user_data output =
        some (EvalResult.OK, A.div (a.value A) ((Literal.ofDigits [0]).value A))) ∧
    (∀ (a : Literal) (hooks' : Option (EvalHooks Ext U)) (user_data : U) (output : Ext),
      a.wf = true → a.exp_fits = true → 0 < cfg.EVAL_MAX_STACK_DEPTH →
      ∃ v : Ext, eval_execute Arith.ext cfg (a.text ++ "/0".toList) hooks' user_data output =
          some (EvalResult.OK, v) ∧ (v.is_inf = true ∨ v.is_nan = true)) ∧
    (∀ (a d : Literal) (hooks' : Option (EvalHooks α U)) (user_data : U) (output : α),
      a.wf = true → d.wf = true → a.exp_fits = true → d.exp_fits = true →
      0 < cfg.EVAL_MAX_STACK_DEPTH →
      eval_execute A cfg (a.text ++ '/' :: d.text) hooks' user_data output =
        some (EvalResult.OK, A.div (a.value A) (d.value A))) ∧
    (∀ (e : List Char) (user_data : U) (output output' : α),
      (eval_execute A cfg e hooks user_data output).map Prod.fst =
        (eval_execute A' cfg e hooks user_data output').map Prod.fst) ∧
    (∀ M : LibM α, BlindHooks (some (eval_default_hooks A M : EvalHooks α U))) ∧
    BlindHooks (none : Option (EvalHooks α U)) := by
  refine ⟨?_, ?_, ?_, ?_, ?_, blind_none⟩
  · intro a hooks' user_data output ha fa hmax
    exact eval_execute_quotient A cfg a (Literal.ofDigits [0]) hooks' user_data output ha
      (by decide) fa (by decide) hmax
  · intro a hooks' user_data output ha fa hmax
    exact ⟨_, eval_execute_quotient Arith.ext cfg a (Literal.ofDigits [0]) hooks' user_data
      output ha (by decide) fa (by decide) hmax, ext_div_zero _⟩
  · intro a d hooks' user_data output ha hd fa fd hmax
    exact eval_execute_quotient A cfg a d hooks' user_data output ha hd fa fd hmax
  · intro e user_data output output'
    exact eval_execute_code_eq A A' cfg hooks hblind e user_data output output'
  · intro M
    exact blind_default_hooks A M

/-- C15 without hooks, in the arithmetic with infinities and NaN: `1/0`
gives `OK` with the positive infinity and `0/0` gives `OK` with NaN; and the
result codes of `1/0` and of `(2/(1-1))*2 < 3`, both `OK`, are those under the
arithmetic in which every quotient is 1. -/
theorem C15_division_by_zero_witness :
    BlindHooks (none : Option (EvalHooks Ext Unit)) ∧
    eval_execute Arith.ext sample_config "1/0".toList none () (Ext.fin 7) =
      some (EvalResult.OK, Ext.pinf) ∧
    eval_execute Arith.ext sample_config "0/0".toList none () (Ext.fin 7) =
      some (EvalResult.OK, Ext.nan) ∧
    (eval_execute Arith.ext sample_config "1/0".toList none () (Ext.fin 7)).map Prod.fst =
      some EvalResult.OK ∧
    (eval_execute { Arith.ext with div := fun _ _ => Ext.fin 1 } sample_config "1/0".toList
        none () (Ext.fin 7)).map Prod.fst = some EvalResult.OK ∧
    (eval_execute Arith.ext sample_config "(2/(1-1))*2 < 3".toList none () (Ext.fin 7)).map
        Prod.fst = some EvalResult.OK ∧
    (eval_execute { Arith.ext with div := fun _ _ => Ext.fin 1 } sample_config
        "(2/(1-1))*2 < 3".toList none () (Ext.fin 7)).map Prod.fst = some EvalResult.OK := by
  have h := C15_division_by_zero (U := Unit) Arith.ext
    { Arith.ext with div := fun _ _ => Ext.fin 1 } sample_config none blind_none
  have h1 := h.1 ⟨[1], none, none⟩ none () (Ext.fin 7) (by decide) (by decide) (by decide)
  have h0 := h.1 ⟨[0], none, none⟩ none () (Ext.fin 7) (by decide) (by decide) (by decide)
  have e1 : eval_execute Arith.ext sample_config "1/0".toList none () (Ext.fin 7) =
      some (EvalResult.OK, Ext.pinf) := h1.trans (by decide!)
  have e0 : eval_execute Arith.ext sample_config "0/0".toList none () (Ext.fin 7) =
      some (EvalResult.OK, Ext.nan) := h0.trans (by decide!)
  have c1 := h.2.2.2.1 "1/0".toList () (Ext.fin 7) (Ext.fin 7)
  have c2 := h.2.2.2.1 "(2/(1-1))*2 < 3".toList () (Ext.fin 7) (Ext.fin 7)
  have k1 : (eval_execute Arith.ext sample_config "1/0".toList none () (Ext.fin 7)).map
      Prod.fst = some EvalResult.OK := by rw [e1]; rfl
  have k2 : (eval_execute Arith.ext sample_config "(2/(1-1))*2 < 3".toList none ()
      (Ext.fin 7)).map Prod.fst = some EvalResult.OK := by decide!
  exact ⟨blind_none, e1, e0, k1, c1 ▸ k1, k2, c2 ▸ k2⟩

end Eval

namespace Eval

variable {α U : Type}

theorem get_number_scale_lexical (A : Arith α) (value : α) (exp : Int) (c : EvalContext α U)
    (r : EvalResult × EvalContext α U) (h : get_number_scale A value exp c = some r) :
    r.1.lexical = true := by
  simp only [get_number_scale] at h
  split at h
  · simp at h
  · simp only [Option.some.injEq] at h
    subst h
    rfl

theorem get_number_exp_lexical (A : Arith α) (fuel : Nat) (value : α) (exp : Int) (ch : Char)
    (c : EvalContext α U) (r : EvalResult × EvalContext α U)
    (h : get_number_exp A fuel value exp ch c = some r) : r.1.lexical = true := by
  simp only [get_number_exp] at h
  split_ifs at h with h1 h2 h3 h4 h5 h6 h7
  all_goals first
    | (simp only [Option.some.injEq] at h; subst h; rfl)
    | exact get_number_scale_lexical A _ _ _ r h
    | (split at h
       · simp at h
       · exact get_number_scale_lexical A _ _ _ r h)

theorem get_number_frac_lexical (A : Arith α) (fuel : Nat) (value : α) (exp : Int) (ch : Char)
    (c : EvalContext α U) (r : EvalResult × EvalContext α U)
    (h : get_number_frac A fuel value exp ch c = some r) : r.1.lexical = true := by
  simp only [get_number_frac] at h
  split_ifs at h with h1 h2
  · simp only [Option.some.injEq] at h; subst h; rfl
  · split at h
    · simp at h
    · exact get_number_exp_lexical A _ _ _ _ _ r h
  · exact get_number_exp_lexical A _ _ _ _ _ r h

theorem get_number_lexical (A : Arith α) (c : EvalContext α U)
    (r : EvalResult × EvalContext α U) (h : get_number A c = some r) : r.1.lexical = true := by
  simp only [get_number] at h
  split_ifs at h with h1 h2
  · simp only [Option.some.injEq] at h; subst h; rfl
  · split at h
    · simp at h
    · exact get_number_frac_lexical A _ _ _ _ _ r h
  · exact get_number_frac_lexical A _ _ _ _ _ r h

theorem get_name_loop_lexical (cfg : Config) :
    ∀ (fuel : Nat) (name : List Char) (c : EvalContext α U)
      (r : EvalResult × List Char × EvalContext α U),
      get_name_loop cfg fuel name c = some r → r.1.lexical = true := by
  intro fuel
  induction fuel with
  | zero => intro name c r h; simp [get_name_loop] at h
  | succ fuel ih =>
    intro name c r h
    simp only [get_name_loop] at h
    split_ifs at h
    · simp only [Option.some.injEq] at h; subst h; rfl
    · simp only [Option.some.injEq] at h; subst h; rfl
    · exact ih _ _ r h

theorem get_name_lexical (cfg : Config) (c : EvalContext α U) (type : List Char → EvalToken α)
    (r : EvalResult × EvalContext α U) (h : get_name cfg c type = some r) :
    r.1.lexical = true := by
  simp only [get_name] at h
  split at h
  · simp at h
  · rename_i res name c2 hl
    have f1 := get_name_loop_lexical cfg _ _ _ _ hl
    split_ifs at h <;> simp only [Option.some.injEq] at h <;> subst h
    · exact f1
    · rfl

theorem get_token_loop_lexical (A : Arith α) (cfg : Config) :
    ∀ (fuel : Nat) (c : EvalContext α U) (r : EvalResult × EvalContext α U),
      get_token_loop A cfg fuel c = some r → r.1.lexical = true := by
  intro fuel
  induction fuel with
  | zero => intro c r h; simp [get_token_loop] at h
  | succ fuel ih =>
    intro c r h
    simp only [get_token_loop] at h
    by_cases hc : (get_char c).1 = NUL
    · simp only [hc, if_true] at h
      simp only [Option.some.injEq] at h; subst h; rfl
    simp only [hc, if_false] at h
    clear hc
    by_cases hc : (get_char c).1 ≤ ' '
    · simp only [hc, if_true] at h
      exact ih _ r h
    simp only [hc, if_false] at h
    clear hc
    by_cases hc : (is_digit (get_char c).1 || is_dp (get_char c).1) = true
    · simp only [hc, if_true] at h
      exact get_number_lexical A _ r h
    simp only [hc, Bool.false_eq_true, if_false] at h
    clear hc
    by_cases hc : is_name_start (get_char c).1 = true
    · simp only [hc, if_true] at h
      exact get_name_lexical cfg _ _ r h
    simp only [hc, Bool.false_eq_true, if_false] at h
    clear hc
    by_cases hc : (get_char c).1 = '$'
    · simp only [hc, if_true] at h
      exact get_name_lexical cfg _ _ r h
    simp only [hc, if_false] at h
    clear hc
    by_cases hc : (get_char c).1 = '>'
    · simp only [hc, if_true] at h
      split_ifs at h <;> simp only [Option.some.injEq] at h <;> subst h <;> rfl
    simp only [hc, if_false] at h
    clear hc
    by_cases hc : (get_char c).1 = '<'
    · simp only [hc, if_true] at h
      split_ifs at h <;> simp only [Option.some.injEq] at h <;> subst h <;> rfl
    simp only [hc, if_false] at h
    clear hc
    by_cases hc : (get_char c).1 = '='
    · simp only [hc, if_true] at h
      split_ifs at h <;> simp only [Option.some.injEq] at h <;> subst h <;> rfl
    simp only [hc, if_false] at h
    clear hc
    by_cases hc : (get_char c).1 = '+'
    · simp only [hc, if_true] at h
      simp only [Option.some.injEq] at h; subst h; rfl
    simp only [hc, if_false] at h
    clear hc
    by_cases hc : (get_char c).1 = '-'
    · simp only [hc, if_true] at h
      simp only [Option.some.injEq] at h; subst h; rfl
    simp only [hc, if_false] at h
    clear hc
    by_cases hc : (get_char c).1 = '*'
    · simp only [hc, if_true] at h
      simp only [Option.some.injEq] at h; subst h; rfl
    simp only [hc, if_false] at h
    clear hc
    by_cases hc : (get_char c).1 = '/'
    · simp only [hc, if_true] at h
      simp only [Option.some.injEq] at h; subst h; rfl
    simp only [hc, if_false] at h
    clear hc
    by_cases hc : (get_char c).1 = '('
    · simp only [hc, if_true] at h
      simp only [Option.some.injEq] at h; subst h; rfl
    simp only [hc, if_false] at h
    clear hc
    by_cases hc : (get_char c).1 = ')'
    · simp only [hc, if_true] at h
      simp only [Option.some.injEq] at h; subst h; rfl
    simp only [hc, if_false] at h
    clear hc
    simp only [Option.some.injEq] at h; subst h; rfl

/-- Whatever `get_token` returns, its result code is `OK`,
`ILLEGAL_CHARACTER`, `INVALID_LITERAL` or `NAME_TOO_LONG`. -/
theorem get_token_lexical (A : Arith α) (cfg : Config) (c : EvalContext α U)
    (r : EvalResult × EvalContext α U) (h : get_token A cfg c = some r) : r.1.lexical = true :=
  get_token_loop_lexical A cfg _ c r h

theorem lexical_ne {r : EvalResult} (h : r.lexical = true) :
    r ≠ EvalResult.LITERAL_OUT_OF_RANGE := by
  rintro rfl
  exact absurd h (by decide)

end Eval

namespace Eval

variable {α U : Type}

theorem ok_ne_out_of_range : EvalResult.OK ≠ EvalResult.LITERAL_OUT_OF_RANGE := by
  decide

theorem hooks_func_never {r : EvalResult} {hooks : Option (EvalHooks α U)}
    (hh : HooksNever r hooks) {c : EvalContext α U} (hc : c.hooks = hooks)
    {gf : List Char → U → Option (EvalFunc α U)}
    (hgf : c.hooks.bind (fun hooks => hooks.get_func) = some gf)
    {n : List Char} {ud : U} {f : EvalFunc α U} (hf : gf n ud = some f) (x : α) (ud' : U)
    (o : α) : (f x ud' o).1 ≠ r := by
  rw [hc] at hgf
  cases hk : hooks with
  | none => simp [hk] at hgf
  | some k =>
    simp only [hk, Option.bind] at hgf
    exact (hh k hk).1 gf hgf n ud f hf x ud' o

theorem hooks_variable_never {r : EvalResult} {hooks : Option (EvalHooks α U)}
    (hh : HooksNever r hooks) {c : EvalContext α U} (hc : c.hooks = hooks)
    {gv : List Char → U → α → EvalResult × α}
    (hgv : c.hooks.bind (fun hooks => hooks.get_variable) = some gv)
    (n : List Char) (ud : U) (o : α) : (gv n ud o).1 ≠ r := by
  rw [hc] at hgv
  cases hk : hooks with
  | none => simp [hk] at hgv
  | some k =>
    simp only [hk, Option.bind] at hgv
    exact (hh k hk).2 gv hgv n ud o

theorem parse_term_never (A : Arith α) (cfg : Config) (hooks : Option (EvalHooks α U))
    (hh : HooksNever EvalResult.LITERAL_OUT_OF_RANGE hooks)
    (pe : EvalContext α U → α → Option (EvalResult × EvalContext α U × α))
    (hpe : PENever EvalResult.LITERAL_OUT_OF_RANGE hooks pe) :
    PENever EvalResult.LITERAL_OUT_OF_RANGE hooks (parse_term A cfg pe) := by
  intro c x out v r hc h
  simp only [parse_term] at h
  split at h
  · -- NUMBER
    split at h
    · simp at h
    · rename_i res c1 hg
      simp only [Option.some.injEq, Prod.mk.injEq] at h
      obtain ⟨rfl, -, -⟩ := h
      exact lexical_ne (get_token_lexical A cfg _ _ hg)
  · -- OPEN_BRACKET
    split at h
    · simp at h
    · rename_i res c1 hg
      have f1 := get_token_frame A cfg _ _ hg
      have l1 := lexical_ne (get_token_lexical A cfg _ _ hg)
      split_ifs at h
      · simp only [Option.some.injEq, Prod.mk.injEq] at h
        obtain ⟨rfl, -, -⟩ := h
        exact l1
      · split at h
        · simp at h
        · rename_i res2 c2 v2 hp
          have l2 := hpe _ _ _ _ _ (f1.1.trans hc) hp
          split_ifs at h
          · simp only [Option.some.injEq, Prod.mk.injEq] at h
            obtain ⟨rfl, -, -⟩ := h
            exact l2
          · simp only [Option.some.injEq, Prod.mk.injEq] at h
            obtain ⟨rfl, -, -⟩ := h
            decide
          · split at h
            · simp at h
            · rename_i res3 c3 hg3
              simp only [Option.some.injEq, Prod.mk.injEq] at h
              obtain ⟨rfl, -, -⟩ := h
              exact lexical_ne (get_token_lexical A cfg _ _ hg3)
  · -- FUNC
    split at h
    · simp only [Option.some.injEq, Prod.mk.injEq] at h
      obtain ⟨rfl, -, -⟩ := h
      decide
    · rename_i gf hgf
      split at h
      · simp only [Option.some.injEq, Prod.mk.injEq] at h
        obtain ⟨rfl, -, -⟩ := h
        decide
      · rename_i f hf
        split at h
        · simp at h
        · rename_i res c1 hg
          have l1 := lexical_ne (get_token_lexical A cfg _ _ hg)
          split_ifs at h
          · simp only [Option.some.injEq, Prod.mk.injEq] at h
            obtain ⟨rfl, -, -⟩ := h
            exact l1
          · simp only [Option.some.injEq, Prod.mk.injEq] at h
            obtain ⟨rfl, -, -⟩ := h
            decide
          · split at h
            · simp at h
            · rename_i res2 c2 hg2
              have f1 := get_token_frame A cfg _ _ hg
              have f2 := frame_trans f1 (get_token_frame A cfg _ _ hg2)
              have l2 := lexical_ne (get_token_lexical A cfg _ _ hg2)
              split_ifs at h
              · simp only [Option.some.injEq, Prod.mk.injEq] at h
                obtain ⟨rfl, -, -⟩ := h
                exact l2
              · split at h
                · simp at h
                · rename_i res3 c3 arg hp
                  have l3 := hpe _ _ _ _ _ (f2.1.trans hc) hp
                  have lf := fun (a : α) (u : U) (o : α) =>
                    hooks_func_never hh hc hgf hf a u o
                  split_ifs at h
                  · simp only [Option.some.injEq, Prod.mk.injEq] at h
                    obtain ⟨rfl, -, -⟩ := h
                    exact l3
                  · simp only [Option.some.injEq, Prod.mk.injEq] at h
                    obtain ⟨rfl, -, -⟩ := h
                    decide
                  · simp only [Option.some.injEq, Prod.mk.injEq] at h
                    obtain ⟨rfl, -, -⟩ := h
                    exact lf _ _ _
                  · split at h
                    · simp at h
                    · rename_i res4 c4 hg4
                      simp only [Option.some.injEq, Prod.mk.injEq] at h
                      obtain ⟨rfl, -, -⟩ := h
                      exact lexical_ne (get_token_lexical A cfg _ _ hg4)
  · -- VARIABLE
    split at h
    · simp only [Option.some.injEq, Prod.mk.injEq] at h
      obtain ⟨rfl, -, -⟩ := h
      decide
    · rename_i gv hgv
      have lv := fun (n : List Char) (u : U) (o : α) => hooks_variable_never hh hc hgv n u o
      split_ifs at h
      · simp only [Option.some.injEq, Prod.mk.injEq] at h
        obtain ⟨rfl, -, -⟩ := h
        exact lv _ _ _
      · split at h
        · simp at h
        · rename_i res4 c4 hg4
          simp only [Option.some.injEq, Prod.mk.injEq] at h
          obtain ⟨rfl, -, -⟩ := h
          exact lexical_ne (get_token_lexical A cfg _ _ hg4)
  · simp only [Option.some.injEq, Prod.mk.injEq] at h
    obtain ⟨rfl, -, -⟩ := h
    decide

theorem parse_unary_loop_never (A : Arith α) (cfg : Config) :
    ∀ (fuel : Nat) (neg : Bool) (c : EvalContext α U) (r : EvalResult × Bool × EvalContext α U),
      parse_unary_loop A cfg fuel neg c = some r → r.1 ≠ EvalResult.LITERAL_OUT_OF_RANGE := by
  intro fuel
  induction fuel with
  | zero => intro neg c r h; simp [parse_unary_loop] at h
  | succ fuel ih =>
    intro neg c r h
    simp only [parse_unary_loop] at h
    split_ifs at h
    · split at h
      · simp at h
      · rename_i res c1 hg
        split_ifs at h
        · simp only [Option.some.injEq] at h
          subst h
          exact lexical_ne (get_token_lexical A cfg _ _ hg)
        · exact ih _ _ r h
    · simp only [Option.some.injEq] at h
      subst h
      exact ok_ne_out_of_range

theorem parse_unary_never (A : Arith α) (cfg : Config) (hooks : Option (EvalHooks α U))
    (hh : HooksNever EvalResult.LITERAL_OUT_OF_RANGE hooks)
    (pe : EvalContext α U → α → Option (EvalResult × EvalContext α U × α))
    (hpe : PENever EvalResult.LITERAL_OUT_OF_RANGE hooks pe) :
    PENever EvalResult.LITERAL_OUT_OF_RANGE hooks (parse_unary A cfg pe) := by
  intro c x out v r hc h
  simp only [parse_unary] at h
  split at h
  · simp at h
  · rename_i res neg c1 hl
    have f1 := parse_unary_loop_frame A cfg _ _ _ _ hl
    have l1 := parse_unary_loop_never A cfg _ _ _ _ hl
    by_cases hr : res = EvalResult.OK
    · subst hr
      simp only [ne_eq, not_true_eq_false, if_false] at h
      split at h
      · simp at h
      · rename_i res2 c2 v2 hp
        have l2 := parse_term_never A cfg hooks hh pe hpe _ _ _ _ _ (f1.1.trans hc) hp
        split_ifs at h <;> simp only [Option.some.injEq, Prod.mk.injEq] at h <;>
          obtain ⟨rfl, -, -⟩ := h <;> first | exact l2 | exact ok_ne_out_of_range
    · simp only [ne_eq, hr, not_false_eq_true, if_true, Option.some.injEq, Prod.mk.injEq] at h
      obtain ⟨rfl, -, -⟩ := h
      exact l1

end Eval

namespace Eval

variable {α U : Type}

theorem parse_product_loop_never (A : Arith α) (cfg : Config) (hooks : Option (EvalHooks α U))
    (hh : HooksNever EvalResult.LITERAL_OUT_OF_RANGE hooks)
    (pe : EvalContext α U → α → Option (EvalResult × EvalContext α U × α))
    (hpef : PEFrame pe) (hpe : PENever EvalResult.LITERAL_OUT_OF_RANGE hooks pe) :
    ∀ (fuel : Nat) (c x : EvalContext α U) (lhs rhs v : α) (r : EvalResult),
      c.hooks = hooks → parse_product_loop A cfg pe fuel c lhs rhs = some (r, x, v) →
      r ≠ EvalResult.LITERAL_OUT_OF_RANGE := by
  intro fuel
  induction fuel with
  | zero => intro c x lhs rhs v r _ h; simp [parse_product_loop] at h
  | succ fuel ih =>
    intro c x lhs rhs v r hc h
    simp only [parse_product_loop] at h
    split_ifs at h
    ·
      split at h
      · simp at h
      · rename_i res c1 hg
        have f1 := get_token_frame A cfg _ _ hg
        split_ifs at h
        · simp only [Option.some.injEq, Prod.mk.injEq] at h
          obtain ⟨rfl, -, -⟩ := h
          exact lexical_ne (get_token_lexical A cfg _ _ hg)
        · split at h
          · simp at h
          · rename_i res2 c2 v2 hp
            have f2 := frame_trans f1 (parse_unary_frame A cfg pe hpef _ _ _ _ _ hp)
            split_ifs at h
            · simp only [Option.some.injEq, Prod.mk.injEq] at h
              obtain ⟨rfl, -, -⟩ := h
              exact parse_unary_never A cfg hooks hh pe hpe _ _ _ _ _ (f1.1.trans hc) hp
            · exact ih _ _ _ _ _ _ (f2.1.trans hc) h
    ·
      split at h
      · simp at h
      · rename_i res c1 hg
        have f1 := get_token_frame A cfg _ _ hg
        split_ifs at h
        · simp only [Option.some.injEq, Prod.mk.injEq] at h
          obtain ⟨rfl, -, -⟩ := h
          exact lexical_ne (get_token_lexical A cfg _ _ hg)
        · split at h
          · simp at h
          · rename_i res2 c2 v2 hp
            have f2 := frame_trans f1 (parse_unary_frame A cfg pe hpef _ _ _ _ _ hp)
            split_ifs at h
            · simp only [Option.some.injEq, Prod.mk.injEq] at h
              obtain ⟨rfl, -, -⟩ := h
              exact parse_unary_never A cfg hooks hh pe hpe _ _ _ _ _ (f1.1.trans hc) hp
            · exact ih _ _ _ _ _ _ (f2.1.trans hc) h
    ·
      split at h
      · simp at h
      · rename_i res c1 hg
        have f1 := get_token_frame A cfg _ _ hg
        split_ifs at h
        · simp only [Option.some.injEq, Prod.mk.injEq] at h
          obtain ⟨rfl, -, -⟩ := h
          exact lexical_ne (get_token_lexical A cfg _ _ hg)
        · split at h
          · simp at h
          · rename_i res2 c2 v2 hp
            have f2 := frame_trans f1 (parse_unary_frame A cfg pe hpef _ _ _ _ _ hp)
            split_ifs at h
            · simp only [Option.some.injEq, Prod.mk.injEq] at h
              obtain ⟨rfl, -, -⟩ := h
              exact parse_unary_never A cfg hooks hh pe hpe _ _ _ _ _ (f1.1.trans hc) hp
            · exact ih _ _ _ _ _ _ (f2.1.trans hc) h
    · simp only [Option.some.injEq, Prod.mk.injEq] at h
      obtain ⟨rfl, -, -⟩ := h
      exact ok_ne_out_of_range

theorem parse_product_never (A : Arith α) (cfg : Config) (hooks : Option (EvalHooks α U))
    (hh : HooksNever EvalResult.LITERAL_OUT_OF_RANGE hooks)
    (pe : EvalContext α U → α → Option (EvalResult × EvalContext α U × α))
    (hpef : PEFrame pe) (hpe : PENever EvalResult.LITERAL_OUT_OF_RANGE hooks pe) :
    PENever EvalResult.LITERAL_OUT_OF_RANGE hooks (parse_product A cfg pe) := by
  intro c x out v r hc h
  simp only [parse_product] at h
  split at h
  · simp at h
  · rename_i res c1 l1 hu
    have f1 := parse_unary_frame A cfg pe hpef _ _ _ _ _ hu
    have n1 := parse_unary_never A cfg hooks hh pe hpe _ _ _ _ _ hc hu
    split_ifs at h
    · simp only [Option.some.injEq, Prod.mk.injEq] at h
      obtain ⟨rfl, -, -⟩ := h
      exact n1
    · split at h
      · simp at h
      · rename_i res2 c2 l2 hl
        have n2 := parse_product_loop_never A cfg hooks hh pe hpef hpe _ _ _ _ _ _ _ (f1.1.trans hc) hl
        split_ifs at h <;> simp only [Option.some.injEq, Prod.mk.injEq] at h <;>
          obtain ⟨rfl, -, -⟩ := h <;> first | exact n2 | exact ok_ne_out_of_range

theorem parse_sum_loop_never (A : Arith α) (cfg : Config) (hooks : Option (EvalHooks α U))
    (hh : HooksNever EvalResult.LITERAL_OUT_OF_RANGE hooks)
    (pe : EvalContext α U → α → Option (EvalResult × EvalContext α U × α))
    (hpef : PEFrame pe) (hpe : PENever EvalResult.LITERAL_OUT_OF_RANGE hooks pe) :
    ∀ (fuel : Nat) (c x : EvalContext α U) (lhs rhs v : α) (r : EvalResult),
      c.hooks = hooks → parse_sum_loop A cfg pe fuel c lhs rhs = some (r, x, v) →
      r ≠ EvalResult.LITERAL_OUT_OF_RANGE := by
  intro fuel
  induction fuel with
  | zero => intro c x lhs rhs v r _ h; simp [parse_sum_loop] at h
  | succ fuel ih =>
    intro c x lhs rhs v r hc h
    simp only [parse_sum_loop] at h
    split_ifs at h
    ·
      split at h
      · simp at h
      · rename_i res c1 hg
        have f1 := get_token_frame A cfg _ _ hg
        split_ifs at h
        · simp only [Option.some.injEq, Prod.mk.injEq] at h
          obtain ⟨rfl, -, -⟩ := h
          exact lexical_ne (get_token_lexical A cfg _ _ hg)
        · split at h
          · simp at h
          · rename_i res2 c2 v2 hp
            have f2 := frame_trans f1 (parse_product_frame A cfg pe hpef _ _ _ _ _ hp)
            split_ifs at h
            · simp only [Option.some.injEq, Prod.mk.injEq] at h
              obtain ⟨rfl, -, -⟩ := h
              exact parse_product_never A cfg hooks hh pe hpef hpe _ _ _ _ _ (f1.1.trans hc) hp
            · exact ih _ _ _ _ _ _ (f2.1.trans hc) h
    ·
      split at h
      · simp at h
      · rename_i res c1 hg
        have f1 := get_token_frame A cfg _ _ hg
        split_ifs at h
        · simp only [Option.some.injEq, Prod.mk.injEq] at h
          obtain ⟨rfl, -, -⟩ := h
          exact lexical_ne (get_token_lexical A cfg _ _ hg)
        · split at h
          · simp at h
          · rename_i res2 c2 v2 hp
            have f2 := frame_trans f1 (parse_product_frame A cfg pe hpef _ _ _ _ _ hp)
            split_ifs at h
            · simp only [Option.some.injEq, Prod.mk.injEq] at h
              obtain ⟨rfl, -, -⟩ := h
              exact parse_product_never A cfg hooks hh pe hpef hpe _ _ _ _ _ (f1.1.trans hc) hp
            · exact ih _ _ _ _ _ _ (f2.1.trans hc) h
    · simp only [Option.some.injEq, Prod.mk.injEq] at h
      obtain ⟨rfl, -, -⟩ := h
      exact ok_ne_out_of_range

theorem parse_sum_never (A : Arith α) (cfg : Config) (hooks : Option (EvalHooks α U))
    (hh : HooksNever EvalResult.LITERAL_OUT_OF_RANGE hooks)
    (pe : EvalContext α U → α → Option (EvalResult × EvalContext α U × α))
    (hpef : PEFrame pe) (hpe : PENever EvalResult.LITERAL_OUT_OF_RANGE hooks pe) :
    PENever EvalResult.LITERAL_OUT_OF_RANGE hooks (parse_sum A cfg pe) := by
  intro c x out v r hc h
  simp only [parse_sum] at h
  split at h
  · simp at h
  · rename_i res c1 l1 hu
    have f1 := parse_product_frame A cfg pe hpef _ _ _ _ _ hu
    have n1 := parse_product_never A cfg hooks hh pe hpef hpe _ _ _ _ _ hc hu
    split_ifs at h
    · simp only [Option.some.injEq, Prod.mk.injEq] at h
      obtain ⟨rfl, -, -⟩ := h
      exact n1
    · split at h
      · simp at h
      · rename_i res2 c2 l2 hl
        have n2 := parse_sum_loop_never A cfg hooks hh pe hpef hpe _ _ _ _ _ _ _ (f1.1.trans hc) hl
        split_ifs at h <;> simp only [Option.some.injEq, Prod.mk.injEq] at h <;>
          obtain ⟨rfl, -, -⟩ := h <;> first | exact n2 | exact ok_ne_out_of_range

theorem parse_expr_never (A : Arith α) (cfg : Config) (hooks : Option (EvalHooks α U))
    (hh : HooksNever EvalResult.LITERAL_OUT_OF_RANGE hooks) :
    ∀ fuel : Nat, PENever EvalResult.LITERAL_OUT_OF_RANGE hooks
      (parse_expr A cfg fuel : EvalContext α U → α → _) := by
  intro fuel
  induction fuel with
  | zero => intro c x out v r _ h; simp [parse_expr] at h
  | succ fuel ih =>
    intro c x out v r hc h
    simp only [parse_expr] at h
    split_ifs at h
    · simp only [Option.some.injEq, Prod.mk.injEq] at h
      obtain ⟨rfl, -, -⟩ := h
      exact fun hx => absurd hx (by decide)
    · split at h
      · simp at h
      · rename_i res c1 v1 hs
        have n1 := parse_sum_never A cfg hooks hh _ (parse_expr_frame A cfg fuel) ih
          { c with stack_level := c.stack_level + 1 } _ _ _ _ hc hs
        simp only [Option.some.injEq, Prod.mk.injEq] at h
        obtain ⟨rfl, -, -⟩ := h
        exact n1

/-- With hooks whose callbacks never return `LITERAL_OUT_OF_RANGE`, neither
does `eval_execute`. -/
theorem eval_execute_never (A : Arith α) (cfg : Config) (hooks : Option (EvalHooks α U))
    (hh : HooksNever EvalResult.LITERAL_OUT_OF_RANGE hooks)
    (e : List Char) (user_data : U) (output v : α) (r : EvalResult)
    (h : eval_execute A cfg e hooks user_data output = some (r, v)) :
    r ≠ EvalResult.LITERAL_OUT_OF_RANGE := by
  simp only [eval_execute] at h
  split at h
  · simp at h
  · rename_i res c1 hg
    have f1 := get_token_frame A cfg _ _ hg
    split_ifs at h
    · simp only [Option.some.injEq, Prod.mk.injEq] at h
      obtain ⟨rfl, -⟩ := h
      exact lexical_ne (get_token_lexical A cfg _ _ hg)
    · split at h
      · simp at h
      · rename_i res2 c2 v2 hp
        have n2 := parse_expr_never A cfg hooks hh _ _ _ _ _ _ f1.1 hp
        split_ifs at h <;> simp only [Option.some.injEq, Prod.mk.injEq] at h <;>
          obtain ⟨rfl, -⟩ := h <;>
          first | exact n2 | exact ok_ne_out_of_range | exact fun hx => absurd hx (by decide)

end Eval

namespace Eval

variable {α U : Type}

/-! ## The watched cursor never faults -/

theorem nul_index_getD (l : List Char) : l.getD (nul_index l) NUL = NUL := by
  induction l with
  | nil => rfl
  | cons c cs ih =>
    simp only [nul_index]
    split_ifs with h
    · simp [h]
    · simpa using ih

theorem nul_index_le (l : List Char) : nul_index l ≤ l.length := by
  induction l with
  | nil => simp [nul_index]
  | cons c cs ih =>
    simp only [nul_index]
    split_ifs
    · simp
    · simp only [List.length_cons]
      omega

theorem nul_index_first (l : List Char) : ∀ p : Nat, p < nul_index l → l.getD p NUL ≠ NUL := by
  induction l with
  | nil => intro p h; simp [nul_index] at h
  | cons c cs ih =>
    intro p h
    simp only [nul_index] at h
    split_ifs at h with hc
    · omega
    · cases p with
      | zero => simpa using hc
      | succ p => simpa using ih p (by omega)

theorem after_get_char (ctx : EvalContext α U) (h : Inside ctx) :
    After (get_char ctx).1 (get_char ctx).2 := by
  refine ⟨by simp [get_char], ?_, by simp [get_char]⟩
  simp only [get_char]
  exact Nat.succ_le_succ h

theorem after_inside {c : Char} {ctx : EvalContext α U} (h : After c ctx) (hc : c ≠ NUL) :
    Inside ctx := by
  obtain ⟨h1, h2, h3⟩ := h
  simp only [Inside]
  by_contra hn
  have hp : ctx.pos - 1 = nul_index ctx.input := by omega
  rw [hp, nul_index_getD] at h3
  exact hc h3

theorem get_char_checked_eq (ctx : EvalContext α U) (h : Inside ctx) :
    get_char_checked ctx = Watched.done (get_char ctx) := by
  simp only [get_char_checked]
  exact if_pos h

theorem put_char_checked_eq {c : Char} (ctx : EvalContext α U) (h : After c ctx) :
    put_char_checked ctx = Watched.done (put_char ctx) := by
  simp only [put_char_checked]
  exact if_pos h.1

theorem after_put_char {c : Char} {ctx : EvalContext α U} (h : After c ctx) :
    Inside (put_char ctx) ∧ (put_char ctx).pos + 1 = ctx.pos := by
  obtain ⟨h1, h2, -⟩ := h
  simp only [Inside, put_char]
  omega

theorem int_loop_safe (A : Arith α) :
    ∀ (fuel : Nat) (value : α) (c : Char) (ctx : EvalContext α U),
      After c ctx → is_digit c = true → nul_index ctx.input + 1 ≤ fuel + ctx.pos →
      ∃ r, get_number_int_loop A fuel value c ctx = some r ∧
        get_number_int_loop_checked A fuel value c ctx = Watched.done r ∧
        After r.2.1 r.2.2 ∧ r.2.2.input = ctx.input ∧ ctx.pos + 1 ≤ r.2.2.pos := by
  intro fuel
  induction fuel with
  | zero =>
    intro value c ctx ha hd hf
    have := after_inside ha (digit_ne_nul hd)
    simp only [Inside] at this
    omega
  | succ fuel ih =>
    intro value c ctx ha hd hf
    have hin := after_inside ha (digit_ne_nul hd)
    have ha1 := after_get_char ctx hin
    simp only [get_number_int_loop, get_number_int_loop_checked, get_char_checked_eq ctx hin,
      Watched.bind]
    cases hdig : is_digit (get_char ctx).1 with
    | true =>
      simp only [if_true]
      obtain ⟨r, h1, h2, h3, h4, h5⟩ := ih
        (A.add (A.mul value (A.ofNat 10)) (A.ofNat (digit_value c))) _ _ ha1 hdig
        (by simp only [get_char]; omega)
      refine ⟨r, h1, h2, h3, h4, ?_⟩
      simp only [get_char] at h5
      omega
    | false =>
      simp only [Bool.false_eq_true, if_false]
      exact ⟨_, rfl, rfl, ha1, rfl, by simp [get_char]⟩

end Eval

namespace Eval

variable {α U : Type}

theorem frac_loop_safe (A : Arith α) :
    ∀ (fuel : Nat) (value : α) (exp : Int) (c : Char) (ctx : EvalContext α U),
      After c ctx → is_digit c = true → nul_index ctx.input + 1 ≤ fuel + ctx.pos →
      ∃ r, get_number_frac_loop A fuel value exp c ctx = some r ∧
        get_number_frac_loop_checked A fuel value exp c ctx = Watched.done r ∧
        After r.2.2.1 r.2.2.2 ∧ r.2.2.2.input = ctx.input ∧ ctx.pos + 1 ≤ r.2.2.2.pos := by
  intro fuel
  induction fuel with
  | zero =>
    intro value exp c ctx ha hd hf
    have := after_inside ha (digit_ne_nul hd)
    simp only [Inside] at this
    omega
  | succ fuel ih =>
    intro value exp c ctx ha hd hf
    have hin := after_inside ha (digit_ne_nul hd)
    have ha1 := after_get_char ctx hin
    simp only [get_number_frac_loop, get_number_frac_loop_checked, get_char_checked_eq ctx hin,
      Watched.bind]
    cases hdig : is_digit (get_char ctx).1 with
    | true =>
      simp only [if_true]
      obtain ⟨r, h1, h2, h3, h4, h5⟩ := ih
        (A.add (A.mul value (A.ofNat 10)) (A.ofNat (digit_value c))) (exp - 1) _ _ ha1 hdig
        (by simp only [get_char]; omega)
      refine ⟨r, h1, h2, h3, h4, ?_⟩
      simp only [get_char] at h5
      omega
    | false =>
      simp only [Bool.false_eq_true, if_false]
      exact ⟨_, rfl, rfl, ha1, rfl, by simp [get_char]⟩

theorem short_runs_spec (e : List Char) (h : short_runs e = true) : ¬ LongRun e := by
  rintro ⟨s, hs⟩
  have h0 := hs 0 (by omega)
  have hlt : s < e.length := by
    by_contra hge
    rw [Nat.add_zero, List.getD_eq_default _ _ (by omega)] at h0
    revert h0; decide
  simp only [short_runs, List.all_eq_true, List.mem_range, List.any_eq_true,
    Bool.not_eq_true'] at h
  obtain ⟨j, hj, hd⟩ := h s hlt
  rw [hs j hj] at hd
  cases hd

theorem pow_ten_overflow (k : Nat) (v d : Int) (hv : v < 10 ^ k) (hd : d ≤ 9)
    (hov : v * 10 + d > INT_MAX) : 9 ≤ k := by
  by_contra hk
  have hk8 : k ≤ 8 := by omega
  have h1 : (10 : Int) ^ k ≤ 10 ^ 8 := pow_le_pow_right₀ (by norm_num) hk8
  simp only [INT_MAX] at hov
  norm_num at h1 hov
  omega

theorem digit_value_le (c : Char) (h : is_digit c = true) : (digit_value c : Int) ≤ 9 := by
  simp only [is_digit, Bool.and_eq_true, decide_eq_true_eq] at h
  simp only [digit_value]
  have h1 := h.1
  have h2 := h.2
  rw [Char.le_def] at h1 h2
  simp only [Char.toNat]
  have e0 : ('0' : Char).val.toNat = 48 := by decide
  have e9 : ('9' : Char).val.toNat = 57 := by decide
  have k1 : ('0' : Char).val.toNat ≤ c.val.toNat := h1
  have k2 : c.val.toNat ≤ ('9' : Char).val.toNat := h2
  omega

/-- The exponent loop: `k` digits have been accumulated into `int_val`, and
they stand before the digit `c` last read.  Either the accumulator overflows,
after ten digits in a row at least, or the loop returns without a fault. -/
theorem exp_loop_safe :
    ∀ (fuel : Nat) (int_val : Int) (c : Char) (ctx : EvalContext α U) (k : Nat),
      After c ctx → is_digit c = true → nul_index ctx.input + 1 ≤ fuel + ctx.pos →
      0 ≤ int_val → int_val < 10 ^ k → k + 1 ≤ ctx.pos →
      (∀ j, j < k → is_digit (ctx.input.getD (ctx.pos - 1 - k + j) NUL) = true) →
      (get_number_exp_loop fuel int_val c ctx = none ∧
        get_number_exp_loop_checked fuel int_val c ctx = Watched.stuck ∧
        LongRun ctx.input) ∨
      ∃ r, get_number_exp_loop fuel int_val c ctx = some r ∧
        get_number_exp_loop_checked fuel int_val c ctx = Watched.done r ∧
        After r.2.1 r.2.2 ∧ r.2.2.input = ctx.input ∧ ctx.pos + 1 ≤ r.2.2.pos := by
  intro fuel
  induction fuel with
  | zero =>
    intro int_val c ctx k ha hd hf
    have := after_inside ha (digit_ne_nul hd)
    simp only [Inside] at this
    omega
  | succ fuel ih =>
    intro int_val c ctx k ha hd hf h0 hk hpos hdigs
    have hin := after_inside ha (digit_ne_nul hd)
    have ha1 := after_get_char ctx hin
    have hd9 := digit_value_le c hd
    simp only [get_number_exp_loop, get_number_exp_loop_checked]
    by_cases hov : int_val * 10 + (digit_value c : Int) > INT_MAX
    · left
      rw [if_pos hov, if_pos hov]
      refine ⟨rfl, rfl, ctx.pos - 1 - k, fun j hj => ?_⟩
      have hk9 := pow_ten_overflow k int_val _ hk hd9 hov
      by_cases hjk : j < k
      · exact hdigs j hjk
      · have hj' : ctx.pos - 1 - k + j = ctx.pos - 1 := by omega
        rw [hj', ← ha.2.2]
        exact hd
    · rw [if_neg hov, if_neg hov]
      simp only [get_char_checked_eq ctx hin, Watched.bind]
      cases hdig : is_digit (get_char ctx).1 with
      | true =>
        simp only [if_true]
        have hk' : int_val * 10 + (digit_value c : Int) < 10 ^ (k + 1) := by
          have h9 : (digit_value c : Int) ≤ 9 := hd9
          rw [pow_succ]
          omega
        have hdigs' : ∀ j, j < k + 1 →
            is_digit ((get_char ctx).2.input.getD ((get_char ctx).2.pos - 1 - (k + 1) + j) NUL)
              = true := by
          intro j hj
          simp only [get_char]
          by_cases hjk : j < k
          · have e : ctx.pos + 1 - 1 - (k + 1) + j = ctx.pos - 1 - k + j := by omega
            rw [e]
            exact hdigs j hjk
          · have e : ctx.pos + 1 - 1 - (k + 1) + j = ctx.pos - 1 := by omega
            rw [e, ← ha.2.2]
            exact hd
        rcases ih (int_val * 10 + (digit_value c : Int)) _ _ (k + 1) ha1 hdig
          (by simp only [get_char]; omega) (by positivity) hk'
          (by simp only [get_char]; omega) hdigs' with ⟨h1, h2, h3⟩ | ⟨r, h1, h2, h3, h4, h5⟩
        · exact Or.inl ⟨h1, h2, h3⟩
        · refine Or.inr ⟨r, h1, h2, h3, h4, ?_⟩
          simp only [get_char] at h5
          omega
      | false =>
        simp only [Bool.false_eq_true, if_false]
        exact Or.inr ⟨_, rfl, rfl, ha1, rfl, by simp [get_char]⟩

/-- The last step of `get_number` steps the cursor back from behind the
character last read: it is inside the text again. -/
theorem get_number_scale_safe (A : Arith α) (value : α) (exp : Int) (c : Char)
    (ctx : EvalContext α U) (ha : After c ctx) :
    ∃ x, get_number_scale A value exp ctx = some (EvalResult.OK, x) ∧
      get_number_scale_checked A value exp ctx = Watched.done (EvalResult.OK, x) ∧
      Inside x ∧ x.input = ctx.input ∧ x.pos + 1 = ctx.pos ∧
      x.token.type = EvalTokenType.NUMBER := by
  obtain ⟨v, hv⟩ := scale_isSome A value exp
  simp only [get_number_scale, get_number_scale_checked, hv, put_char_checked_eq ctx ha,
    Watched.bind]
  exact ⟨_, rfl, rfl, (after_put_char ha).1, rfl, (after_put_char ha).2, rfl⟩

theorem get_number_exp_safe (A : Arith α) (fuel : Nat) (value : α) (exp : Int) (c : Char)
    (ctx : EvalContext α U) (ha : After c ctx)
    (hf : nul_index ctx.input + 1 ≤ fuel + ctx.pos) :
    (get_number_exp A fuel value exp c ctx = none ∧
      get_number_exp_checked A fuel value exp c ctx = Watched.stuck ∧ LongRun ctx.input) ∨
    ∃ r, get_number_exp A fuel value exp c ctx = some r ∧
      get_number_exp_checked A fuel value exp c ctx = Watched.done r ∧
      r.2.input = ctx.input ∧ r.2.pos ≤ nul_index ctx.input + 1 ∧
      (r.1 = EvalResult.OK → Inside r.2 ∧ ctx.pos ≤ r.2.pos + 1 ∧
        r.2.token.type = EvalTokenType.NUMBER) := by
  have hscale : ∀ (e : Int) (ch : Char) (cx : EvalContext α U), After ch cx →
      cx.input = ctx.input → ctx.pos ≤ cx.pos →
      (get_number_scale A value e cx = none ∧
        get_number_scale_checked A value e cx = Watched.stuck ∧ LongRun ctx.input) ∨
      ∃ r, get_number_scale A value e cx = some r ∧
        get_number_scale_checked A value e cx = Watched.done r ∧
        r.2.input = ctx.input ∧ r.2.pos ≤ nul_index ctx.input + 1 ∧
        (r.1 = EvalResult.OK → Inside r.2 ∧ ctx.pos ≤ r.2.pos + 1 ∧
          r.2.token.type = EvalTokenType.NUMBER) := by
    intro e ch cx hcx hi hp
    obtain ⟨x, h1, h2, h3, h4, h5, h6⟩ := get_number_scale_safe A value e ch cx hcx
    refine Or.inr ⟨_, h1, h2, h4.trans hi, ?_, fun _ => ⟨h3, ?_, h6⟩⟩
    · have := h3
      simp only [Inside, h4, hi] at this
      show x.pos ≤ _
      omega
    · show ctx.pos ≤ x.pos + 1
      omega
  have hloop : ∀ (neg : Bool) (ch : Char) (cx : EvalContext α U), After ch cx →
      cx.input = ctx.input → ctx.pos ≤ cx.pos →
      ((if (!is_digit ch) = true then some (EvalResult.INVALID_LITERAL, cx)
          else
            match get_number_exp_loop fuel 0 ch cx with
            | none => none
            | some (int_val, _, cx) =>
              get_number_scale A value (if neg = true then exp - int_val else exp + int_val) cx) =
          none ∧
        (if (!is_digit ch) = true then Watched.done (EvalResult.INVALID_LITERAL, cx)
          else
            (get_number_exp_loop_checked fuel 0 ch cx).bind fun x =>
              match x with
              | (int_val, _, cx) =>
                get_number_scale_checked A value
                  (if neg = true then exp - int_val else exp + int_val) cx) =
          Watched.stuck ∧ LongRun ctx.input) ∨
      ∃ r, (if (!is_digit ch) = true then some (EvalResult.INVALID_LITERAL, cx)
          else
            match get_number_exp_loop fuel 0 ch cx with
            | none => none
            | some (int_val, _, cx) =>
              get_number_scale A value (if neg = true then exp - int_val else exp + int_val) cx) =
          some r ∧
        (if (!is_digit ch) = true then Watched.done (EvalResult.INVALID_LITERAL, cx)
          else
            (get_number_exp_loop_checked fuel 0 ch cx).bind fun x =>
              match x with
              | (int_val, _, cx) =>
                get_number_scale_checked A value
                  (if neg = true then exp - int_val else exp + int_val) cx) =
          Watched.done r ∧
        r.2.input = ctx.input ∧ r.2.pos ≤ nul_index ctx.input + 1 ∧
        (r.1 = EvalResult.OK → Inside r.2 ∧ ctx.pos ≤ r.2.pos + 1 ∧
          r.2.token.type = EvalTokenType.NUMBER) := by
    intro neg ch cx hcx hi hp
    cases hdig : is_digit ch with
    | false =>
      simp only [Bool.not_false, if_true]
      refine Or.inr ⟨_, rfl, rfl, hi, ?_, fun h => absurd h (by simp)⟩
      have := hcx.2.1
      rw [hi] at this
      exact this
    | true =>
      simp only [Bool.not_true, Bool.false_eq_true, if_false]
      rcases exp_loop_safe fuel 0 ch cx 0 hcx hdig (by rw [hi]; omega) (le_refl _)
        (by norm_num) (by have := hcx.1; omega) (fun j hj => absurd hj (by omega)) with
        ⟨h1, h2, h3⟩ | ⟨r1, h1, h2, h3, h4, h5⟩
      · simp only [h1, h2, Watched.bind]
        exact Or.inl ⟨trivial, trivial, hi ▸ h3⟩
      · obtain ⟨iv, c2, cx2⟩ := r1
        simp only [h1, h2, Watched.bind]
        exact hscale _ c2 cx2 h3 (h4.trans hi) (by simp only at h5; omega)
  cases he : is_exp c with
  | false =>
    simp only [get_number_exp, get_number_exp_checked, he, Bool.false_eq_true, if_false]
    exact hscale exp c ctx ha rfl (Nat.le_refl _)
  | true =>
    have hin := after_inside ha (exp_ne_nul he)
    have ha1 := after_get_char ctx hin
    simp only [get_number_exp, get_number_exp_checked, he, if_true, get_char_checked_eq ctx hin,
      Watched.bind]
    by_cases hm : (get_char ctx).1 = '-'
    · have hin1 : Inside (get_char ctx).2 := after_inside ha1 (by rw [hm]; decide)
      have ha2 := after_get_char _ hin1
      simp only [hm, if_true, get_char_checked_eq _ hin1, Watched.bind]
      exact hloop true _ _ ha2 rfl (by simp only [get_char]; omega)
    · by_cases hpl : (get_char ctx).1 = '+'
      · have hin1 : Inside (get_char ctx).2 := after_inside ha1 (by rw [hpl]; decide)
        have ha2 := after_get_char _ hin1
        simp only [hm, if_false]
        simp only [hpl, if_true, get_char_checked_eq _ hin1, Watched.bind]
        exact hloop false _ _ ha2 rfl (by simp only [get_char]; omega)
      · simp only [hm, hpl, if_false, Watched.bind]
        exact hloop false _ _ ha1 rfl (by simp only [get_char]; omega)

end Eval

namespace Eval

variable {α U : Type}

theorem get_number_frac_safe (A : Arith α) (fuel : Nat) (value : α) (exp : Int) (c : Char)
    (ctx : EvalContext α U) (ha : After c ctx)
    (hf : nul_index ctx.input + 1 ≤ fuel + ctx.pos) :
    (get_number_frac A fuel value exp c ctx = none ∧
      get_number_frac_checked A fuel value exp c ctx = Watched.stuck ∧ LongRun ctx.input) ∨
    ∃ r, get_number_frac A fuel value exp c ctx = some r ∧
      get_number_frac_checked A fuel value exp c ctx = Watched.done r ∧
      r.2.input = ctx.input ∧ r.2.pos ≤ nul_index ctx.input + 1 ∧
      (r.1 = EvalResult.OK → Inside r.2 ∧ ctx.pos ≤ r.2.pos + 1 ∧
        (is_dp c = true → ctx.pos + 1 ≤ r.2.pos) ∧
        r.2.token.type = EvalTokenType.NUMBER) := by
  cases hp : is_dp c with
  | false =>
    simp only [get_number_frac, get_number_frac_checked, hp, Bool.false_eq_true, if_false]
    rcases get_number_exp_safe A fuel value exp c ctx ha hf with
      ⟨n1, n2, n3⟩ | ⟨r, h1, h2, h3, h4, h5⟩
    · exact Or.inl ⟨n1, n2, n3⟩
    exact Or.inr ⟨r, h1, h2, h3, h4, fun hr => ⟨(h5 hr).1, (h5 hr).2.1, fun hx => absurd hx (by simp),
      (h5 hr).2.2⟩⟩
  | true =>
    have hin := after_inside ha (dp_ne_nul hp)
    have ha1 := after_get_char ctx hin
    simp only [get_number_frac, get_number_frac_checked, hp, if_true,
      get_char_checked_eq ctx hin, Watched.bind]
    cases hdig : is_digit (get_char ctx).1 with
    | false =>
      simp only [Bool.not_false, if_true]
      exact Or.inr ⟨_, rfl, rfl, rfl, ha1.2.1, fun h => absurd h (by simp)⟩
    | true =>
      simp only [Bool.not_true, Bool.false_eq_true, if_false]
      obtain ⟨r1, h1, h2, h3, h4, h5⟩ := frac_loop_safe A fuel value exp _ _ ha1 hdig
        (by simp only [get_char]; omega)
      obtain ⟨v2, e2, c2, cx2⟩ := r1
      simp only [h1, h2, Watched.bind]
      simp only [get_char] at h4 h5
      simp only at h3 h4 h5
      rcases get_number_exp_safe A fuel v2 e2 c2 cx2 h3 (by rw [h4]; omega) with
        ⟨n1, n2, n3⟩ | ⟨r, g1, g2, g3, g4, g5⟩
      · exact Or.inl ⟨n1, n2, h4 ▸ n3⟩
      refine Or.inr ⟨r, g1, g2, g3.trans h4, by rw [← h4]; exact g4, fun hr => ?_⟩
      obtain ⟨k1, k2, k3⟩ := g5 hr
      exact ⟨k1, by omega, fun _ => by omega, k3⟩

theorem get_number_safe (A : Arith α) (ctx : EvalContext α U) (hin : Inside ctx) :
    (get_number A ctx = none ∧ get_number_checked A ctx = Watched.stuck ∧
      LongRun ctx.input) ∨
    ∃ r, get_number A ctx = some r ∧ get_number_checked A ctx = Watched.done r ∧
      r.2.input = ctx.input ∧ r.2.pos ≤ nul_index ctx.input + 1 ∧
      (r.1 = EvalResult.OK → Inside r.2 ∧ ctx.pos + 1 ≤ r.2.pos ∧
        r.2.token.type = EvalTokenType.NUMBER) := by
  have ha1 := after_get_char ctx hin
  have hlen := nul_index_le ctx.input
  simp only [get_number, get_number_checked, get_char_checked_eq ctx hin, Watched.bind]
  cases hp : is_dp (get_char ctx).1 with
  | true =>
    simp only [Bool.not_true, Bool.false_eq_true, if_false]
    rcases get_number_frac_safe A (ctx.input.length + 1) (A.ofNat 0) 0
      _ _ ha1 (by simp only [get_char]; omega) with ⟨n1, n2, n3⟩ | ⟨r, g1, g2, g3, g4, g5⟩
    · exact Or.inl ⟨n1, n2, n3⟩
    refine Or.inr ⟨r, g1, g2, g3, g4, fun hr => ?_⟩
    obtain ⟨k1, -, k3, k4⟩ := g5 hr
    have := k3 hp
    simp only [get_char] at this
    exact ⟨k1, by omega, k4⟩
  | false =>
    simp only [Bool.not_false, if_true]
    cases hdig : is_digit (get_char ctx).1 with
    | false =>
      simp only [Bool.not_false, if_true]
      exact Or.inr ⟨_, rfl, rfl, rfl, ha1.2.1, fun h => absurd h (by simp)⟩
    | true =>
      simp only [Bool.not_true, Bool.false_eq_true, if_false]
      obtain ⟨r1, h1, h2, h3, h4, h5⟩ := int_loop_safe A (ctx.input.length + 1) (A.ofNat 0) _ _
        ha1 hdig (by simp only [get_char]; omega)
      obtain ⟨v2, c2, cx2⟩ := r1
      simp only [h1, h2, Watched.bind]
      simp only [get_char] at h4 h5
      simp only at h3 h4 h5
      rcases get_number_frac_safe A (ctx.input.length + 1) v2 0 c2
        cx2 h3 (by rw [h4]; omega) with ⟨n1, n2, n3⟩ | ⟨r, g1, g2, g3, g4, g5⟩
      · exact Or.inl ⟨n1, n2, h4 ▸ n3⟩
      refine Or.inr ⟨r, g1, g2, g3.trans h4, by rw [← h4]; exact g4, fun hr => ?_⟩
      obtain ⟨k1, k2, -, k4⟩ := g5 hr
      exact ⟨k1, by omega, k4⟩

theorem get_name_loop_safe (cfg : Config) :
    ∀ (fuel : Nat) (name : List Char) (ctx : EvalContext α U),
      Inside ctx → nul_index ctx.input + 1 ≤ fuel + ctx.pos →
      ∃ r, get_name_loop cfg fuel name ctx = some r ∧
        get_name_loop_checked cfg fuel name ctx = Watched.done r ∧
        r.2.2.input = ctx.input ∧ r.2.2.pos ≤ nul_index ctx.input + 1 ∧
        ctx.pos + 1 ≤ r.2.2.pos ∧
        (r.1 = EvalResult.OK → is_name (ctx.input.getD ctx.pos NUL) = true →
          ctx.pos + 2 ≤ r.2.2.pos) := by
  intro fuel
  induction fuel with
  | zero =>
    intro name ctx hin hf
    simp only [Inside] at hin
    omega
  | succ fuel ih =>
    intro name ctx hin hf
    have ha1 := after_get_char ctx hin
    simp only [get_name_loop, get_name_loop_checked, get_char_checked_eq ctx hin, Watched.bind]
    cases hn : is_name (get_char ctx).1 with
    | false =>
      simp only [Bool.not_false, if_true]
      refine ⟨_, rfl, rfl, rfl, ha1.2.1, by simp [get_char], fun _ hx => ?_⟩
      simp only [get_char] at hn
      rw [hn] at hx
      exact absurd hx (by simp)
    | true =>
      simp only [Bool.not_true, Bool.false_eq_true, if_false]
      by_cases hlen : name.length ≥ cfg.EVAL_MAX_NAME_LENGTH - 1
      · simp only [hlen, if_true]
        exact ⟨_, rfl, rfl, rfl, ha1.2.1, by simp [get_char], fun h => absurd h (by simp)⟩
      · simp only [hlen, if_false]
        have hin1 : Inside (get_char ctx).2 := after_inside ha1 (name_ne_nul hn)
        obtain ⟨r, h1, h2, h3, h4, h5, -⟩ := ih (name ++ [(get_char ctx).1]) _ hin1
          (by simp only [get_char]; omega)
        simp only [get_char] at h3 h4 h5
        refine ⟨r, h1, h2, h3, h4, by omega, fun _ _ => by omega⟩

theorem get_name_safe (cfg : Config) (ctx : EvalContext α U) (type : List Char → EvalToken α)
    (htype : ∀ name, (type name).type ≠ EvalTokenType.END) (hin : Inside ctx) :
    ∃ r, get_name cfg ctx type = some r ∧ get_name_checked cfg ctx type = Watched.done r ∧
      r.2.input = ctx.input ∧ r.2.pos ≤ nul_index ctx.input + 1 ∧
      (r.1 = EvalResult.OK → Inside r.2 ∧ ctx.pos ≤ r.2.pos ∧
        (is_name (ctx.input.getD ctx.pos NUL) = true → ctx.pos + 1 ≤ r.2.pos) ∧
        r.2.token.type ≠ EvalTokenType.END) := by
  have hlen := nul_index_le ctx.input
  obtain ⟨r1, h1, h2, h3, h4, h5, h6⟩ := get_name_loop_safe cfg (ctx.input.length + 1) [] ctx hin
    (by omega)
  obtain ⟨res, name, cx⟩ := r1
  simp only at h3 h4 h5 h6
  simp only [get_name, get_name_checked, h1, h2, Watched.bind]
  by_cases hr : res = EvalResult.OK
  · subst hr
    have hax : After (cx.input.getD (cx.pos - 1) NUL) cx :=
      ⟨by omega, by rw [h3]; exact h4, rfl⟩
    simp only [ne_eq, not_true_eq_false, if_false, put_char_checked_eq cx hax, Watched.bind]
    refine ⟨_, rfl, rfl, h3, ?_, fun _ => ⟨?_, ?_, fun hx => ?_, htype name⟩⟩
    · simp only [put_char]
      omega
    · have := (after_put_char hax).1
      simpa [Inside, put_char] using this
    · simp only [put_char]
      omega
    · have := h6 rfl hx
      simp only [put_char]
      omega
  · simp only [ne_eq, hr, not_false_eq_true, if_true]
    exact ⟨_, rfl, rfl, h3, h4, fun h => absurd h hr⟩

end Eval

namespace Eval

variable {α U : Type}

theorem get_token_loop_safe (A : Arith α) (cfg : Config) :
    ∀ (fuel : Nat) (ctx : EvalContext α U),
      Inside ctx → nul_index ctx.input + 1 ≤ fuel + ctx.pos →
      (get_token_loop A cfg fuel ctx = none ∧
        get_token_loop_checked A cfg fuel ctx = Watched.stuck ∧ LongRun ctx.input) ∨
      ∃ r, get_token_loop A cfg fuel ctx = some r ∧
        get_token_loop_checked A cfg fuel ctx = Watched.done r ∧
        r.2.input = ctx.input ∧ r.2.pos ≤ nul_index ctx.input + 1 ∧
        (r.1 = EvalResult.OK → Inside r.2 ∧ ctx.pos ≤ r.2.pos ∧
          (r.2.token.type ≠ EvalTokenType.END → ctx.pos + 1 ≤ r.2.pos)) := by
  intro fuel
  induction fuel with
  | zero =>
    intro ctx hin hf
    simp only [Inside] at hin
    omega
  | succ fuel ih =>
    intro ctx hin hf
    have ha1 := after_get_char ctx hin
    have hp0 : ctx.pos ≤ nul_index ctx.input := hin
    simp only [get_token_loop, get_token_loop_checked, get_char_checked_eq ctx hin, Watched.bind]
    by_cases hc : (get_char ctx).1 = NUL
    · simp only [hc, if_true, put_char_checked_eq _ ha1, Watched.bind]
      refine Or.inr ⟨_, rfl, rfl, rfl, ?_, fun _ => ⟨?_, ?_, fun h => absurd rfl h⟩⟩
      · simp only [put_char, get_char]
        omega
      · have := (after_put_char ha1).1
        simpa [Inside, put_char] using this
      · simp only [put_char, get_char]
        omega
    simp only [hc, if_false]
    have hin1 : Inside (get_char ctx).2 := after_inside ha1 hc
    have ha2 := after_get_char _ hin1
    have hp1 : ctx.pos + 1 ≤ nul_index ctx.input := hin1
    clear hc
    by_cases hc : (get_char ctx).1 ≤ ' '
    · simp only [hc, if_true]
      rcases ih (get_char ctx).2 hin1 (by simp only [get_char]; omega) with
        ⟨n1, n2, n3⟩ | ⟨r, h1, h2, h3, h4, h5⟩
      · exact Or.inl ⟨n1, n2, n3⟩
      simp only [get_char] at h3 h4 h5
      refine Or.inr ⟨r, h1, h2, h3, h4, fun hr => ?_⟩
      obtain ⟨k1, k2, k3⟩ := h5 hr
      exact ⟨k1, by omega, fun hx => by have := k3 hx; omega⟩
    simp only [hc, if_false]
    clear hc
    by_cases hc : (is_digit (get_char ctx).1 || is_dp (get_char ctx).1) = true
    · simp only [hc, if_true, put_char_checked_eq _ ha1, Watched.bind, put_get_char]
      rcases get_number_safe A ctx hin with ⟨n1, n2, n3⟩ | ⟨r, h1, h2, h3, h4, h5⟩
      · exact Or.inl ⟨n1, n2, n3⟩
      refine Or.inr ⟨r, h1, h2, h3, h4, fun hr => ?_⟩
      obtain ⟨k1, k2, k3⟩ := h5 hr
      exact ⟨k1, by omega, fun _ => k2⟩
    simp only [hc, Bool.false_eq_true, if_false]
    clear hc
    by_cases hc : is_name_start (get_char ctx).1 = true
    · simp only [hc, if_true, put_char_checked_eq _ ha1, Watched.bind, put_get_char]
      obtain ⟨r, h1, h2, h3, h4, h5⟩ := get_name_safe cfg ctx EvalToken.FUNC
        (fun _ => by simp [EvalToken.type]) hin
      refine Or.inr ⟨r, h1, h2, h3, h4, fun hr => ?_⟩
      obtain ⟨k1, k2, k3, k4⟩ := h5 hr
      have hnm : is_name (ctx.input.getD ctx.pos NUL) = true := by
        simp only [get_char] at hc
        simp only [is_name, hc, Bool.true_or]
      exact ⟨k1, k2, fun _ => k3 hnm⟩
    simp only [hc, Bool.false_eq_true, if_false]
    clear hc
    by_cases hc : (get_char ctx).1 = '$'
    · simp only [hc, if_true]
      obtain ⟨r, h1, h2, h3, h4, h5⟩ := get_name_safe cfg (get_char ctx).2 EvalToken.VARIABLE
        (fun _ => by simp [EvalToken.type]) hin1
      simp only [get_char] at h3 h4 h5
      refine Or.inr ⟨r, h1, h2, h3, h4, fun hr => ?_⟩
      obtain ⟨k1, k2, k3, k4⟩ := h5 hr
      exact ⟨k1, by omega, fun _ => by omega⟩
    simp only [hc, if_false]
    clear hc
    by_cases hc : (get_char ctx).1 = '>'
    · simp only [hc, if_true, get_char_checked_eq _ hin1, Watched.bind]
      by_cases hq : (get_char (get_char ctx).2).1 = '='
      · simp only [hq, if_true]
        have hin2 : Inside (get_char (get_char ctx).2).2 := after_inside ha2 (by rw [hq]; decide)
        refine Or.inr ⟨_, rfl, rfl, rfl, ha2.2.1, fun _ => ⟨hin2, ?_, fun _ => ?_⟩⟩ <;>
          simp only [get_char] <;> omega
      · simp only [hq, if_false, put_char_checked_eq _ ha2, Watched.bind]
        refine Or.inr ⟨_, rfl, rfl, rfl, ?_, fun _ => ⟨(after_put_char ha2).1, ?_, fun _ => ?_⟩⟩ <;>
          simp only [put_char, get_char] <;> omega
    simp only [hc, if_false]
    clear hc
    by_cases hc : (get_char ctx).1 = '<'
    · simp only [hc, if_true, get_char_checked_eq _ hin1, Watched.bind]
      by_cases hq : (get_char (get_char ctx).2).1 = '='
      · simp only [hq, if_true]
        have hin2 : Inside (get_char (get_char ctx).2).2 := after_inside ha2 (by rw [hq]; decide)
        refine Or.inr ⟨_, rfl, rfl, rfl, ha2.2.1, fun _ => ⟨hin2, ?_, fun _ => ?_⟩⟩ <;>
          simp only [get_char] <;> omega
      · simp only [hq, if_false, put_char_checked_eq _ ha2, Watched.bind]
        refine Or.inr ⟨_, rfl, rfl, rfl, ?_, fun _ => ⟨(after_put_char ha2).1, ?_, fun _ => ?_⟩⟩ <;>
          simp only [put_char, get_char] <;> omega
    simp only [hc, if_false]
    clear hc
    by_cases hc : (get_char ctx).1 = '='
    · simp only [hc, if_true, get_char_checked_eq _ hin1, Watched.bind]
      by_cases hq : (get_char (get_char ctx).2).1 = '='
      · simp only [hq, ne_eq, not_true_eq_false, if_false]
        have hin2 : Inside (get_char (get_char ctx).2).2 := after_inside ha2 (by rw [hq]; decide)
        refine Or.inr ⟨_, rfl, rfl, rfl, ha2.2.1, fun _ => ⟨hin2, ?_, fun _ => ?_⟩⟩ <;>
          simp only [get_char] <;> omega
      · have ha3 : After (get_char (get_char ctx).2).1
            { (get_char (get_char ctx).2).2 with token := (EvalToken.E : EvalToken α) } := ha2
        simp only [hq, ne_eq, not_false_eq_true, if_true, put_char_checked_eq _ ha3, Watched.bind]
        refine Or.inr ⟨_, rfl, rfl, rfl, ?_, fun _ => ⟨(after_put_char ha3).1, ?_, fun _ => ?_⟩⟩ <;>
          simp only [put_char, get_char] <;> omega
    simp only [hc, if_false]
    clear hc
    by_cases hc : (get_char ctx).1 = '+'
    · simp only [hc, if_true]
      refine Or.inr ⟨_, rfl, rfl, rfl, ha1.2.1, fun _ => ⟨hin1, ?_, fun _ => ?_⟩⟩ <;>
        simp only [get_char] <;> omega
    simp only [hc, if_false]
    clear hc
    by_cases hc : (get_char ctx).1 = '-'
    · simp only [hc, if_true]
      refine Or.inr ⟨_, rfl, rfl, rfl, ha1.2.1, fun _ => ⟨hin1, ?_, fun _ => ?_⟩⟩ <;>
        simp only [get_char] <;> omega
    simp only [hc, if_false]
    clear hc
    by_cases hc : (get_char ctx).1 = '*'
    · simp only [hc, if_true]
      refine Or.inr ⟨_, rfl, rfl, rfl, ha1.2.1, fun _ => ⟨hin1, ?_, fun _ => ?_⟩⟩ <;>
        simp only [get_char] <;> omega
    simp only [hc, if_false]
    clear hc
    by_cases hc : (get_char ctx).1 = '/'
    · simp only [hc, if_true]
      refine Or.inr ⟨_, rfl, rfl, rfl, ha1.2.1, fun _ => ⟨hin1, ?_, fun _ => ?_⟩⟩ <;>
        simp only [get_char] <;> omega
    simp only [hc, if_false]
    clear hc
    by_cases hc : (get_char ctx).1 = '('
    · simp only [hc, if_true]
      refine Or.inr ⟨_, rfl, rfl, rfl, ha1.2.1, fun _ => ⟨hin1, ?_, fun _ => ?_⟩⟩ <;>
        simp only [get_char] <;> omega
    simp only [hc, if_false]
    clear hc
    by_cases hc : (get_char ctx).1 = ')'
    · simp only [hc, if_true]
      refine Or.inr ⟨_, rfl, rfl, rfl, ha1.2.1, fun _ => ⟨hin1, ?_, fun _ => ?_⟩⟩ <;>
        simp only [get_char] <;> omega
    simp only [hc, if_false]
    clear hc
    refine Or.inr ⟨_, rfl, rfl, rfl, ha1.2.1, fun h => absurd h (by simp)⟩

/-- From a cursor inside the text, either `get_token` gives no result, with
the cursor watched or not, the text holding ten digits in a row; or it
returns, and it returns the same with the cursor watched: no character is read
behind the first terminator and the cursor is not stepped back from the start.
The cursor ends at most one behind the terminator, and on `OK` inside the
text, behind where it was when the token is not `END`. -/
theorem get_token_safe (A : Arith α) (cfg : Config) (ctx : EvalContext α U) (hin : Inside ctx) :
    (get_token A cfg ctx = none ∧ get_token_checked A cfg ctx = Watched.stuck ∧
      LongRun ctx.input) ∨
    ∃ r, get_token A cfg ctx = some r ∧ get_token_checked A cfg ctx = Watched.done r ∧
      r.2.input = ctx.input ∧ r.2.pos ≤ nul_index ctx.input + 1 ∧
      (r.1 = EvalResult.OK → Inside r.2 ∧ ctx.pos ≤ r.2.pos ∧
        (r.2.token.type ≠ EvalTokenType.END → ctx.pos + 1 ≤ r.2.pos)) := by
  have hlen := nul_index_le ctx.input
  exact get_token_loop_safe A cfg (ctx.input.length + 1) ctx hin (by omega)

end Eval

namespace Eval

variable {α U : Type}

theorem lexed_room_le (ctx : EvalContext α U) (h : Lexed ctx) :
    room ctx ≤ nul_index ctx.input := by
  simp only [room]
  split_ifs with ht
  · exact Nat.zero_le _
  · have := h.2 ht
    omega

/-- From a cursor inside the text, `get_token` gives no result, the text
holding ten digits in a row, or it returns, the same with the cursor watched,
and after an `OK` fewer tokens are left to read, unless `END` had been read
before. -/
theorem get_token_lexed (A : Arith α) (cfg : Config) (ctx : EvalContext α U) (hin : Inside ctx) :
    (get_token A cfg ctx = none ∧ get_token_checked A cfg ctx = Watched.stuck ∧
      LongRun ctx.input) ∨
    ∃ r, get_token A cfg ctx = some r ∧ get_token_checked A cfg ctx = Watched.done r ∧
      Frame ctx r.2 ∧ r.2.pos ≤ nul_index ctx.input + 1 ∧
      (r.1 = EvalResult.OK → Lexed r.2 ∧
        (ctx.token.type ≠ EvalTokenType.END → room r.2 < room ctx)) := by
  rcases get_token_safe A cfg ctx hin with ⟨n1, n2, n3⟩ | ⟨r, h1, h2, h3, h4, h5⟩
  · exact Or.inl ⟨n1, n2, n3⟩
  refine Or.inr ⟨r, h1, h2, get_token_frame A cfg ctx r h1, h4, fun hr => ?_⟩
  obtain ⟨k1, k2, k3⟩ := h5 hr
  have hp0 : ctx.pos ≤ nul_index ctx.input := hin
  have hp1 : r.2.pos ≤ nul_index ctx.input := by
    have := k1
    simp only [Inside, h3] at this
    exact this
  refine ⟨⟨k1, fun ht => by have := k3 ht; omega⟩, fun ht => ?_⟩
  simp only [room, ht, if_false, h3]
  split_ifs with hx
  · omega
  · have := k3 hx
    omega

theorem parse_post_err (ctx x : EvalContext α U) (r : EvalResult) (v : α) (hf : Frame ctx x)
    (hp : x.pos ≤ nul_index ctx.input + 1) (hr : r ≠ EvalResult.OK) :
    ParsePost ctx (r, x, v) :=
  ⟨hf, hp, fun h => absurd h hr⟩

theorem parse_post_refl (ctx : EvalContext α U) (r : EvalResult) (v : α) (h : Lexed ctx) :
    ParsePost ctx (r, ctx, v) := by
  refine ⟨frame_refl _, ?_, fun _ => ⟨h, Nat.le_refl _⟩⟩
  have : ctx.pos ≤ nul_index ctx.input := h.1
  show ctx.pos ≤ _
  omega

/-- The last step of `parse_term`: the token after the term is read. -/
theorem parse_post_token (A : Arith α) (cfg : Config) (ctx x : EvalContext α U) (v : α)
    (hf : Frame ctx x) (hx : Lexed x) (hne : x.token.type ≠ EvalTokenType.END)
    (hroom : room x ≤ room ctx) :
    (get_token A cfg x = none ∧ get_token_checked A cfg x = Watched.stuck ∧
      LongRun ctx.input) ∨
    ∃ r, get_token A cfg x = some r ∧ get_token_checked A cfg x = Watched.done r ∧
      ParsePost ctx (r.1, r.2, v) := by
  rcases get_token_lexed A cfg x hx.1 with ⟨n1, n2, n3⟩ | ⟨r, h1, h2, h3, h4, h5⟩
  · exact Or.inl ⟨n1, n2, hf.2.2.1 ▸ n3⟩
  refine Or.inr ⟨r, h1, h2, frame_trans hf h3, by rw [← hf.2.2.1]; exact h4, fun hr => ?_⟩
  obtain ⟨k1, k2⟩ := h5 hr
  exact ⟨k1, by have := k2 hne; show room r.2 ≤ room ctx; omega⟩

end Eval

namespace Eval

variable {α U : Type}

theorem parse_term_safe (A : Arith α) (cfg : Config) (l : Nat)
    (pe : EvalContext α U → α → Option (EvalResult × EvalContext α U × α))
    (pec : EvalContext α U → α → Watched (EvalResult × EvalContext α U × α))
    (hpe : SafePE l pe pec) :
    SafePE l (parse_term A cfg pe) (parse_term_checked A cfg pec) := by
  intro ctx out hl hsl
  have hpos : ctx.pos ≤ nul_index ctx.input + 1 := by
    have : ctx.pos ≤ nul_index ctx.input := hl.1
    omega
  cases htok : ctx.token with
  | NUMBER number =>
    have hne : ctx.token.type ≠ EvalTokenType.END := by rw [htok]; simp [EvalToken.type]
    rcases parse_post_token A cfg ctx ctx number (frame_refl _) hl hne
      (Nat.le_refl _) with ⟨n1, n2, n3⟩ | ⟨r, h1, h2, hp⟩
    · refine Or.inl ⟨?_, ?_, n3⟩ <;>
        simp only [parse_term, parse_term_checked, htok, n1, n2, Watched.bind]
    obtain ⟨res, x⟩ := r
    simp only [parse_term, parse_term_checked, htok, h1, h2, Watched.bind]
    exact Or.inr ⟨_, rfl, rfl, hp⟩
  | OPEN_BRACKET =>
    have hne : ctx.token.type ≠ EvalTokenType.END := by rw [htok]; simp [EvalToken.type]
    rcases get_token_lexed A cfg ctx hl.1 with
      ⟨n1, n2, n3⟩ | ⟨⟨res1, x1⟩, h1, h2, f1, p1, ok1⟩
    · refine Or.inl ⟨?_, ?_, n3⟩ <;>
        simp only [parse_term, parse_term_checked, htok, n1, n2, Watched.bind]
    simp only [parse_term, parse_term_checked, htok, h1, h2, Watched.bind]
    by_cases hr1 : res1 = EvalResult.OK
    swap
    · simp only [ne_eq, hr1, not_false_eq_true, if_true]
      exact Or.inr ⟨_, rfl, rfl, parse_post_err ctx x1 res1 out f1 p1 hr1⟩
    subst hr1
    simp only [ne_eq, not_true_eq_false, if_false]
    obtain ⟨lx1, rm1⟩ := ok1 rfl
    have rm1 : room x1 < room ctx := rm1 hne
    rcases hpe x1 out lx1 (f1.2.2.2.trans hsl) with
      ⟨n1, n2, n3⟩ | ⟨⟨res2, x2, v2⟩, g1, g2, f2, p2, ok2⟩
    · refine Or.inl ⟨?_, ?_, f1.2.2.1 ▸ n3⟩ <;> simp only [n1, n2, Watched.bind]
    have p2' : x2.pos ≤ nul_index ctx.input + 1 := by rw [← f1.2.2.1]; exact p2
    simp only [g1, g2, Watched.bind]
    by_cases hr2 : res2 = EvalResult.OK
    swap
    · simp only [hr2, not_false_eq_true, if_true]
      exact Or.inr ⟨_, rfl, rfl, parse_post_err ctx x2 res2 v2 (frame_trans f1 f2) p2' hr2⟩
    subst hr2
    obtain ⟨lx2, rm2⟩ := ok2 rfl
    have rm2 : room x2 ≤ room x1 := rm2
    simp only [not_true_eq_false, if_false]
    by_cases hcl : x2.token.type = EvalTokenType.CLOSE_BRACKET
    swap
    · simp only [hcl, not_false_eq_true, if_true]
      exact Or.inr ⟨_, rfl, rfl, parse_post_err ctx x2 _ v2 (frame_trans f1 f2) p2' (by decide)⟩
    simp only [hcl, not_true_eq_false, if_false]
    rcases parse_post_token A cfg ctx x2 v2 (frame_trans f1 f2) lx2
      (by rw [hcl]; decide) (by omega) with ⟨n1, n2, n3⟩ | ⟨r, k1, k2, kp⟩
    · refine Or.inl ⟨?_, ?_, n3⟩ <;> simp only [n1, n2, Watched.bind]
    obtain ⟨res, x⟩ := r
    simp only [k1, k2, Watched.bind]
    exact Or.inr ⟨_, rfl, rfl, kp⟩
  | FUNC name =>
    have hne : ctx.token.type ≠ EvalTokenType.END := by rw [htok]; simp [EvalToken.type]
    simp only [parse_term, parse_term_checked, htok]
    cases hgf : ctx.hooks.bind (fun hooks => hooks.get_func) with
    | none =>
      try simp only []
      exact Or.inr ⟨_, rfl, rfl, parse_post_err ctx ctx _ out (frame_refl _) hpos (by decide)⟩
    | some gf =>
      try simp only []
      cases hf : gf name ctx.user_data with
      | none =>
        try simp only []
        exact Or.inr ⟨_, rfl, rfl, parse_post_err ctx ctx _ out (frame_refl _) hpos (by decide)⟩
      | some func =>
        try simp only []
        rcases get_token_lexed A cfg ctx hl.1 with
          ⟨n1, n2, n3⟩ | ⟨⟨res1, x1⟩, h1, h2, f1, p1, ok1⟩
        · refine Or.inl ⟨?_, ?_, n3⟩ <;> simp only [n1, n2, Watched.bind]
        simp only [h1, h2, Watched.bind]
        by_cases hr1 : res1 = EvalResult.OK
        swap
        · simp only [ne_eq, hr1, not_false_eq_true, if_true]
          exact Or.inr ⟨_, rfl, rfl, parse_post_err ctx x1 res1 out f1 p1 hr1⟩
        subst hr1
        simp only [ne_eq, not_true_eq_false, if_false]
        obtain ⟨lx1, rm1⟩ := ok1 rfl
        have rm1 : room x1 < room ctx := rm1 hne
        by_cases hop : x1.token.type = EvalTokenType.OPEN_BRACKET
        swap
        · simp only [hop, not_false_eq_true, if_true]
          exact Or.inr ⟨_, rfl, rfl, parse_post_err ctx x1 _ out f1 p1 (by decide)⟩
        simp only [hop, not_true_eq_false, if_false]
        rcases get_token_lexed A cfg x1 lx1.1 with
          ⟨n1, n2, n3⟩ | ⟨⟨res2, x2⟩, g1, g2, f2, p2, ok2⟩
        · refine Or.inl ⟨?_, ?_, f1.2.2.1 ▸ n3⟩ <;> simp only [n1, n2, Watched.bind]
        have f12 := frame_trans f1 f2
        have p2' : x2.pos ≤ nul_index ctx.input + 1 := by rw [← f1.2.2.1]; exact p2
        simp only [g1, g2, Watched.bind]
        by_cases hr2 : res2 = EvalResult.OK
        swap
        · simp only [hr2, not_false_eq_true, if_true]
          exact Or.inr ⟨_, rfl, rfl, parse_post_err ctx x2 res2 out f12 p2' hr2⟩
        subst hr2
        simp only [not_true_eq_false, if_false]
        obtain ⟨lx2, rm2⟩ := ok2 rfl
        have rm2 : room x2 < room x1 := rm2 (by rw [hop]; decide)
        rcases hpe x2 (A.ofNat 0) lx2 (f12.2.2.2.trans hsl) with
          ⟨n1, n2, n3⟩ | ⟨⟨res3, x3, v3⟩, e1, e2, f3, p3, ok3⟩
        · refine Or.inl ⟨?_, ?_, f12.2.2.1 ▸ n3⟩ <;> simp only [n1, n2, Watched.bind]
        have f13 := frame_trans f12 f3
        have p3' : x3.pos ≤ nul_index ctx.input + 1 := by rw [← f12.2.2.1]; exact p3
        simp only [e1, e2, Watched.bind]
        by_cases hr3 : res3 = EvalResult.OK
        swap
        · simp only [hr3, not_false_eq_true, if_true]
          exact Or.inr ⟨_, rfl, rfl, parse_post_err ctx x3 res3 out f13 p3' hr3⟩
        subst hr3
        obtain ⟨lx3, rm3⟩ := ok3 rfl
        have rm3 : room x3 ≤ room x2 := rm3
        simp only [not_true_eq_false, if_false]
        by_cases hcl : x3.token.type = EvalTokenType.CLOSE_BRACKET
        swap
        · simp only [hcl, not_false_eq_true, if_true]
          exact Or.inr ⟨_, rfl, rfl, parse_post_err ctx x3 _ out f13 p3' (by decide)⟩
        simp only [hcl, not_true_eq_false, if_false]
        cases hfr : func v3 x3.user_data out with
        | mk fr fo =>
          try simp only []
          by_cases hr4 : fr = EvalResult.OK
          swap
          · simp only [hr4, not_false_eq_true, if_true]
            exact Or.inr ⟨_, rfl, rfl, parse_post_err ctx x3 fr fo f13 p3' hr4⟩
          subst hr4
          simp only [not_true_eq_false, if_false]
          rcases parse_post_token A cfg ctx x3 fo f13 lx3
            (by rw [hcl]; decide) (by omega) with ⟨n1, n2, n3⟩ | ⟨r, k1, k2, kp⟩
          · refine Or.inl ⟨?_, ?_, n3⟩ <;> simp only [n1, n2, Watched.bind]
          obtain ⟨res, x⟩ := r
          simp only [k1, k2, Watched.bind]
          exact Or.inr ⟨_, rfl, rfl, kp⟩
  | VARIABLE name =>
    have hne : ctx.token.type ≠ EvalTokenType.END := by rw [htok]; simp [EvalToken.type]
    simp only [parse_term, parse_term_checked, htok]
    cases hgv : ctx.hooks.bind (fun hooks => hooks.get_variable) with
    | none =>
      try simp only []
      exact Or.inr ⟨_, rfl, rfl, parse_post_err ctx ctx _ out (frame_refl _) hpos (by decide)⟩
    | some gv =>
      try simp only []
      cases hvr : gv name ctx.user_data out with
      | mk vr vo =>
        try simp only []
        by_cases hr4 : vr = EvalResult.OK
        swap
        · simp only [ne_eq, hr4, not_false_eq_true, if_true]
          exact Or.inr ⟨_, rfl, rfl, parse_post_err ctx ctx vr vo (frame_refl _) hpos hr4⟩
        subst hr4
        simp only [ne_eq, not_true_eq_false, if_false]
        rcases parse_post_token A cfg ctx ctx vo (frame_refl _) hl hne
          (Nat.le_refl _) with ⟨n1, n2, n3⟩ | ⟨r, k1, k2, kp⟩
        · refine Or.inl ⟨?_, ?_, n3⟩ <;> simp only [n1, n2, Watched.bind]
        obtain ⟨res, x⟩ := r
        simp only [k1, k2, Watched.bind]
        exact Or.inr ⟨_, rfl, rfl, kp⟩
  | _ =>
    simp only [parse_term, parse_term_checked, htok]
    exact Or.inr ⟨_, rfl, rfl, parse_post_err ctx ctx _ out (frame_refl _) hpos (by decide)⟩

end Eval

namespace Eval

variable {α U : Type}

theorem parse_unary_loop_safe (A : Arith α) (cfg : Config) :
    ∀ (fuel : Nat) (neg : Bool) (ctx : EvalContext α U),
      Lexed ctx → room ctx + 1 ≤ fuel →
      (parse_unary_loop A cfg fuel neg ctx = none ∧
        parse_unary_loop_checked A cfg fuel neg ctx = Watched.stuck ∧ LongRun ctx.input) ∨
      ∃ r, parse_unary_loop A cfg fuel neg ctx = some r ∧
        parse_unary_loop_checked A cfg fuel neg ctx = Watched.done r ∧
        Frame ctx r.2.2 ∧ r.2.2.pos ≤ nul_index ctx.input + 1 ∧
        (r.1 = EvalResult.OK → Lexed r.2.2 ∧ room r.2.2 ≤ room ctx) := by
  intro fuel
  induction fuel with
  | zero => intro neg ctx _ hf; omega
  | succ fuel ih =>
    intro neg ctx hl hf
    have hpos : ctx.pos ≤ nul_index ctx.input + 1 := by
      have : ctx.pos ≤ nul_index ctx.input := hl.1
      omega
    simp only [parse_unary_loop, parse_unary_loop_checked]
    by_cases hs : ctx.token.type = EvalTokenType.SUBTRACT
    · have hne : ctx.token.type ≠ EvalTokenType.END := by rw [hs]; decide
      rcases get_token_lexed A cfg ctx hl.1 with
        ⟨n1, n2, n3⟩ | ⟨⟨res1, x1⟩, h1, h2, f1, p1, ok1⟩
      · refine Or.inl ⟨?_, ?_, n3⟩ <;>
          simp only [hs, if_true, n1, n2, Watched.bind]
      simp only [hs, if_true, h1, h2, Watched.bind]
      by_cases hr1 : res1 = EvalResult.OK
      swap
      · simp only [ne_eq, hr1, not_false_eq_true, if_true]
        exact Or.inr ⟨_, rfl, rfl, f1, p1, fun h => absurd h hr1⟩
      subst hr1
      simp only [ne_eq, not_true_eq_false, if_false]
      obtain ⟨lx1, rm1⟩ := ok1 rfl
      have rm1 : room x1 < room ctx := rm1 hne
      rcases ih (!neg) x1 lx1 (by omega) with
        ⟨n1, n2, n3⟩ | ⟨r, k1, k2, f3, p3, ok3⟩
      · exact Or.inl ⟨n1, n2, f1.2.2.1 ▸ n3⟩
      refine Or.inr ⟨r, k1, k2, frame_trans f1 f3, by rw [← f1.2.2.1]; exact p3, fun hr => ?_⟩
      obtain ⟨lx3, rm3⟩ := ok3 hr
      exact ⟨lx3, by omega⟩
    · simp only [hs, if_false]
      exact Or.inr ⟨_, rfl, rfl, frame_refl _, hpos, fun _ => ⟨hl, Nat.le_refl _⟩⟩

theorem parse_unary_safe (A : Arith α) (cfg : Config) (l : Nat)
    (pe : EvalContext α U → α → Option (EvalResult × EvalContext α U × α))
    (pec : EvalContext α U → α → Watched (EvalResult × EvalContext α U × α))
    (hpe : SafePE l pe pec) :
    SafePE l (parse_unary A cfg pe) (parse_unary_checked A cfg pec) := by
  intro ctx out hl hsl
  have hroom := lexed_room_le ctx hl
  have hlen := nul_index_le ctx.input
  rcases parse_unary_loop_safe A cfg
    (ctx.input.length + 1) false ctx hl (by omega) with
    ⟨n1, n2, n3⟩ | ⟨⟨res1, neg, x1⟩, h1, h2, f1, p1, ok1⟩
  · refine Or.inl ⟨?_, ?_, n3⟩ <;>
      simp only [parse_unary, parse_unary_checked, n1, n2, Watched.bind]
  simp only [parse_unary, parse_unary_checked, h1, h2, Watched.bind]
  by_cases hr1 : res1 = EvalResult.OK
  swap
  · simp only [ne_eq, hr1, not_false_eq_true, if_true]
    exact Or.inr ⟨_, rfl, rfl, parse_post_err ctx x1 res1 out f1 p1 hr1⟩
  subst hr1
  simp only [ne_eq, not_true_eq_false, if_false]
  obtain ⟨lx1, rm1⟩ := ok1 rfl
  have rm1 : room x1 ≤ room ctx := rm1
  rcases parse_term_safe A cfg l pe pec hpe x1 (A.ofNat 0) lx1 (f1.2.2.2.trans hsl) with
    ⟨n1, n2, n3⟩ | ⟨⟨res2, x2, v2⟩, g1, g2, f2, p2, ok2⟩
  · refine Or.inl ⟨?_, ?_, f1.2.2.1 ▸ n3⟩ <;>
      simp only [n1, n2, Watched.bind]
  have f12 := frame_trans f1 f2
  have p2' : x2.pos ≤ nul_index ctx.input + 1 := by rw [← f1.2.2.1]; exact p2
  simp only [g1, g2, Watched.bind]
  by_cases hr2 : res2 = EvalResult.OK
  swap
  · simp only [hr2, not_false_eq_true, if_true]
    exact Or.inr ⟨_, rfl, rfl, parse_post_err ctx x2 res2 out f12 p2' hr2⟩
  subst hr2
  simp only [not_true_eq_false, if_false]
  obtain ⟨lx2, rm2⟩ := ok2 rfl
  have rm2 : room x2 ≤ room x1 := rm2
  exact Or.inr ⟨_, rfl, rfl, f12, p2', fun _ => ⟨lx2, by show room x2 ≤ room ctx; omega⟩⟩

theorem parse_product_loop_safe (A : Arith α) (cfg : Config) (l : Nat)
    (pe : EvalContext α U → α → Option (EvalResult × EvalContext α U × α))
    (pec : EvalContext α U → α → Watched (EvalResult × EvalContext α U × α))
    (hpe : SafePE l pe pec) :
    ∀ (fuel : Nat) (ctx : EvalContext α U) (lhs rhs : α),
      Lexed ctx → ctx.stack_level = l → room ctx + 1 ≤ fuel →
      (parse_product_loop A cfg pe fuel ctx lhs rhs = none ∧
        parse_product_loop_checked A cfg pec fuel ctx lhs rhs = Watched.stuck ∧
        LongRun ctx.input) ∨
      ∃ r, parse_product_loop A cfg pe fuel ctx lhs rhs = some r ∧
        parse_product_loop_checked A cfg pec fuel ctx lhs rhs = Watched.done r ∧ ParsePost ctx r := by
  intro fuel
  induction fuel with
  | zero => intro ctx lhs rhs _ _ hf; omega
  | succ fuel ih =>
    intro ctx lhs rhs hl hsl hf
    simp only [parse_product_loop, parse_product_loop_checked]
    by_cases hc0 : ctx.token.type = EvalTokenType.MULTIPLY
    · rw [if_pos hc0, if_pos hc0]
      have hne : ctx.token.type ≠ EvalTokenType.END := by rw [hc0]; decide
      rcases get_token_lexed A cfg ctx hl.1 with
        ⟨n1, n2, n3⟩ | ⟨⟨res1, x1⟩, h1, h2, f1, p1, ok1⟩
      · refine Or.inl ⟨?_, ?_, n3⟩ <;>
          simp only [n1, n2, Watched.bind]
      simp only [h1, h2, Watched.bind]
      by_cases hr1 : res1 = EvalResult.OK
      swap
      · simp only [ne_eq, hr1, not_false_eq_true, if_true]
        exact Or.inr ⟨_, rfl, rfl, parse_post_err ctx x1 res1 lhs f1 p1 hr1⟩
      subst hr1
      simp only [ne_eq, not_true_eq_false, if_false]
      obtain ⟨lx1, rm1⟩ := ok1 rfl
      have rm1 : room x1 < room ctx := rm1 hne
      rcases parse_unary_safe A cfg l pe pec hpe x1 rhs lx1 (f1.2.2.2.trans hsl) with
        ⟨n1, n2, n3⟩ | ⟨⟨res2, x2, v2⟩, g1, g2, f2, p2, ok2⟩
      · refine Or.inl ⟨?_, ?_, f1.2.2.1 ▸ n3⟩ <;>
          simp only [n1, n2, Watched.bind]
      have f12 := frame_trans f1 f2
      have p2' : x2.pos ≤ nul_index ctx.input + 1 := by rw [← f1.2.2.1]; exact p2
      simp only [g1, g2, Watched.bind]
      by_cases hr2 : res2 = EvalResult.OK
      swap
      · simp only [hr2, not_false_eq_true, if_true]
        exact Or.inr ⟨_, rfl, rfl, parse_post_err ctx x2 res2 lhs f12 p2' hr2⟩
      subst hr2
      simp only [not_true_eq_false, if_false]
      obtain ⟨lx2, rm2⟩ := ok2 rfl
      have rm2 : room x2 ≤ room x1 := rm2
      rcases ih x2 _ v2 lx2 (f12.2.2.2.trans hsl) (by omega) with
        ⟨n1, n2, n3⟩ | ⟨r, k1, k2, f3, p3, ok3⟩
      · exact Or.inl ⟨n1, n2, f12.2.2.1 ▸ n3⟩
      refine Or.inr ⟨r, k1, k2, frame_trans f12 f3, by rw [← f12.2.2.1]; exact p3, fun hr => ?_⟩
      obtain ⟨lx3, rm3⟩ := ok3 hr
      exact ⟨lx3, by omega⟩
    rw [if_neg hc0, if_neg hc0]
    by_cases hc1 : ctx.token.type = EvalTokenType.DIVIDE
    · rw [if_pos hc1, if_pos hc1]
      have hne : ctx.token.type ≠ EvalTokenType.END := by rw [hc1]; decide
      rcases get_token_lexed A cfg ctx hl.1 with
        ⟨n1, n2, n3⟩ | ⟨⟨res1, x1⟩, h1, h2, f1, p1, ok1⟩
      · refine Or.inl ⟨?_, ?_, n3⟩ <;>
          simp only [n1, n2, Watched.bind]
      simp only [h1, h2, Watched.bind]
      by_cases hr1 : res1 = EvalResult.OK
      swap
      · simp only [ne_eq, hr1, not_false_eq_true, if_true]
        exact Or.inr ⟨_, rfl, rfl, parse_post_err ctx x1 res1 lhs f1 p1 hr1⟩
      subst hr1
      simp only [ne_eq, not_true_eq_false, if_false]
      obtain ⟨lx1, rm1⟩ := ok1 rfl
      have rm1 : room x1 < room ctx := rm1 hne
      rcases parse_unary_safe A cfg l pe pec hpe x1 rhs lx1 (f1.2.2.2.trans hsl) with
        ⟨n1, n2, n3⟩ | ⟨⟨res2, x2, v2⟩, g1, g2, f2, p2, ok2⟩
      · refine Or.inl ⟨?_, ?_, f1.2.2.1 ▸ n3⟩ <;>
          simp only [n1, n2, Watched.bind]
      have f12 := frame_trans f1 f2
      have p2' : x2.pos ≤ nul_index ctx.input + 1 := by rw [← f1.2.2.1]; exact p2
      simp only [g1, g2, Watched.bind]
      by_cases hr2 : res2 = EvalResult.OK
      swap
      · simp only [hr2, not_false_eq_true, if_true]
        exact Or.inr ⟨_, rfl, rfl, parse_post_err ctx x2 res2 lhs f12 p2' hr2⟩
      subst hr2
      simp only [not_true_eq_false, if_false]
      obtain ⟨lx2, rm2⟩ := ok2 rfl
      have rm2 : room x2 ≤ room x1 := rm2
      rcases ih x2 _ v2 lx2 (f12.2.2.2.trans hsl) (by omega) with
        ⟨n1, n2, n3⟩ | ⟨r, k1, k2, f3, p3, ok3⟩
      · exact Or.inl ⟨n1, n2, f12.2.2.1 ▸ n3⟩
      refine Or.inr ⟨r, k1, k2, frame_trans f12 f3, by rw [← f12.2.2.1]; exact p3, fun hr => ?_⟩
      obtain ⟨lx3, rm3⟩ := ok3 hr
      exact ⟨lx3, by omega⟩
    rw [if_neg hc1, if_neg hc1]
    by_cases hc2 : ctx.token.type = EvalTokenType.E ∨ ctx.token.type = EvalTokenType.LE ∨
        ctx.token.type = EvalTokenType.L ∨ ctx.token.type = EvalTokenType.GE ∨
        ctx.token.type = EvalTokenType.G
    · rw [if_pos hc2, if_pos hc2]
      have hne : ctx.token.type ≠ EvalTokenType.END := by
        rcases hc2 with h | h | h | h | h <;> rw [h] <;> decide
      rcases get_token_lexed A cfg ctx hl.1 with
        ⟨n1, n2, n3⟩ | ⟨⟨res1, x1⟩, h1, h2, f1, p1, ok1⟩
      · refine Or.inl ⟨?_, ?_, n3⟩ <;>
          simp only [n1, n2, Watched.bind]
      simp only [h1, h2, Watched.bind]
      by_cases hr1 : res1 = EvalResult.OK
      swap
      · simp only [ne_eq, hr1, not_false_eq_true, if_true]
        exact Or.inr ⟨_, rfl, rfl, parse_post_err ctx x1 res1 lhs f1 p1 hr1⟩
      subst hr1
      simp only [ne_eq, not_true_eq_false, if_false]
      obtain ⟨lx1, rm1⟩ := ok1 rfl
      have rm1 : room x1 < room ctx := rm1 hne
      rcases parse_unary_safe A cfg l pe pec hpe x1 rhs lx1 (f1.2.2.2.trans hsl) with
        ⟨n1, n2, n3⟩ | ⟨⟨res2, x2, v2⟩, g1, g2, f2, p2, ok2⟩
      · refine Or.inl ⟨?_, ?_, f1.2.2.1 ▸ n3⟩ <;>
          simp only [n1, n2, Watched.bind]
      have f12 := frame_trans f1 f2
      have p2' : x2.pos ≤ nul_index ctx.input + 1 := by rw [← f1.2.2.1]; exact p2
      simp only [g1, g2, Watched.bind]
      by_cases hr2 : res2 = EvalResult.OK
      swap
      · simp only [hr2, not_false_eq_true, if_true]
        exact Or.inr ⟨_, rfl, rfl, parse_post_err ctx x2 res2 lhs f12 p2' hr2⟩
      subst hr2
      simp only [not_true_eq_false, if_false]
      obtain ⟨lx2, rm2⟩ := ok2 rfl
      have rm2 : room x2 ≤ room x1 := rm2
      rcases ih x2 _ v2 lx2 (f12.2.2.2.trans hsl) (by omega) with
        ⟨n1, n2, n3⟩ | ⟨r, k1, k2, f3, p3, ok3⟩
      · exact Or.inl ⟨n1, n2, f12.2.2.1 ▸ n3⟩
      refine Or.inr ⟨r, k1, k2, frame_trans f12 f3, by rw [← f12.2.2.1]; exact p3, fun hr => ?_⟩
      obtain ⟨lx3, rm3⟩ := ok3 hr
      exact ⟨lx3, by omega⟩
    rw [if_neg hc2, if_neg hc2]
    exact Or.inr ⟨_, rfl, rfl, parse_post_refl ctx _ lhs hl⟩

theorem parse_product_safe (A : Arith α) (cfg : Config) (l : Nat)
    (pe : EvalContext α U → α → Option (EvalResult × EvalContext α U × α))
    (pec : EvalContext α U → α → Watched (EvalResult × EvalContext α U × α))
    (hpe : SafePE l pe pec) :
    SafePE l (parse_product A cfg pe) (parse_product_checked A cfg pec) := by
  intro ctx out hl hsl
  rcases parse_unary_safe A cfg l pe pec hpe ctx (A.ofNat 0) hl hsl with
    ⟨n1, n2, n3⟩ | ⟨⟨res1, x1, v1⟩, h1, h2, f1, p1, ok1⟩
  · refine Or.inl ⟨?_, ?_, n3⟩ <;>
      simp only [parse_product, parse_product_checked, n1, n2, Watched.bind]
  simp only [parse_product, parse_product_checked, h1, h2, Watched.bind]
  by_cases hr1 : res1 = EvalResult.OK
  swap
  · simp only [ne_eq, hr1, not_false_eq_true, if_true]
    exact Or.inr ⟨_, rfl, rfl, parse_post_err ctx x1 res1 out f1 p1 hr1⟩
  subst hr1
  simp only [ne_eq, not_true_eq_false, if_false]
  obtain ⟨lx1, rm1⟩ := ok1 rfl
  have rm1 : room x1 ≤ room ctx := rm1
  have hroom := lexed_room_le ctx hl
  have hlen := nul_index_le ctx.input
  rcases parse_product_loop_safe A cfg l pe pec hpe
    (ctx.input.length + 1) x1 v1 (A.ofNat 0) lx1 (f1.2.2.2.trans hsl) (by omega) with
    ⟨n1, n2, n3⟩ | ⟨⟨res2, x2, v2⟩, g1, g2, f2, p2, ok2⟩
  · refine Or.inl ⟨?_, ?_, f1.2.2.1 ▸ n3⟩ <;>
      simp only [n1, n2, Watched.bind]
  have f12 := frame_trans f1 f2
  have p2' : x2.pos ≤ nul_index ctx.input + 1 := by rw [← f1.2.2.1]; exact p2
  simp only [g1, g2, Watched.bind]
  by_cases hr2 : res2 = EvalResult.OK
  swap
  · simp only [hr2, not_false_eq_true, if_true]
    exact Or.inr ⟨_, rfl, rfl, parse_post_err ctx x2 res2 out f12 p2' hr2⟩
  subst hr2
  simp only [not_true_eq_false, if_false]
  obtain ⟨lx2, rm2⟩ := ok2 rfl
  have rm2 : room x2 ≤ room x1 := rm2
  exact Or.inr ⟨_, rfl, rfl, f12, p2', fun _ => ⟨lx2, by show room x2 ≤ room ctx; omega⟩⟩

theorem parse_sum_loop_safe (A : Arith α) (cfg : Config) (l : Nat)
    (pe : EvalContext α U → α → Option (EvalResult × EvalContext α U × α))
    (pec : EvalContext α U → α → Watched (EvalResult × EvalContext α U × α))
    (hpe : SafePE l pe pec) :
    ∀ (fuel : Nat) (ctx : EvalContext α U) (lhs rhs : α),
      Lexed ctx → ctx.stack_level = l → room ctx + 1 ≤ fuel →
      (parse_sum_loop A cfg pe fuel ctx lhs rhs = none ∧
        parse_sum_loop_checked A cfg pec fuel ctx lhs rhs = Watched.stuck ∧
        LongRun ctx.input) ∨
      ∃ r, parse_sum_loop A cfg pe fuel ctx lhs rhs = some r ∧
        parse_sum_loop_checked A cfg pec fuel ctx lhs rhs = Watched.done r ∧ ParsePost ctx r := by
  intro fuel
  induction fuel with
  | zero => intro ctx lhs rhs _ _ hf; omega
  | succ fuel ih =>
    intro ctx lhs rhs hl hsl hf
    simp only [parse_sum_loop, parse_sum_loop_checked]
    by_cases hc0 : ctx.token.type = EvalTokenType.ADD
    · rw [if_pos hc0, if_pos hc0]
      have hne : ctx.token.type ≠ EvalTokenType.END := by rw [hc0]; decide
      rcases get_token_lexed A cfg ctx hl.1 with
        ⟨n1, n2, n3⟩ | ⟨⟨res1, x1⟩, h1, h2, f1, p1, ok1⟩
      · refine Or.inl ⟨?_, ?_, n3⟩ <;>
          simp only [n1, n2, Watched.bind]
      simp only [h1, h2, Watched.bind]
      by_cases hr1 : res1 = EvalResult.OK
      swap
      · simp only [ne_eq, hr1, not_false_eq_true, if_true]
        exact Or.inr ⟨_, rfl, rfl, parse_post_err ctx x1 res1 lhs f1 p1 hr1⟩
      subst hr1
      simp only [ne_eq, not_true_eq_false, if_false]
      obtain ⟨lx1, rm1⟩ := ok1 rfl
      have rm1 : room x1 < room ctx := rm1 hne
      rcases parse_product_safe A cfg l pe pec hpe x1 rhs lx1 (f1.2.2.2.trans hsl) with
        ⟨n1, n2, n3⟩ | ⟨⟨res2, x2, v2⟩, g1, g2, f2, p2, ok2⟩
      · refine Or.inl ⟨?_, ?_, f1.2.2.1 ▸ n3⟩ <;>
          simp only [n1, n2, Watched.bind]
      have f12 := frame_trans f1 f2
      have p2' : x2.pos ≤ nul_index ctx.input + 1 := by rw [← f1.2.2.1]; exact p2
      simp only [g1, g2, Watched.bind]
      by_cases hr2 : res2 = EvalResult.OK
      swap
      · simp only [hr2, not_false_eq_true, if_true]
        exact Or.inr ⟨_, rfl, rfl, parse_post_err ctx x2 res2 lhs f12 p2' hr2⟩
      subst hr2
      simp only [not_true_eq_false, if_false]
      obtain ⟨lx2, rm2⟩ := ok2 rfl
      have rm2 : room x2 ≤ room x1 := rm2
      rcases ih x2 _ v2 lx2 (f12.2.2.2.trans hsl) (by omega) with
        ⟨n1, n2, n3⟩ | ⟨r, k1, k2, f3, p3, ok3⟩
      · exact Or.inl ⟨n1, n2, f12.2.2.1 ▸ n3⟩
      refine Or.inr ⟨r, k1, k2, frame_trans f12 f3, by rw [← f12.2.2.1]; exact p3, fun hr => ?_⟩
      obtain ⟨lx3, rm3⟩ := ok3 hr
      exact ⟨lx3, by omega⟩
    rw [if_neg hc0, if_neg hc0]
    by_cases hc1 : ctx.token.type = EvalTokenType.SUBTRACT
    · rw [if_pos hc1, if_pos hc1]
      have hne : ctx.token.type ≠ EvalTokenType.END := by rw [hc1]; decide
      rcases get_token_lexed A cfg ctx hl.1 with
        ⟨n1, n2, n3⟩ | ⟨⟨res1, x1⟩, h1, h2, f1, p1, ok1⟩
      · refine Or.inl ⟨?_, ?_, n3⟩ <;>
          simp only [n1, n2, Watched.bind]
      simp only [h1, h2, Watched.bind]
      by_cases hr1 : res1 = EvalResult.OK
      swap
      · simp only [ne_eq, hr1, not_false_eq_true, if_true]
        exact Or.inr ⟨_, rfl, rfl, parse_post_err ctx x1 res1 lhs f1 p1 hr1⟩
      subst hr1
      simp only [ne_eq, not_true_eq_false, if_false]
      obtain ⟨lx1, rm1⟩ := ok1 rfl
      have rm1 : room x1 < room ctx := rm1 hne
      rcases parse_product_safe A cfg l pe pec hpe x1 rhs lx1 (f1.2.2.2.trans hsl) with
        ⟨n1, n2, n3⟩ | ⟨⟨res2, x2, v2⟩, g1, g2, f2, p2, ok2⟩
      · refine Or.inl ⟨?_, ?_, f1.2.2.1 ▸ n3⟩ <;>
          simp only [n1, n2, Watched.bind]
      have f12 := frame_trans f1 f2
      have p2' : x2.pos ≤ nul_index ctx.input + 1 := by rw [← f1.2.2.1]; exact p2
      simp only [g1, g2, Watched.bind]
      by_cases hr2 : res2 = EvalResult.OK
      swap
      · simp only [hr2, not_false_eq_true, if_true]
        exact Or.inr ⟨_, rfl, rfl, parse_post_err ctx x2 res2 lhs f12 p2' hr2⟩
      subst hr2
      simp only [not_true_eq_false, if_false]
      obtain ⟨lx2, rm2⟩ := ok2 rfl
      have rm2 : room x2 ≤ room x1 := rm2
      rcases ih x2 _ v2 lx2 (f12.2.2.2.trans hsl) (by omega) with
        ⟨n1, n2, n3⟩ | ⟨r, k1, k2, f3, p3, ok3⟩
      · exact Or.inl ⟨n1, n2, f12.2.2.1 ▸ n3⟩
      refine Or.inr ⟨r, k1, k2, frame_trans f12 f3, by rw [← f12.2.2.1]; exact p3, fun hr => ?_⟩
      obtain ⟨lx3, rm3⟩ := ok3 hr
      exact ⟨lx3, by omega⟩
    rw [if_neg hc1, if_neg hc1]
    exact Or.inr ⟨_, rfl, rfl, parse_post_refl ctx _ lhs hl⟩

theorem parse_sum_safe (A : Arith α) (cfg : Config) (l : Nat)
    (pe : EvalContext α U → α → Option (EvalResult × EvalContext α U × α))
    (pec : EvalContext α U → α → Watched (EvalResult × EvalContext α U × α))
    (hpe : SafePE l pe pec) :
    SafePE l (parse_sum A cfg pe) (parse_sum_checked A cfg pec) := by
  intro ctx out hl hsl
  rcases parse_product_safe A cfg l pe pec hpe ctx (A.ofNat 0) hl hsl with
    ⟨n1, n2, n3⟩ | ⟨⟨res1, x1, v1⟩, h1, h2, f1, p1, ok1⟩
  · refine Or.inl ⟨?_, ?_, n3⟩ <;>
      simp only [parse_sum, parse_sum_checked, n1, n2, Watched.bind]
  simp only [parse_sum, parse_sum_checked, h1, h2, Watched.bind]
  by_cases hr1 : res1 = EvalResult.OK
  swap
  · simp only [ne_eq, hr1, not_false_eq_true, if_true]
    exact Or.inr ⟨_, rfl, rfl, parse_post_err ctx x1 res1 out f1 p1 hr1⟩
  subst hr1
  simp only [ne_eq, not_true_eq_false, if_false]
  obtain ⟨lx1, rm1⟩ := ok1 rfl
  have rm1 : room x1 ≤ room ctx := rm1
  have hroom := lexed_room_le ctx hl
  have hlen := nul_index_le ctx.input
  rcases parse_sum_loop_safe A cfg l pe pec hpe
    (ctx.input.length + 1) x1 v1 (A.ofNat 0) lx1 (f1.2.2.2.trans hsl) (by omega) with
    ⟨n1, n2, n3⟩ | ⟨⟨res2, x2, v2⟩, g1, g2, f2, p2, ok2⟩
  · refine Or.inl ⟨?_, ?_, f1.2.2.1 ▸ n3⟩ <;>
      simp only [n1, n2, Watched.bind]
  have f12 := frame_trans f1 f2
  have p2' : x2.pos ≤ nul_index ctx.input + 1 := by rw [← f1.2.2.1]; exact p2
  simp only [g1, g2, Watched.bind]
  by_cases hr2 : res2 = EvalResult.OK
  swap
  · simp only [hr2, not_false_eq_true, if_true]
    exact Or.inr ⟨_, rfl, rfl, parse_post_err ctx x2 res2 out f12 p2' hr2⟩
  subst hr2
  simp only [not_true_eq_false, if_false]
  obtain ⟨lx2, rm2⟩ := ok2 rfl
  have rm2 : room x2 ≤ room x1 := rm2
  exact Or.inr ⟨_, rfl, rfl, f12, p2', fun _ => ⟨lx2, by show room x2 ≤ room ctx; omega⟩⟩

end Eval

namespace Eval

variable {α U : Type}

theorem parse_expr_safe (A : Arith α) (cfg : Config) :
    ∀ (fuel l : Nat), cfg.EVAL_MAX_STACK_DEPTH ≤ fuel + l →
      SafePE l (parse_expr A cfg (fuel + 1) : EvalContext α U → α → _)
        (parse_expr_checked A cfg (fuel + 1)) := by
  intro fuel
  induction fuel with
  | zero =>
    intro l hf ctx out hl hsl
    have hg : ctx.stack_level ≥ cfg.EVAL_MAX_STACK_DEPTH := by omega
    simp only [parse_expr, parse_expr_checked, hg, if_true]
    have hpos : ctx.pos ≤ nul_index ctx.input + 1 := by
      have : ctx.pos ≤ nul_index ctx.input := hl.1
      omega
    exact Or.inr ⟨_, rfl, rfl, parse_post_err ctx ctx _ out (frame_refl _) hpos (by decide)⟩
  | succ fuel ih =>
    intro l hf ctx out hl hsl
    have hpos : ctx.pos ≤ nul_index ctx.input + 1 := by
      have : ctx.pos ≤ nul_index ctx.input := hl.1
      omega
    rw [parse_expr, parse_expr_checked]
    by_cases hg : ctx.stack_level ≥ cfg.EVAL_MAX_STACK_DEPTH
    · simp only [hg, if_true]
      exact Or.inr ⟨_, rfl, rfl, parse_post_err ctx ctx _ out (frame_refl _) hpos (by decide)⟩
    simp only [hg, if_false]
    have hpe := ih (l + 1) (by omega)
    have hl' : Lexed ({ ctx with stack_level := ctx.stack_level + 1 } : EvalContext α U) := hl
    rcases parse_sum_safe A cfg (l + 1) _ _ hpe
      { ctx with stack_level := ctx.stack_level + 1 } out hl' (by simp [hsl]) with
      ⟨n1, n2, n3⟩ | ⟨⟨res, x, v⟩, h1, h2, f1, p1, ok1⟩
    · refine Or.inl ⟨?_, ?_, n3⟩ <;>
        simp only [n1, n2, Watched.bind]
    simp only [h1, h2, Watched.bind]
    refine Or.inr ⟨_, rfl, rfl, ⟨f1.1, f1.2.1, f1.2.2.1, ?_⟩, p1, fun hr => ?_⟩
    · have := f1.2.2.2
      simp only at this ⊢
      omega
    · obtain ⟨lx, rm⟩ := ok1 hr
      exact ⟨lx, rm⟩

/-- For every text, either `eval_execute` gives no result, with the cursor
watched or not, the text holding ten digits in a row (the accumulator of an
exponent has overflowed); or `eval_execute` returns, and it returns the same
with the cursor watched: no character is read behind the first terminator, and
the cursor is never stepped back from the start of the text. -/
theorem eval_execute_safe (A : Arith α) (cfg : Config) (e : List Char)
    (hooks : Option (EvalHooks α U)) (user_data : U) (output : α) :
    (eval_execute A cfg e hooks user_data output = none ∧
      eval_execute_checked A cfg e hooks user_data output = Watched.stuck ∧ LongRun e) ∨
    ∃ r, eval_execute A cfg e hooks user_data output = some r ∧
      eval_execute_checked A cfg e hooks user_data output = Watched.done r := by
  have hin : Inside (⟨hooks, user_data, e, 0, 0, EvalToken.END⟩ : EvalContext α U) :=
    Nat.zero_le _
  rcases get_token_lexed A cfg _ hin with
    ⟨n1, n2, n3⟩ | ⟨⟨res1, x1⟩, h1, h2, f1, p1, ok1⟩
  · refine Or.inl ⟨?_, ?_, n3⟩ <;>
      simp only [eval_execute, eval_execute_checked, n1, n2, Watched.bind]
  simp only [eval_execute, eval_execute_checked, h1, h2, Watched.bind]
  by_cases hr1 : res1 = EvalResult.OK
  swap
  · simp only [ne_eq, hr1, not_false_eq_true, if_true]
    exact Or.inr ⟨_, rfl, rfl⟩
  subst hr1
  simp only [ne_eq, not_true_eq_false, if_false]
  obtain ⟨lx1, -⟩ := ok1 rfl
  rcases parse_expr_safe A cfg cfg.EVAL_MAX_STACK_DEPTH 0
    (Nat.le_refl _) x1 output lx1 f1.2.2.2 with
    ⟨n1, n2, n3⟩ | ⟨⟨res2, x2, v2⟩, g1, g2, -⟩
  · have hx1 : x1.input = e := f1.2.2.1
    refine Or.inl ⟨?_, ?_, hx1 ▸ n3⟩ <;>
      simp only [n1, n2, Watched.bind]
  simp only [g1, g2, Watched.bind]
  by_cases hr2 : res2 = EvalResult.OK
  swap
  · simp only [hr2, not_false_eq_true, if_true]
    exact Or.inr ⟨_, rfl, rfl⟩
  subst hr2
  simp only [not_true_eq_false, if_false]
  by_cases hend : x2.token.type = EvalTokenType.END
  · simp only [hend, if_true]
    exact Or.inr ⟨_, rfl, rfl⟩
  · simp only [hend, if_false]
    exact Or.inr ⟨_, rfl, rfl⟩

end Eval

namespace Eval

variable {α U : Type}

/-- With the cursor on a terminator, `get_token` stores `END` and leaves the
cursor where it is. -/
theorem get_token_on_nul (A : Arith α) (cfg : Config) (ctx : EvalContext α U)
    (h : ctx.input.getD ctx.pos NUL = NUL) :
    get_token A cfg ctx = some (EvalResult.OK, { ctx with token := EvalToken.END }) := by
  simp only [get_token, get_token_loop, get_char, h, if_true, put_char]
  simp

/-- C21: the cursor stays inside the text.  `nul_index` is the index of the
first terminator; `get_char_checked` is a fault exactly when it would read
behind that index and `put_char_checked` exactly when the cursor is at index
0, and `eval_execute_checked` is `eval_execute` with the two in the place of
`get_char` and `put_char`.  For every text, hooks, user data and output, the
run of `eval_execute_checked` is not a fault, and when `eval_execute` returns
a result, `eval_execute_checked` returns the same; `eval_execute` does return
when the text holds no ten digits in a row (an exponent of ten digits or more
may overflow the `int` accumulator of `get_number`, which is undefined in C,
and there is no result then).  So it is with `get_token` from every cursor at
or before the terminator; the cursor it leaves is at most one behind the
terminator (after an error of the lexer, when nothing more is read), and after
`OK` at or before it, and not before where it was.  With the cursor on a
terminator, `get_token` stores `END` and leaves the cursor there, and so does a
second call. -/
theorem C21_cursor_inside (A : Arith α) (cfg : Config) :
    (∀ input : List Char, input.getD (nul_index input) NUL = NUL ∧
      ∀ p, p < nul_index input → input.getD p NUL ≠ NUL) ∧
    (∀ ctx : EvalContext α U,
      (get_char_checked ctx = Watched.fault ↔ nul_index ctx.input < ctx.pos) ∧
      (put_char_checked ctx = Watched.fault ↔ ctx.pos = 0)) ∧
    (∀ (e : List Char) (hooks : Option (EvalHooks α U)) (user_data : U) (output : α),
      eval_execute_checked A cfg e hooks user_data output ≠ Watched.fault ∧
      (∀ r, eval_execute A cfg e hooks user_data output = some r →
        eval_execute_checked A cfg e hooks user_data output = Watched.done r) ∧
      (short_runs e = true →
        ∃ r, eval_execute A cfg e hooks user_data output = some r ∧
          eval_execute_checked A cfg e hooks user_data output = Watched.done r)) ∧
    (∀ ctx : EvalContext α U, ctx.pos ≤ nul_index ctx.input →
      get_token_checked A cfg ctx ≠ Watched.fault ∧
      (∀ res x, get_token A cfg ctx = some (res, x) →
        get_token_checked A cfg ctx = Watched.done (res, x) ∧
        x.input = ctx.input ∧ x.pos ≤ nul_index ctx.input + 1 ∧
        (res = EvalResult.OK → x.pos ≤ nul_index ctx.input ∧ ctx.pos ≤ x.pos)) ∧
      (short_runs ctx.input = true →
        ∃ res x, get_token A cfg ctx = some (res, x) ∧
          get_token_checked A cfg ctx = Watched.done (res, x))) ∧
    (∀ ctx : EvalContext α U, ctx.input.getD ctx.pos NUL = NUL →
      get_token A cfg ctx = some (EvalResult.OK, { ctx with token := EvalToken.END }) ∧
      get_token A cfg { ctx with token := EvalToken.END } =
        some (EvalResult.OK, { ctx with token := EvalToken.END })) ∧
    (∀ ctx : EvalContext α U, ctx.pos = nul_index ctx.input →
      get_token_checked A cfg ctx =
        Watched.done (EvalResult.OK, { ctx with token := EvalToken.END })) := by
  refine ⟨fun input => ⟨nul_index_getD input, nul_index_first input⟩, ?_, ?_, ?_, ?_, ?_⟩
  · intro ctx
    constructor
    · simp only [get_char_checked]
      split_ifs with h
      · simp only [reduceCtorEq, false_iff]
        omega
      · simp only [true_iff]
        omega
    · simp only [put_char_checked]
      split_ifs with h
      · simp only [reduceCtorEq, false_iff]
        omega
      · simp only [true_iff]
        omega
  · intro e hooks user_data output
    rcases eval_execute_safe A cfg e hooks user_data output with ⟨n1, n2, n3⟩ | ⟨r, h1, h2⟩
    · refine ⟨by rw [n2]; exact fun h => Watched.noConfusion h, fun r hr => ?_, fun hs => ?_⟩
      · rw [n1] at hr
        exact Option.noConfusion hr
      · exact absurd n3 (short_runs_spec e hs)
    · refine ⟨by rw [h2]; exact fun h => Watched.noConfusion h, fun r' hr => ?_,
        fun _ => ⟨r, h1, h2⟩⟩
      rw [h1] at hr
      rw [h2, Option.some.inj hr]
  · intro ctx hin
    rcases get_token_safe A cfg ctx hin with ⟨n1, n2, n3⟩ | ⟨⟨res, x⟩, h1, h2, h3, h4, h5⟩
    · refine ⟨by rw [n2]; exact fun h => Watched.noConfusion h, fun res x hr => ?_,
        fun hs => ?_⟩
      · rw [n1] at hr
        exact Option.noConfusion hr
      · exact absurd n3 (short_runs_spec _ hs)
    · refine ⟨by rw [h2]; exact fun h => Watched.noConfusion h, fun res' x' hr => ?_,
        fun _ => ⟨res, x, h1, h2⟩⟩
      rw [h1] at hr
      have hrx := Option.some.inj hr
      simp only [Prod.mk.injEq] at hrx
      obtain ⟨rfl, rfl⟩ := hrx
      refine ⟨h2, h3, h4, fun hr => ?_⟩
      obtain ⟨k1, k2, -⟩ := h5 hr
      have : x.pos ≤ nul_index x.input := k1
      rw [h3] at this
      exact ⟨this, k2⟩
  · intro ctx h
    exact ⟨get_token_on_nul A cfg ctx h, get_token_on_nul A cfg _ h⟩
  · intro ctx h
    have hn : ctx.input.getD ctx.pos NUL = NUL := by rw [h]; exact nul_index_getD _
    rcases get_token_safe A cfg ctx (Nat.le_of_eq h) with ⟨n1, -, -⟩ | ⟨r, h1, h2, -⟩
    · rw [get_token_on_nul A cfg ctx hn] at n1
      exact Option.noConfusion n1
    · rw [get_token_on_nul A cfg ctx hn] at h1
      rw [h2, ← Option.some.inj h1]

/-- C21 on three texts in exact arithmetic: `(1+2)*3` and `1e` (an
exponent without digits) hold no ten digits in a row and run with the watched
cursor as without it; after the error on `1e` the cursor of `get_token` rests
at index 3, one behind the terminator at index 2; on the empty text
`get_token` stores `END` with the cursor at 0.  On `1e2147483648`, whose
exponent overflows the accumulator, the watched run is not a fault. -/
theorem C21_cursor_inside_witness :
    short_runs "(1+2)*3".toList = true ∧
    eval_execute_checked Arith.rat sample_config "(1+2)*3".toList no_hooks () 0 =
      Watched.done (EvalResult.OK, 9) ∧
    eval_execute_checked Arith.rat sample_config "1e".toList no_hooks () 0 =
      Watched.done (EvalResult.INVALID_LITERAL, 0) ∧
    nul_index "1e".toList = 2 ∧
    get_token Arith.rat sample_config (start_context "1e".toList) =
      some (EvalResult.INVALID_LITERAL, { start_context "1e".toList with pos := 3 }) ∧
    get_token Arith.rat sample_config (start_context []) =
      some (EvalResult.OK, start_context []) ∧
    eval_execute_checked Arith.rat sample_config "1e2147483648".toList no_hooks () 0 ≠
      Watched.fault := by
  have h := C21_cursor_inside (U := Unit) Arith.rat sample_config
  obtain ⟨r1, a1, b1⟩ := (h.2.2.1 "(1+2)*3".toList no_hooks () 0).2.2 (by decide)
  obtain ⟨r2, a2, b2⟩ := (h.2.2.1 "1e".toList no_hooks () 0).2.2 (by decide)
  have e1 : eval_execute Arith.rat sample_config "(1+2)*3".toList no_hooks () 0 =
      some (EvalResult.OK, 9) := by decide!
  have e2 : eval_execute Arith.rat sample_config "1e".toList no_hooks () 0 =
      some (EvalResult.INVALID_LITERAL, 0) := by decide!
  rw [e1] at a1
  rw [e2] at a2
  refine ⟨by decide, by rw [b1, ← Option.some.inj a1], by rw [b2, ← Option.some.inj a2],
    by decide, ?_, (h.2.2.2.2.1 (start_context []) rfl).1,
    (h.2.2.1 "1e2147483648".toList no_hooks () 0).1⟩
  simp [get_token, get_token_loop, get_char, put_char, start_context, get_number,
    get_number_frac, get_number_exp, get_number_int_loop, is_digit, is_dp, is_exp, NUL,
    is_name_start]

end Eval

namespace Eval

variable {α U : Type}

theorem never_none (r : EvalResult) : HooksNever r (none : Option (EvalHooks α U)) := by
  intro hk h
  simp at h

/-- The default functions return `OK`, and `default_get_variable` returns `OK`
or `UNDEFINED_VARIABLE`. -/
theorem never_default_hooks (A : Arith α) (M : LibM α) :
    HooksNever EvalResult.LITERAL_OUT_OF_RANGE
      (some (eval_default_hooks A M : EvalHooks α U)) := by
  intro hk h
  have hk' : hk = eval_default_hooks A M := (Option.some.inj h).symm
  subst hk'
  constructor
  · intro gf hgf n ud f hf x ud' o
    have hgf' : gf = default_get_func A M := (Option.some.inj hgf).symm
    subst hgf'
    have hmem := table_find_mem (FUNCTIONS A M) n f hf
    simp only [FUNCTIONS, List.map_cons, List.map_nil, List.mem_cons, List.mem_singleton,
      List.mem_nil_iff, or_false] at hmem
    rcases hmem with h | h | h | h | h | h | h | h | h | h | h | h | h <;>
      (subst h; exact ok_ne_out_of_range)
  · intro gv hgv n ud o
    have hgv' : gv = default_get_variable M := (Option.some.inj hgv).symm
    subst hgv'
    simp only [default_get_variable]
    cases table_find (VARIABLES M) n with
    | none => exact fun hx => absurd hx (by simp)
    | some v => exact ok_ne_out_of_range

/-- The literal `1e999`. -/
theorem literal_1e999_text :
    (⟨[1], none, some ⟨false, none, [9, 9, 9]⟩⟩ : Literal).text = "1e999".toList := by
  decide

/-- C22 as stated fails on a literal whose exponent does not fit the `int`
accumulator: `1e2147483648` is a well-formed literal, and `get_number`
overflows the accumulator on its last exponent digit (`214748364 * 10 + 8`),
which is undefined in C; `eval_execute` gives no result, and not `OK`. -/
theorem C22_counterexample :
    (⟨[1], none, some ⟨false, none, [2, 1, 4, 7, 4, 8, 3, 6, 4, 8]⟩⟩ : Literal).wf = true ∧
    (⟨[1], none, some ⟨false, none, [2, 1, 4, 7, 4, 8, 3, 6, 4, 8]⟩⟩ : Literal).text =
      "1e2147483648".toList ∧
    (get_number_exp_loop 9 214748364 '8'
        { start_context "1e2147483648".toList with pos := 12 }).isNone = true ∧
    eval_execute Arith.rat sample_config "1e2147483648".toList no_hooks () 0 = none := by
  refine ⟨by decide, by decide, by decide!, by decide!⟩

/-- C22 (as amended): the engine itself never reports `LITERAL_OUT_OF_RANGE`.
With hooks whose callbacks (the functions that `get_func` resolves, and
`get_variable`) never return that code, a result that `eval_execute` returns
has another code, and `eval_execute` does return on every text that holds no
ten digits in a row.  `get_token` never returns the code.  The text of a
well-formed literal whose exponent digits, if any, denote a number below
`2^31`, whatever the magnitude of its value, gives `OK` with the value of the
literal; so does `1e999`.  The default hooks and the absence of hooks are such
hooks. -/
theorem C22_literal_out_of_range (A : Arith α) (cfg : Config) (hooks : Option (EvalHooks α U))
    (hh : HooksNever EvalResult.LITERAL_OUT_OF_RANGE hooks) :
    (∀ (e : List Char) (user_data : U) (output v : α) (r : EvalResult),
      eval_execute A cfg e hooks user_data output = some (r, v) →
      r ≠ EvalResult.LITERAL_OUT_OF_RANGE) ∧
    (∀ (e : List Char) (user_data : U) (output : α), short_runs e = true →
      ∃ r v, eval_execute A cfg e hooks user_data output = some (r, v) ∧
        r ≠ EvalResult.LITERAL_OUT_OF_RANGE) ∧
    (∀ (ctx x : EvalContext α U) (r : EvalResult),
      get_token A cfg ctx = some (r, x) → r ≠ EvalResult.LITERAL_OUT_OF_RANGE) ∧
    (∀ (lit : Literal) (hooks' : Option (EvalHooks α U)) (user_data : U) (output : α),
      lit.wf = true → lit.exp_fits = true → 0 < cfg.EVAL_MAX_STACK_DEPTH →
      eval_execute A cfg lit.text hooks' user_data output =
        some (EvalResult.OK, lit.value A)) ∧
    (∀ (hooks' : Option (EvalHooks α U)) (user_data : U) (output : α),
      0 < cfg.EVAL_MAX_STACK_DEPTH →
      eval_execute A cfg "1e999".toList hooks' user_data output =
        some (EvalResult.OK,
          (⟨[1], none, some ⟨false, none, [9, 9, 9]⟩⟩ : Literal).value A)) ∧
    (∀ M : LibM α, HooksNever EvalResult.LITERAL_OUT_OF_RANGE
      (some (eval_default_hooks A M : EvalHooks α U))) ∧
    HooksNever EvalResult.LITERAL_OUT_OF_RANGE (none : Option (EvalHooks α U)) := by
  have hlit : ∀ (lit : Literal) (hooks' : Option (EvalHooks α U)) (user_data : U) (output : α),
      lit.wf = true → lit.exp_fits = true → 0 < cfg.EVAL_MAX_STACK_DEPTH →
      eval_execute A cfg lit.text hooks' user_data output =
        some (EvalResult.OK, lit.value A) := by
    intro lit hooks' user_data output hwf hfit hd
    have h := eval_execute_gen A cfg (.num [] lit) [] hooks' user_data output
      (by simp [Expr.gen, hwf, hfit]) (by simp) (by simpa [Expr.depth] using hd)
    simpa [Expr.text, Expr.value, Expr.valueAux] using h
  refine ⟨?_, ?_, ?_, hlit, ?_, fun M => never_default_hooks A M, never_none _⟩
  · intro e user_data output v r h
    exact eval_execute_never A cfg hooks hh e user_data output v r h
  · intro e user_data output hs
    rcases eval_execute_safe A cfg e hooks user_data output with ⟨-, -, n3⟩ | ⟨⟨r, v⟩, h, -⟩
    · exact absurd n3 (short_runs_spec e hs)
    · exact ⟨r, v, h, eval_execute_never A cfg hooks hh e user_data output v r h⟩
  · intro ctx x r h
    exact lexical_ne (get_token_lexical A cfg ctx (r, x) h)
  · intro hooks' user_data output hd
    have h := hlit ⟨[1], none, some ⟨false, none, [9, 9, 9]⟩⟩ hooks' user_data output (by decide)
      (by decide) hd
    rw [literal_1e999_text] at h
    exact h

/-- C22 without hooks, in exact arithmetic: `1e999` gives `OK` with ten to
the power 999. -/
theorem C22_literal_out_of_range_witness :
    HooksNever EvalResult.LITERAL_OUT_OF_RANGE no_hooks ∧
    eval_execute Arith.rat sample_config "1e999".toList no_hooks () 0 =
      some (EvalResult.OK, (10 : ℚ) ^ (999 : Nat)) := by
  have h := C22_literal_out_of_range Arith.rat sample_config no_hooks (never_none _)
  refine ⟨never_none _, (h.2.2.2.2.1 no_hooks () 0 (by decide)).trans ?_⟩
  rw [literal_value_rat _]
  norm_num [Literal.digits_number, Literal.written_exponent, Literal.frac_count]
  decide!

end Eval
